import Mathlib

/-!
# Verification of the SheLLVM `mergecalls` pass (`src/llvm/MergeCallsPass.cpp`)

A shallow embedding of the pass over a concrete IR model.  LLVM pointers
(`Function*`, `BasicBlock*`, `Instruction*`) are modelled as natural-number
identifiers; `std::map` (ordered by pointer) is modelled as an association
list kept sorted by ascending key.  Host IR primitives that the pass calls
but does not implement (block splitting, register demotion, instruction
movement, use replacement) are modelled from the spec's capability
interface (spec section 6) together with their documented semantics.
-/

namespace MergeCalls

/-- SSA values: instruction results (`reg`), integer constants, and
formal arguments of the enclosing function. -/
inductive Val where
  | reg (i : Nat)
  | intConst (n : Int)
  | farg (i : Nat)
deriving DecidableEq, Repr

/-- The callee of a call instruction: inline assembly, an indirect
(function-pointer) callee, or a statically known direct function. -/
inductive Callee where
  | asm
  | indirect (v : Val)
  | direct (f : Nat)
deriving DecidableEq, Repr

/-- Instruction payloads.  `other` stands for any further non-call
instruction with the given operand list. -/
inductive Op where
  | call (ce : Callee) (args : List Val)
  | phi (pairs : List (Val × Nat))
  | br (dest : Nat)
  | switch (cond : Val) (dflt : Nat) (caseList : List (Int × Nat))
  | bitcast (v : Val) (nm : String)
  | alloca
  | store (v : Val) (slot : Val)
  | load (slot : Val)
  | ret (v : Option Val)
  | other (ops : List Val)
deriving DecidableEq, Repr

structure Instr where
  id : Nat
  op : Op
deriving DecidableEq, Repr

structure BB where
  id : Nat
  instrs : List Instr
deriving DecidableEq, Repr

/-- A function body: the first block is the entry block. -/
structure Fn where
  blocks : List BB
deriving DecidableEq, Repr

/-- The operand values read by an instruction (the `Use` edges). -/
def Op.operands : Op → List Val
  | .call ce args =>
      (match ce with | .indirect v => [v] | _ => []) ++ args
  | .phi pairs => pairs.map Prod.fst
  | .br _ => []
  | .switch c _ _ => [c]
  | .bitcast v _ => [v]
  | .alloca => []
  | .store v s => [v, s]
  | .load s => [s]
  | .ret v => v.toList
  | .other os => os

/-- Basic-block identifiers referenced by an instruction (phi incoming
blocks and terminator successors). -/
def Op.blockRefs : Op → List Nat
  | .phi pairs => pairs.map Prod.snd
  | .br d => [d]
  | .switch _ dflt cl => dflt :: cl.map Prod.snd
  | _ => []

def Op.isPhi : Op → Bool
  | .phi _ => true
  | _ => false

def Op.isAlloca : Op → Bool
  | .alloca => true
  | _ => false

/-- Successor blocks of a terminator. -/
def Op.succs : Op → List Nat
  | .br d => [d]
  | .switch _ dflt cl => dflt :: cl.map Prod.snd
  | _ => []

/-- Does instruction `u` use the SSA value produced by instruction `r`? -/
def usesReg (u : Instr) (r : Nat) : Bool :=
  u.op.operands.contains (Val.reg r)

def Fn.allInstrs (F : Fn) : List Instr :=
  F.blocks.flatMap BB.instrs

def Fn.instrIds (F : Fn) : List Nat :=
  F.allInstrs.map Instr.id

def Fn.blockIds (F : Fn) : List Nat :=
  F.blocks.map BB.id

/-- The block containing instruction `i` (`Instruction::getParent`). -/
def Fn.blockOf (F : Fn) (i : Nat) : Option Nat :=
  (F.blocks.find? (fun B => B.instrs.any (fun x => x.id = i))).map BB.id

def Fn.findInstr (F : Fn) (i : Nat) : Option Instr :=
  F.allInstrs.find? (fun x => x.id = i)

/-- Instruction list of the block with identifier `b`. -/
def Fn.instrsOf (F : Fn) (b : Nat) : List Instr :=
  (((F.blocks.find? (fun B => B.id = b)).map BB.instrs)).getD []

/-- All instructions using the value of instruction `d` (its users). -/
def usersOf (F : Fn) (d : Nat) : List Instr :=
  F.allInstrs.filter (fun u => usesReg u d)

/-- Embeds `MergeCalls::valueEscapes` (MergeCallsPass.cpp lines 21-29):
true iff some user of the instruction lives in a different block than the
instruction itself, or is a PHI node. -/
def valueEscapes (F : Fn) (i : Nat) : Bool :=
  let bb := F.blockOf i
  F.blocks.any fun B => B.instrs.any fun u =>
    usesReg u i && (decide (some B.id ≠ bb) || u.op.isPhi)

/-! ## Value substitution (use replacement) -/

def substVal (a b v : Val) : Val := if v = a then b else v

def Callee.subst (a b : Val) : Callee → Callee
  | .indirect v => .indirect (substVal a b v)
  | c => c

def Op.subst (a b : Val) : Op → Op
  | .call ce args => .call (ce.subst a b) (args.map (substVal a b))
  | .phi pairs => .phi (pairs.map fun p => (substVal a b p.1, p.2))
  | .br d => .br d
  | .switch c dflt cl => .switch (substVal a b c) dflt cl
  | .bitcast v nm => .bitcast (substVal a b v) nm
  | .alloca => .alloca
  | .store v s => .store (substVal a b v) (substVal a b s)
  | .load s => .load (substVal a b s)
  | .ret v => .ret (v.map (substVal a b))
  | .other os => .other (os.map (substVal a b))

def substInstr (a b : Val) (i : Instr) : Instr :=
  ⟨i.id, i.op.subst a b⟩

/-- `Value::replaceAllUsesWith`: substitute in every instruction. -/
def Fn.rauw (F : Fn) (a b : Val) : Fn :=
  ⟨F.blocks.map fun B => ⟨B.id, B.instrs.map (substInstr a b)⟩⟩

/-- `User::replaceUsesOfWith`: substitute in the one instruction `t`. -/
def Fn.substInInstr (F : Fn) (t : Nat) (a b : Val) : Fn :=
  ⟨F.blocks.map fun B =>
    ⟨B.id, B.instrs.map fun i => if i.id = t then substInstr a b i else i⟩⟩

/-- Overwrite the payload of the instruction with identifier `t`. -/
def Fn.setOp (F : Fn) (t : Nat) (o : Op) : Fn :=
  ⟨F.blocks.map fun B =>
    ⟨B.id, B.instrs.map fun i => if i.id = t then ⟨i.id, o⟩ else i⟩⟩

/-! ## Structural edits -/

def Fn.mapBlock (F : Fn) (b : Nat) (f : List Instr → List Instr) : Fn :=
  ⟨F.blocks.map fun B => if B.id = b then ⟨B.id, f B.instrs⟩ else B⟩

/-- `Instruction::eraseFromParent` (by identifier). -/
def Fn.eraseInstr (F : Fn) (i : Nat) : Fn :=
  ⟨F.blocks.map fun B => ⟨B.id, B.instrs.filter (fun x => x.id ≠ i)⟩⟩

/-- Insert `x` immediately before the instruction with identifier `t`. -/
def insertBeforeIn (l : List Instr) (t : Nat) (x : Instr) : List Instr :=
  match l with
  | [] => []
  | y :: ys => if y.id = t then x :: y :: ys else y :: insertBeforeIn ys t x

def Fn.insertBefore (F : Fn) (t : Nat) (x : Instr) : Fn :=
  ⟨F.blocks.map fun B => ⟨B.id, insertBeforeIn B.instrs t x⟩⟩

/-- Insert `x` before the first non-PHI instruction of a list
(`BasicBlock::getFirstNonPHI` insertion point). -/
def insertPastPhis (l : List Instr) (x : Instr) : List Instr :=
  match l with
  | [] => [x]
  | y :: ys => if y.op.isPhi then y :: insertPastPhis ys x else x :: y :: ys

/-- Insert `x` right after instruction `t`, skipping over any directly
following PHI nodes (store placement of the demotion primitive). -/
def insertAfterIn (l : List Instr) (t : Nat) (x : Instr) : List Instr :=
  match l with
  | [] => []
  | y :: ys => if y.id = t then y :: insertPastPhis ys x else y :: insertAfterIn ys t x

def Fn.insertAfterInstr (F : Fn) (t : Nat) (x : Instr) : Fn :=
  ⟨F.blocks.map fun B => ⟨B.id, insertAfterIn B.instrs t x⟩⟩

/-- Insert `x` immediately before the last instruction of a list
(insertion before a block terminator). -/
def insertBeforeLast (l : List Instr) (x : Instr) : List Instr :=
  match l with
  | [] => [x]
  | [y] => [x, y]
  | y :: ys => y :: insertBeforeLast ys x

def Fn.insertBeforeTerm (F : Fn) (b : Nat) (x : Instr) : Fn :=
  F.mapBlock b (fun l => insertBeforeLast l x)

def Fn.appendInstr (F : Fn) (b : Nat) (x : Instr) : Fn :=
  F.mapBlock b (fun l => l ++ [x])

/-- Insert `x` in the entry block, after its leading alloca instructions
(the alloca-insertion-point scan of MergeCallsPass.cpp lines 65-69). -/
def insertAfterLeadingAllocas (l : List Instr) (x : Instr) : List Instr :=
  match l with
  | [] => [x]
  | y :: ys =>
      if y.op.isAlloca then y :: insertAfterLeadingAllocas ys x else x :: y :: ys

def Fn.insertAIP (F : Fn) (x : Instr) : Fn :=
  match F.blocks with
  | [] => F
  | B :: rest => ⟨⟨B.id, insertAfterLeadingAllocas B.instrs x⟩ :: rest⟩

/-- `Instruction::moveBefore(returnBlock->getFirstNonPHI())`: remove the
instruction from its current block and reinsert it at the first non-PHI
position of block `b`. -/
def Fn.moveToBlockStart (F : Fn) (c : Nat) (b : Nat) : Fn :=
  match F.findInstr c with
  | none => F
  | some i => (F.eraseInstr c).mapBlock b (fun l => insertPastPhis l i)

/-! ## Block splitting -/

/-- Last instruction of a block (its terminator, in well-formed IR). -/
def termSuccs (l : List Instr) : List Nat :=
  match l.getLast? with
  | some i => i.op.succs
  | none => []

/-- Retarget phi incoming-block labels `oldB` to `newB` in the given
successor blocks. -/
def retargetPhis (F : Fn) (inBlocks : List Nat) (oldB newB : Nat) : Fn :=
  ⟨F.blocks.map fun B =>
    if inBlocks.contains B.id then
      ⟨B.id, B.instrs.map fun i =>
        match i.op with
        | .phi pairs =>
            ⟨i.id, .phi (pairs.map fun p => if p.2 = oldB then (p.1, newB) else p)⟩
        | _ => i⟩
    else B⟩

/-- Replace the block with identifier `b` by the given block sequence,
in place. -/
def Fn.replaceBlock (F : Fn) (b : Nat) (nbs : List BB) : Fn :=
  ⟨F.blocks.flatMap fun B => if B.id = b then nbs else [B]⟩

/-- Modelled from the spec: the host block-split primitive
(`BasicBlock::splitBasicBlock`, spec section 6).  Splits block `b`
immediately after instruction `c`: everything after `c` moves to a new
block `newId` placed right after `b`; `b` gets an unconditional branch
(identifier `brId`) to the new block, and phi nodes in the moved
terminator's successors are retargeted to the new block. -/
def Fn.splitBlock (F : Fn) (b c : Nat) (newId brId : Nat) : Fn :=
  let old := F.instrsOf b
  let idx := (old.findIdx (fun x => x.id = c)) + 1
  let pre := old.take idx
  let post := old.drop idx
  retargetPhis
    (F.replaceBlock b [⟨b, pre ++ [⟨brId, .br newId⟩]⟩, ⟨newId, post⟩])
    (termSuccs post) b newId

/-! ## Register demotion -/

/-- One incoming pair of a PHI user during demotion: if the pair reads
the demoted value, place a reload in the incoming block (before its
terminator) and redirect the pair to it. -/
def demotePhiPair (d slot : Nat) (acc : (Fn × Nat) × List (Val × Nat))
    (p : Val × Nat) : (Fn × Nat) × List (Val × Nat) :=
  if p.1 = Val.reg d then
    let F := acc.1.1
    let n := acc.1.2
    ((F.insertBeforeTerm p.2 ⟨n, .load (Val.reg slot)⟩, n + 1),
      acc.2 ++ [(Val.reg n, p.2)])
  else (acc.1, acc.2 ++ [p])

/-- One step of use rewriting inside the demotion primitive: rewrite the
uses of `d` in user `u` to loads from `slot`.  For a PHI user the loads
are placed in the corresponding incoming blocks, before their
terminators; for any other user one load is placed immediately before the
user. -/
def demoteUser (d slot : Nat) (st : Fn × Nat) (u : Instr) : Fn × Nat :=
  match u.op with
  | .phi pairs =>
      let r := pairs.foldl (demotePhiPair d slot) (st, [])
      (Fn.setOp r.1.1 u.id (.phi r.2), r.1.2)
  | _ =>
      let F := st.1.insertBefore u.id ⟨st.2, .load (Val.reg slot)⟩
      (F.substInInstr u.id (Val.reg d) (Val.reg st.2), st.2 + 1)

/-- Modelled from the spec: the host demotion primitive
(`DemoteRegToStack`, spec sections 3 and 6): allocate a dedicated stack
slot at the alloca insertion point `aip`, rewrite every use of `d` to a
load of the slot, and store `d`'s value into the slot right after its
definition (skipping any directly following PHI nodes).  The pass only
invokes this on values that currently have at least one use. -/
def demoteReg (aip : Nat) (st : Fn × Nat) (d : Nat) : Fn × Nat :=
  let slot := st.2
  let F := st.1.insertBefore aip ⟨slot, .alloca⟩
  let users := usersOf F d
  let s1 := users.foldl (demoteUser d slot) (F, slot + 1)
  (s1.1.insertAfterInstr d ⟨s1.2, .store (Val.reg d) (Val.reg slot)⟩, s1.2 + 1)

/-! ## Sorted association maps (`std::map` keyed on pointers) -/

/-- `std::map` insertion/assignment: the list is kept sorted by ascending
key; assigning to an existing key overwrites its value. -/
def mapInsert (l : List (Nat × Nat)) (k v : Nat) : List (Nat × Nat) :=
  match l with
  | [] => [(k, v)]
  | p :: ps =>
      if k < p.1 then (k, v) :: p :: ps
      else if k = p.1 then (k, v) :: ps
      else p :: mapInsert ps k v

def mapLookup (l : List (Nat × Nat)) (k : Nat) : Nat :=
  match l with
  | [] => 0
  | p :: ps => if p.1 = k then p.2 else mapLookup ps k

/-! ## The collector (MergeCallsPass.cpp lines 32-55) -/

/-- The capabilities of the surrounding module: whether a declared
function is an LLVM intrinsic, and how many formal parameters it has. -/
structure Env where
  intrinsic : Nat → Bool
  arity : Nat → Nat

/-- Scan the function in layout order and collect `(target, call)` pairs
for the eligible calls: inline assembly, indirect calls and intrinsic
callees are skipped (lines 36-52). -/
def scanCalls (env : Env) (F : Fn) : List (Nat × Nat) :=
  F.blocks.flatMap fun B => B.instrs.filterMap fun i =>
    match i.op with
    | .call (.direct f) _ => if env.intrinsic f then none else some (f, i.id)
    | _ => none

/-- Sorted, duplicate-free target keys of `funcToInvokers`
(`std::map<Function*, ...>` iterates in ascending key order). -/
def insertSortedNat (x : Nat) : List Nat → List Nat
  | [] => [x]
  | y :: ys =>
      if x < y then x :: y :: ys
      else if x = y then y :: ys
      else y :: insertSortedNat x ys

def sortedTargets (env : Env) (F : Fn) : List Nat :=
  (scanCalls env F).foldl (fun acc p => insertSortedNat p.1 acc) []

/-- The `funcToInvokers` entry for target `t`: its eligible call sites in
first-seen order. -/
def callersFor (env : Env) (F : Fn) (t : Nat) : List Nat :=
  (scanCalls env F).filterMap fun p => if p.1 = t then some p.2 else none

/-- Erase the second-to-last element of a list.  This models
`ourBranch->getPrevNode()->eraseFromParent()` (line 100): right after the
new branch is appended, the instruction before it is the branch that
`splitBasicBlock` generated. -/
def dropSecondLast (l : List Instr) : List Instr :=
  match l with
  | [] => []
  | [x] => [x]
  | [x, y] => [y]
  | x :: rest => x :: dropSecondLast rest

/-! ## The per-call-site rewrite (MergeCallsPass.cpp lines 71-101) -/

structure GState where
  fn : Fn
  next : Nat
  c2r : List (Nat × Nat)
  c2p : List (Nat × Nat)
deriving Repr

/-- Process one call site of a merged group: split its block after the
call, record the predecessor/continuation pair, demote the escaping
values of the (post-split) predecessor block (excluding entry-block
allocas), move the call to the head of the continuation block, demote the
call itself if it has users, then branch the predecessor to the shared
call block and erase the branch generated by the split. -/
def processCaller (cbId aipId entryId : Nat) (st : GState) (c : Nat) : GState :=
  let p := (st.fn.blockOf c).getD 0
  let retId := st.next
  let brId := st.next + 1
  let F := st.fn.splitBlock p c retId brId
  let c2p := mapInsert st.c2p c p
  let c2r := mapInsert st.c2r p retId
  let toDemote :=
    (((F.blocks.find? (fun B => B.id = p)).map BB.instrs).getD []).filterMap
      fun i =>
        if !(i.op.isAlloca && decide (p = entryId)) && valueEscapes F i.id then
          some i.id
        else none
  let s1 := toDemote.foldl (demoteReg aipId) (F, st.next + 2)
  let F2 := Fn.moveToBlockStart s1.1 c retId
  let s2 := if (usersOf F2 c).isEmpty then (F2, s1.2) else demoteReg aipId (F2, s1.2) c
  let ourBrId := s2.2
  let F3 := (s2.1.appendInstr p ⟨ourBrId, .br cbId⟩).mapBlock p dropSecondLast
  { fn := F3, next := ourBrId + 1, c2r := c2r, c2p := c2p }

/-! ## The merge-block builder and return router (lines 103-135) -/

/-- The current `i`-th actual argument of call instruction `c`
(`CallInst::getArgOperand`). -/
def argOperand (F : Fn) (c : Nat) (i : Nat) : Val :=
  match F.findInstr c with
  | some ⟨_, .call _ args⟩ => args.getD i (Val.intConst 0)
  | _ => Val.intConst 0

/-- Build one argument PHI per formal parameter of the target, each with
one incoming pair per call site in call-site order (lines 103-115). -/
def buildArgPhis (env : Env) (target : Nat) (callers : List Nat) (cbId : Nat)
    (c2p : List (Nat × Nat)) (s : Fn × Nat) : (Fn × Nat) × List Val :=
  if env.arity target > 0 then
    (List.range (env.arity target)).foldl
      (fun acc argCtr =>
        let F := acc.1.1
        let n := acc.1.2
        let pairs := callers.map fun c => (argOperand F c argCtr, mapLookup c2p c)
        ((F.appendInstr cbId ⟨n, .phi pairs⟩, n + 1), acc.2 ++ [Val.reg n]))
      (s, [])
  else (s, [])

/-- `APInt(32, switchCtr, true)`: the 32-bit two's-complement value of the
case counter. -/
def sint32 (n : Nat) : Int :=
  if n % 2 ^ 32 < 2 ^ 31 then ((n % 2 ^ 32 : Nat) : Int)
  else ((n % 2 ^ 32 : Nat) : Int) - 2 ^ 32

/-- Transform one merged group (the body of the `callers.size() > 1`
branch, MergeCallsPass.cpp lines 58-135). -/
def transformGroup (env : Env) (st : Fn × Nat) (target : Nat)
    (callers : List Nat) : Fn × Nat :=
  let cbId := st.2
  let F : Fn := ⟨st.1.blocks ++ [⟨cbId, []⟩]⟩
  let entryId := ((F.blocks.head?).map BB.id).getD 0
  let aipId := cbId + 1
  let F := F.insertAIP ⟨aipId, .bitcast (Val.intConst 0) "mergecalls alloca point"⟩
  let g := callers.foldl (processCaller cbId aipId entryId)
    { fn := F, next := cbId + 2, c2r := [], c2p := [] }
  let ab := buildArgPhis env target callers cbId g.c2p (g.fn, g.next)
  let callId := ab.1.2
  let F := ab.1.1.appendInstr cbId ⟨callId, .call (.direct target) ab.2⟩
  let F := callers.foldl
    (fun f c => Fn.eraseInstr (Fn.rauw f (Val.reg c) (Val.reg callId)) c) F
  let wfId := callId + 1
  let swId := callId + 2
  let entries := g.c2r
  let wfPairs := entries.enum.map fun e => (Val.intConst (sint32 e.1), e.2.1)
  let caseList := entries.enum.map fun e => (sint32 e.1, e.2.2)
  let dflt := ((entries.head?).map Prod.snd).getD 0
  let F := F.insertBefore callId ⟨wfId, .phi wfPairs⟩
  let F := F.appendInstr cbId ⟨swId, .switch (Val.reg wfId) dflt caseList⟩
  (F, swId + 1)

/-- Embeds `MergeCalls::runOnFunction` (MergeCallsPass.cpp lines 31-140):
collect the eligible call sites grouped by callee, transform every group
with at least two call sites, and report `false` to the host. -/
def runOnFunction (env : Env) (F : Fn) (n : Nat) : (Fn × Nat) × Bool :=
  ((sortedTargets env F).foldl
    (fun st t =>
      let cs := callersFor env F t
      if cs.length > 1 then transformGroup env st t cs else st)
    (F, n), false)

/-! ## Observables: call counts, instruction features, well-formedness -/

/-- The callee kind of a call, with any callee operand detail erased. -/
inductive CKind where
  | asm
  | indir
  | direct (f : Nat)
deriving DecidableEq, Repr

def Callee.kind : Callee → CKind
  | .asm => .asm
  | .indirect _ => .indir
  | .direct f => .direct f

def Op.ckind : Op → Option CKind
  | .call ce _ => some ce.kind
  | _ => none

def Instr.isCallb (i : Instr) : Bool := i.op.ckind.isSome

def Instr.isCallTo (i : Instr) (t : Nat) : Bool :=
  i.op.ckind = some (CKind.direct t)

/-- Number of call instructions to the direct callee `t` in the function. -/
def callsTo (F : Fn) (t : Nat) : Nat :=
  (F.allInstrs.filter (fun i => i.isCallTo t)).length

/-- Is this instruction the alloca-insertion-point marker created by the
pass (a bitcast of the null i32 constant named "mergecalls alloca point")? -/
def Op.isAIPb : Op → Bool
  | .bitcast (Val.intConst 0) nm => nm = "mergecalls alloca point"
  | _ => false

/-- Instruction features: identity, callee kind, marker flag. -/
abbrev Feat : Type := Nat × Option CKind × Bool

/-- The features of an instruction that every use-rewriting step of the
pass preserves: its identity, its callee kind, and whether it is the
alloca-insertion-point marker. -/
def featof (i : Instr) : Feat :=
  (i.id, i.op.ckind, i.op.isAIPb)

/-- The multiset of instruction features of a function. -/
def featMS (F : Fn) : Multiset (Nat × Option CKind × Bool) :=
  (F.allInstrs.map featof : List (Nat × Option CKind × Bool))

/-- A "plumbing" feature: neither a call nor the alloca-insertion-point
marker (allocas, stores, loads, branches, phis, the switch). -/
def plumb (f : Nat × Option CKind × Bool) : Prop := f.2.1 = none ∧ f.2.2 = false

/-- Instructions of the entry (head) block. -/
def Fn.headInstrs (F : Fn) : List Instr :=
  ((F.blocks.head?).map BB.instrs).getD []

/-- Number of alloca-insertion-point markers in the entry block. -/
def aipCountEntry (F : Fn) : Nat :=
  (F.headInstrs.filter (fun i => i.op.isAIPb)).length

/-- Number of call-site groups that trigger a merge. -/
def mergedGroupCount (env : Env) (F : Fn) : Nat :=
  ((sortedTargets env F).filter (fun t => 1 < (callersFor env F t).length)).length

/-- Bounded register references. -/
def regLtB (v : Val) (n : Nat) : Bool :=
  match v with
  | .reg r => r < n
  | _ => true

/-- Incoming-block labels of a phi node. -/
def Op.phiBlocks : Op → List Nat
  | .phi pairs => pairs.map Prod.snd
  | _ => []

/-- Well-formedness of a function state relative to the fresh-identifier
counter `n`: identifiers are unique (they model pointers) and every
identifier, operand register and referenced block is below `n`. -/
structure WF (F : Fn) (n : Nat) : Prop where
  indup : F.instrIds.Nodup
  bndup : F.blockIds.Nodup
  ilt : ∀ i ∈ F.instrIds, i < n
  blt : ∀ b ∈ F.blockIds, b < n
  ult : ∀ u ∈ F.allInstrs, ∀ v ∈ u.op.operands, regLtB v n = true
  rlt : ∀ u ∈ F.allInstrs, ∀ b ∈ u.op.blockRefs, b < n

/-- The list `cs` of instruction identifiers is position-compatible with
the layout of `F`: restricted to any one block, it lists instructions in
block order (formally: a sublist of the block's identifier list). -/
def posOrdered (F : Fn) (cs : List Nat) : Prop :=
  ∀ B ∈ F.blocks, (cs.filter (fun c => (B.instrs.map Instr.id).contains c)).Sublist
    (B.instrs.map Instr.id)

/-- Claim C7 and further claims are about `runOnFunction`; the lemmas
below track instruction features through each primitive. -/
def featList (F : Fn) : List Feat :=
  F.allInstrs.map featof

/-- Identifier sanity of a rewrite stage: unique instruction and block
identifiers, all instruction identifiers below the fresh counter. -/
def GoodIds (s : Fn × Nat) : Prop :=
  s.1.instrIds.Nodup ∧ s.1.blockIds.Nodup ∧ ∀ i ∈ s.1.instrIds, i < s.2

/-- Every operand register reference is below the fresh counter; hence a
freshly numbered instruction has no users. -/
def OpBound (F : Fn) (n : Nat) : Prop :=
  ∀ u ∈ F.allInstrs, ∀ v ∈ u.op.operands, regLtB v n = true

/-- One rewrite stage extends another by fresh plumbing: the feature
multiset changes only by adding (`up`) and removing (`dn`) features of
non-call, non-marker instructions whose identifiers are fresh for the
earlier stage.  Call counts, marker counts and all pre-existing features
are invariant under this relation. -/
def PlumbExt (s s' : Fn × Nat) : Prop :=
  s.2 ≤ s'.2 ∧ ∃ dn up : Multiset Feat,
    featMS s'.1 + dn = featMS s.1 + up ∧
    (∀ f ∈ dn, plumb f ∧ s.2 ≤ f.1 ∧ f.1 < s'.2) ∧
    (∀ f ∈ up, plumb f ∧ s.2 ≤ f.1 ∧ f.1 < s'.2)

/-- Positional invariant: the last instruction of block `p` is `y`. -/
def posAt (F : Fn) (p : Nat) (y : Instr) : Prop :=
  (F.instrsOf p).getLast? = some y

/-! Named intermediate stages of `processCaller`, for stepwise reasoning. -/

/-- The (post-split) predecessor block of call site `c`. -/
def pcP (st : GState) (c : Nat) : Nat := (st.fn.blockOf c).getD 0

/-- The function after splitting `c`'s block. -/
def pcF1 (st : GState) (c : Nat) : Fn :=
  st.fn.splitBlock (pcP st c) c st.next (st.next + 1)

/-- The escaping values of the predecessor block scheduled for demotion. -/
def pcTD (entryId : Nat) (st : GState) (c : Nat) : List Nat :=
  ((pcF1 st c).instrsOf (pcP st c)).filterMap fun i =>
    if !(i.op.isAlloca && decide (pcP st c = entryId)) &&
        valueEscapes (pcF1 st c) i.id then
      some i.id
    else none

/-- The stage after demoting the predecessor's escaping values. -/
def pcS1 (aipId entryId : Nat) (st : GState) (c : Nat) : Fn × Nat :=
  (pcTD entryId st c).foldl (demoteReg aipId) (pcF1 st c, st.next + 2)

/-- The function after moving the call to its continuation block. -/
def pcF2 (aipId entryId : Nat) (st : GState) (c : Nat) : Fn :=
  Fn.moveToBlockStart (pcS1 aipId entryId st c).1 c st.next

/-- The stage after conditionally demoting the call's own result. -/
def pcS2 (aipId entryId : Nat) (st : GState) (c : Nat) : Fn × Nat :=
  if (usersOf (pcF2 aipId entryId st c) c).isEmpty then
    (pcF2 aipId entryId st c, (pcS1 aipId entryId st c).2)
  else demoteReg aipId (pcF2 aipId entryId st c, (pcS1 aipId entryId st c).2) c

/-! Named intermediate stages of `transformGroup`. -/

/-- The function with the freshly created (empty) shared call block. -/
def tgF0 (st : Fn × Nat) : Fn := ⟨st.1.blocks ++ [⟨st.2, []⟩]⟩

/-- The entry-block identifier seen by the group transform. -/
def tgEntry (st : Fn × Nat) : Nat := (((tgF0 st).blocks.head?).map BB.id).getD 0

/-- The function after inserting the alloca-insertion-point marker. -/
def tgF1 (st : Fn × Nat) : Fn :=
  (tgF0 st).insertAIP ⟨st.2 + 1, .bitcast (Val.intConst 0) "mergecalls alloca point"⟩

/-- The group state after processing every call site. -/
def tgG (st : Fn × Nat) (callers : List Nat) : GState :=
  callers.foldl (processCaller st.2 (st.2 + 1) (tgEntry st))
    { fn := tgF1 st, next := st.2 + 2, c2r := [], c2p := [] }

/-- The stage after building the argument PHI nodes. -/
def tgAB (env : Env) (target : Nat) (st : Fn × Nat) (callers : List Nat) :
    (Fn × Nat) × List Val :=
  buildArgPhis env target callers st.2 (tgG st callers).c2p
    ((tgG st callers).fn, (tgG st callers).next)

/-- The identifier of the single merged call. -/
def tgCallId (env : Env) (target : Nat) (st : Fn × Nat) (callers : List Nat) :
    Nat :=
  (tgAB env target st callers).1.2

/-- The function after emitting the merged call in the shared block. -/
def tgFc (env : Env) (target : Nat) (st : Fn × Nat) (callers : List Nat) : Fn :=
  (tgAB env target st callers).1.1.appendInstr st.2
    ⟨tgCallId env target st callers, .call (.direct target)
      (tgAB env target st callers).2⟩

/-- The function after replacing and erasing every original call site. -/
def tgFd (env : Env) (target : Nat) (st : Fn × Nat) (callers : List Nat) : Fn :=
  callers.foldl
    (fun f c => Fn.eraseInstr
      (Fn.rauw f (Val.reg c) (Val.reg (tgCallId env target st callers))) c)
    (tgFc env target st callers)

/-- The incoming pairs of the discriminator ("whereFrom") PHI. -/
def tgWfPairs (st : Fn × Nat) (callers : List Nat) : List (Val × Nat) :=
  (tgG st callers).c2r.enum.map fun e => (Val.intConst (sint32 e.1), e.2.1)

/-- The case list of the dispatch switch. -/
def tgCaseList (st : Fn × Nat) (callers : List Nat) : List (Int × Nat) :=
  (tgG st callers).c2r.enum.map fun e => (sint32 e.1, e.2.2)

/-- The default destination of the dispatch switch. -/
def tgDflt (st : Fn × Nat) (callers : List Nat) : Nat :=
  ((((tgG st callers).c2r).head?).map Prod.snd).getD 0

/-- The function after inserting the discriminator PHI before the call. -/
def tgFe (env : Env) (target : Nat) (st : Fn × Nat) (callers : List Nat) : Fn :=
  (tgFd env target st callers).insertBefore (tgCallId env target st callers)
    ⟨tgCallId env target st callers + 1, .phi (tgWfPairs st callers)⟩

/-- The function after appending the dispatch switch to the shared block. -/
def tgFf (env : Env) (target : Nat) (st : Fn × Nat) (callers : List Nat) : Fn :=
  (tgFe env target st callers).appendInstr st.2
    ⟨tgCallId env target st callers + 2,
      .switch (Val.reg (tgCallId env target st callers + 1))
        (tgDflt st callers) (tgCaseList st callers)⟩

/-- Block identifiers of a stage are below its fresh counter. -/
def GoodB (s : Fn × Nat) : Prop :=
  ∀ b ∈ s.1.blockIds, b < s.2

/-! ## Claim C7: the pass always reports "no change" to its host -/

/-- C7: for every input function, the transform reports no change to its
host (`runOnFunction` returns `false`), including when it merged one or
more groups and restructured the function's control-flow graph. -/
theorem C7_returns_false (env : Env) (F : Fn) (n : Nat) :
    (runOnFunction env F n).2 = false := rfl

/-! ## Claim C8: characterisation of the escape test -/

/-- C8: for every instruction `i` (contained in block `b` of `F`), the
escape test returns true iff some user of `i` is an instruction in a
different basic block, or is a PHI node (even in the same block); in
particular it returns false for an instruction with no users. -/
theorem C8_escape_iff (F : Fn) (i b : Nat) (h : F.blockOf i = some b) :
    (valueEscapes F i = true ↔
      ∃ B ∈ F.blocks, ∃ u ∈ B.instrs,
        usesReg u i = true ∧ (B.id ≠ b ∨ u.op.isPhi = true))
    ∧ ((∀ u ∈ F.allInstrs, usesReg u i = false) → valueEscapes F i = false) := by
  have hmain : valueEscapes F i = true ↔
      ∃ B ∈ F.blocks, ∃ u ∈ B.instrs,
        usesReg u i = true ∧ (B.id ≠ b ∨ u.op.isPhi = true) := by
    simp only [valueEscapes, h, List.any_eq_true, Bool.and_eq_true, Bool.or_eq_true,
      decide_eq_true_eq, ne_eq, Option.some.injEq]
  refine ⟨hmain, fun hall => ?_⟩
  by_contra hne
  have htrue : valueEscapes F i = true := by
    cases hval : valueEscapes F i
    · exact absurd hval hne
    · rfl
  obtain ⟨B, hB, u, hu, huse, _⟩ := hmain.1 htrue
  have hmem : u ∈ F.allInstrs := by
    unfold Fn.allInstrs
    exact List.mem_flatMap.2 ⟨B, hB, hu⟩
  rw [hall u hmem] at huse
  exact Bool.false_ne_true huse

/-- Closed witness for C8 at a concrete input: instruction 1 in block 0 is
used by a phi in block 5, so it escapes. -/
def exC8F : Fn := ⟨[
  ⟨0, [⟨1, .other []⟩, ⟨2, .br 5⟩]⟩,
  ⟨5, [⟨3, .phi [(Val.reg 1, 0)]⟩, ⟨4, .ret none⟩]⟩]⟩

theorem C8_escape_iff_witness :
    exC8F.blockOf 1 = some 0 ∧
    (valueEscapes exC8F 1 = true ↔
      ∃ B ∈ exC8F.blocks, ∃ u ∈ B.instrs,
        usesReg u 1 = true ∧ (B.id ≠ 0 ∨ u.op.isPhi = true)) :=
  ⟨by decide, (C8_escape_iff exC8F 1 0 (by decide)).1⟩

/-! ## Claim C2: counterexample to "equals the original argument" -/

/-- Input refuting C2 as stated: value `reg 1` is defined in block 0,
passed as the argument of call site 2, and also used in block 10, so it
escapes its block and is demoted when call site 2 is rewritten. -/
def exC2env : Env := ⟨fun _ => false, fun _ => 1⟩

def exC2F : Fn := ⟨[
  ⟨0, [⟨1, .other []⟩, ⟨2, .call (.direct 7) [Val.reg 1]⟩, ⟨3, .br 10⟩]⟩,
  ⟨10, [⟨4, .other [Val.reg 1]⟩, ⟨5, .call (.direct 7) [Val.farg 0]⟩,
        ⟨6, .ret none⟩]⟩]⟩

/-- C2 counterexample: in `exC2F` the merged group for target 7 is
`[2, 5]`; call site 2's original 0th actual argument is `reg 1` and its
predecessor block is block 0, but after the transform the argument PHI in
the shared block 11 carries incoming value `reg 16` — a reload of the
demoted value's stack slot — from block 0, not the original argument
`reg 1`.  The claim "the incoming value from call site j's predecessor
block equals call site j's original i-th actual argument" is false here. -/
theorem C2_counterexample :
    callersFor exC2env exC2F 7 = [2, 5] ∧
    exC2F.findInstr 2 = some ⟨2, .call (.direct 7) [Val.reg 1]⟩ ∧
    exC2F.blockOf 2 = some 0 ∧
    ((runOnFunction exC2env exC2F 11).1.1.blocks.find? (fun B => B.id = 11)) =
      some ⟨11, [⟨23, .phi [(Val.reg 16, 0), (Val.farg 0, 10)]⟩,
                 ⟨25, .phi [(Val.intConst 0, 0), (Val.intConst 1, 10)]⟩,
                 ⟨24, .call (.direct 7) [Val.reg 23]⟩,
                 ⟨26, .switch (Val.reg 25) 13 [(0, 13), (1, 20)]⟩]⟩ ∧
    Val.reg 16 ≠ Val.reg 1 := by decide

/-! ## Claim C4: counterexample to first-seen tag order -/

/-- Input refuting C4 as stated: the entry block has identity 7 and the
second block has identity 3, so the pointer-keyed `callerToRet` map
iterates the second-seen call site's predecessor first. -/
def exC4env : Env := ⟨fun _ => false, fun _ => 1⟩

def exC4F : Fn := ⟨[
  ⟨7, [⟨1, .call (.direct 0) [Val.farg 0]⟩, ⟨2, .br 3⟩]⟩,
  ⟨3, [⟨4, .call (.direct 0) [Val.farg 1]⟩, ⟨5, .ret none⟩]⟩]⟩

/-- C4 counterexample: the call sites of target 0 in first-seen order are
`[1, 4]`, with predecessor blocks 7 and 3 respectively.  The claim says
the first-seen call site's predecessor (block 7) gets tag 0.  But the
discriminator PHI built in the shared block 8 is
`phi [(0, block 3), (1, block 7)]`: tags are assigned by iterating
`callerToRet` (a `std::map` keyed on block identity) in ascending key
order, so block 3 gets tag 0 and the first-seen predecessor block 7 gets
tag 1 — not 0. -/
theorem C4_counterexample :
    callersFor exC4env exC4F 0 = [1, 4] ∧
    exC4F.blockOf 1 = some 7 ∧
    exC4F.blockOf 4 = some 3 ∧
    ((runOnFunction exC4env exC4F 8).1.1.blocks.find? (fun B => B.id = 8)) =
      some ⟨8, [⟨16, .phi [(Val.farg 0, 7), (Val.farg 1, 3)]⟩,
                ⟨18, .phi [(Val.intConst 0, 3), (Val.intConst 1, 7)]⟩,
                ⟨17, .call (.direct 0) [Val.reg 16]⟩,
                ⟨19, .switch (Val.reg 18) 13 [(0, 13), (1, 10)]⟩]⟩ ∧
    (Val.intConst 1 : Val) ≠ Val.intConst 0 := by decide

/-! ## Claim C5: counterexample to "left unchanged" -/

/-- Input refuting the "left unchanged" part of C5: the intrinsic call 30
(callee 9) passes `reg 1`, which escapes block 0 once the block is
restructured for the merged group of target 7, so demotion rewrites the
intrinsic call's argument to a stack reload. -/
def exC5env : Env := ⟨fun f => f = 9, fun _ => 0⟩

def exC5F : Fn := ⟨[
  ⟨0, [⟨1, .other []⟩, ⟨2, .call (.direct 7) []⟩,
       ⟨30, .call (.direct 9) [Val.reg 1]⟩, ⟨3, .br 10⟩]⟩,
  ⟨10, [⟨4, .other [Val.reg 1]⟩, ⟨5, .call (.direct 7) []⟩,
        ⟨6, .ret none⟩]⟩]⟩

/-- C5 counterexample: the intrinsic call 30 is never grouped (the group
for its callee 9 is empty), and it survives the transform as a call to
the same intrinsic — but it is not left unchanged: its argument operand
`reg 1` has been rewritten to the reload `reg 36` of the demoted value's
stack slot. -/
theorem C5_counterexample :
    exC5env.intrinsic 9 = true ∧
    callersFor exC5env exC5F 9 = [] ∧
    exC5F.findInstr 30 = some ⟨30, .call (.direct 9) [Val.reg 1]⟩ ∧
    (runOnFunction exC5env exC5F 31).1.1.findInstr 30 =
      some ⟨30, .call (.direct 9) [Val.reg 36]⟩ ∧
    Val.reg 36 ≠ Val.reg 1 := by decide

end MergeCalls

/-! ## Feature-tracking lemmas: representations -/

namespace MergeCalls

theorem allInstrs_cons (B : BB) (rest : List BB) :
    (Fn.mk (B :: rest)).allInstrs = B.instrs ++ (Fn.mk rest).allInstrs := by
  simp [Fn.allInstrs]

/-- Per-block feature lists of a function. -/
def blockFeats (B : BB) : List (Nat × Option CKind × Bool) :=
  B.instrs.map featof

theorem featList_eq_flatten (bs : List BB) :
    featList ⟨bs⟩ = (bs.map blockFeats).flatten := by
  simp only [featList, Fn.allInstrs, List.flatMap_def, List.map_flatten,
    List.map_map]
  exact congrArg List.flatten (List.map_congr_left fun B _ => rfl)

theorem featMS_eq_coe (F : Fn) : featMS F = (featList F : List _) := rfl

theorem featList_cons (B : BB) (rest : List BB) :
    featList ⟨B :: rest⟩ = blockFeats B ++ featList ⟨rest⟩ := by
  rw [featList_eq_flatten, featList_eq_flatten, List.map_cons, List.flatten_cons]

theorem featList_blockwise {bs bs' : List BB}
    (h : bs'.map blockFeats = bs.map blockFeats) :
    featList ⟨bs'⟩ = featList ⟨bs⟩ := by
  rw [featList_eq_flatten, featList_eq_flatten, h]

theorem instrIds_eq_featList (F : Fn) :
    F.instrIds = (featList F).map Prod.fst := by
  simp only [Fn.instrIds, featList, List.map_map]
  exact List.map_congr_left fun a _ => rfl

theorem callsTo_eq_featList (F : Fn) (t : Nat) :
    callsTo F t =
      (featList F).countP (fun f => f.2.1 = some (CKind.direct t)) := by
  simp only [callsTo, featList, List.countP_eq_length_filter, List.filter_map,
    List.length_map]
  congr 1

/-! ## Feature preservation by value substitution -/

theorem featof_substInstr (r s : Nat) (i : Instr) :
    featof (substInstr (Val.reg r) (Val.reg s) i) = featof i := by
  obtain ⟨j, op⟩ := i
  cases op with
  | call ce args =>
      cases ce <;>
        simp [substInstr, Op.subst, featof, Op.ckind, Op.isAIPb, Callee.subst,
          Callee.kind]
  | bitcast v nm =>
      cases v with
      | reg k =>
          simp only [substInstr, Op.subst, featof, Op.ckind, substVal]
          split <;> rfl
      | intConst m => simp [substInstr, Op.subst, substVal]
      | farg k => simp [substInstr, Op.subst, substVal]
  | phi pairs => simp [substInstr, Op.subst, featof, Op.ckind, Op.isAIPb]
  | br d => simp [substInstr, Op.subst, featof]
  | switch c dflt cl => simp [substInstr, Op.subst, featof, Op.ckind, Op.isAIPb]
  | alloca => simp [substInstr, Op.subst, featof]
  | store v sl => simp [substInstr, Op.subst, featof, Op.ckind, Op.isAIPb]
  | load sl => simp [substInstr, Op.subst, featof, Op.ckind, Op.isAIPb]
  | ret v => simp [substInstr, Op.subst, featof, Op.ckind, Op.isAIPb]
  | other os => simp [substInstr, Op.subst, featof, Op.ckind, Op.isAIPb]

theorem featList_rauw (F : Fn) (r s : Nat) :
    featList (F.rauw (Val.reg r) (Val.reg s)) = featList F := by
  obtain ⟨bs⟩ := F
  refine featList_blockwise ?_
  simp only [Fn.rauw, List.map_map]
  refine List.map_congr_left fun B _ => ?_
  simp only [Function.comp, blockFeats, List.map_map]
  exact List.map_congr_left fun i _ => featof_substInstr r s i

theorem featList_substInInstr (F : Fn) (t r s : Nat) :
    featList (F.substInInstr t (Val.reg r) (Val.reg s)) = featList F := by
  obtain ⟨bs⟩ := F
  refine featList_blockwise ?_
  simp only [Fn.substInInstr, List.map_map]
  refine List.map_congr_left fun B _ => ?_
  simp only [Function.comp, blockFeats, List.map_map]
  refine List.map_congr_left fun i _ => ?_
  by_cases h : i.id = t <;> simp [h, featof_substInstr]

theorem featList_retargetPhis (F : Fn) (ib : List Nat) (o n : Nat) :
    featList (retargetPhis F ib o n) = featList F := by
  obtain ⟨bs⟩ := F
  refine featList_blockwise ?_
  simp only [retargetPhis, List.map_map]
  refine List.map_congr_left fun B _ => ?_
  simp only [Function.comp, blockFeats]
  split
  · simp only [List.map_map]
    refine List.map_congr_left fun i _ => ?_
    obtain ⟨j, op⟩ := i
    cases op <;> simp [featof, Op.ckind, Op.isAIPb]
  · rfl

theorem featList_setOp_phi (F : Fn) (t : Nat) (ps : List (Val × Nat))
    (h : ∀ i ∈ F.allInstrs, i.id = t → i.op.ckind = none ∧ i.op.isAIPb = false) :
    featList (F.setOp t (.phi ps)) = featList F := by
  obtain ⟨bs⟩ := F
  refine featList_blockwise ?_
  simp only [Fn.setOp, List.map_map]
  have hmem : ∀ B ∈ bs, ∀ i ∈ B.instrs, i.id = t →
      i.op.ckind = none ∧ i.op.isAIPb = false := by
    intro B hB i hi
    exact h i (by unfold Fn.allInstrs; exact List.mem_flatMap.2 ⟨B, hB, hi⟩)
  refine List.map_congr_left fun B hB => ?_
  simp only [Function.comp, blockFeats, List.map_map]
  refine List.map_congr_left fun i hi => ?_
  by_cases hid : i.id = t
  · obtain ⟨h1, h2⟩ := hmem B hB i hi hid
    have hbase : featof i = (i.id, none, false) := by
      simp only [featof]
      rw [h1, h2]
    have hfo : featof ⟨t, Op.phi ps⟩ = featof i := by
      rw [hbase, hid]
      rfl
    simp [hid, hfo]
  · simp [hid]

theorem flatten_map_filter {α β : Type} (bs : List α) (g : α → List β)
    (q : β → Bool) :
    ((bs.map fun a => (g a).filter q).flatten) = ((bs.map g).flatten).filter q := by
  induction bs with
  | nil => rfl
  | cons a rest ih =>
      simp only [List.map_cons, List.flatten_cons, List.filter_append, ih]

theorem featList_eraseInstr (F : Fn) (c : Nat) :
    featList (F.eraseInstr c) = (featList F).filter (fun f => f.1 ≠ c) := by
  obtain ⟨bs⟩ := F
  show featList ⟨bs.map _⟩ = _
  rw [featList_eq_flatten, featList_eq_flatten, List.map_map]
  have hB : ∀ B : BB,
      (blockFeats ⟨B.id, B.instrs.filter (fun x => x.id ≠ c)⟩) =
        (blockFeats B).filter (fun f => f.1 ≠ c) := by
    intro B
    simp only [blockFeats, List.filter_map]
    exact congrArg _ (List.filter_congr fun i _ => rfl)
  calc ((bs.map fun B => blockFeats ⟨B.id, B.instrs.filter (fun x => x.id ≠ c)⟩).flatten)
      = ((bs.map fun B => (blockFeats B).filter (fun f => f.1 ≠ c)).flatten) := by
        rw [List.map_congr_left fun B _ => hB B]
    _ = ((bs.map blockFeats).flatten).filter (fun f => f.1 ≠ c) :=
        flatten_map_filter bs blockFeats _

end MergeCalls

/-! ## Permutation lemmas for the insertion primitives -/

namespace MergeCalls

theorem insertBeforeIn_not_mem (l : List Instr) (t : Nat) (x : Instr)
    (h : t ∉ l.map Instr.id) : insertBeforeIn l t x = l := by
  induction l with
  | nil => rfl
  | cons y ys ih =>
      simp only [List.map_cons, List.mem_cons] at h
      push_neg at h
      have hne : y.id ≠ t := fun he => h.1 he.symm
      simp only [insertBeforeIn, if_neg hne]
      rw [ih h.2]

theorem perm_insertBeforeIn (l : List Instr) (t : Nat) (x : Instr)
    (h : t ∈ l.map Instr.id) : (insertBeforeIn l t x).Perm (x :: l) := by
  induction l with
  | nil => simp at h
  | cons y ys ih =>
      by_cases he : y.id = t
      · simp only [insertBeforeIn, if_pos he]
        exact List.Perm.refl _
      · simp only [List.map_cons, List.mem_cons] at h
        have hys : t ∈ ys.map Instr.id := by
          rcases h with h | h
          · exact absurd h.symm he
          · exact h
        simp only [insertBeforeIn, if_neg he]
        exact ((ih hys).cons y).trans (List.Perm.swap x y ys)

theorem perm_insertPastPhis (l : List Instr) (x : Instr) :
    (insertPastPhis l x).Perm (x :: l) := by
  induction l with
  | nil => exact List.Perm.refl _
  | cons y ys ih =>
      by_cases hp : y.op.isPhi
      · simp only [insertPastPhis, if_pos hp]
        exact (ih.cons y).trans (List.Perm.swap x y ys)
      · simp only [insertPastPhis, if_neg hp]
        exact List.Perm.refl _

theorem insertAfterIn_not_mem (l : List Instr) (t : Nat) (x : Instr)
    (h : t ∉ l.map Instr.id) : insertAfterIn l t x = l := by
  induction l with
  | nil => rfl
  | cons y ys ih =>
      simp only [List.map_cons, List.mem_cons] at h
      push_neg at h
      have hne : y.id ≠ t := fun he => h.1 he.symm
      simp only [insertAfterIn, if_neg hne]
      rw [ih h.2]

theorem perm_insertAfterIn (l : List Instr) (t : Nat) (x : Instr)
    (h : t ∈ l.map Instr.id) : (insertAfterIn l t x).Perm (x :: l) := by
  induction l with
  | nil => simp at h
  | cons y ys ih =>
      by_cases he : y.id = t
      · simp only [insertAfterIn, if_pos he]
        exact ((perm_insertPastPhis ys x).cons y).trans (List.Perm.swap x y ys)
      · simp only [List.map_cons, List.mem_cons] at h
        have hys : t ∈ ys.map Instr.id := by
          rcases h with h | h
          · exact absurd h.symm he
          · exact h
        simp only [insertAfterIn, if_neg he]
        exact ((ih hys).cons y).trans (List.Perm.swap x y ys)

theorem perm_insertBeforeLast (l : List Instr) (x : Instr) :
    (insertBeforeLast l x).Perm (x :: l) := by
  induction l with
  | nil => exact List.Perm.refl _
  | cons y ys ih =>
      cases ys with
      | nil => exact List.Perm.refl _
      | cons z zs =>
          show (y :: insertBeforeLast (z :: zs) x).Perm (x :: y :: z :: zs)
          exact (ih.cons y).trans (List.Perm.swap x y (z :: zs))

theorem perm_insertAfterLeadingAllocas (l : List Instr) (x : Instr) :
    (insertAfterLeadingAllocas l x).Perm (x :: l) := by
  induction l with
  | nil => exact List.Perm.refl _
  | cons y ys ih =>
      by_cases ha : y.op.isAlloca
      · simp only [insertAfterLeadingAllocas, if_pos ha]
        exact (ih.cons y).trans (List.Perm.swap x y ys)
      · simp only [insertAfterLeadingAllocas, if_neg ha]
        exact List.Perm.refl _

end MergeCalls

/-! ## Function-level feature permutation lemmas -/

namespace MergeCalls

theorem instrIds_mk_cons (B : BB) (rest : List BB) :
    (Fn.mk (B :: rest)).instrIds =
      B.instrs.map Instr.id ++ (Fn.mk rest).instrIds := by
  simp [Fn.instrIds, allInstrs_cons]

theorem blockIds_mk_cons (B : BB) (rest : List BB) :
    (Fn.mk (B :: rest)).blockIds = B.id :: (Fn.mk rest).blockIds := rfl

theorem mem_instrIds (bs : List BB) (t : Nat) :
    t ∈ (Fn.mk bs).instrIds ↔ ∃ B ∈ bs, t ∈ B.instrs.map Instr.id := by
  simp [Fn.instrIds, Fn.allInstrs, List.mem_flatMap, List.mem_map]
  constructor
  · rintro ⟨i, ⟨B, hB, hi⟩, hid⟩
    exact ⟨B, hB, i, hi, hid⟩
  · rintro ⟨B, hB, i, hi, hid⟩
    exact ⟨i, ⟨B, hB, hi⟩, hid⟩

theorem insertBefore_not_mem (F : Fn) (t : Nat) (x : Instr)
    (h : t ∉ F.instrIds) : F.insertBefore t x = F := by
  obtain ⟨bs⟩ := F
  have hb : ∀ B ∈ bs, t ∉ B.instrs.map Instr.id := by
    intro B hB hm
    exact h ((mem_instrIds bs t).2 ⟨B, hB, hm⟩)
  show Fn.mk (bs.map _) = Fn.mk bs
  congr 1
  have : bs.map (fun B => (⟨B.id, insertBeforeIn B.instrs t x⟩ : BB)) =
      bs.map (fun B => B) :=
    List.map_congr_left fun B hB => by
      rw [insertBeforeIn_not_mem _ _ _ (hb B hB)]
  rw [this, List.map_id']

theorem insertAfterInstr_not_mem (F : Fn) (t : Nat) (x : Instr)
    (h : t ∉ F.instrIds) : F.insertAfterInstr t x = F := by
  obtain ⟨bs⟩ := F
  have hb : ∀ B ∈ bs, t ∉ B.instrs.map Instr.id := by
    intro B hB hm
    exact h ((mem_instrIds bs t).2 ⟨B, hB, hm⟩)
  show Fn.mk (bs.map _) = Fn.mk bs
  congr 1
  have : bs.map (fun B => (⟨B.id, insertAfterIn B.instrs t x⟩ : BB)) =
      bs.map (fun B => B) :=
    List.map_congr_left fun B hB => by
      rw [insertAfterIn_not_mem _ _ _ (hb B hB)]
  rw [this, List.map_id']

theorem featList_insertBefore (F : Fn) (t : Nat) (x : Instr)
    (hnd : F.instrIds.Nodup) (h : t ∈ F.instrIds) :
    (featList (F.insertBefore t x)).Perm (featof x :: featList F) := by
  obtain ⟨bs⟩ := F
  revert hnd h
  induction bs with
  | nil => intro hnd h; simp [Fn.instrIds, Fn.allInstrs] at h
  | cons B rest ih =>
      intro hnd h
      rw [instrIds_mk_cons] at hnd h
      rw [List.nodup_append] at hnd
      show (featList ⟨(⟨B.id, insertBeforeIn B.instrs t x⟩ : BB) ::
        rest.map _⟩).Perm _
      rw [featList_cons, featList_cons]
      rcases List.mem_append.mp h with hB | hr
      · have hrest : t ∉ (Fn.mk rest).instrIds := fun hm => hnd.2.2 hB hm
        have heq : (Fn.mk (rest.map (fun B => (⟨B.id, insertBeforeIn B.instrs t x⟩ : BB)))) =
            Fn.mk rest := insertBefore_not_mem ⟨rest⟩ t x hrest
        rw [show (rest.map (fun B => (⟨B.id, insertBeforeIn B.instrs t x⟩ : BB))) =
          (Fn.mk rest).blocks from congrArg Fn.blocks heq]
        have hperm : (blockFeats ⟨B.id, insertBeforeIn B.instrs t x⟩).Perm
            (featof x :: blockFeats B) :=
          (perm_insertBeforeIn B.instrs t x hB).map featof
        exact hperm.append_right _
      · have hBnot : t ∉ B.instrs.map Instr.id := fun hm => hnd.2.2 hm hr
        rw [show insertBeforeIn B.instrs t x = B.instrs from
          insertBeforeIn_not_mem _ _ _ hBnot]
        have := ih hnd.2.1 hr
        refine (List.Perm.append_left (blockFeats B) this).trans ?_
        exact List.perm_middle

theorem featList_insertAfterInstr (F : Fn) (t : Nat) (x : Instr)
    (hnd : F.instrIds.Nodup) (h : t ∈ F.instrIds) :
    (featList (F.insertAfterInstr t x)).Perm (featof x :: featList F) := by
  obtain ⟨bs⟩ := F
  revert hnd h
  induction bs with
  | nil => intro hnd h; simp [Fn.instrIds, Fn.allInstrs] at h
  | cons B rest ih =>
      intro hnd h
      rw [instrIds_mk_cons] at hnd h
      rw [List.nodup_append] at hnd
      show (featList ⟨(⟨B.id, insertAfterIn B.instrs t x⟩ : BB) ::
        rest.map _⟩).Perm _
      rw [featList_cons, featList_cons]
      rcases List.mem_append.mp h with hB | hr
      · have hrest : t ∉ (Fn.mk rest).instrIds := fun hm => hnd.2.2 hB hm
        have heq : (Fn.mk (rest.map (fun B => (⟨B.id, insertAfterIn B.instrs t x⟩ : BB)))) =
            Fn.mk rest := insertAfterInstr_not_mem ⟨rest⟩ t x hrest
        rw [show (rest.map (fun B => (⟨B.id, insertAfterIn B.instrs t x⟩ : BB))) =
          (Fn.mk rest).blocks from congrArg Fn.blocks heq]
        have hperm : (blockFeats ⟨B.id, insertAfterIn B.instrs t x⟩).Perm
            (featof x :: blockFeats B) :=
          (perm_insertAfterIn B.instrs t x hB).map featof
        exact hperm.append_right _
      · have hBnot : t ∉ B.instrs.map Instr.id := fun hm => hnd.2.2 hm hr
        rw [show insertAfterIn B.instrs t x = B.instrs from
          insertAfterIn_not_mem _ _ _ hBnot]
        have := ih hnd.2.1 hr
        refine (List.Perm.append_left (blockFeats B) this).trans ?_
        exact List.perm_middle

theorem mapBlock_not_mem (F : Fn) (b : Nat) (f : List Instr → List Instr)
    (h : b ∉ F.blockIds) : F.mapBlock b f = F := by
  obtain ⟨bs⟩ := F
  show Fn.mk (bs.map _) = Fn.mk bs
  congr 1
  have hb : ∀ B ∈ bs, B.id ≠ b := by
    intro B hB he
    exact h (he ▸ List.mem_map_of_mem BB.id hB)
  have : bs.map (fun B => if B.id = b then (⟨B.id, f B.instrs⟩ : BB) else B) =
      bs.map (fun B => B) :=
    List.map_congr_left fun B hB => by rw [if_neg (hb B hB)]
  rw [this, List.map_id']

theorem featList_mapBlock (F : Fn) (b : Nat) (f : List Instr → List Instr)
    (x : Instr) (hnd : F.blockIds.Nodup) (hb : b ∈ F.blockIds)
    (hf : ∀ l, (f l).Perm (x :: l)) :
    (featList (F.mapBlock b f)).Perm (featof x :: featList F) := by
  obtain ⟨bs⟩ := F
  revert hnd hb
  induction bs with
  | nil => intro hnd hb; simp [Fn.blockIds] at hb
  | cons B rest ih =>
      intro hnd hb
      rw [blockIds_mk_cons] at hnd hb
      rw [List.nodup_cons] at hnd
      show (featList ⟨(if B.id = b then (⟨B.id, f B.instrs⟩ : BB) else B) ::
        rest.map _⟩).Perm _
      by_cases he : B.id = b
      · have hrest : b ∉ (Fn.mk rest).blockIds := he ▸ hnd.1
        have heq : Fn.mk (rest.map (fun B => if B.id = b then (⟨B.id, f B.instrs⟩ : BB) else B)) =
            Fn.mk rest := mapBlock_not_mem ⟨rest⟩ b f hrest
        rw [if_pos he, featList_cons, featList_cons,
          show (rest.map (fun B => if B.id = b then (⟨B.id, f B.instrs⟩ : BB) else B)) =
            (Fn.mk rest).blocks from congrArg Fn.blocks heq]
        have hperm : (blockFeats ⟨B.id, f B.instrs⟩).Perm (featof x :: blockFeats B) :=
          (hf B.instrs).map featof
        exact hperm.append_right _
      · have hr : b ∈ (Fn.mk rest).blockIds := by
          rcases List.mem_cons.mp hb with h1 | h1
          · exact absurd h1.symm he
          · exact h1
        rw [if_neg he, featList_cons, featList_cons]
        refine (List.Perm.append_left (blockFeats B) (ih hnd.2 hr)).trans ?_
        exact List.perm_middle

end MergeCalls


/-! ## Split, entry insertion, move: feature multiset lemmas -/

namespace MergeCalls

theorem flatMap_congr_fn {α β : Type} (l : List α) (f g : α → List β)
    (h : ∀ a ∈ l, f a = g a) : l.flatMap f = l.flatMap g := by
  rw [List.flatMap_def, List.flatMap_def, List.map_congr_left h]

theorem flatMap_id_blocks (bs : List BB) : bs.flatMap (fun B => [B]) = bs := by
  induction bs with
  | nil => rfl
  | cons B rest ih => simp [ih]

theorem featList_mk_append (bs₁ bs₂ : List BB) :
    featList ⟨bs₁ ++ bs₂⟩ = featList ⟨bs₁⟩ ++ featList ⟨bs₂⟩ := by
  rw [featList_eq_flatten, featList_eq_flatten, featList_eq_flatten,
    List.map_append, List.flatten_append]

theorem featMS_mk_append (bs₁ bs₂ : List BB) :
    featMS ⟨bs₁ ++ bs₂⟩ = featMS ⟨bs₁⟩ + featMS ⟨bs₂⟩ := by
  rw [featMS_eq_coe, featMS_eq_coe, featMS_eq_coe, featList_mk_append,
    Multiset.coe_add]

theorem featMS_mk_cons (B : BB) (rest : List BB) :
    featMS ⟨B :: rest⟩ = (blockFeats B : List Feat) + featMS ⟨rest⟩ := by
  rw [featMS_eq_coe, featMS_eq_coe, featList_cons, Multiset.coe_add]

theorem find?_block_of_nodup (bs : List BB) (hnd : (bs.map BB.id).Nodup)
    (B : BB) (hB : B ∈ bs) (b : Nat) (hid : B.id = b) :
    bs.find? (fun B' => B'.id = b) = some B := by
  induction bs with
  | nil => simp at hB
  | cons C rest ih =>
      rw [List.map_cons, List.nodup_cons] at hnd
      rcases List.mem_cons.mp hB with he | hm
      · subst he
        exact List.find?_cons_of_pos _ (by simp [hid])
      · have hCne : ¬(C.id = b) := by
          intro hc
          exact hnd.1 (hc ▸ hid ▸ List.mem_map_of_mem BB.id hm)
        rw [List.find?_cons_of_neg _ (by simpa using hCne)]
        exact ih hnd.2 hm

theorem blocks_decomp (F : Fn) (b : Nat) (hnd : F.blockIds.Nodup)
    (hb : b ∈ F.blockIds) :
    ∃ bs₁ bs₂, F.blocks = bs₁ ++ (⟨b, F.instrsOf b⟩ : BB) :: bs₂ ∧
      (∀ B ∈ bs₁, B.id ≠ b) ∧ (∀ B ∈ bs₂, B.id ≠ b) := by
  obtain ⟨B, hBmem, hBid⟩ : ∃ B ∈ F.blocks, B.id = b := by
    simpa [Fn.blockIds, List.mem_map] using hb
  have hfind : F.blocks.find? (fun B' => B'.id = b) = some B :=
    find?_block_of_nodup F.blocks hnd B hBmem b hBid
  have hio : F.instrsOf b = B.instrs := by
    simp [Fn.instrsOf, hfind]
  obtain ⟨-, bs₁, bs₂, heq, hmiss⟩ := List.find?_eq_some.mp hfind
  have hBeta : (⟨b, F.instrsOf b⟩ : BB) = B := by
    rw [hio, ← hBid]
  refine ⟨bs₁, bs₂, by rw [hBeta]; exact heq, ?_, ?_⟩
  · intro C hC hc
    have := hmiss C hC
    simp [hc] at this
  · intro C hC hc
    have : F.blockIds = bs₁.map BB.id ++ B.id :: bs₂.map BB.id := by
      rw [Fn.blockIds, heq]
      simp
    rw [this] at hnd
    have h2 := (List.nodup_append.mp hnd).2.1
    rw [List.nodup_cons] at h2
    exact h2.1 (hBid ▸ hc ▸ List.mem_map_of_mem BB.id hC)

theorem replaceBlock_eq (F : Fn) (b : Nat) (nbs : List BB)
    (bs₁ bs₂ : List BB) (hdec : F.blocks = bs₁ ++ (⟨b, F.instrsOf b⟩ : BB) :: bs₂)
    (h1 : ∀ B ∈ bs₁, B.id ≠ b) (h2 : ∀ B ∈ bs₂, B.id ≠ b) :
    F.replaceBlock b nbs = ⟨bs₁ ++ nbs ++ bs₂⟩ := by
  show Fn.mk _ = _
  congr 1
  rw [hdec, List.flatMap_append, List.flatMap_cons]
  have e1 : bs₁.flatMap (fun B => if B.id = b then nbs else [B]) = bs₁ := by
    rw [flatMap_congr_fn bs₁ _ (fun B => [B]) (fun B hB => if_neg (h1 B hB))]
    exact flatMap_id_blocks bs₁
  have e2 : bs₂.flatMap (fun B => if B.id = b then nbs else [B]) = bs₂ := by
    rw [flatMap_congr_fn bs₂ _ (fun B => [B]) (fun B hB => if_neg (h2 B hB))]
    exact flatMap_id_blocks bs₂
  rw [e1, e2, if_pos rfl]
  simp [List.append_assoc]

theorem featMS_splitBlock (F : Fn) (b c newId brId : Nat)
    (hnd : F.blockIds.Nodup) (hb : b ∈ F.blockIds) :
    featMS (F.splitBlock b c newId brId) =
      featof ⟨brId, .br newId⟩ ::ₘ featMS F := by
  obtain ⟨bs₁, bs₂, hdec, h1, h2⟩ := blocks_decomp F b hnd hb
  have hrepl := replaceBlock_eq F b
    [⟨b, (F.instrsOf b).take ((F.instrsOf b).findIdx (fun x => x.id = c) + 1) ++
      [⟨brId, .br newId⟩]⟩,
     ⟨newId, (F.instrsOf b).drop ((F.instrsOf b).findIdx (fun x => x.id = c) + 1)⟩]
    bs₁ bs₂ hdec h1 h2
  show featMS (retargetPhis _ _ _ _) = _
  rw [featMS_eq_coe, featList_retargetPhis, ← featMS_eq_coe, hrepl]
  have hF : featMS F = featMS ⟨bs₁⟩ +
      ((((F.instrsOf b).map featof : List Feat) : Multiset Feat)) + featMS ⟨bs₂⟩ := by
    conv_lhs => rw [show F = ⟨F.blocks⟩ from rfl, hdec]
    rw [featMS_mk_append, featMS_mk_cons]
    have : blockFeats ⟨b, F.instrsOf b⟩ = (F.instrsOf b).map featof := rfl
    rw [this]
    abel
  rw [show (bs₁ ++ _ ++ bs₂ : List BB) = bs₁ ++ (_ ++ bs₂) from List.append_assoc ..]
  rw [featMS_mk_append, featMS_mk_append, featMS_mk_cons, featMS_mk_cons, hF]
  have hsplit : ((((F.instrsOf b).map featof : List Feat) : Multiset Feat)) =
      (((((F.instrsOf b).take ((F.instrsOf b).findIdx (fun x => x.id = c) + 1)).map featof : List Feat) : Multiset Feat)) +
      (((((F.instrsOf b).drop ((F.instrsOf b).findIdx (fun x => x.id = c) + 1)).map featof : List Feat) : Multiset Feat)) := by
    rw [Multiset.coe_add]
    rw [← List.map_append, List.take_append_drop]
  rw [hsplit]
  have hmid : blockFeats ⟨b, (F.instrsOf b).take ((F.instrsOf b).findIdx (fun x => x.id = c) + 1) ++
      [⟨brId, .br newId⟩]⟩ =
      ((F.instrsOf b).take ((F.instrsOf b).findIdx (fun x => x.id = c) + 1)).map featof ++
        [featof ⟨brId, .br newId⟩] := by
    simp [blockFeats]
  have hnew : blockFeats ⟨newId, (F.instrsOf b).drop ((F.instrsOf b).findIdx (fun x => x.id = c) + 1)⟩ =
      ((F.instrsOf b).drop ((F.instrsOf b).findIdx (fun x => x.id = c) + 1)).map featof := rfl
  rw [hmid, hnew, ← Multiset.coe_add]
  conv_rhs => rw [← Multiset.singleton_add]
  have hone : ((([featof ⟨brId, Op.br newId⟩] : List Feat) : Multiset Feat)) =
      ({featof ⟨brId, Op.br newId⟩} : Multiset Feat) := rfl
  rw [hone]
  abel

end MergeCalls

/-! ## Multiset corollaries and block-identifier invariance -/

namespace MergeCalls

theorem featMS_rauw (F : Fn) (r s : Nat) :
    featMS (F.rauw (Val.reg r) (Val.reg s)) = featMS F := by
  rw [featMS_eq_coe, featMS_eq_coe, featList_rauw]

theorem featMS_substInInstr (F : Fn) (t r s : Nat) :
    featMS (F.substInInstr t (Val.reg r) (Val.reg s)) = featMS F := by
  rw [featMS_eq_coe, featMS_eq_coe, featList_substInInstr]

theorem featMS_retargetPhis (F : Fn) (ib : List Nat) (o n : Nat) :
    featMS (retargetPhis F ib o n) = featMS F := by
  rw [featMS_eq_coe, featMS_eq_coe, featList_retargetPhis]

theorem featMS_setOp_phi (F : Fn) (t : Nat) (ps : List (Val × Nat))
    (h : ∀ i ∈ F.allInstrs, i.id = t → i.op.ckind = none ∧ i.op.isAIPb = false) :
    featMS (F.setOp t (.phi ps)) = featMS F := by
  rw [featMS_eq_coe, featMS_eq_coe, featList_setOp_phi F t ps h]

theorem featMS_insertBefore (F : Fn) (t : Nat) (x : Instr)
    (hnd : F.instrIds.Nodup) (h : t ∈ F.instrIds) :
    featMS (F.insertBefore t x) = featof x ::ₘ featMS F := by
  rw [featMS_eq_coe, featMS_eq_coe, Multiset.cons_coe, Multiset.coe_eq_coe]
  exact featList_insertBefore F t x hnd h

theorem featMS_insertAfterInstr (F : Fn) (t : Nat) (x : Instr)
    (hnd : F.instrIds.Nodup) (h : t ∈ F.instrIds) :
    featMS (F.insertAfterInstr t x) = featof x ::ₘ featMS F := by
  rw [featMS_eq_coe, featMS_eq_coe, Multiset.cons_coe, Multiset.coe_eq_coe]
  exact featList_insertAfterInstr F t x hnd h

theorem featMS_mapBlock (F : Fn) (b : Nat) (f : List Instr → List Instr)
    (x : Instr) (hnd : F.blockIds.Nodup) (hb : b ∈ F.blockIds)
    (hf : ∀ l, (f l).Perm (x :: l)) :
    featMS (F.mapBlock b f) = featof x ::ₘ featMS F := by
  rw [featMS_eq_coe, featMS_eq_coe, Multiset.cons_coe, Multiset.coe_eq_coe]
  exact featList_mapBlock F b f x hnd hb hf

theorem featMS_insertAIP (F : Fn) (x : Instr) (hne : F.blocks ≠ []) :
    featMS (F.insertAIP x) = featof x ::ₘ featMS F := by
  obtain ⟨bs⟩ := F
  cases bs with
  | nil => exact absurd rfl hne
  | cons B rest =>
      show featMS ⟨(⟨B.id, insertAfterLeadingAllocas B.instrs x⟩ : BB) :: rest⟩ = _
      rw [featMS_mk_cons, featMS_mk_cons]
      have hperm : (blockFeats ⟨B.id, insertAfterLeadingAllocas B.instrs x⟩).Perm
          (featof x :: blockFeats B) :=
        (perm_insertAfterLeadingAllocas B.instrs x).map featof
      rw [show ((blockFeats ⟨B.id, insertAfterLeadingAllocas B.instrs x⟩ : List Feat) : Multiset Feat) =
        ((featof x :: blockFeats B : List Feat) : Multiset Feat) from Multiset.coe_eq_coe.mpr hperm]
      rw [← Multiset.cons_coe, Multiset.cons_add]

/-- Decomposition of the instruction list at a found instruction. -/
theorem allInstrs_decomp (F : Fn) (c : Nat) (i : Instr)
    (hf : F.findInstr c = some i) (hnd : F.instrIds.Nodup) :
    ∃ l₁ l₂, F.allInstrs = l₁ ++ i :: l₂ ∧ i.id = c ∧
      (∀ y ∈ l₁, y.id ≠ c) ∧ (∀ y ∈ l₂, y.id ≠ c) := by
  obtain ⟨hp, l₁, l₂, heq, hmiss⟩ := List.find?_eq_some.mp hf
  have hic : i.id = c := by simpa using hp
  refine ⟨l₁, l₂, heq, hic, ?_, ?_⟩
  · intro y hy hc
    have := hmiss y hy
    simp [hc] at this
  · intro y hy hc
    have : F.instrIds = l₁.map Instr.id ++ i.id :: l₂.map Instr.id := by
      rw [Fn.instrIds, heq]
      simp
    rw [this] at hnd
    have h2 := (List.nodup_append.mp hnd).2.1
    rw [List.nodup_cons] at h2
    exact h2.1 (hic ▸ hc ▸ List.mem_map_of_mem Instr.id hy)

theorem featMS_of_find (F : Fn) (c : Nat) (i : Instr)
    (hf : F.findInstr c = some i) (hnd : F.instrIds.Nodup) :
    featMS F = featof i ::ₘ featMS (F.eraseInstr c) := by
  obtain ⟨l₁, l₂, heq, hic, h1, h2⟩ := allInstrs_decomp F c i hf hnd
  have herase : featList (F.eraseInstr c) = (featList F).filter (fun f => f.1 ≠ c) :=
    featList_eraseInstr F c
  have hflF : featList F = l₁.map featof ++ featof i :: l₂.map featof := by
    rw [featList, heq]
    simp
  have hfilter : (featList F).filter (fun f => f.1 ≠ c) =
      l₁.map featof ++ l₂.map featof := by
    rw [hflF, List.filter_append]
    have e1 : (l₁.map featof).filter (fun f => f.1 ≠ c) = l₁.map featof := by
      rw [List.filter_eq_self]
      intro f hfm
      obtain ⟨y, hy, hfy⟩ := List.mem_map.mp hfm
      simp [← hfy, featof, h1 y hy]
    have e2 : ((featof i :: l₂.map featof)).filter (fun f => f.1 ≠ c) =
        l₂.map featof := by
      rw [List.filter_cons]
      have : ¬((featof i).1 ≠ c) := by simp [featof, hic]
      rw [if_neg (by simpa using this)]
      rw [List.filter_eq_self]
      intro f hfm
      obtain ⟨y, hy, hfy⟩ := List.mem_map.mp hfm
      simp [← hfy, featof, h2 y hy]
    rw [e1, e2]
  rw [featMS_eq_coe, featMS_eq_coe, herase, hfilter, hflF, Multiset.cons_coe,
    Multiset.coe_eq_coe]
  exact List.perm_middle.trans (List.Perm.refl _) |>.symm.symm

theorem blockIds_uniform (bs : List BB) (g : BB → List Instr) :
    (Fn.mk (bs.map fun B => ⟨B.id, g B⟩)).blockIds = (Fn.mk bs).blockIds := by
  simp only [Fn.blockIds, List.map_map]
  exact List.map_congr_left fun B _ => rfl

theorem blockIds_mapBlock (F : Fn) (b : Nat) (f : List Instr → List Instr) :
    (F.mapBlock b f).blockIds = F.blockIds := by
  simp only [Fn.mapBlock, Fn.blockIds, List.map_map]
  refine List.map_congr_left fun B _ => ?_
  by_cases h : B.id = b <;> simp [h]

theorem blockIds_eraseInstr (F : Fn) (c : Nat) :
    (F.eraseInstr c).blockIds = F.blockIds :=
  blockIds_uniform F.blocks _

theorem blockIds_insertBefore (F : Fn) (t : Nat) (x : Instr) :
    (F.insertBefore t x).blockIds = F.blockIds :=
  blockIds_uniform F.blocks _

theorem blockIds_insertAfterInstr (F : Fn) (t : Nat) (x : Instr) :
    (F.insertAfterInstr t x).blockIds = F.blockIds :=
  blockIds_uniform F.blocks _

theorem blockIds_rauw (F : Fn) (a b : Val) :
    (F.rauw a b).blockIds = F.blockIds :=
  blockIds_uniform F.blocks _

theorem blockIds_substInInstr (F : Fn) (t : Nat) (a b : Val) :
    (F.substInInstr t a b).blockIds = F.blockIds :=
  blockIds_uniform F.blocks _

theorem blockIds_setOp (F : Fn) (t : Nat) (o : Op) :
    (F.setOp t o).blockIds = F.blockIds :=
  blockIds_uniform F.blocks _

theorem blockIds_retargetPhis (F : Fn) (ib : List Nat) (o n : Nat) :
    (retargetPhis F ib o n).blockIds = F.blockIds := by
  simp only [retargetPhis, Fn.blockIds, List.map_map]
  refine List.map_congr_left fun B _ => ?_
  by_cases h : B.id ∈ ib <;> simp [h]

theorem blockIds_moveToBlockStart (F : Fn) (c b : Nat) :
    (F.moveToBlockStart c b).blockIds = F.blockIds := by
  unfold Fn.moveToBlockStart
  cases F.findInstr c with
  | none => rfl
  | some i => rw [blockIds_mapBlock, blockIds_eraseInstr]

theorem featMS_moveToBlockStart (F : Fn) (c b : Nat)
    (hnd : F.instrIds.Nodup) (hbnd : F.blockIds.Nodup) (hb : b ∈ F.blockIds) :
    featMS (F.moveToBlockStart c b) = featMS F := by
  unfold Fn.moveToBlockStart
  cases hf : F.findInstr c with
  | none => rfl
  | some i =>
      have h1 : featMS ((F.eraseInstr c).mapBlock b (fun l => insertPastPhis l i)) =
          featof i ::ₘ featMS (F.eraseInstr c) := by
        refine featMS_mapBlock _ b _ i ?_ ?_ ?_
        · rw [blockIds_eraseInstr]; exact hbnd
        · rw [blockIds_eraseInstr]; exact hb
        · intro l; exact perm_insertPastPhis l i
      rw [h1, ← featMS_of_find F c i hf hnd]

end MergeCalls

/-! ## PlumbExt: composition of plumbing-only rewrite stages -/

namespace MergeCalls

theorem plumbExt_refl (s : Fn × Nat) : PlumbExt s s :=
  ⟨le_refl _, 0, 0, by simp, by simp, by simp⟩

theorem plumbExt_trans {s1 s2 s3 : Fn × Nat} (h12 : PlumbExt s1 s2)
    (h23 : PlumbExt s2 s3) : PlumbExt s1 s3 := by
  obtain ⟨hle12, dn1, up1, he1, hd1, hu1⟩ := h12
  obtain ⟨hle23, dn2, up2, he2, hd2, hu2⟩ := h23
  refine ⟨hle12.trans hle23, dn1 + dn2, up1 + up2, ?_, ?_, ?_⟩
  · calc featMS s3.1 + (dn1 + dn2) = (featMS s3.1 + dn2) + dn1 := by abel
      _ = (featMS s2.1 + up2) + dn1 := by rw [he2]
      _ = (featMS s2.1 + dn1) + up2 := by abel
      _ = (featMS s1.1 + up1) + up2 := by rw [he1]
      _ = featMS s1.1 + (up1 + up2) := by abel
  · intro f hf
    rcases Multiset.mem_add.mp hf with h | h
    · obtain ⟨hp, hl, hr⟩ := hd1 f h
      exact ⟨hp, hl, lt_of_lt_of_le hr hle23⟩
    · obtain ⟨hp, hl, hr⟩ := hd2 f h
      exact ⟨hp, le_trans hle12 hl, hr⟩
  · intro f hf
    rcases Multiset.mem_add.mp hf with h | h
    · obtain ⟨hp, hl, hr⟩ := hu1 f h
      exact ⟨hp, hl, lt_of_lt_of_le hr hle23⟩
    · obtain ⟨hp, hl, hr⟩ := hu2 f h
      exact ⟨hp, le_trans hle12 hl, hr⟩

theorem plumbExt_of_featMS_eq {s : Fn × Nat} {F' : Fn} {n' : Nat}
    (hms : featMS F' = featMS s.1) (hn : s.2 ≤ n') : PlumbExt s (F', n') :=
  ⟨hn, 0, 0, by simp [hms], by simp, by simp⟩

theorem plumbExt_cons {s : Fn × Nat} {F' : Fn} {n' : Nat} {x : Instr}
    (hms : featMS F' = featof x ::ₘ featMS s.1)
    (hxlo : s.2 ≤ x.id) (hxhi : x.id < n') (hn : s.2 ≤ n')
    (hpl : x.op.ckind = none ∧ x.op.isAIPb = false) : PlumbExt s (F', n') := by
  refine ⟨hn, 0, {featof x}, ?_, by simp, ?_⟩
  · rw [hms, ← Multiset.singleton_add]
    abel
  · intro f hf
    rw [Multiset.mem_singleton.mp hf]
    exact ⟨⟨hpl.1, hpl.2⟩, hxlo, hxhi⟩

theorem plumbExt_drop {s : Fn × Nat} {F' : Fn} {n' : Nat} {x : Instr}
    (hms : featMS s.1 = featof x ::ₘ featMS F')
    (hxlo : s.2 ≤ x.id) (hxhi : x.id < n') (hn : s.2 ≤ n')
    (hpl : x.op.ckind = none ∧ x.op.isAIPb = false) : PlumbExt s (F', n') := by
  refine ⟨hn, {featof x}, 0, ?_, ?_, by simp⟩
  · rw [hms, ← Multiset.singleton_add]
    abel
  · intro f hf
    rw [Multiset.mem_singleton.mp hf]
    exact ⟨⟨hpl.1, hpl.2⟩, hxlo, hxhi⟩

/-- Call counts are invariant under plumbing extension. -/
theorem PlumbExt.callsTo_eq {s s' : Fn × Nat} (h : PlumbExt s s') (t : Nat) :
    callsTo s'.1 t = callsTo s.1 t := by
  obtain ⟨-, dn, up, he, hd, hu⟩ := h
  have hcount : ∀ m : Multiset Feat,
      (∀ f ∈ m, plumb f ∧ s.2 ≤ f.1 ∧ f.1 < s'.2) →
      Multiset.countP (fun f : Feat => f.2.1 = some (CKind.direct t)) m = 0 := by
    intro m hm
    rw [Multiset.countP_eq_zero]
    intro f hf hc
    obtain ⟨⟨h1, -⟩, -, -⟩ := hm f hf
    rw [h1] at hc
    exact Option.noConfusion hc
  have hmain := congrArg
    (Multiset.countP (fun f : Feat => f.2.1 = some (CKind.direct t))) he
  rw [Multiset.countP_add, Multiset.countP_add, hcount dn hd, hcount up hu] at hmain
  have hcalls : ∀ G : Fn, callsTo G t =
      Multiset.countP (fun f : Feat => f.2.1 = some (CKind.direct t)) (featMS G) := by
    intro G
    rw [callsTo_eq_featList G t, featMS_eq_coe, Multiset.coe_countP]
  rw [hcalls, hcalls]
  omega

/-- Counts of features with identifiers below the starting counter are
invariant under plumbing extension. -/
theorem PlumbExt.count_low {s s' : Fn × Nat} (h : PlumbExt s s') (f : Feat)
    (hf : f.1 < s.2) :
    Multiset.count f (featMS s'.1) = Multiset.count f (featMS s.1) := by
  obtain ⟨-, dn, up, he, hd, hu⟩ := h
  have hmain := congrArg (Multiset.count f) he
  rw [Multiset.count_add, Multiset.count_add] at hmain
  have hdn : Multiset.count f dn = 0 := by
    rw [Multiset.count_eq_zero]
    intro hm
    obtain ⟨-, hlo, -⟩ := hd f hm
    omega
  have hup : Multiset.count f up = 0 := by
    rw [Multiset.count_eq_zero]
    intro hm
    obtain ⟨-, hlo, -⟩ := hu f hm
    omega
  omega

/-- The multiset of instruction identifiers, derived from features. -/
theorem instrIds_coe_eq (F : Fn) :
    (F.instrIds : Multiset Nat) = (featMS F).map Prod.fst := by
  rw [featMS_eq_coe, Multiset.map_coe, instrIds_eq_featList]

end MergeCalls

/-! ## Block projections and exact per-block accounting -/

namespace MergeCalls

theorem mapBlock_eq_decomp (F : Fn) (b : Nat) (f : List Instr → List Instr)
    (bs₁ bs₂ : List BB) (hdec : F.blocks = bs₁ ++ (⟨b, F.instrsOf b⟩ : BB) :: bs₂)
    (h1 : ∀ B ∈ bs₁, B.id ≠ b) (h2 : ∀ B ∈ bs₂, B.id ≠ b) :
    F.mapBlock b f = ⟨bs₁ ++ (⟨b, f (F.instrsOf b)⟩ : BB) :: bs₂⟩ := by
  show Fn.mk _ = _
  congr 1
  rw [hdec, List.map_append, List.map_cons]
  have e1 : bs₁.map (fun B => if B.id = b then (⟨B.id, f B.instrs⟩ : BB) else B) = bs₁ := by
    have : bs₁.map (fun B => if B.id = b then (⟨B.id, f B.instrs⟩ : BB) else B) =
        bs₁.map (fun B => B) :=
      List.map_congr_left fun B hB => if_neg (h1 B hB)
    rw [this, List.map_id']
  have e2 : bs₂.map (fun B => if B.id = b then (⟨B.id, f B.instrs⟩ : BB) else B) = bs₂ := by
    have : bs₂.map (fun B => if B.id = b then (⟨B.id, f B.instrs⟩ : BB) else B) =
        bs₂.map (fun B => B) :=
      List.map_congr_left fun B hB => if_neg (h2 B hB)
    rw [this, List.map_id']
  rw [e1, e2, if_pos rfl]

theorem featMS_mk_decomp (bs₁ bs₂ : List BB) (B : BB) :
    featMS ⟨bs₁ ++ B :: bs₂⟩ =
      featMS ⟨bs₁⟩ + (↑(B.instrs.map featof) + featMS ⟨bs₂⟩) := by
  rw [featMS_mk_append, featMS_mk_cons]
  rfl

/-- Exact per-block feature accounting for an arbitrary block edit. -/
theorem featMS_mapBlock_at (F : Fn) (b : Nat) (f : List Instr → List Instr)
    (hbnd : F.blockIds.Nodup) (hb : b ∈ F.blockIds) :
    featMS (F.mapBlock b f) + ↑((F.instrsOf b).map featof) =
      featMS F + ↑((f (F.instrsOf b)).map featof) := by
  obtain ⟨bs₁, bs₂, hdec, h1, h2⟩ := blocks_decomp F b hbnd hb
  have hF : featMS F = featMS ⟨bs₁⟩ +
      (↑((F.instrsOf b).map featof) + featMS ⟨bs₂⟩) := by
    conv_lhs => rw [show F = ⟨F.blocks⟩ from rfl, hdec]
    exact featMS_mk_decomp bs₁ bs₂ _
  rw [mapBlock_eq_decomp F b f bs₁ bs₂ hdec h1 h2, featMS_mk_decomp, hF]
  abel

/-- Projection of a block's instruction list through a uniform per-block
map. -/
theorem instrsOf_mapform (bs : List BB) (g : BB → List Instr) (b : Nat) :
    (Fn.mk (bs.map fun B => ⟨B.id, g B⟩)).instrsOf b =
      ((bs.find? (fun B => B.id = b)).map g).getD [] := by
  unfold Fn.instrsOf
  show ((((bs.map fun B => (⟨B.id, g B⟩ : BB)).find? (fun B => B.id = b)).map BB.instrs)).getD [] = _
  rw [List.find?_map]
  have : ((fun B : BB => decide (B.id = b)) ∘ fun B => (⟨B.id, g B⟩ : BB)) =
      (fun B : BB => decide (B.id = b)) := rfl
  rw [this, Option.map_map]
  cases bs.find? (fun B => B.id = b) <;> rfl

theorem instrsOf_mapBlock_self (F : Fn) (b : Nat) (f : List Instr → List Instr)
    (hbnd : F.blockIds.Nodup) (hb : b ∈ F.blockIds) :
    (F.mapBlock b f).instrsOf b = f (F.instrsOf b) := by
  obtain ⟨bs₁, bs₂, hdec, h1, h2⟩ := blocks_decomp F b hbnd hb
  rw [mapBlock_eq_decomp F b f bs₁ bs₂ hdec h1 h2]
  unfold Fn.instrsOf
  show ((((bs₁ ++ (⟨b, f (F.instrsOf b)⟩ : BB) :: bs₂).find? (fun B => B.id = b)).map BB.instrs)).getD [] = _
  rw [List.find?_append]
  have e1 : bs₁.find? (fun B => B.id = b) = none := by
    rw [List.find?_eq_none]
    intro B hB
    simpa using h1 B hB
  rw [e1, Option.none_or, List.find?_cons_of_pos _ (by simp)]
  rfl

theorem instrsOf_mapBlock_ne (F : Fn) (b b' : Nat) (f : List Instr → List Instr)
    (hne : b' ≠ b) : (F.mapBlock b f).instrsOf b' = F.instrsOf b' := by
  unfold Fn.mapBlock Fn.instrsOf
  show ((((F.blocks.map fun B => if B.id = b then (⟨B.id, f B.instrs⟩ : BB) else B).find?
    (fun B => B.id = b')).map BB.instrs)).getD [] = _
  rw [List.find?_map]
  have hcomp : ((fun B : BB => decide (B.id = b')) ∘
      fun B => if B.id = b then (⟨B.id, f B.instrs⟩ : BB) else B) =
      (fun B : BB => decide (B.id = b')) := by
    funext B
    by_cases h : B.id = b <;> simp [h]
  rw [hcomp]
  cases hfind : F.blocks.find? (fun B => B.id = b') with
  | none => rfl
  | some B =>
      have hBid : B.id = b' := by simpa using List.find?_some hfind
      have : (if B.id = b then (⟨B.id, f B.instrs⟩ : BB) else B) = B := by
        rw [if_neg (by rw [hBid]; exact hne)]
      simp [this]

end MergeCalls

/-! ## GoodIds transport and plumbing facts at fixed identifiers -/

namespace MergeCalls

theorem instrIds_coe_of_cons {F F' : Fn} {x : Instr}
    (hms : featMS F' = featof x ::ₘ featMS F) :
    (F'.instrIds : Multiset Nat) = x.id ::ₘ (F.instrIds : Multiset Nat) := by
  rw [instrIds_coe_eq, instrIds_coe_eq, hms, Multiset.map_cons]
  rfl

theorem instrIds_coe_of_eq {F F' : Fn} (hms : featMS F' = featMS F) :
    (F'.instrIds : Multiset Nat) = (F.instrIds : Multiset Nat) := by
  rw [instrIds_coe_eq, instrIds_coe_eq, hms]

theorem mem_instrIds_iff_coe (F : Fn) (i : Nat) :
    i ∈ F.instrIds ↔ i ∈ (F.instrIds : Multiset Nat) := by
  simp

theorem goodIds_of_cons {s : Fn × Nat} {F' : Fn} {n' : Nat} {x : Instr}
    (hms : featMS F' = featof x ::ₘ featMS s.1) (h : GoodIds s)
    (hblocks : F'.blockIds = s.1.blockIds)
    (hlo : s.2 ≤ x.id) (hhi : x.id < n') (hn : s.2 ≤ n') : GoodIds (F', n') := by
  obtain ⟨hnd, hbnd, hlt⟩ := h
  have hco := instrIds_coe_of_cons hms
  refine ⟨?_, by rw [hblocks]; exact hbnd, ?_⟩
  · rw [← Multiset.coe_nodup, hco, Multiset.nodup_cons]
    refine ⟨?_, Multiset.coe_nodup.mpr hnd⟩
    intro hmem
    have := hlt x.id (Multiset.mem_coe.mp hmem)
    omega
  · intro i hi
    have : i ∈ (F'.instrIds : Multiset Nat) := Multiset.mem_coe.mpr hi
    rw [hco, Multiset.mem_cons] at this
    rcases this with he | hm
    · omega
    · have := hlt i (Multiset.mem_coe.mp hm)
      omega

theorem goodIds_of_eq {s : Fn × Nat} {F' : Fn} {n' : Nat}
    (hms : featMS F' = featMS s.1) (h : GoodIds s)
    (hblocks : F'.blockIds = s.1.blockIds) (hn : s.2 ≤ n') : GoodIds (F', n') := by
  obtain ⟨hnd, hbnd, hlt⟩ := h
  have hco := instrIds_coe_of_eq hms
  refine ⟨?_, by rw [hblocks]; exact hbnd, ?_⟩
  · rw [← Multiset.coe_nodup, hco, Multiset.coe_nodup]
    exact hnd
  · intro i hi
    have : i ∈ (F'.instrIds : Multiset Nat) := Multiset.mem_coe.mpr hi
    rw [hco] at this
    have := hlt i (Multiset.mem_coe.mp this)
    omega

theorem featof_mem (F : Fn) (i : Instr) (hi : i ∈ F.allInstrs) :
    featof i ∈ featMS F := by
  rw [featMS_eq_coe]
  exact Multiset.mem_coe.mpr (List.mem_map_of_mem featof hi)

theorem plumb_at_id {s s' : Fn × Nat} (hpe : PlumbExt s s') (c : Nat)
    (hc : c < s.2)
    (horig : ∀ j ∈ s.1.allInstrs, j.id = c →
      j.op.ckind = none ∧ j.op.isAIPb = false) :
    ∀ i ∈ s'.1.allInstrs, i.id = c →
      i.op.ckind = none ∧ i.op.isAIPb = false := by
  intro i hi hid
  have hmem : featof i ∈ featMS s'.1 := featof_mem s'.1 i hi
  have hlow : (featof i).1 < s.2 := by
    show i.id < s.2
    omega
  have hcount := hpe.count_low (featof i) hlow
  have hpos : 0 < Multiset.count (featof i) (featMS s.1) := by
    rw [← hcount]
    exact Multiset.count_pos.mpr hmem
  have hmem0 : featof i ∈ featMS s.1 := Multiset.count_pos.mp hpos
  rw [featMS_eq_coe] at hmem0
  obtain ⟨j, hj, hfeq⟩ := List.mem_map.mp (Multiset.mem_coe.mp hmem0)
  have hjid : j.id = c := by
    have : (featof j).1 = (featof i).1 := by rw [hfeq]
    exact hid ▸ this
  obtain ⟨hck, hab⟩ := horig j hj hjid
  constructor
  · have : (featof j).2.1 = (featof i).2.1 := by rw [hfeq]
    simp only [featof] at this
    rw [← this, hck]
  · have : (featof j).2.2 = (featof i).2.2 := by rw [hfeq]
    simp only [featof] at this
    rw [← this, hab]

end MergeCalls

/-! ## The demotion primitive is plumbing -/

namespace MergeCalls

theorem isPhi_plumb (o : Op) (h : o.isPhi = true) :
    o.ckind = none ∧ o.isAIPb = false := by
  cases o <;> simp [Op.isPhi, Op.ckind, Op.isAIPb] at h ⊢

theorem step_insertBefore_plumb (s : Fn × Nat) (t : Nat) (op : Op)
    (hpl : op.ckind = none ∧ op.isAIPb = false) (h : GoodIds s) :
    PlumbExt s (s.1.insertBefore t ⟨s.2, op⟩, s.2 + 1) ∧
      GoodIds (s.1.insertBefore t ⟨s.2, op⟩, s.2 + 1) ∧
      (s.1.insertBefore t ⟨s.2, op⟩).blockIds = s.1.blockIds := by
  by_cases hm : t ∈ s.1.instrIds
  · have hms := featMS_insertBefore s.1 t ⟨s.2, op⟩ h.1 hm
    exact ⟨plumbExt_cons hms (le_refl _) (Nat.lt_succ_self _) (Nat.le_succ _) hpl,
      goodIds_of_cons hms h (blockIds_insertBefore s.1 t _) (le_refl _)
        (Nat.lt_succ_self _) (Nat.le_succ _),
      blockIds_insertBefore s.1 t _⟩
  · rw [insertBefore_not_mem s.1 t _ hm]
    exact ⟨plumbExt_of_featMS_eq rfl (Nat.le_succ _),
      goodIds_of_eq rfl h rfl (Nat.le_succ _), rfl⟩

theorem step_insertAfterInstr_plumb (s : Fn × Nat) (t : Nat) (op : Op)
    (hpl : op.ckind = none ∧ op.isAIPb = false) (h : GoodIds s) :
    PlumbExt s (s.1.insertAfterInstr t ⟨s.2, op⟩, s.2 + 1) ∧
      GoodIds (s.1.insertAfterInstr t ⟨s.2, op⟩, s.2 + 1) ∧
      (s.1.insertAfterInstr t ⟨s.2, op⟩).blockIds = s.1.blockIds := by
  by_cases hm : t ∈ s.1.instrIds
  · have hms := featMS_insertAfterInstr s.1 t ⟨s.2, op⟩ h.1 hm
    exact ⟨plumbExt_cons hms (le_refl _) (Nat.lt_succ_self _) (Nat.le_succ _) hpl,
      goodIds_of_cons hms h (blockIds_insertAfterInstr s.1 t _) (le_refl _)
        (Nat.lt_succ_self _) (Nat.le_succ _),
      blockIds_insertAfterInstr s.1 t _⟩
  · rw [insertAfterInstr_not_mem s.1 t _ hm]
    exact ⟨plumbExt_of_featMS_eq rfl (Nat.le_succ _),
      goodIds_of_eq rfl h rfl (Nat.le_succ _), rfl⟩

theorem step_insertBeforeTerm_plumb (s : Fn × Nat) (b : Nat) (op : Op)
    (hpl : op.ckind = none ∧ op.isAIPb = false) (h : GoodIds s) :
    PlumbExt s (s.1.insertBeforeTerm b ⟨s.2, op⟩, s.2 + 1) ∧
      GoodIds (s.1.insertBeforeTerm b ⟨s.2, op⟩, s.2 + 1) ∧
      (s.1.insertBeforeTerm b ⟨s.2, op⟩).blockIds = s.1.blockIds := by
  by_cases hm : b ∈ s.1.blockIds
  · have hms : featMS (s.1.insertBeforeTerm b ⟨s.2, op⟩) =
        featof ⟨s.2, op⟩ ::ₘ featMS s.1 :=
      featMS_mapBlock s.1 b _ ⟨s.2, op⟩ h.2.1 hm (fun l => perm_insertBeforeLast l _)
    exact ⟨plumbExt_cons hms (le_refl _) (Nat.lt_succ_self _) (Nat.le_succ _) hpl,
      goodIds_of_cons hms h (blockIds_mapBlock s.1 b _) (le_refl _)
        (Nat.lt_succ_self _) (Nat.le_succ _),
      blockIds_mapBlock s.1 b _⟩
  · rw [Fn.insertBeforeTerm, mapBlock_not_mem s.1 b _ hm]
    exact ⟨plumbExt_of_featMS_eq rfl (Nat.le_succ _),
      goodIds_of_eq rfl h rfl (Nat.le_succ _), rfl⟩

theorem demotePhiPair_fold_good (d slot : Nat) (pairs : List (Val × Nat))
    (s : Fn × Nat) (acc : List (Val × Nat)) (h : GoodIds s) :
    PlumbExt s (pairs.foldl (demotePhiPair d slot) (s, acc)).1 ∧
      GoodIds (pairs.foldl (demotePhiPair d slot) (s, acc)).1 ∧
      ((pairs.foldl (demotePhiPair d slot) (s, acc)).1).1.blockIds =
        s.1.blockIds := by
  induction pairs generalizing s acc with
  | nil => exact ⟨plumbExt_refl s, h, rfl⟩
  | cons p ps ih =>
      simp only [List.foldl_cons]
      by_cases hp : p.1 = Val.reg d
      · have heq : demotePhiPair d slot (s, acc) p =
            ((s.1.insertBeforeTerm p.2 ⟨s.2, .load (Val.reg slot)⟩, s.2 + 1),
              acc ++ [(Val.reg s.2, p.2)]) := by
          simp [demotePhiPair, hp]
        rw [heq]
        obtain ⟨hpe, hgood, hbl⟩ :=
          step_insertBeforeTerm_plumb s p.2 (.load (Val.reg slot)) ⟨rfl, rfl⟩ h
        obtain ⟨hpe2, hgood2, hbl2⟩ := ih _ _ hgood
        exact ⟨plumbExt_trans hpe hpe2, hgood2, by rw [hbl2]; exact hbl⟩
      · have heq : demotePhiPair d slot (s, acc) p = (s, acc ++ [p]) := by
          simp [demotePhiPair, hp]
        rw [heq]
        exact ih s _ h

theorem demoteUser_nonphi_eq (d slot : Nat) (s : Fn × Nat) (uid : Nat) (op : Op)
    (hne : op.isPhi = false) :
    demoteUser d slot s ⟨uid, op⟩ =
      ((s.1.insertBefore uid ⟨s.2, .load (Val.reg slot)⟩).substInInstr uid
        (Val.reg d) (Val.reg s.2), s.2 + 1) := by
  cases op <;> first
    | rfl
    | simp [Op.isPhi] at hne

theorem demoteUser_good (d slot : Nat) (s : Fn × Nat) (u : Instr)
    (h : GoodIds s) (hult : u.id < s.2)
    (hphi : u.op.isPhi = true → ∀ j ∈ s.1.allInstrs, j.id = u.id →
      j.op.ckind = none ∧ j.op.isAIPb = false) :
    PlumbExt s (demoteUser d slot s u) ∧ GoodIds (demoteUser d slot s u) ∧
      (demoteUser d slot s u).1.blockIds = s.1.blockIds := by
  obtain ⟨uid, uop⟩ := u
  by_cases hup : uop.isPhi = true
  · obtain ⟨pairs, rfl⟩ : ∃ ps, uop = Op.phi ps := by
      cases uop <;> simp [Op.isPhi] at hup ⊢
    have heq : demoteUser d slot s ⟨uid, Op.phi pairs⟩ =
        (Fn.setOp (pairs.foldl (demotePhiPair d slot) (s, [])).1.1 uid
          (.phi (pairs.foldl (demotePhiPair d slot) (s, [])).2),
         (pairs.foldl (demotePhiPair d slot) (s, [])).1.2) := rfl
    rw [heq]
    obtain ⟨hpe, hgood, hbl⟩ := demotePhiPair_fold_good d slot pairs s [] h
    have hcur := plumb_at_id hpe uid hult (by
      intro j hj hjid
      exact hphi rfl j hj hjid)
    have hms : featMS (Fn.setOp (pairs.foldl (demotePhiPair d slot) (s, [])).1.1 uid
        (.phi (pairs.foldl (demotePhiPair d slot) (s, [])).2)) =
        featMS (pairs.foldl (demotePhiPair d slot) (s, [])).1.1 :=
      featMS_setOp_phi _ uid _ hcur
    refine ⟨plumbExt_trans hpe (plumbExt_of_featMS_eq ?_ (le_refl _)), ?_, ?_⟩
    · exact hms
    · exact goodIds_of_eq hms hgood (blockIds_setOp _ uid _) (le_refl _)
    · rw [blockIds_setOp]
      exact hbl
  · rw [demoteUser_nonphi_eq d slot s uid uop (by simpa using hup)]
    obtain ⟨hpe, hgood, hbl⟩ :=
      step_insertBefore_plumb s uid (.load (Val.reg slot)) ⟨rfl, rfl⟩ h
    have hms := featMS_substInInstr
      (s.1.insertBefore uid ⟨s.2, .load (Val.reg slot)⟩) uid d s.2
    refine ⟨plumbExt_trans hpe (plumbExt_of_featMS_eq hms (le_refl _)), ?_, ?_⟩
    · exact goodIds_of_eq hms hgood (blockIds_substInInstr _ uid _ _) (le_refl _)
    · rw [blockIds_substInInstr]
      exact hbl

theorem demoteUser_fold_good (d slot : Nat) (users : List Instr) (s : Fn × Nat)
    (h : GoodIds s)
    (hus : ∀ u ∈ users, u.id < s.2 ∧
      (u.op.isPhi = true → ∀ j ∈ s.1.allInstrs, j.id = u.id →
        j.op.ckind = none ∧ j.op.isAIPb = false)) :
    PlumbExt s (users.foldl (demoteUser d slot) s) ∧
      GoodIds (users.foldl (demoteUser d slot) s) ∧
      (users.foldl (demoteUser d slot) s).1.blockIds = s.1.blockIds := by
  induction users generalizing s with
  | nil => exact ⟨plumbExt_refl s, h, rfl⟩
  | cons u rest ih =>
      simp only [List.foldl_cons]
      obtain ⟨hid, hphi⟩ := hus u (List.mem_cons_self u rest)
      obtain ⟨hpe1, hg1, hb1⟩ := demoteUser_good d slot s u h hid hphi
      have hrest : ∀ u' ∈ rest, u'.id < (demoteUser d slot s u).2 ∧
          (u'.op.isPhi = true → ∀ j ∈ (demoteUser d slot s u).1.allInstrs,
            j.id = u'.id → j.op.ckind = none ∧ j.op.isAIPb = false) := by
        intro u' hu'
        obtain ⟨hid', hphi'⟩ := hus u' (List.mem_cons_of_mem u hu')
        exact ⟨lt_of_lt_of_le hid' hpe1.1,
          fun hp => plumb_at_id hpe1 u'.id hid' (hphi' hp)⟩
      obtain ⟨hpe2, hg2, hb2⟩ := ih _ hg1 hrest
      exact ⟨plumbExt_trans hpe1 hpe2, hg2, by rw [hb2]; exact hb1⟩

theorem usersOf_facts (F : Fn) (d : Nat) (hnd : F.instrIds.Nodup) (n : Nat)
    (hlt : ∀ i ∈ F.instrIds, i < n) :
    ∀ u ∈ usersOf F d, u.id < n ∧
      (u.op.isPhi = true → ∀ j ∈ F.allInstrs, j.id = u.id →
        j.op.ckind = none ∧ j.op.isAIPb = false) := by
  intro u hu
  have humem : u ∈ F.allInstrs := List.mem_of_mem_filter hu
  refine ⟨hlt u.id (List.mem_map_of_mem Instr.id humem), fun hp j hj hjid => ?_⟩
  have : j = u := List.inj_on_of_nodup_map hnd hj humem hjid
  rw [this]
  exact isPhi_plumb u.op hp

theorem demoteReg_good (aip : Nat) (s : Fn × Nat) (d : Nat) (h : GoodIds s) :
    PlumbExt s (demoteReg aip s d) ∧ GoodIds (demoteReg aip s d) ∧
      (demoteReg aip s d).1.blockIds = s.1.blockIds := by
  obtain ⟨hpeA, hgA, hbA⟩ := step_insertBefore_plumb s aip .alloca ⟨rfl, rfl⟩ h
  have husers := usersOf_facts (s.1.insertBefore aip ⟨s.2, .alloca⟩) d hgA.1
    (s.2 + 1) hgA.2.2
  obtain ⟨hpeB, hgB, hbB⟩ := demoteUser_fold_good d s.2
    (usersOf (s.1.insertBefore aip ⟨s.2, .alloca⟩) d)
    (s.1.insertBefore aip ⟨s.2, .alloca⟩, s.2 + 1) hgA husers
  obtain ⟨hpeC, hgC, hbC⟩ := step_insertAfterInstr_plumb
    ((usersOf (s.1.insertBefore aip ⟨s.2, .alloca⟩) d).foldl (demoteUser d s.2)
      (s.1.insertBefore aip ⟨s.2, .alloca⟩, s.2 + 1)) d
    (.store (Val.reg d) (Val.reg s.2)) ⟨rfl, rfl⟩ hgB
  have hfinal : demoteReg aip s d =
      (((usersOf (s.1.insertBefore aip ⟨s.2, .alloca⟩) d).foldl (demoteUser d s.2)
        (s.1.insertBefore aip ⟨s.2, .alloca⟩, s.2 + 1)).1.insertAfterInstr d
        ⟨((usersOf (s.1.insertBefore aip ⟨s.2, .alloca⟩) d).foldl (demoteUser d s.2)
          (s.1.insertBefore aip ⟨s.2, .alloca⟩, s.2 + 1)).2,
          .store (Val.reg d) (Val.reg s.2)⟩,
       ((usersOf (s.1.insertBefore aip ⟨s.2, .alloca⟩) d).foldl (demoteUser d s.2)
          (s.1.insertBefore aip ⟨s.2, .alloca⟩, s.2 + 1)).2 + 1) := rfl
  rw [hfinal]
  exact ⟨plumbExt_trans hpeA (plumbExt_trans hpeB hpeC), hgC,
    by rw [hbC, hbB]; exact hbA⟩

theorem demoteReg_fold_good (aip : Nat) (ds : List Nat) (s : Fn × Nat)
    (h : GoodIds s) :
    PlumbExt s (ds.foldl (demoteReg aip) s) ∧
      GoodIds (ds.foldl (demoteReg aip) s) ∧
      (ds.foldl (demoteReg aip) s).1.blockIds = s.1.blockIds := by
  induction ds generalizing s with
  | nil => exact ⟨plumbExt_refl s, h, rfl⟩
  | cons x rest ih =>
      simp only [List.foldl_cons]
      obtain ⟨hpe1, hg1, hb1⟩ := demoteReg_good aip s x h
      obtain ⟨hpe2, hg2, hb2⟩ := ih _ hg1
      exact ⟨plumbExt_trans hpe1 hpe2, hg2, by rw [hb2]; exact hb1⟩

end MergeCalls

/-! ## Operand bounds through the primitives -/

namespace MergeCalls

theorem regLtB_mono {v : Val} {n n' : Nat} (h : regLtB v n = true) (hle : n ≤ n') :
    regLtB v n' = true := by
  cases v <;> simp [regLtB] at h ⊢ <;> omega

theorem substVal_cases (a b v : Val) : substVal a b v = v ∨ substVal a b v = b := by
  unfold substVal
  by_cases h : v = a <;> simp [h]

theorem operands_subst_sub (a b : Val) (o : Op) (v : Val)
    (hv : v ∈ (o.subst a b).operands) : v ∈ o.operands ∨ v = b := by
  cases o with
  | call ce args =>
      cases ce with
      | asm =>
          simp only [Op.subst, Callee.subst, Op.operands, List.nil_append,
            List.mem_map] at hv ⊢
          obtain ⟨w, hw, hwv⟩ := hv
          rcases substVal_cases a b w with h | h
          · left; rw [← hwv, h]; exact hw
          · right; rw [← hwv, h]
      | direct f =>
          simp only [Op.subst, Callee.subst, Op.operands, List.nil_append,
            List.mem_map] at hv ⊢
          obtain ⟨w, hw, hwv⟩ := hv
          rcases substVal_cases a b w with h | h
          · left; rw [← hwv, h]; exact hw
          · right; rw [← hwv, h]
      | indirect w =>
          simp only [Op.subst, Callee.subst, Op.operands, List.cons_append,
            List.nil_append, List.mem_cons, List.mem_map] at hv ⊢
          rcases hv with hv | hv
          · rcases substVal_cases a b w with h | h
            · left; left; rw [hv, h]
            · right; rw [hv, h]
          · obtain ⟨y, hy, hyv⟩ := hv
            rcases substVal_cases a b y with h | h
            · left; right; rw [← hyv, h]; exact hy
            · right; rw [← hyv, h]
  | phi pairs =>
      simp only [Op.subst, Op.operands, List.map_map, List.mem_map,
        Function.comp] at hv ⊢
      obtain ⟨q, hq, hqv⟩ := hv
      rcases substVal_cases a b q.1 with h | h
      · left; exact ⟨q, hq, by rw [← hqv, h]⟩
      · right; rw [← hqv, h]
  | br d => simp [Op.subst, Op.operands] at hv
  | switch c dflt cl =>
      simp only [Op.subst, Op.operands, List.mem_singleton] at hv ⊢
      rcases substVal_cases a b c with h | h
      · left; rw [hv, h]
      · right; rw [hv, h]
  | bitcast w nm =>
      simp only [Op.subst, Op.operands, List.mem_singleton] at hv ⊢
      rcases substVal_cases a b w with h | h
      · left; rw [hv, h]
      · right; rw [hv, h]
  | alloca => simp [Op.subst, Op.operands] at hv
  | store w sl =>
      simp only [Op.subst, Op.operands, List.mem_cons, List.mem_singleton,
        List.not_mem_nil, or_false] at hv ⊢
      rcases hv with hv | hv
      · rcases substVal_cases a b w with h | h
        · left; left; rw [hv, h]
        · right; rw [hv, h]
      · rcases substVal_cases a b sl with h | h
        · left; right; rw [hv, h]
        · right; rw [hv, h]
  | load sl =>
      simp only [Op.subst, Op.operands, List.mem_singleton] at hv ⊢
      rcases substVal_cases a b sl with h | h
      · left; rw [hv, h]
      · right; rw [hv, h]
  | ret w =>
      cases w with
      | none => simp [Op.subst, Op.operands] at hv
      | some w0 =>
          simp [Op.subst, Op.operands, Option.toList] at hv ⊢
          rcases substVal_cases a b w0 with h | h
          · left; rw [hv, h]
          · right; rw [hv, h]
  | other os =>
      simp only [Op.subst, Op.operands, List.mem_map] at hv ⊢
      obtain ⟨w, hw, hwv⟩ := hv
      rcases substVal_cases a b w with h | h
      · left; rw [← hwv, h]; exact hw
      · right; rw [← hwv, h]

end MergeCalls

/-! ## Membership through the primitives -/

namespace MergeCalls

theorem allInstrs_instrMapped (bs : List BB) (g : Instr → Instr) :
    (Fn.mk (bs.map fun B => ⟨B.id, B.instrs.map g⟩)).allInstrs =
      (Fn.mk bs).allInstrs.map g := by
  simp [Fn.allInstrs, List.flatMap_map, List.map_flatMap]

theorem mem_allInstrs_blockwise (bs : List BB) (e : BB → BB) (u : Instr)
    (hu : u ∈ (Fn.mk (bs.map e)).allInstrs) : ∃ B ∈ bs, u ∈ (e B).instrs := by
  unfold Fn.allInstrs at hu
  rw [List.flatMap_map] at hu
  exact List.mem_flatMap.mp hu

theorem mem_of_mem_allInstrs (bs : List BB) (B : BB) (hB : B ∈ bs) (u : Instr)
    (hu : u ∈ B.instrs) : u ∈ (Fn.mk bs).allInstrs :=
  List.mem_flatMap.mpr ⟨B, hB, hu⟩

theorem mem_instrsOf_allInstrs (F : Fn) (b : Nat) (y : Instr)
    (hy : y ∈ F.instrsOf b) : y ∈ F.allInstrs := by
  unfold Fn.instrsOf at hy
  cases hfind : F.blocks.find? (fun B => B.id = b) with
  | none => rw [hfind] at hy; simp at hy
  | some B =>
      rw [hfind] at hy
      exact List.mem_flatMap.mpr ⟨B, List.mem_of_find?_eq_some hfind, hy⟩

theorem mem_insertPastPhis (l : List Instr) (x y : Instr)
    (hy : y ∈ insertPastPhis l x) : y ∈ l ∨ y = x := by
  induction l with
  | nil => simp [insertPastPhis] at hy; right; exact hy
  | cons z zs ih =>
      unfold insertPastPhis at hy
      by_cases hp : z.op.isPhi
      · rw [if_pos hp] at hy
        rcases List.mem_cons.mp hy with h | h
        · left; exact List.mem_cons.mpr (Or.inl h)
        · rcases ih h with h2 | h2
          · left; exact List.mem_cons.mpr (Or.inr h2)
          · right; exact h2
      · rw [if_neg hp] at hy
        rcases List.mem_cons.mp hy with h | h
        · right; exact h
        · left; exact h
  
theorem mem_insertBeforeIn (l : List Instr) (t : Nat) (x y : Instr)
    (hy : y ∈ insertBeforeIn l t x) : y ∈ l ∨ y = x := by
  induction l with
  | nil => simp [insertBeforeIn] at hy
  | cons z zs ih =>
      unfold insertBeforeIn at hy
      by_cases he : z.id = t
      · rw [if_pos he] at hy
        rcases List.mem_cons.mp hy with h | h
        · right; exact h
        · left; exact h
      · rw [if_neg he] at hy
        rcases List.mem_cons.mp hy with h | h
        · left; exact List.mem_cons.mpr (Or.inl h)
        · rcases ih h with h2 | h2
          · left; exact List.mem_cons.mpr (Or.inr h2)
          · right; exact h2

theorem mem_insertAfterIn (l : List Instr) (t : Nat) (x y : Instr)
    (hy : y ∈ insertAfterIn l t x) : y ∈ l ∨ y = x := by
  induction l with
  | nil => simp [insertAfterIn] at hy
  | cons z zs ih =>
      unfold insertAfterIn at hy
      by_cases he : z.id = t
      · rw [if_pos he] at hy
        rcases List.mem_cons.mp hy with h | h
        · left; exact List.mem_cons.mpr (Or.inl h)
        · rcases mem_insertPastPhis zs x y h with h2 | h2
          · left; exact List.mem_cons.mpr (Or.inr h2)
          · right; exact h2
      · rw [if_neg he] at hy
        rcases List.mem_cons.mp hy with h | h
        · left; exact List.mem_cons.mpr (Or.inl h)
        · rcases ih h with h2 | h2
          · left; exact List.mem_cons.mpr (Or.inr h2)
          · right; exact h2

theorem mem_insertBeforeLast (l : List Instr) (x y : Instr)
    (hy : y ∈ insertBeforeLast l x) : y ∈ l ∨ y = x := by
  induction l with
  | nil => simp [insertBeforeLast] at hy; right; exact hy
  | cons z zs ih =>
      cases zs with
      | nil =>
          unfold insertBeforeLast at hy
          rcases List.mem_cons.mp hy with h | h
          · right; exact h
          · left; exact h
      | cons w ws =>
          rw [show insertBeforeLast (z :: w :: ws) x =
            z :: insertBeforeLast (w :: ws) x from rfl] at hy
          rcases List.mem_cons.mp hy with h | h
          · left; exact List.mem_cons.mpr (Or.inl h)
          · rcases ih h with h2 | h2
            · left; exact List.mem_cons.mpr (Or.inr h2)
            · right; exact h2

theorem mem_insertAfterLeadingAllocas (l : List Instr) (x y : Instr)
    (hy : y ∈ insertAfterLeadingAllocas l x) : y ∈ l ∨ y = x := by
  induction l with
  | nil => simp [insertAfterLeadingAllocas] at hy; right; exact hy
  | cons z zs ih =>
      unfold insertAfterLeadingAllocas at hy
      by_cases ha : z.op.isAlloca
      · rw [if_pos ha] at hy
        rcases List.mem_cons.mp hy with h | h
        · left; exact List.mem_cons.mpr (Or.inl h)
        · rcases ih h with h2 | h2
          · left; exact List.mem_cons.mpr (Or.inr h2)
          · right; exact h2
      · rw [if_neg ha] at hy
        rcases List.mem_cons.mp hy with h | h
        · right; exact h
        · left; exact h

theorem mem_dropSecondLast (l : List Instr) (y : Instr)
    (hy : y ∈ dropSecondLast l) : y ∈ l := by
  induction l with
  | nil => simpa [dropSecondLast] using hy
  | cons z zs ih =>
      cases zs with
      | nil => simpa [dropSecondLast] using hy
      | cons w ws =>
          cases ws with
          | nil =>
              rw [show dropSecondLast [z, w] = [w] from rfl] at hy
              rcases List.mem_cons.mp hy with h | h
              · exact List.mem_cons.mpr (Or.inr (List.mem_cons.mpr (Or.inl h)))
              · simp at h
          | cons q qs =>
              rw [show dropSecondLast (z :: w :: q :: qs) =
                z :: dropSecondLast (w :: q :: qs) from rfl] at hy
              rcases List.mem_cons.mp hy with h | h
              · exact List.mem_cons.mpr (Or.inl h)
              · exact List.mem_cons.mpr (Or.inr (ih h))

end MergeCalls

/-! ## Operand-bound preservation -/

namespace MergeCalls

theorem opBound_mono {F : Fn} {n n' : Nat} (h : OpBound F n) (hle : n ≤ n') :
    OpBound F n' :=
  fun u hu v hv => regLtB_mono (h u hu v hv) hle

theorem opBound_rauw (F : Fn) (a b : Val) (n : Nat) (h : OpBound F n)
    (hb : regLtB b n = true) : OpBound (F.rauw a b) n := by
  intro u hu v hv
  obtain ⟨w, hw, rfl⟩ := List.mem_map.mp
    ((allInstrs_instrMapped F.blocks (substInstr a b)) ▸ hu)
  rcases operands_subst_sub a b w.op v hv with h1 | h1
  · exact h w hw v h1
  · rw [h1]; exact hb

theorem opBound_substInInstr (F : Fn) (t : Nat) (a b : Val) (n : Nat)
    (h : OpBound F n) (hb : regLtB b n = true) :
    OpBound (F.substInInstr t a b) n := by
  intro u hu v hv
  obtain ⟨w, hw, rfl⟩ := List.mem_map.mp
    ((allInstrs_instrMapped F.blocks
      (fun i => if i.id = t then substInstr a b i else i)) ▸ hu)
  by_cases he : w.id = t
  · rw [if_pos he] at hv
    rcases operands_subst_sub a b w.op v hv with h1 | h1
    · exact h w hw v h1
    · rw [h1]; exact hb
  · rw [if_neg he] at hv
    exact h w hw v hv

theorem opBound_setOp (F : Fn) (t : Nat) (o : Op) (n : Nat)
    (h : OpBound F n) (ho : ∀ v ∈ o.operands, regLtB v n = true) :
    OpBound (F.setOp t o) n := by
  intro u hu v hv
  obtain ⟨w, hw, rfl⟩ := List.mem_map.mp
    ((allInstrs_instrMapped F.blocks
      (fun i => if i.id = t then ⟨i.id, o⟩ else i)) ▸ hu)
  by_cases he : w.id = t
  · rw [if_pos he] at hv
    exact ho v hv
  · rw [if_neg he] at hv
    exact h w hw v hv

theorem operands_retargetInstr (i : Instr) (o n : Nat) :
    (match i.op with
      | .phi pairs =>
          (⟨i.id, .phi (pairs.map fun p : Val × Nat =>
            if p.2 = o then (p.1, n) else p)⟩ : Instr)
      | _ => i).op.operands = i.op.operands := by
  obtain ⟨j, op⟩ := i
  cases op <;> simp [Op.operands, List.map_map]
  case phi pairs =>
    intro a b _
    by_cases hp : b = o <;> simp [hp]

theorem opBound_retargetPhis (F : Fn) (ib : List Nat) (o n' : Nat) (bnd : Nat)
    (h : OpBound F bnd) : OpBound (retargetPhis F ib o n') bnd := by
  intro u hu v hv
  obtain ⟨B, hB, hu2⟩ := mem_allInstrs_blockwise F.blocks _ u hu
  by_cases hbm : ib.contains B.id = true
  · rw [if_pos hbm] at hu2
    obtain ⟨w, hw, rfl⟩ := List.mem_map.mp hu2
    rw [operands_retargetInstr w o n'] at hv
    exact h w (mem_of_mem_allInstrs F.blocks B hB w hw) v hv
  · rw [if_neg hbm] at hu2
    exact h u (mem_of_mem_allInstrs F.blocks B hB u hu2) v hv

theorem opBound_insertBefore (F : Fn) (t : Nat) (x : Instr) (n : Nat)
    (h : OpBound F n) (hx : ∀ v ∈ x.op.operands, regLtB v n = true) :
    OpBound (F.insertBefore t x) n := by
  intro u hu v hv
  obtain ⟨B, hB, hu2⟩ := mem_allInstrs_blockwise F.blocks _ u hu
  rcases mem_insertBeforeIn B.instrs t x u hu2 with h1 | h1
  · exact h u (mem_of_mem_allInstrs F.blocks B hB u h1) v hv
  · rw [h1] at hv; exact hx v hv

theorem opBound_insertAfterInstr (F : Fn) (t : Nat) (x : Instr) (n : Nat)
    (h : OpBound F n) (hx : ∀ v ∈ x.op.operands, regLtB v n = true) :
    OpBound (F.insertAfterInstr t x) n := by
  intro u hu v hv
  obtain ⟨B, hB, hu2⟩ := mem_allInstrs_blockwise F.blocks _ u hu
  rcases mem_insertAfterIn B.instrs t x u hu2 with h1 | h1
  · exact h u (mem_of_mem_allInstrs F.blocks B hB u h1) v hv
  · rw [h1] at hv; exact hx v hv

theorem opBound_mapBlock (F : Fn) (b : Nat) (f : List Instr → List Instr)
    (x : Instr) (n : Nat) (h : OpBound F n)
    (hx : ∀ v ∈ x.op.operands, regLtB v n = true)
    (hf : ∀ l y, y ∈ f l → y ∈ l ∨ y = x) :
    OpBound (F.mapBlock b f) n := by
  intro u hu v hv
  obtain ⟨B, hB, hu2⟩ := mem_allInstrs_blockwise F.blocks _ u hu
  by_cases he : B.id = b
  · rw [if_pos he] at hu2
    rcases hf B.instrs u hu2 with h1 | h1
    · exact h u (mem_of_mem_allInstrs F.blocks B hB u h1) v hv
    · rw [h1] at hv; exact hx v hv
  · rw [if_neg he] at hu2
    exact h u (mem_of_mem_allInstrs F.blocks B hB u hu2) v hv

theorem opBound_eraseInstr (F : Fn) (c : Nat) (n : Nat) (h : OpBound F n) :
    OpBound (F.eraseInstr c) n := by
  intro u hu v hv
  obtain ⟨B, hB, hu2⟩ := mem_allInstrs_blockwise F.blocks _ u hu
  exact h u (mem_of_mem_allInstrs F.blocks B hB u (List.mem_of_mem_filter hu2)) v hv

theorem opBound_insertAIP (F : Fn) (x : Instr) (n : Nat) (h : OpBound F n)
    (hx : ∀ v ∈ x.op.operands, regLtB v n = true) :
    OpBound (F.insertAIP x) n := by
  intro u hu v hv
  obtain ⟨bs⟩ := F
  cases bs with
  | nil => exact h u hu v hv
  | cons B rest =>
      rw [show (Fn.mk (B :: rest)).insertAIP x =
        ⟨(⟨B.id, insertAfterLeadingAllocas B.instrs x⟩ : BB) :: rest⟩ from rfl,
        allInstrs_cons] at hu
      rcases List.mem_append.mp hu with h1 | h1
      · rcases mem_insertAfterLeadingAllocas B.instrs x u h1 with h2 | h2
        · exact h u (mem_of_mem_allInstrs (B :: rest) B
            (List.mem_cons_self B rest) u h2) v hv
        · rw [h2] at hv; exact hx v hv
      · have : u ∈ (Fn.mk (B :: rest)).allInstrs := by
          rw [allInstrs_cons]
          exact List.mem_append.mpr (Or.inr h1)
        exact h u this v hv

theorem opBound_moveToBlockStart (F : Fn) (c b : Nat) (n : Nat)
    (h : OpBound F n) : OpBound (F.moveToBlockStart c b) n := by
  unfold Fn.moveToBlockStart
  cases hf : F.findInstr c with
  | none => exact h
  | some i =>
      have hi : i ∈ F.allInstrs := List.mem_of_find?_eq_some hf
      exact opBound_mapBlock _ b _ i n (opBound_eraseInstr F c n h)
        (fun v hv => h i hi v hv)
        (fun l y hy => mem_insertPastPhis l i y hy)

theorem opBound_splitBlock (F : Fn) (b c newId brId : Nat) (n : Nat)
    (h : OpBound F n) : OpBound (F.splitBlock b c newId brId) n := by
  refine opBound_retargetPhis _ _ _ _ n ?_
  intro u hu v hv
  obtain ⟨B', hB', humem⟩ := List.mem_flatMap.mp hu
  obtain ⟨B, hB, hB'mem⟩ := List.mem_flatMap.mp hB'
  by_cases he : B.id = b
  · rw [if_pos he] at hB'mem
    simp only [List.mem_cons, List.not_mem_nil, or_false] at hB'mem
    rcases hB'mem with hm | hm
    · rw [hm] at humem
      rcases List.mem_append.mp humem with h1 | h1
      · exact h u (mem_instrsOf_allInstrs F b u (List.mem_of_mem_take h1)) v hv
      · rw [List.mem_singleton.mp h1] at hv
        simp [Op.operands] at hv
    · rw [hm] at humem
      exact h u (mem_instrsOf_allInstrs F b u (List.mem_of_mem_drop humem)) v hv
  · rw [if_neg he] at hB'mem
    rw [List.mem_singleton.mp hB'mem] at humem
    exact h u (mem_of_mem_allInstrs F.blocks B hB u humem) v hv

end MergeCalls

/-! ## Operand bounds through demotion -/

namespace MergeCalls

theorem demotePhiPair_fold_opBound (d slot : Nat) (pairs : List (Val × Nat))
    (s : Fn × Nat) (acc : List (Val × Nat))
    (h : OpBound s.1 s.2) (hslot : slot < s.2)
    (hpairs : ∀ q ∈ pairs, regLtB q.1 s.2 = true)
    (hacc : ∀ q ∈ acc, regLtB q.1 s.2 = true) :
    OpBound (pairs.foldl (demotePhiPair d slot) (s, acc)).1.1
        (pairs.foldl (demotePhiPair d slot) (s, acc)).1.2 ∧
      slot < (pairs.foldl (demotePhiPair d slot) (s, acc)).1.2 ∧
      s.2 ≤ (pairs.foldl (demotePhiPair d slot) (s, acc)).1.2 ∧
      (∀ q ∈ (pairs.foldl (demotePhiPair d slot) (s, acc)).2,
        regLtB q.1 (pairs.foldl (demotePhiPair d slot) (s, acc)).1.2 = true) := by
  induction pairs generalizing s acc with
  | nil => exact ⟨h, hslot, le_refl _, hacc⟩
  | cons p ps ih =>
      simp only [List.foldl_cons]
      by_cases hp : p.1 = Val.reg d
      · have heq : demotePhiPair d slot (s, acc) p =
            ((s.1.insertBeforeTerm p.2 ⟨s.2, .load (Val.reg slot)⟩, s.2 + 1),
              acc ++ [(Val.reg s.2, p.2)]) := by
          simp [demotePhiPair, hp]
        rw [heq]
        have hload : ∀ v ∈ (Op.load (Val.reg slot)).operands,
            regLtB v (s.2 + 1) = true := by
          intro v hv
          simp only [Op.operands, List.mem_singleton] at hv
          rw [hv]
          simp [regLtB]
          omega
        have h' : OpBound (s.1.insertBeforeTerm p.2 ⟨s.2, .load (Val.reg slot)⟩)
            (s.2 + 1) := by
          refine opBound_mapBlock s.1 p.2 _ ⟨s.2, .load (Val.reg slot)⟩ (s.2 + 1)
            (opBound_mono h (Nat.le_succ _)) hload ?_
          intro l y hy
          exact mem_insertBeforeLast l _ y hy
        have hps' : ∀ q ∈ ps, regLtB q.1 (s.2 + 1) = true := fun q hq =>
          regLtB_mono (hpairs q (List.mem_cons_of_mem p hq)) (Nat.le_succ _)
        have hacc' : ∀ q ∈ acc ++ [(Val.reg s.2, p.2)],
            regLtB q.1 (s.2 + 1) = true := by
          intro q hq
          rcases List.mem_append.mp hq with h1 | h1
          · exact regLtB_mono (hacc q h1) (Nat.le_succ _)
          · rw [List.mem_singleton.mp h1]
            simp [regLtB]
        obtain ⟨r1, r2, r3, r4⟩ := ih
          (s.1.insertBeforeTerm p.2 ⟨s.2, .load (Val.reg slot)⟩, s.2 + 1)
          (acc ++ [(Val.reg s.2, p.2)]) h' (Nat.lt_succ_of_lt hslot) hps' hacc'
        exact ⟨r1, r2, le_trans (Nat.le_succ _) r3, r4⟩
      · have heq : demotePhiPair d slot (s, acc) p = (s, acc ++ [p]) := by
          simp [demotePhiPair, hp]
        rw [heq]
        refine ih s _ h hslot
          (fun q hq => hpairs q (List.mem_cons_of_mem p hq)) ?_
        intro q hq
        rcases List.mem_append.mp hq with h1 | h1
        · exact hacc q h1
        · rw [List.mem_singleton.mp h1]
          exact hpairs p (List.mem_cons_self p ps)

theorem demoteUser_opBound (d slot : Nat) (s : Fn × Nat) (u : Instr)
    (h : OpBound s.1 s.2) (hslot : slot < s.2)
    (hops : ∀ v ∈ u.op.operands, regLtB v s.2 = true) :
    OpBound (demoteUser d slot s u).1 (demoteUser d slot s u).2 ∧
      slot < (demoteUser d slot s u).2 ∧ s.2 ≤ (demoteUser d slot s u).2 := by
  obtain ⟨uid, uop⟩ := u
  by_cases hup : uop.isPhi = true
  · obtain ⟨pairs, rfl⟩ : ∃ ps, uop = Op.phi ps := by
      cases uop <;> simp [Op.isPhi] at hup ⊢
    have heq : demoteUser d slot s ⟨uid, Op.phi pairs⟩ =
        (Fn.setOp (pairs.foldl (demotePhiPair d slot) (s, [])).1.1 uid
          (.phi (pairs.foldl (demotePhiPair d slot) (s, [])).2),
         (pairs.foldl (demotePhiPair d slot) (s, [])).1.2) := rfl
    rw [heq]
    have hpairs0 : ∀ q ∈ pairs, regLtB q.1 s.2 = true := by
      intro q hq
      refine hops q.1 ?_
      simp only [Op.operands]
      exact List.mem_map_of_mem Prod.fst hq
    obtain ⟨r1, r2, r3, r4⟩ :=
      demotePhiPair_fold_opBound d slot pairs s [] h hslot hpairs0 (by simp)
    refine ⟨?_, r2, r3⟩
    refine opBound_setOp _ uid _ _ r1 ?_
    intro v hv
    simp only [Op.operands] at hv
    obtain ⟨q, hq, rfl⟩ := List.mem_map.mp hv
    exact r4 q hq
  · rw [demoteUser_nonphi_eq d slot s uid uop (by simpa using hup)]
    refine ⟨?_, Nat.lt_succ_of_lt hslot, Nat.le_succ _⟩
    refine opBound_substInInstr _ uid _ _ _ ?_ ?_
    · refine opBound_insertBefore s.1 uid _ _ (opBound_mono h (Nat.le_succ _)) ?_
      intro v hv
      simp only [Op.operands, List.mem_singleton] at hv
      rw [hv]
      simp [regLtB]
      omega
    · simp [regLtB]

theorem demoteUser_fold_opBound (d slot : Nat) (users : List Instr)
    (s : Fn × Nat) (h : OpBound s.1 s.2) (hslot : slot < s.2)
    (hus : ∀ u ∈ users, ∀ v ∈ u.op.operands, regLtB v s.2 = true) :
    OpBound (users.foldl (demoteUser d slot) s).1
        (users.foldl (demoteUser d slot) s).2 ∧
      s.2 ≤ (users.foldl (demoteUser d slot) s).2 := by
  induction users generalizing s with
  | nil => exact ⟨h, le_refl _⟩
  | cons u rest ih =>
      simp only [List.foldl_cons]
      obtain ⟨r1, r2, r3⟩ := demoteUser_opBound d slot s u h hslot
        (hus u (List.mem_cons_self u rest))
      have hrest : ∀ u' ∈ rest, ∀ v ∈ u'.op.operands,
          regLtB v (demoteUser d slot s u).2 = true := fun u' hu' v hv =>
        regLtB_mono (hus u' (List.mem_cons_of_mem u hu') v hv) r3
      obtain ⟨q1, q2⟩ := ih _ r1 r2 hrest
      exact ⟨q1, le_trans r3 q2⟩

theorem demoteReg_opBound (aip : Nat) (s : Fn × Nat) (d : Nat)
    (h : OpBound s.1 s.2) (hd : d < s.2) :
    OpBound (demoteReg aip s d).1 (demoteReg aip s d).2 ∧
      s.2 ≤ (demoteReg aip s d).2 := by
  have hfinal : demoteReg aip s d =
      (((usersOf (s.1.insertBefore aip ⟨s.2, .alloca⟩) d).foldl (demoteUser d s.2)
        (s.1.insertBefore aip ⟨s.2, .alloca⟩, s.2 + 1)).1.insertAfterInstr d
        ⟨((usersOf (s.1.insertBefore aip ⟨s.2, .alloca⟩) d).foldl (demoteUser d s.2)
          (s.1.insertBefore aip ⟨s.2, .alloca⟩, s.2 + 1)).2,
          .store (Val.reg d) (Val.reg s.2)⟩,
       ((usersOf (s.1.insertBefore aip ⟨s.2, .alloca⟩) d).foldl (demoteUser d s.2)
          (s.1.insertBefore aip ⟨s.2, .alloca⟩, s.2 + 1)).2 + 1) := rfl
  rw [hfinal]
  have hA : OpBound (s.1.insertBefore aip ⟨s.2, .alloca⟩) (s.2 + 1) := by
    refine opBound_insertBefore s.1 aip _ _ (opBound_mono h (Nat.le_succ _)) ?_
    intro v hv
    simp [Op.operands] at hv
  have hus : ∀ u ∈ usersOf (s.1.insertBefore aip ⟨s.2, .alloca⟩) d,
      ∀ v ∈ u.op.operands, regLtB v (s.2 + 1) = true := by
    intro u hu v hv
    exact hA u (List.mem_of_mem_filter hu) v hv
  obtain ⟨hB, hB2⟩ := demoteUser_fold_opBound d s.2
    (usersOf (s.1.insertBefore aip ⟨s.2, .alloca⟩) d)
    (s.1.insertBefore aip ⟨s.2, .alloca⟩, s.2 + 1) hA (Nat.lt_succ_self _) hus
  constructor
  · refine opBound_insertAfterInstr _ d _ _ (opBound_mono hB (Nat.le_succ _)) ?_
    intro v hv
    simp only [Op.operands, List.mem_cons, List.mem_singleton,
      List.not_mem_nil, or_false] at hv
    rcases hv with hv | hv <;> rw [hv] <;> simp [regLtB] <;> omega
  · exact le_trans (le_trans (Nat.le_succ _) hB2) (Nat.le_succ _)

theorem demoteReg_fold_opBound (aip : Nat) (ds : List Nat) (s : Fn × Nat)
    (h : OpBound s.1 s.2) (hds : ∀ x ∈ ds, x < s.2) :
    OpBound (ds.foldl (demoteReg aip) s).1 (ds.foldl (demoteReg aip) s).2 ∧
      s.2 ≤ (ds.foldl (demoteReg aip) s).2 := by
  induction ds generalizing s with
  | nil => exact ⟨h, le_refl _⟩
  | cons x rest ih =>
      simp only [List.foldl_cons]
      obtain ⟨r1, r2⟩ := demoteReg_opBound aip s x h (hds x (List.mem_cons_self x rest))
      have hrest : ∀ y ∈ rest, y < (demoteReg aip s x).2 := fun y hy =>
        lt_of_lt_of_le (hds y (List.mem_cons_of_mem x hy)) r2
      obtain ⟨q1, q2⟩ := ih _ r1 hrest
      exact ⟨q1, le_trans r2 q2⟩

end MergeCalls

/-! ## Positional tracking: block terminators through the primitives -/

namespace MergeCalls

theorem getLast?_cons_of_ne_nil {α : Type} (y : α) {M : List α} (h : M ≠ []) :
    (y :: M).getLast? = M.getLast? := by
  obtain ⟨m, ms, rfl⟩ := List.exists_cons_of_ne_nil h
  exact List.getLast?_cons_cons

theorem insertBeforeIn_ne_nil (l : List Instr) (t : Nat) (x : Instr)
    (h : l ≠ []) : insertBeforeIn l t x ≠ [] := by
  obtain ⟨y, ys, rfl⟩ := List.exists_cons_of_ne_nil h
  show (if y.id = t then x :: y :: ys else y :: insertBeforeIn ys t x) ≠ []
  split
  · exact List.cons_ne_nil _ _
  · exact List.cons_ne_nil _ _

theorem insertPastPhis_ne_nil (l : List Instr) (x : Instr) :
    insertPastPhis l x ≠ [] := by
  cases l with
  | nil => exact List.cons_ne_nil _ _
  | cons y ys =>
      show (if y.op.isPhi then y :: insertPastPhis ys x else x :: y :: ys) ≠ []
      split
      · exact List.cons_ne_nil _ _
      · exact List.cons_ne_nil _ _

theorem insertAfterIn_ne_nil (l : List Instr) (t : Nat) (x : Instr)
    (h : l ≠ []) : insertAfterIn l t x ≠ [] := by
  obtain ⟨y, ys, rfl⟩ := List.exists_cons_of_ne_nil h
  show (if y.id = t then y :: insertPastPhis ys x else y :: insertAfterIn ys t x) ≠ []
  split
  · exact List.cons_ne_nil _ _
  · exact List.cons_ne_nil _ _

theorem insertBeforeLast_ne_nil (l : List Instr) (x : Instr) :
    insertBeforeLast l x ≠ [] := by
  cases l with
  | nil => exact List.cons_ne_nil _ _
  | cons z zs =>
      cases zs with
      | nil => exact List.cons_ne_nil _ _
      | cons w ws => exact List.cons_ne_nil _ _

theorem getLast?_insertBeforeIn (l : List Instr) (t : Nat) (x : Instr) :
    (insertBeforeIn l t x).getLast? = l.getLast? := by
  induction l with
  | nil => rfl
  | cons y ys ih =>
      show (if y.id = t then x :: y :: ys else y :: insertBeforeIn ys t x).getLast? = _
      by_cases h : y.id = t
      · rw [if_pos h]
        exact List.getLast?_cons_cons
      · rw [if_neg h]
        cases ys with
        | nil => rfl
        | cons z zs =>
            rw [getLast?_cons_of_ne_nil y
              (insertBeforeIn_ne_nil (z :: zs) t x (List.cons_ne_nil z zs)), ih,
              List.getLast?_cons_cons]

theorem getLast?_insertPastPhis (l : List Instr) (x y : Instr)
    (h : l.getLast? = some y) (hy : y.op.isPhi = false) :
    (insertPastPhis l x).getLast? = some y := by
  induction l with
  | nil => simp at h
  | cons z zs ih =>
      show (if z.op.isPhi then z :: insertPastPhis zs x else x :: z :: zs).getLast? = _
      cases zs with
      | nil =>
          have hz : z = y := by simpa using h
          subst hz
          by_cases hp : z.op.isPhi = true
          · rw [hp] at hy
            cases hy
          · rw [if_neg hp, List.getLast?_cons_cons]
            simpa using h
      | cons w ws =>
          have hzs := h
          rw [List.getLast?_cons_cons] at hzs
          by_cases hp : z.op.isPhi = true
          · rw [if_pos hp,
              getLast?_cons_of_ne_nil z (insertPastPhis_ne_nil (w :: ws) x)]
            exact ih hzs
          · rw [if_neg hp, List.getLast?_cons_cons, List.getLast?_cons_cons]
            exact hzs

theorem getLast?_insertAfterIn (l : List Instr) (t : Nat) (x y : Instr)
    (h : l.getLast? = some y) (hy : y.op.isPhi = false) (ht : y.id ≠ t) :
    (insertAfterIn l t x).getLast? = some y := by
  induction l with
  | nil => simp at h
  | cons z zs ih =>
      show (if z.id = t then z :: insertPastPhis zs x else z :: insertAfterIn zs t x).getLast? = _
      cases zs with
      | nil =>
          have hz : z = y := by simpa using h
          subst hz
          rw [if_neg ht]
          exact h
      | cons w ws =>
          have hzs := h
          rw [List.getLast?_cons_cons] at hzs
          by_cases hzt : z.id = t
          · rw [if_pos hzt,
              getLast?_cons_of_ne_nil z (insertPastPhis_ne_nil (w :: ws) x)]
            exact getLast?_insertPastPhis (w :: ws) x y hzs hy
          · rw [if_neg hzt,
              getLast?_cons_of_ne_nil z
                (insertAfterIn_ne_nil (w :: ws) t x (List.cons_ne_nil w ws))]
            exact ih hzs

theorem getLast?_insertBeforeLast (l : List Instr) (x : Instr) (h : l ≠ []) :
    (insertBeforeLast l x).getLast? = l.getLast? := by
  induction l with
  | nil => exact absurd rfl h
  | cons z zs ih =>
      cases zs with
      | nil => rfl
      | cons w ws =>
          show (z :: insertBeforeLast (w :: ws) x).getLast? = _
          rw [getLast?_cons_of_ne_nil z (insertBeforeLast_ne_nil (w :: ws) x),
            ih (List.cons_ne_nil w ws), List.getLast?_cons_cons]

theorem getLast?_filter_keep (l : List Instr) (q : Instr → Bool) (y : Instr)
    (h : l.getLast? = some y) (hq : q y = true) :
    (l.filter q).getLast? = some y := by
  have hdec := List.dropLast_append_getLast? y h
  rw [← hdec, List.filter_append]
  have hl : List.filter q [y] = [y] := by simp [hq]
  rw [hl]
  exact List.getLast?_concat _

theorem getLast?_map_keep (l : List Instr) (g : Instr → Instr) (y : Instr)
    (h : l.getLast? = some y) (hg : g y = y) :
    (l.map g).getLast? = some y := by
  rw [List.getLast?_map, h]
  simp [hg]

theorem dropSecondLast_eq (σ : List Instr) (a b : Instr) :
    dropSecondLast (σ ++ [a, b]) = σ ++ [b] := by
  induction σ with
  | nil => rfl
  | cons x σ ih =>
      have h2 : ∃ w ws, σ ++ [a, b] = w :: ws ∧ ws ≠ [] := by
        cases σ with
        | nil => exact ⟨a, [b], rfl, by simp⟩
        | cons u us => exact ⟨u, us ++ [a, b], rfl, by simp⟩
      obtain ⟨w, ws, hw, hws⟩ := h2
      obtain ⟨v, vs, rfl⟩ := List.exists_cons_of_ne_nil hws
      calc dropSecondLast (x :: σ ++ [a, b])
          = dropSecondLast (x :: w :: v :: vs) := by rw [List.cons_append, hw]
        _ = x :: dropSecondLast (w :: v :: vs) := rfl
        _ = x :: dropSecondLast (σ ++ [a, b]) := by rw [hw]
        _ = x :: (σ ++ [b]) := by rw [ih]

end MergeCalls

/-! ## Fn-level positional preservation -/

namespace MergeCalls

theorem posAt_ne_nil {F : Fn} {p : Nat} {y : Instr} (h : posAt F p y) :
    F.instrsOf p ≠ [] := by
  intro he
  unfold posAt at h
  rw [he] at h
  simp at h

theorem instrsOf_find (F : Fn) (p : Nat) (hne : F.instrsOf p ≠ []) :
    ∃ B, F.blocks.find? (fun B => B.id = p) = some B ∧ B.instrs = F.instrsOf p ∧
      B ∈ F.blocks ∧ p ∈ F.blockIds := by
  cases hf : F.blocks.find? (fun B => B.id = p) with
  | none =>
      exfalso
      apply hne
      unfold Fn.instrsOf
      rw [hf]
      rfl
  | some B =>
      have hBmem : B ∈ F.blocks := List.mem_of_find?_eq_some hf
      have hBid : B.id = p := by simpa using List.find?_some hf
      refine ⟨B, rfl, ?_, hBmem, ?_⟩
      · unfold Fn.instrsOf
        rw [hf]
        rfl
      · rw [← hBid]
        exact List.mem_map_of_mem BB.id hBmem

theorem instrsOf_instrMap (F : Fn) (f : List Instr → List Instr) (p : Nat)
    (hne : F.instrsOf p ≠ []) :
    (Fn.mk (F.blocks.map fun B => ⟨B.id, f B.instrs⟩)).instrsOf p =
      f (F.instrsOf p) := by
  obtain ⟨B, hB, hBi, _, _⟩ := instrsOf_find F p hne
  have h1 := instrsOf_mapform F.blocks (fun B => f B.instrs) p
  rw [hB] at h1
  rw [← hBi]
  exact h1

theorem pos_insertBefore {F : Fn} {p : Nat} {y : Instr} (t : Nat) (x : Instr)
    (h : posAt F p y) : posAt (F.insertBefore t x) p y := by
  have hne := posAt_ne_nil h
  have he : (F.insertBefore t x).instrsOf p = insertBeforeIn (F.instrsOf p) t x :=
    instrsOf_instrMap F (fun l => insertBeforeIn l t x) p hne
  unfold posAt at h ⊢
  rw [he, getLast?_insertBeforeIn]
  exact h

theorem pos_insertAfterInstr {F : Fn} {p : Nat} {y : Instr} (t : Nat) (x : Instr)
    (h : posAt F p y) (hy : y.op.isPhi = false) (ht : y.id ≠ t) :
    posAt (F.insertAfterInstr t x) p y := by
  have hne := posAt_ne_nil h
  have he : (F.insertAfterInstr t x).instrsOf p = insertAfterIn (F.instrsOf p) t x :=
    instrsOf_instrMap F (fun l => insertAfterIn l t x) p hne
  unfold posAt at h ⊢
  rw [he]
  exact getLast?_insertAfterIn _ t x y h hy ht

theorem pos_substInInstr {F : Fn} {p : Nat} {y : Instr} (t : Nat) (a b : Val)
    (h : posAt F p y) (hsub : y.op.subst a b = y.op) :
    posAt (F.substInInstr t a b) p y := by
  have hne := posAt_ne_nil h
  have he : (F.substInInstr t a b).instrsOf p =
      (F.instrsOf p).map (fun i => if i.id = t then substInstr a b i else i) :=
    instrsOf_instrMap F
      (fun l => l.map (fun i : Instr => if i.id = t then substInstr a b i else i)) p hne
  unfold posAt at h ⊢
  rw [he]
  refine getLast?_map_keep _ _ y h ?_
  by_cases hid : y.id = t
  · rw [if_pos hid]
    show (⟨y.id, y.op.subst a b⟩ : Instr) = y
    rw [hsub]
  · rw [if_neg hid]

theorem pos_rauw {F : Fn} {p : Nat} {y : Instr} (a b : Val)
    (h : posAt F p y) (hsub : y.op.subst a b = y.op) :
    posAt (F.rauw a b) p y := by
  have hne := posAt_ne_nil h
  have he : (F.rauw a b).instrsOf p = (F.instrsOf p).map (substInstr a b) :=
    instrsOf_instrMap F (fun l => l.map (substInstr a b)) p hne
  unfold posAt at h ⊢
  rw [he]
  refine getLast?_map_keep _ _ y h ?_
  show (⟨y.id, y.op.subst a b⟩ : Instr) = y
  rw [hsub]

theorem pos_setOp {F : Fn} {p : Nat} {y : Instr} (t : Nat) (o : Op)
    (h : posAt F p y) (ht : y.id ≠ t) :
    posAt (F.setOp t o) p y := by
  have hne := posAt_ne_nil h
  have he : (F.setOp t o).instrsOf p =
      (F.instrsOf p).map (fun i => if i.id = t then ⟨i.id, o⟩ else i) :=
    instrsOf_instrMap F
      (fun l => l.map (fun i : Instr => if i.id = t then ⟨i.id, o⟩ else i)) p hne
  unfold posAt at h ⊢
  rw [he]
  refine getLast?_map_keep _ _ y h ?_
  rw [if_neg ht]

theorem pos_eraseInstr {F : Fn} {p : Nat} {y : Instr} (c : Nat)
    (h : posAt F p y) (hc : y.id ≠ c) :
    posAt (F.eraseInstr c) p y := by
  have hne := posAt_ne_nil h
  have he : (F.eraseInstr c).instrsOf p =
      (F.instrsOf p).filter (fun i => i.id ≠ c) :=
    instrsOf_instrMap F (fun l => l.filter (fun i => i.id ≠ c)) p hne
  unfold posAt at h ⊢
  rw [he]
  exact getLast?_filter_keep _ _ y h (by simp [hc])

theorem pos_mapBlock_ne {F : Fn} {p : Nat} {y : Instr} (b : Nat)
    (f : List Instr → List Instr) (h : posAt F p y) (hne : p ≠ b) :
    posAt (F.mapBlock b f) p y := by
  unfold posAt at h ⊢
  rw [instrsOf_mapBlock_ne F b p f hne]
  exact h

theorem pos_insertBeforeTerm {F : Fn} {p : Nat} {y : Instr} (b : Nat) (x : Instr)
    (hbnd : F.blockIds.Nodup) (h : posAt F p y) :
    posAt (F.insertBeforeTerm b x) p y := by
  have hne := posAt_ne_nil h
  by_cases hbp : b = p
  · subst hbp
    obtain ⟨B, hB, hBi, hBm, hpmem⟩ := instrsOf_find F b hne
    unfold posAt at h ⊢
    show ((F.mapBlock b (fun l => insertBeforeLast l x)).instrsOf b).getLast? = some y
    rw [instrsOf_mapBlock_self F b _ hbnd hpmem, getLast?_insertBeforeLast _ x hne]
    exact h
  · exact pos_mapBlock_ne b _ h (fun he => hbp he.symm)

theorem pos_moveToBlockStart {F : Fn} {p : Nat} {y : Instr} (c b : Nat)
    (h : posAt F p y) (hc : y.id ≠ c) (hb : p ≠ b) :
    posAt (F.moveToBlockStart c b) p y := by
  unfold Fn.moveToBlockStart
  cases hf : F.findInstr c with
  | none => exact h
  | some i => exact pos_mapBlock_ne b _ (pos_eraseInstr c h hc) hb

end MergeCalls

/-! ## Positional facts for block splitting -/

namespace MergeCalls

theorem instrsOf_cons (B : BB) (rest : List BB) (p : Nat) :
    (Fn.mk (B :: rest)).instrsOf p =
      if B.id = p then B.instrs else (Fn.mk rest).instrsOf p := by
  unfold Fn.instrsOf
  by_cases hBp : B.id = p
  · rw [if_pos hBp, List.find?_cons_of_pos _ (by simp [hBp])]
    rfl
  · rw [if_neg hBp, List.find?_cons_of_neg _ (by simp [hBp])]

theorem pos_retargetPhis_aux (bs : List BB) (ib : List Nat) (o n p : Nat)
    (y : Instr) (hy : y.op.isPhi = false)
    (h : ((Fn.mk bs).instrsOf p).getLast? = some y) :
    ((retargetPhis (Fn.mk bs) ib o n).instrsOf p).getLast? = some y := by
  induction bs with
  | nil => exact h
  | cons B rest ih =>
      rw [instrsOf_cons] at h
      simp only [retargetPhis, List.map_cons] at ih ⊢
      rw [instrsOf_cons]
      by_cases hc : ib.contains B.id
      · rw [if_pos hc]
        by_cases hBp : B.id = p
        · rw [if_pos hBp] at h
          rw [if_pos (show (⟨B.id, B.instrs.map fun i =>
              match i.op with
              | .phi pairs =>
                  ⟨i.id, .phi (pairs.map fun q => if q.2 = o then (q.1, n) else q)⟩
              | _ => i⟩ : BB).id = p from hBp)]
          refine getLast?_map_keep _ _ y h ?_
          obtain ⟨yid, yop⟩ := y
          cases yop with
          | phi pairs => simp [Op.isPhi] at hy
          | _ => rfl
        · rw [if_neg hBp] at h
          rw [if_neg (show ¬ (⟨B.id, B.instrs.map fun i =>
              match i.op with
              | .phi pairs =>
                  ⟨i.id, .phi (pairs.map fun q => if q.2 = o then (q.1, n) else q)⟩
              | _ => i⟩ : BB).id = p from hBp)]
          exact ih h
      · rw [if_neg hc]
        by_cases hBp : B.id = p
        · rw [if_pos hBp]
          rw [if_pos hBp] at h
          exact h
        · rw [if_neg hBp]
          rw [if_neg hBp] at h
          exact ih h

theorem pos_retargetPhis {F : Fn} {p : Nat} {y : Instr} (ib : List Nat) (o n : Nat)
    (h : posAt F p y) (hy : y.op.isPhi = false) :
    posAt (retargetPhis F ib o n) p y := by
  obtain ⟨bs⟩ := F
  exact pos_retargetPhis_aux bs ib o n p y hy h

theorem pos_splitBlock (F : Fn) (p c retId brId : Nat)
    (hbnd : F.blockIds.Nodup) (hp : p ∈ F.blockIds) :
    posAt (F.splitBlock p c retId brId) p ⟨brId, .br retId⟩ := by
  obtain ⟨bs₁, bs₂, hdec, h1, h2⟩ := blocks_decomp F p hbnd hp
  have hrepl := replaceBlock_eq F p
    [⟨p, (F.instrsOf p).take ((F.instrsOf p).findIdx (fun x => x.id = c) + 1) ++
      [⟨brId, .br retId⟩]⟩,
     ⟨retId, (F.instrsOf p).drop ((F.instrsOf p).findIdx (fun x => x.id = c) + 1)⟩]
    bs₁ bs₂ hdec h1 h2
  show posAt (retargetPhis _ _ _ _) p _
  refine pos_retargetPhis _ _ _ ?_ rfl
  rw [hrepl]
  unfold posAt Fn.instrsOf
  show (((((bs₁ ++ [⟨p, (F.instrsOf p).take ((F.instrsOf p).findIdx (fun x => x.id = c) + 1) ++
      [⟨brId, .br retId⟩]⟩,
     (⟨retId, (F.instrsOf p).drop ((F.instrsOf p).findIdx (fun x => x.id = c) + 1)⟩ : BB)] ++ bs₂).find?
      (fun B => B.id = p)).map BB.instrs)).getD []).getLast? = _
  rw [List.find?_append, List.find?_append]
  have e1 : bs₁.find? (fun B => B.id = p) = none := by
    rw [List.find?_eq_none]
    intro B hB
    simpa using h1 B hB
  rw [e1, Option.none_or, List.find?_cons_of_pos _ (by simp)]
  exact List.getLast?_concat _

end MergeCalls

/-! ## Block-identifier accounting and freshness helpers -/

namespace MergeCalls

theorem blockIds_splitBlock (F : Fn) (b c newId brId : Nat)
    (hbnd : F.blockIds.Nodup) (hb : b ∈ F.blockIds) :
    ((F.splitBlock b c newId brId).blockIds : Multiset Nat) =
      newId ::ₘ (F.blockIds : Multiset Nat) := by
  obtain ⟨bs₁, bs₂, hdec, h1, h2⟩ := blocks_decomp F b hbnd hb
  have hrepl := replaceBlock_eq F b
    [⟨b, (F.instrsOf b).take ((F.instrsOf b).findIdx (fun x => x.id = c) + 1) ++
      [⟨brId, .br newId⟩]⟩,
     ⟨newId, (F.instrsOf b).drop ((F.instrsOf b).findIdx (fun x => x.id = c) + 1)⟩]
    bs₁ bs₂ hdec h1 h2
  show ((retargetPhis _ _ _ _).blockIds : Multiset Nat) = _
  rw [blockIds_retargetPhis, hrepl]
  have hL : (Fn.mk (bs₁ ++ [⟨b, (F.instrsOf b).take ((F.instrsOf b).findIdx (fun x => x.id = c) + 1) ++
      [⟨brId, .br newId⟩]⟩,
     (⟨newId, (F.instrsOf b).drop ((F.instrsOf b).findIdx (fun x => x.id = c) + 1)⟩ : BB)] ++ bs₂)).blockIds =
      bs₁.map BB.id ++ [b, newId] ++ bs₂.map BB.id := by
    unfold Fn.blockIds
    simp
  have hR : F.blockIds = bs₁.map BB.id ++ b :: bs₂.map BB.id := by
    unfold Fn.blockIds
    rw [hdec]
    simp
  rw [hL, hR]
  refine Multiset.coe_eq_coe.mpr ?_
  have h3 : bs₁.map BB.id ++ [b, newId] ++ bs₂.map BB.id =
      (bs₁.map BB.id ++ [b]) ++ newId :: bs₂.map BB.id := by
    simp
  have h4 : (newId :: (bs₁.map BB.id ++ b :: bs₂.map BB.id) : List Nat) =
      newId :: ((bs₁.map BB.id ++ [b]) ++ bs₂.map BB.id) := by
    simp
  rw [h3, h4]
  exact List.perm_middle

theorem goodB_cons {s : Fn × Nat} {F' : Fn} {n' newId : Nat}
    (hbm : (F'.blockIds : Multiset Nat) = newId ::ₘ (s.1.blockIds : Multiset Nat))
    (hbnd : s.1.blockIds.Nodup) (hB : GoodB s)
    (hlo : s.2 ≤ newId) (hhi : newId < n') (hn : s.2 ≤ n') :
    F'.blockIds.Nodup ∧ GoodB (F', n') := by
  constructor
  · rw [← Multiset.coe_nodup, hbm, Multiset.nodup_cons]
    refine ⟨?_, Multiset.coe_nodup.mpr hbnd⟩
    intro hmem
    have := hB newId (Multiset.mem_coe.mp hmem)
    omega
  · intro b hb
    have hb2 : b ∈ (F'.blockIds : Multiset Nat) := Multiset.mem_coe.mpr hb
    rw [hbm, Multiset.mem_cons] at hb2
    rcases hb2 with he | hm
    · omega
    · have := hB b (Multiset.mem_coe.mp hm)
      omega

theorem goodB_of_eq {s : Fn × Nat} {F' : Fn} {n' : Nat}
    (hbe : F'.blockIds = s.1.blockIds) (hB : GoodB s) (hn : s.2 ≤ n') :
    GoodB (F', n') := by
  intro b hb
  rw [hbe] at hb
  have := hB b hb
  omega

theorem goodIds_of_cons2 {s : Fn × Nat} {F' : Fn} {n' : Nat} {x : Instr}
    (hms : featMS F' = featof x ::ₘ featMS s.1) (h : GoodIds s)
    (hbnd' : F'.blockIds.Nodup)
    (hlo : s.2 ≤ x.id) (hhi : x.id < n') (hn : s.2 ≤ n') : GoodIds (F', n') := by
  obtain ⟨hnd, hbnd, hlt⟩ := h
  have hco := instrIds_coe_of_cons hms
  refine ⟨?_, hbnd', ?_⟩
  · rw [← Multiset.coe_nodup, hco, Multiset.nodup_cons]
    refine ⟨?_, Multiset.coe_nodup.mpr hnd⟩
    intro hmem
    have := hlt x.id (Multiset.mem_coe.mp hmem)
    omega
  · intro i hi
    have hi2 : i ∈ (F'.instrIds : Multiset Nat) := Multiset.mem_coe.mpr hi
    rw [hco, Multiset.mem_cons] at hi2
    rcases hi2 with he | hm
    · omega
    · have := hlt i (Multiset.mem_coe.mp hm)
      omega

theorem goodIds_of_drop {s : Fn × Nat} {F' : Fn} {n' : Nat} {x : Instr}
    (hms : featMS s.1 = featof x ::ₘ featMS F') (h : GoodIds s)
    (hblocks : F'.blockIds = s.1.blockIds) (hn : s.2 ≤ n') : GoodIds (F', n') := by
  obtain ⟨hnd, hbnd, hlt⟩ := h
  have hco := instrIds_coe_of_cons hms
  have hnd2 : (s.1.instrIds : Multiset Nat).Nodup := Multiset.coe_nodup.mpr hnd
  rw [hco, Multiset.nodup_cons] at hnd2
  refine ⟨Multiset.coe_nodup.mp hnd2.2, by rw [hblocks]; exact hbnd, ?_⟩
  · intro i hi
    have hi2 : i ∈ (s.1.instrIds : Multiset Nat) := by
      rw [hco, Multiset.mem_cons]
      exact Or.inr (Multiset.mem_coe.mpr hi)
    have := hlt i (Multiset.mem_coe.mp hi2)
    omega

theorem plumbExt_drop_after {s s' : Fn × Nat} {F'' : Fn} {n'' : Nat} {x : Instr}
    (hpe : PlumbExt s s')
    (hms : featMS s'.1 = featof x ::ₘ featMS F'')
    (hxlo : s.2 ≤ x.id) (hxhi : x.id < n'') (hn : s'.2 ≤ n'')
    (hpl : x.op.ckind = none ∧ x.op.isAIPb = false) : PlumbExt s (F'', n'') := by
  obtain ⟨hle, dn, up, heq, hdn, hup⟩ := hpe
  refine ⟨le_trans hle hn, featof x ::ₘ dn, up, ?_, ?_, ?_⟩
  · have : featMS F'' + (featof x ::ₘ dn) = featMS s'.1 + dn := by
      rw [← Multiset.singleton_add, hms, ← Multiset.singleton_add]
      abel
    rw [this, heq]
  · intro f hf
    rw [Multiset.mem_cons] at hf
    rcases hf with he | hm
    · rw [he]
      exact ⟨⟨hpl.1, hpl.2⟩, hxlo, hxhi⟩
    · obtain ⟨hp, hl, hh⟩ := hdn f hm
      exact ⟨hp, hl, lt_of_lt_of_le hh hn⟩
  · intro f hf
    obtain ⟨hp, hl, hh⟩ := hup f hf
    exact ⟨hp, hl, lt_of_lt_of_le hh hn⟩

theorem valueEscapes_fresh (F : Fn) (i n : Nat) (hob : OpBound F n) (hi : n ≤ i) :
    valueEscapes F i = false := by
  unfold valueEscapes
  rw [List.any_eq_false]
  intro B hB
  simp only [Bool.not_eq_true]
  rw [List.any_eq_false]
  intro u hu
  simp only [Bool.not_eq_true]
  have hfalse : usesReg u i = false := by
    cases hv : usesReg u i with
    | false => rfl
    | true =>
        exfalso
        have hmem : Val.reg i ∈ u.op.operands := by
          have := hv
          unfold usesReg at this
          exact List.mem_of_elem_eq_true this
        have := hob u (mem_of_mem_allInstrs F.blocks B hB u hu) (Val.reg i) hmem
        unfold regLtB at this
        simp at this
        omega
  rw [hfalse]
  rfl

end MergeCalls

/-! ## Positional preservation through register demotion -/

namespace MergeCalls

theorem demotePhiPair_fold_pos (d slot : Nat) (pairs : List (Val × Nat))
    (s : Fn × Nat) (acc : List (Val × Nat)) (p : Nat) (y : Instr)
    (h : GoodIds s) (hpos : posAt s.1 p y) :
    posAt ((pairs.foldl (demotePhiPair d slot) (s, acc)).1).1 p y := by
  induction pairs generalizing s acc with
  | nil => exact hpos
  | cons q qs ih =>
      simp only [List.foldl_cons]
      by_cases hq : q.1 = Val.reg d
      · have heq : demotePhiPair d slot (s, acc) q =
            ((s.1.insertBeforeTerm q.2 ⟨s.2, .load (Val.reg slot)⟩, s.2 + 1),
              acc ++ [(Val.reg s.2, q.2)]) := by
          simp [demotePhiPair, hq]
        rw [heq]
        have hg' := (step_insertBeforeTerm_plumb s q.2 (.load (Val.reg slot))
          ⟨rfl, rfl⟩ h).2.1
        have hpos' := pos_insertBeforeTerm q.2 ⟨s.2, .load (Val.reg slot)⟩
          h.2.1 hpos
        exact ih (s.1.insertBeforeTerm q.2 ⟨s.2, .load (Val.reg slot)⟩, s.2 + 1)
          (acc ++ [(Val.reg s.2, q.2)]) hg' hpos'
      · have heq : demotePhiPair d slot (s, acc) q = (s, acc ++ [q]) := by
          simp [demotePhiPair, hq]
        rw [heq]
        exact ih s (acc ++ [q]) h hpos

theorem demoteUser_pos (d slot : Nat) (s : Fn × Nat) (u : Instr) (p : Nat)
    (y : Instr) (h : GoodIds s) (hpos : posAt s.1 p y) (hne : y.id ≠ u.id)
    (hyphi : y.op.isPhi = false)
    (hysub : ∀ a b : Val, y.op.subst a b = y.op) :
    posAt (demoteUser d slot s u).1 p y := by
  obtain ⟨uid, uop⟩ := u
  by_cases hup : uop.isPhi = true
  · obtain ⟨pairs, rfl⟩ : ∃ ps, uop = Op.phi ps := by
      cases uop <;> simp [Op.isPhi] at hup ⊢
    have heq : demoteUser d slot s ⟨uid, Op.phi pairs⟩ =
        (Fn.setOp (pairs.foldl (demotePhiPair d slot) (s, [])).1.1 uid
          (.phi (pairs.foldl (demotePhiPair d slot) (s, [])).2),
         (pairs.foldl (demotePhiPair d slot) (s, [])).1.2) := rfl
    rw [heq]
    have hpos1 := demotePhiPair_fold_pos d slot pairs s [] p y h hpos
    exact pos_setOp uid _ hpos1 hne
  · rw [demoteUser_nonphi_eq d slot s uid uop (by simpa using hup)]
    refine pos_substInInstr uid _ _ ?_ (hysub _ _)
    exact pos_insertBefore uid _ hpos

theorem demoteUser_fold_pos (d slot : Nat) (users : List Instr) (s : Fn × Nat)
    (p : Nat) (y : Instr) (h : GoodIds s)
    (hus : ∀ u ∈ users, u.id < s.2 ∧
      (u.op.isPhi = true → ∀ j ∈ s.1.allInstrs, j.id = u.id →
        j.op.ckind = none ∧ j.op.isAIPb = false))
    (hney : ∀ u ∈ users, y.id ≠ u.id)
    (hpos : posAt s.1 p y) (hyphi : y.op.isPhi = false)
    (hysub : ∀ a b : Val, y.op.subst a b = y.op) :
    posAt ((users.foldl (demoteUser d slot) s).1) p y := by
  induction users generalizing s with
  | nil => exact hpos
  | cons u rest ih =>
      simp only [List.foldl_cons]
      obtain ⟨hid, hphi⟩ := hus u (List.mem_cons_self u rest)
      obtain ⟨hpe1, hg1, hb1⟩ := demoteUser_good d slot s u h hid hphi
      have hpos1 := demoteUser_pos d slot s u p y h hpos
        (hney u (List.mem_cons_self u rest)) hyphi hysub
      have hrest : ∀ u' ∈ rest, u'.id < (demoteUser d slot s u).2 ∧
          (u'.op.isPhi = true → ∀ j ∈ (demoteUser d slot s u).1.allInstrs,
            j.id = u'.id → j.op.ckind = none ∧ j.op.isAIPb = false) := by
        intro u' hu'
        obtain ⟨hid', hphi'⟩ := hus u' (List.mem_cons_of_mem u hu')
        exact ⟨lt_of_lt_of_le hid' hpe1.1,
          fun hp => plumb_at_id hpe1 u'.id hid' (hphi' hp)⟩
      exact ih _ hg1 hrest (fun u' hu' => hney u' (List.mem_cons_of_mem u hu'))
        hpos1

theorem demoteReg_pos (aip : Nat) (s : Fn × Nat) (d : Nat) (p : Nat) (y : Instr)
    (h : GoodIds s) (hpos : posAt s.1 p y) (hd : y.id ≠ d)
    (hyphi : y.op.isPhi = false)
    (hysub : ∀ a b : Val, y.op.subst a b = y.op)
    (hyops : y.op.operands = []) :
    posAt (demoteReg aip s d).1 p y := by
  obtain ⟨hpeA, hgA, hbA⟩ := step_insertBefore_plumb s aip .alloca ⟨rfl, rfl⟩ h
  have hposA : posAt (s.1.insertBefore aip ⟨s.2, .alloca⟩) p y :=
    pos_insertBefore aip _ hpos
  have husers := usersOf_facts (s.1.insertBefore aip ⟨s.2, .alloca⟩) d hgA.1
    (s.2 + 1) hgA.2.2
  have hney : ∀ u ∈ usersOf (s.1.insertBefore aip ⟨s.2, .alloca⟩) d,
      y.id ≠ u.id := by
    intro u hu hne
    have humem : u ∈ (s.1.insertBefore aip ⟨s.2, .alloca⟩).allInstrs :=
      List.mem_of_mem_filter hu
    have hymem : y ∈ (s.1.insertBefore aip ⟨s.2, .alloca⟩).allInstrs :=
      mem_instrsOf_allInstrs _ p y (List.mem_of_mem_getLast? hposA)
    have huy : u = y := List.inj_on_of_nodup_map hgA.1 humem hymem hne.symm
    have hu2 : u ∈ (s.1.insertBefore aip ⟨s.2, .alloca⟩).allInstrs.filter
        (fun w => usesReg w d) := hu
    have huse0 := List.of_mem_filter hu2
    have huse : usesReg u d = true := huse0
    rw [huy] at huse
    unfold usesReg at huse
    rw [hyops] at huse
    simp at huse
  have hposB := demoteUser_fold_pos d s.2
    (usersOf (s.1.insertBefore aip ⟨s.2, .alloca⟩) d)
    (s.1.insertBefore aip ⟨s.2, .alloca⟩, s.2 + 1) p y hgA husers hney hposA
    hyphi hysub
  have hfinal : demoteReg aip s d =
      (((usersOf (s.1.insertBefore aip ⟨s.2, .alloca⟩) d).foldl (demoteUser d s.2)
        (s.1.insertBefore aip ⟨s.2, .alloca⟩, s.2 + 1)).1.insertAfterInstr d
        ⟨((usersOf (s.1.insertBefore aip ⟨s.2, .alloca⟩) d).foldl (demoteUser d s.2)
          (s.1.insertBefore aip ⟨s.2, .alloca⟩, s.2 + 1)).2,
          .store (Val.reg d) (Val.reg s.2)⟩,
       ((usersOf (s.1.insertBefore aip ⟨s.2, .alloca⟩) d).foldl (demoteUser d s.2)
          (s.1.insertBefore aip ⟨s.2, .alloca⟩, s.2 + 1)).2 + 1) := rfl
  rw [hfinal]
  exact pos_insertAfterInstr d _ hposB hyphi hd

theorem demoteReg_fold_pos (aip : Nat) (ds : List Nat) (s : Fn × Nat) (p : Nat)
    (y : Instr) (h : GoodIds s) (hpos : posAt s.1 p y)
    (hds : ∀ x ∈ ds, y.id ≠ x) (hyphi : y.op.isPhi = false)
    (hysub : ∀ a b : Val, y.op.subst a b = y.op)
    (hyops : y.op.operands = []) :
    posAt ((ds.foldl (demoteReg aip) s).1) p y := by
  induction ds generalizing s with
  | nil => exact hpos
  | cons x rest ih =>
      simp only [List.foldl_cons]
      obtain ⟨hpe1, hg1, hb1⟩ := demoteReg_good aip s x h
      exact ih _ hg1
        (demoteReg_pos aip s x p y h hpos (hds x (List.mem_cons_self x rest))
          hyphi hysub hyops)
        (fun x' hx' => hds x' (List.mem_cons_of_mem x hx'))

end MergeCalls

/-! ## The per-call-site rewrite as a plumbing extension -/

namespace MergeCalls

theorem processCaller_eq (cbId aipId entryId : Nat) (st : GState) (c : Nat) :
    processCaller cbId aipId entryId st c =
      { fn := ((pcS2 aipId entryId st c).1.appendInstr (pcP st c)
            ⟨(pcS2 aipId entryId st c).2, .br cbId⟩).mapBlock (pcP st c)
            dropSecondLast,
        next := (pcS2 aipId entryId st c).2 + 1,
        c2r := mapInsert st.c2r (pcP st c) st.next,
        c2p := mapInsert st.c2p c (pcP st c) } := rfl

theorem blockOf_getD_mem (F : Fn) (c : Nat) (hc : c ∈ F.instrIds) :
    (F.blockOf c).getD 0 ∈ F.blockIds := by
  obtain ⟨i, hi, hid⟩ := List.mem_map.mp hc
  obtain ⟨B, hB, hiB⟩ := List.mem_flatMap.mp hi
  have hsome : ((F.blocks.find? (fun B => B.instrs.any (fun x => x.id = c))).isSome) := by
    rw [List.find?_isSome]
    refine ⟨B, hB, ?_⟩
    rw [List.any_eq_true]
    exact ⟨i, hiB, by simp [hid]⟩
  obtain ⟨B', hB'⟩ := Option.isSome_iff_exists.mp hsome
  unfold Fn.blockOf
  rw [hB']
  exact List.mem_map_of_mem BB.id (List.mem_of_find?_eq_some hB')

theorem pcTD_facts (entryId : Nat) (st : GState) (c : Nat)
    (hob1 : OpBound (pcF1 st c) st.next)
    (hg1 : GoodIds (pcF1 st c, st.next + 2)) :
    ∀ x ∈ pcTD entryId st c, st.next + 1 ≠ x ∧ x < st.next + 2 := by
  intro x hx
  obtain ⟨i, hi, hfi⟩ := List.mem_filterMap.mp hx
  by_cases hcond : (!(i.op.isAlloca && decide (pcP st c = entryId)) &&
      valueEscapes (pcF1 st c) i.id) = true
  · rw [if_pos hcond] at hfi
    have hix : i.id = x := Option.some.inj hfi
    have hesc : valueEscapes (pcF1 st c) x = true := by
      rw [← hix]
      rw [Bool.and_eq_true] at hcond
      exact hcond.2
    constructor
    · intro he
      have := valueEscapes_fresh (pcF1 st c) x st.next hob1 (by omega)
      rw [this] at hesc
      cases hesc
    · have himem : i ∈ (pcF1 st c).allInstrs :=
        mem_instrsOf_allInstrs (pcF1 st c) (pcP st c) i hi
      have := hg1.2.2 i.id (List.mem_map_of_mem Instr.id himem)
      omega
  · rw [if_neg hcond] at hfi
    cases hfi

theorem featMS_mapBlock_drop (F : Fn) (b : Nat) (hbnd : F.blockIds.Nodup)
    (hb : b ∈ F.blockIds) (sig : List Instr) (a z : Instr)
    (hio : F.instrsOf b = sig ++ [a, z]) :
    featMS F = featof a ::ₘ featMS (F.mapBlock b dropSecondLast) := by
  have hacct := featMS_mapBlock_at F b dropSecondLast hbnd hb
  rw [hio, dropSecondLast_eq] at hacct
  simp only [List.map_append, List.map_cons, List.map_nil,
    ← Multiset.coe_add] at hacct
  have hx1 : (([featof a, featof z] : List Feat) : Multiset Feat) =
      {featof a} + {featof z} := rfl
  have hx2 : (([featof z] : List Feat) : Multiset Feat) = {featof z} := rfl
  rw [hx1, hx2] at hacct
  have h6 : featMS (F.mapBlock b dropSecondLast) + {featof a} +
      (((sig.map featof : List Feat) : Multiset Feat) + {featof z}) =
      featMS F + (((sig.map featof : List Feat) : Multiset Feat) + {featof z}) := by
    calc featMS (F.mapBlock b dropSecondLast) + {featof a} +
        (((sig.map featof : List Feat) : Multiset Feat) + {featof z})
        = featMS (F.mapBlock b dropSecondLast) +
          (((sig.map featof : List Feat) : Multiset Feat) +
            ({featof a} + {featof z})) := by abel
      _ = featMS F + (((sig.map featof : List Feat) : Multiset Feat) +
            {featof z}) := hacct
  have h7 := add_right_cancel h6
  rw [← Multiset.singleton_add, ← h7]
  abel

set_option maxHeartbeats 8000000 in
theorem processCaller_master (cbId aipId entryId : Nat) (st : GState) (c : Nat)
    (hg : GoodIds (st.fn, st.next)) (hB : GoodB (st.fn, st.next))
    (hob : OpBound st.fn st.next) (hc : c ∈ st.fn.instrIds) :
    PlumbExt (st.fn, st.next)
      ((processCaller cbId aipId entryId st c).fn,
        (processCaller cbId aipId entryId st c).next) ∧
      GoodIds ((processCaller cbId aipId entryId st c).fn,
        (processCaller cbId aipId entryId st c).next) ∧
      GoodB ((processCaller cbId aipId entryId st c).fn,
        (processCaller cbId aipId entryId st c).next) ∧
      OpBound (processCaller cbId aipId entryId st c).fn
        (processCaller cbId aipId entryId st c).next ∧
      (((processCaller cbId aipId entryId st c).fn.blockIds : Multiset Nat) =
        st.next ::ₘ (st.fn.blockIds : Multiset Nat)) := by
  have hp : pcP st c ∈ st.fn.blockIds := blockOf_getD_mem st.fn c hc
  have hclt : c < st.next := hg.2.2 c hc
  -- Stage 1: the split.
  have hms1 : featMS (pcF1 st c) =
      featof ⟨st.next + 1, .br st.next⟩ ::ₘ featMS st.fn :=
    featMS_splitBlock st.fn (pcP st c) c st.next (st.next + 1) hg.2.1 hp
  have hbm1 : ((pcF1 st c).blockIds : Multiset Nat) =
      st.next ::ₘ (st.fn.blockIds : Multiset Nat) :=
    blockIds_splitBlock st.fn (pcP st c) c st.next (st.next + 1) hg.2.1 hp
  have hgb1 : (pcF1 st c).blockIds.Nodup ∧ GoodB (pcF1 st c, st.next + 2) :=
    goodB_cons (s := (st.fn, st.next)) hbm1 hg.2.1 hB (le_refl _) (by omega)
      (by omega)
  obtain ⟨hbnd1, hB1⟩ := hgb1
  have hg1 : GoodIds (pcF1 st c, st.next + 2) :=
    goodIds_of_cons2 (s := (st.fn, st.next)) hms1 hg hbnd1
      (by show st.next ≤ st.next + 1; omega)
      (by show st.next + 1 < st.next + 2; omega) (by omega)
  have hpe1 : PlumbExt (st.fn, st.next) (pcF1 st c, st.next + 2) :=
    plumbExt_cons (s := (st.fn, st.next)) hms1
      (by show st.next ≤ st.next + 1; omega)
      (by show st.next + 1 < st.next + 2; omega) (by omega)
      ⟨rfl, rfl⟩
  have hob1 : OpBound (pcF1 st c) st.next :=
    opBound_splitBlock st.fn (pcP st c) c st.next (st.next + 1) st.next hob
  have hpos1 : posAt (pcF1 st c) (pcP st c) ⟨st.next + 1, .br st.next⟩ :=
    pos_splitBlock st.fn (pcP st c) c st.next (st.next + 1) hg.2.1 hp
  have hret1 : st.next ∈ (pcF1 st c).blockIds := by
    rw [← Multiset.mem_coe, hbm1]
    exact Multiset.mem_cons_self _ _
  have hpm1 : pcP st c ∈ (pcF1 st c).blockIds := by
    rw [← Multiset.mem_coe, hbm1]
    exact Multiset.mem_cons_of_mem (Multiset.mem_coe.mpr hp)
  -- Stage 2: demotion of the predecessor's escaping values.
  have htd := pcTD_facts entryId st c hob1 hg1
  obtain ⟨hpe2, hg2, hbl2⟩ := demoteReg_fold_good aipId (pcTD entryId st c)
    (pcF1 st c, st.next + 2) hg1
  obtain ⟨hob2, hgrow2⟩ := demoteReg_fold_opBound aipId (pcTD entryId st c)
    (pcF1 st c, st.next + 2) (opBound_mono hob1 (by omega))
    (fun x hx => (htd x hx).2)
  have hpe2s : PlumbExt (pcF1 st c, st.next + 2) (pcS1 aipId entryId st c) := hpe2
  have hg2s : GoodIds (pcS1 aipId entryId st c) := hg2
  have hbl2s : (pcS1 aipId entryId st c).1.blockIds = (pcF1 st c).blockIds := hbl2
  have hob2s : OpBound (pcS1 aipId entryId st c).1 (pcS1 aipId entryId st c).2 :=
    hob2
  have hgrow2s : st.next + 2 ≤ (pcS1 aipId entryId st c).2 := hgrow2
  have hpos2 : posAt (pcS1 aipId entryId st c).1 (pcP st c)
      ⟨st.next + 1, .br st.next⟩ :=
    demoteReg_fold_pos aipId (pcTD entryId st c) (pcF1 st c, st.next + 2)
      (pcP st c) ⟨st.next + 1, .br st.next⟩ hg1 hpos1
      (fun x hx => (htd x hx).1) rfl (fun a b => rfl) rfl
  -- Stage 3: moving the call into the continuation block.
  have hret2 : st.next ∈ (pcS1 aipId entryId st c).1.blockIds := by
    rw [hbl2s]
    exact hret1
  have hms3 : featMS (pcF2 aipId entryId st c) =
      featMS (pcS1 aipId entryId st c).1 :=
    featMS_moveToBlockStart (pcS1 aipId entryId st c).1 c st.next hg2s.1
      hg2s.2.1 hret2
  have hpe3 : PlumbExt (pcS1 aipId entryId st c)
      (pcF2 aipId entryId st c, (pcS1 aipId entryId st c).2) :=
    plumbExt_of_featMS_eq hms3 (le_refl _)
  have hg3 : GoodIds (pcF2 aipId entryId st c, (pcS1 aipId entryId st c).2) :=
    goodIds_of_eq hms3 hg2s (blockIds_moveToBlockStart _ c st.next) (le_refl _)
  have hob3 : OpBound (pcF2 aipId entryId st c) (pcS1 aipId entryId st c).2 :=
    opBound_moveToBlockStart _ c st.next _ hob2s
  have hpos3 : posAt (pcF2 aipId entryId st c) (pcP st c)
      ⟨st.next + 1, .br st.next⟩ := by
    refine pos_moveToBlockStart c st.next hpos2 (by simp; omega) ?_
    intro he
    have := hB (pcP st c) hp
    omega
  have hbl3 : (pcF2 aipId entryId st c).blockIds =
      (pcS1 aipId entryId st c).1.blockIds :=
    blockIds_moveToBlockStart _ c st.next
  -- Stage 4: the conditional demotion of the merged call's result.
  have hstage4 : PlumbExt (pcF2 aipId entryId st c, (pcS1 aipId entryId st c).2)
        (pcS2 aipId entryId st c) ∧
      GoodIds (pcS2 aipId entryId st c) ∧
      OpBound (pcS2 aipId entryId st c).1 (pcS2 aipId entryId st c).2 ∧
      (pcS2 aipId entryId st c).1.blockIds = (pcF2 aipId entryId st c).blockIds ∧
      posAt (pcS2 aipId entryId st c).1 (pcP st c) ⟨st.next + 1, .br st.next⟩ ∧
      (pcS1 aipId entryId st c).2 ≤ (pcS2 aipId entryId st c).2 := by
    unfold pcS2
    by_cases hemp : (usersOf (pcF2 aipId entryId st c) c).isEmpty = true
    · rw [if_pos hemp]
      exact ⟨plumbExt_of_featMS_eq rfl (le_refl _), hg3, hob3, rfl, hpos3,
        le_refl _⟩
    · rw [if_neg hemp]
      obtain ⟨hpe4, hg4, hbl4⟩ :=
        demoteReg_good aipId (pcF2 aipId entryId st c, (pcS1 aipId entryId st c).2)
          c hg3
      obtain ⟨hob4, hgrow4⟩ :=
        demoteReg_opBound aipId
          (pcF2 aipId entryId st c, (pcS1 aipId entryId st c).2) c hob3
          (by omega)
      refine ⟨hpe4, hg4, hob4, hbl4, ?_, hgrow4⟩
      exact demoteReg_pos aipId
        (pcF2 aipId entryId st c, (pcS1 aipId entryId st c).2) c (pcP st c)
        ⟨st.next + 1, .br st.next⟩ hg3 hpos3 (by simp; omega) rfl
        (fun a b => rfl) rfl
  obtain ⟨hpe4, hg4, hob4, hbl4, hpos4, hgrow4⟩ := hstage4
  -- Stage 5: branch to the shared call block.
  have hpm4 : pcP st c ∈ (pcS2 aipId entryId st c).1.blockIds := by
    rw [hbl4, hbl3, hbl2s]
    exact hpm1
  have hmsA : featMS ((pcS2 aipId entryId st c).1.appendInstr (pcP st c)
        ⟨(pcS2 aipId entryId st c).2, .br cbId⟩) =
      featof ⟨(pcS2 aipId entryId st c).2, .br cbId⟩ ::ₘ
        featMS (pcS2 aipId entryId st c).1 :=
    featMS_mapBlock (pcS2 aipId entryId st c).1 (pcP st c) _
      ⟨(pcS2 aipId entryId st c).2, .br cbId⟩ hg4.2.1 hpm4
      (fun l => List.perm_append_singleton _ l)
  have hpeA : PlumbExt (pcS2 aipId entryId st c)
      ((pcS2 aipId entryId st c).1.appendInstr (pcP st c)
        ⟨(pcS2 aipId entryId st c).2, .br cbId⟩,
       (pcS2 aipId entryId st c).2 + 1) :=
    plumbExt_cons hmsA (le_refl _)
      (by show (pcS2 aipId entryId st c).2 < (pcS2 aipId entryId st c).2 + 1
          omega)
      (by omega) ⟨rfl, rfl⟩
  have hgA : GoodIds ((pcS2 aipId entryId st c).1.appendInstr (pcP st c)
        ⟨(pcS2 aipId entryId st c).2, .br cbId⟩,
       (pcS2 aipId entryId st c).2 + 1) :=
    goodIds_of_cons hmsA hg4 (blockIds_mapBlock _ _ _) (le_refl _)
      (by show (pcS2 aipId entryId st c).2 < (pcS2 aipId entryId st c).2 + 1
          omega)
      (by omega)
  have hobA : OpBound ((pcS2 aipId entryId st c).1.appendInstr (pcP st c)
        ⟨(pcS2 aipId entryId st c).2, .br cbId⟩)
      ((pcS2 aipId entryId st c).2 + 1) := by
    refine opBound_mapBlock _ _ _ ⟨(pcS2 aipId entryId st c).2, .br cbId⟩ _
      (opBound_mono hob4 (by omega)) ?_ ?_
    · intro v hv
      simp [Op.operands] at hv
    · intro l z hz
      rcases List.mem_append.mp hz with h1 | h1
      · exact Or.inl h1
      · exact Or.inr (List.mem_singleton.mp h1)
  -- Positional bookkeeping for the final erase.
  have hposA : ((pcS2 aipId entryId st c).1.appendInstr (pcP st c)
        ⟨(pcS2 aipId entryId st c).2, .br cbId⟩).instrsOf (pcP st c) =
      (pcS2 aipId entryId st c).1.instrsOf (pcP st c) ++
        [⟨(pcS2 aipId entryId st c).2, .br cbId⟩] :=
    instrsOf_mapBlock_self _ (pcP st c) _ hg4.2.1 hpm4
  have hdecomp : ((pcS2 aipId entryId st c).1.instrsOf (pcP st c)).dropLast ++
      [⟨st.next + 1, .br st.next⟩] =
      (pcS2 aipId entryId st c).1.instrsOf (pcP st c) :=
    List.dropLast_append_getLast? _ hpos4
  -- Stage 6: erase the branch generated by the split.
  have hbndA : ((pcS2 aipId entryId st c).1.appendInstr (pcP st c)
      ⟨(pcS2 aipId entryId st c).2, .br cbId⟩).blockIds.Nodup := hgA.2.1
  have hpmA : pcP st c ∈ ((pcS2 aipId entryId st c).1.appendInstr (pcP st c)
      ⟨(pcS2 aipId entryId st c).2, .br cbId⟩).blockIds := by
    unfold Fn.appendInstr
    rw [blockIds_mapBlock]
    exact hpm4
  have he1 : ((pcS2 aipId entryId st c).1.appendInstr (pcP st c)
        ⟨(pcS2 aipId entryId st c).2, .br cbId⟩).instrsOf (pcP st c) =
      ((pcS2 aipId entryId st c).1.instrsOf (pcP st c)).dropLast ++
        [⟨st.next + 1, .br st.next⟩, ⟨(pcS2 aipId entryId st c).2, .br cbId⟩] := by
    rw [hposA, ← hdecomp]
    simp
  have hmsA2 : featMS ((pcS2 aipId entryId st c).1.appendInstr (pcP st c)
        ⟨(pcS2 aipId entryId st c).2, .br cbId⟩) =
      featof ⟨st.next + 1, .br st.next⟩ ::ₘ
        featMS (((pcS2 aipId entryId st c).1.appendInstr (pcP st c)
          ⟨(pcS2 aipId entryId st c).2, .br cbId⟩).mapBlock (pcP st c)
          dropSecondLast) :=
    featMS_mapBlock_drop _ (pcP st c) hbndA hpmA
      (((pcS2 aipId entryId st c).1.instrsOf (pcP st c)).dropLast)
      ⟨st.next + 1, .br st.next⟩ ⟨(pcS2 aipId entryId st c).2, .br cbId⟩ he1
  -- Compose everything.
  have hpe0 : PlumbExt (st.fn, st.next)
      ((pcS2 aipId entryId st c).1.appendInstr (pcP st c)
        ⟨(pcS2 aipId entryId st c).2, .br cbId⟩,
       (pcS2 aipId entryId st c).2 + 1) :=
    plumbExt_trans hpe1 (plumbExt_trans hpe2 (plumbExt_trans hpe3
      (plumbExt_trans hpe4 hpeA)))
  have hpeF : PlumbExt (st.fn, st.next)
      ((((pcS2 aipId entryId st c).1.appendInstr (pcP st c)
        ⟨(pcS2 aipId entryId st c).2, .br cbId⟩).mapBlock (pcP st c)
        dropSecondLast),
       (pcS2 aipId entryId st c).2 + 1) :=
    plumbExt_drop_after hpe0 hmsA2 (by show st.next ≤ st.next + 1; omega)
      (by show st.next + 1 < (pcS2 aipId entryId st c).2 + 1; omega)
      (le_refl _) ⟨rfl, rfl⟩
  have hgF : GoodIds ((((pcS2 aipId entryId st c).1.appendInstr (pcP st c)
        ⟨(pcS2 aipId entryId st c).2, .br cbId⟩).mapBlock (pcP st c)
        dropSecondLast),
       (pcS2 aipId entryId st c).2 + 1) :=
    goodIds_of_drop (s := ((pcS2 aipId entryId st c).1.appendInstr (pcP st c)
        ⟨(pcS2 aipId entryId st c).2, .br cbId⟩, (pcS2 aipId entryId st c).2 + 1))
      hmsA2 hgA (blockIds_mapBlock _ _ _) (le_refl _)
  have hblF : ((((pcS2 aipId entryId st c).1.appendInstr (pcP st c)
        ⟨(pcS2 aipId entryId st c).2, .br cbId⟩).mapBlock (pcP st c)
        dropSecondLast)).blockIds = (pcF1 st c).blockIds := by
    rw [blockIds_mapBlock]
    unfold Fn.appendInstr
    rw [blockIds_mapBlock, hbl4, hbl3, hbl2s]
  have hBF : GoodB ((((pcS2 aipId entryId st c).1.appendInstr (pcP st c)
        ⟨(pcS2 aipId entryId st c).2, .br cbId⟩).mapBlock (pcP st c)
        dropSecondLast),
       (pcS2 aipId entryId st c).2 + 1) := by
    refine goodB_of_eq (s := (pcF1 st c, st.next + 2)) hblF hB1 ?_
    omega
  have hobF : OpBound ((((pcS2 aipId entryId st c).1.appendInstr (pcP st c)
        ⟨(pcS2 aipId entryId st c).2, .br cbId⟩).mapBlock (pcP st c)
        dropSecondLast))
      ((pcS2 aipId entryId st c).2 + 1) := by
    refine opBound_mapBlock _ _ _ ⟨0, .alloca⟩ _ hobA ?_ ?_
    · intro v hv
      simp [Op.operands] at hv
    · intro l z hz
      exact Or.inl (mem_dropSecondLast l z hz)
  have hbmF : (((((pcS2 aipId entryId st c).1.appendInstr (pcP st c)
        ⟨(pcS2 aipId entryId st c).2, .br cbId⟩).mapBlock (pcP st c)
        dropSecondLast)).blockIds : Multiset Nat) =
      st.next ::ₘ (st.fn.blockIds : Multiset Nat) := by
    rw [hblF]
    exact hbm1
  rw [processCaller_eq]
  exact ⟨hpeF, hgF, hBF, hobF, hbmF⟩

end MergeCalls

/-! ## The group transform, stage by stage -/

namespace MergeCalls

theorem transformGroup_eq (env : Env) (st : Fn × Nat) (target : Nat)
    (callers : List Nat) :
    transformGroup env st target callers =
      (tgFf env target st callers, tgCallId env target st callers + 3) := rfl

theorem plumbExt_mem_instrIds {s s' : Fn × Nat} (h : PlumbExt s s') (c : Nat)
    (hc : c ∈ s.1.instrIds) (hlt : c < s.2) : c ∈ s'.1.instrIds := by
  have h1 : c ∈ (s.1.instrIds : Multiset Nat) := Multiset.mem_coe.mpr hc
  rw [instrIds_coe_eq] at h1
  obtain ⟨f, hf, hfc⟩ := Multiset.mem_map.mp h1
  have hcount : 0 < Multiset.count f (featMS s.1) := Multiset.count_pos.mpr hf
  have hlow := h.count_low f (by rw [hfc]; exact hlt)
  have hf' : f ∈ featMS s'.1 := Multiset.count_pos.mp (by omega)
  have h2 : c ∈ (s'.1.instrIds : Multiset Nat) := by
    rw [instrIds_coe_eq]
    exact Multiset.mem_map.mpr ⟨f, hf', hfc⟩
  exact Multiset.mem_coe.mp h2

theorem processCaller_fold_master (cbId aipId entryId : Nat) (g0 : GState)
    (cs : List Nat) (hg : GoodIds (g0.fn, g0.next)) (hB : GoodB (g0.fn, g0.next))
    (hob : OpBound g0.fn g0.next)
    (hcs : ∀ c ∈ cs, c ∈ g0.fn.instrIds) :
    PlumbExt (g0.fn, g0.next)
      ((cs.foldl (processCaller cbId aipId entryId) g0).fn,
        (cs.foldl (processCaller cbId aipId entryId) g0).next) ∧
      GoodIds ((cs.foldl (processCaller cbId aipId entryId) g0).fn,
        (cs.foldl (processCaller cbId aipId entryId) g0).next) ∧
      GoodB ((cs.foldl (processCaller cbId aipId entryId) g0).fn,
        (cs.foldl (processCaller cbId aipId entryId) g0).next) ∧
      OpBound (cs.foldl (processCaller cbId aipId entryId) g0).fn
        (cs.foldl (processCaller cbId aipId entryId) g0).next ∧
      (∀ b ∈ g0.fn.blockIds,
        b ∈ (cs.foldl (processCaller cbId aipId entryId) g0).fn.blockIds) := by
  induction cs generalizing g0 with
  | nil => exact ⟨plumbExt_refl _, hg, hB, hob, fun b hb => hb⟩
  | cons c rest ih =>
      simp only [List.foldl_cons]
      obtain ⟨hpe1, hg1, hB1, hob1, hbm1⟩ := processCaller_master cbId aipId
        entryId g0 c hg hB hob (hcs c (List.mem_cons_self c rest))
      have hrest : ∀ c' ∈ rest,
          c' ∈ (processCaller cbId aipId entryId g0 c).fn.instrIds := by
        intro c' hc'
        exact plumbExt_mem_instrIds hpe1 c'
          (hcs c' (List.mem_cons_of_mem c hc'))
          (hg.2.2 c' (hcs c' (List.mem_cons_of_mem c hc')))
      obtain ⟨hpe2, hg2, hB2, hob2, hmem2⟩ := ih
        (processCaller cbId aipId entryId g0 c) hg1 hB1 hob1 hrest
      refine ⟨plumbExt_trans hpe1 hpe2, hg2, hB2, hob2, ?_⟩
      intro b hb
      refine hmem2 b ?_
      rw [← Multiset.mem_coe, hbm1]
      exact Multiset.mem_cons_of_mem (Multiset.mem_coe.mpr hb)

theorem find?_id_of_nodup (l : List Instr) (hnd : (l.map Instr.id).Nodup)
    (x : Instr) (hx : x ∈ l) : l.find? (fun i => i.id = x.id) = some x := by
  induction l with
  | nil => cases hx
  | cons y ys ih =>
      rcases List.mem_cons.mp hx with rfl | hmem
      · exact List.find?_cons_of_pos _ (by simp)
      · have hyne : ¬ (y.id = x.id) := by
          intro he
          rw [List.map_cons, List.nodup_cons] at hnd
          exact hnd.1 (he ▸ List.mem_map_of_mem Instr.id hmem)
        rw [List.find?_cons_of_neg _ (by simpa using hyne)]
        refine ih ?_ hmem
        rw [List.map_cons, List.nodup_cons] at hnd
        exact hnd.2

theorem findInstr_of_mem (F : Fn) (x : Instr) (hx : x ∈ F.allInstrs)
    (hnd : F.instrIds.Nodup) : F.findInstr x.id = some x :=
  find?_id_of_nodup F.allInstrs hnd x hx

theorem exists_instr_of_feat (F : Fn) (f : Feat) (hf : f ∈ featMS F) :
    ∃ j ∈ F.allInstrs, featof j = f := by
  rw [featMS_eq_coe] at hf
  obtain ⟨j, hj, hjf⟩ := List.mem_map.mp (Multiset.mem_coe.mp hf)
  exact ⟨j, hj, hjf⟩

theorem exists_instr_of_mem_instrIds (F : Fn) (c : Nat) (hc : c ∈ F.instrIds) :
    ∃ j ∈ F.allInstrs, j.id = c := by
  obtain ⟨j, hj, hjc⟩ := List.mem_map.mp hc
  exact ⟨j, hj, hjc⟩

theorem blockIds_insertAIP (F : Fn) (x : Instr) :
    (F.insertAIP x).blockIds = F.blockIds := by
  obtain ⟨bs⟩ := F
  cases bs with
  | nil => rfl
  | cons B rest => rfl

theorem allInstrs_tgF0 (st : Fn × Nat) : (tgF0 st).allInstrs = st.1.allInstrs := by
  unfold tgF0 Fn.allInstrs
  rw [List.flatMap_append]
  simp

theorem featMS_tgF0 (st : Fn × Nat) : featMS (tgF0 st) = featMS st.1 := by
  unfold featMS
  rw [allInstrs_tgF0]

theorem blockIds_tgF0 (st : Fn × Nat) :
    (tgF0 st).blockIds = st.1.blockIds ++ [st.2] := by
  unfold tgF0 Fn.blockIds
  simp

end MergeCalls

/-! ## Group-stage invariants -/

namespace MergeCalls

theorem instrIds_tgF0 (st : Fn × Nat) : (tgF0 st).instrIds = st.1.instrIds := by
  unfold Fn.instrIds
  rw [allInstrs_tgF0]

theorem opBound_tgF0 (st : Fn × Nat) (n : Nat) (h : OpBound st.1 n) :
    OpBound (tgF0 st) n := by
  intro u hu
  rw [allInstrs_tgF0] at hu
  exact h u hu

theorem tgF0_good (st : Fn × Nat) (hg : GoodIds st) (hB : GoodB st) :
    GoodIds (tgF0 st, st.2 + 1) ∧ GoodB (tgF0 st, st.2 + 1) ∧
      st.2 ∈ (tgF0 st).blockIds := by
  obtain ⟨hnd, hbnd, hlt⟩ := hg
  refine ⟨⟨?_, ?_, ?_⟩, ?_, ?_⟩
  · rw [instrIds_tgF0]
    exact hnd
  · rw [blockIds_tgF0, List.nodup_append]
    refine ⟨hbnd, List.nodup_singleton _, ?_⟩
    intro a ha hb
    rw [List.mem_singleton] at hb
    have := hB a ha
    omega
  · intro i hi
    rw [instrIds_tgF0] at hi
    have := hlt i hi
    omega
  · intro b hb
    rw [blockIds_tgF0] at hb
    rcases List.mem_append.mp hb with h1 | h1
    · have := hB b h1
      omega
    · rw [List.mem_singleton] at h1
      omega
  · rw [blockIds_tgF0]
    exact List.mem_append.mpr (Or.inr (List.mem_singleton.mpr rfl))

theorem tgF1_facts (st : Fn × Nat) (hg : GoodIds st) (hB : GoodB st)
    (hob : OpBound st.1 st.2) :
    featMS (tgF1 st) =
      featof ⟨st.2 + 1, .bitcast (Val.intConst 0) "mergecalls alloca point"⟩ ::ₘ
        featMS st.1 ∧
      GoodIds (tgF1 st, st.2 + 2) ∧ GoodB (tgF1 st, st.2 + 2) ∧
      OpBound (tgF1 st) (st.2 + 2) ∧
      (tgF1 st).blockIds = st.1.blockIds ++ [st.2] ∧
      (∀ c ∈ st.1.instrIds, c ∈ (tgF1 st).instrIds) := by
  obtain ⟨hg0, hB0, hcb0⟩ := tgF0_good st hg hB
  have hne : (tgF0 st).blocks ≠ [] := by
    unfold tgF0
    simp
  have hms : featMS (tgF1 st) =
      featof ⟨st.2 + 1, .bitcast (Val.intConst 0) "mergecalls alloca point"⟩ ::ₘ
        featMS st.1 := by
    unfold tgF1
    rw [featMS_insertAIP _ _ hne, featMS_tgF0]
  have hms0 : featMS (tgF1 st) =
      featof ⟨st.2 + 1, .bitcast (Val.intConst 0) "mergecalls alloca point"⟩ ::ₘ
        featMS (tgF0 st) := by
    rw [hms, featMS_tgF0]
  have hbl : (tgF1 st).blockIds = (tgF0 st).blockIds := blockIds_insertAIP _ _
  have hgood : GoodIds (tgF1 st, st.2 + 2) :=
    goodIds_of_cons (s := (tgF0 st, st.2 + 1)) hms0 hg0 hbl (le_refl _)
      (by show st.2 + 1 < st.2 + 2; omega) (by omega)
  refine ⟨hms, hgood, ?_, ?_, ?_, ?_⟩
  · intro b hb
    rw [hbl] at hb
    have := hB0 b hb
    omega
  · refine opBound_insertAIP (tgF0 st) _ (st.2 + 2)
      (opBound_tgF0 st (st.2 + 2) (opBound_mono hob (by omega))) ?_
    intro v hv
    simp [Op.operands] at hv
    rw [hv]
    rfl
  · rw [hbl, blockIds_tgF0]
  · intro c hc
    have h1 : c ∈ ((tgF0 st).instrIds : Multiset Nat) := by
      rw [instrIds_tgF0]
      exact Multiset.mem_coe.mpr hc
    have h2 : c ∈ ((tgF1 st).instrIds : Multiset Nat) := by
      rw [instrIds_coe_of_cons hms0]
      exact Multiset.mem_cons_of_mem h1
    exact Multiset.mem_coe.mp h2

theorem tgG_master (st : Fn × Nat) (callers : List Nat)
    (hg : GoodIds st) (hB : GoodB st) (hob : OpBound st.1 st.2)
    (hcs : ∀ c ∈ callers, c ∈ st.1.instrIds) :
    PlumbExt (tgF1 st, st.2 + 2) ((tgG st callers).fn, (tgG st callers).next) ∧
      GoodIds ((tgG st callers).fn, (tgG st callers).next) ∧
      GoodB ((tgG st callers).fn, (tgG st callers).next) ∧
      OpBound (tgG st callers).fn (tgG st callers).next ∧
      st.2 ∈ (tgG st callers).fn.blockIds ∧
      st.2 + 2 ≤ (tgG st callers).next := by
  obtain ⟨hms1, hg1, hB1, hob1, hbl1, hmem1⟩ := tgF1_facts st hg hB hob
  have hcs1 : ∀ c ∈ callers,
      c ∈ (GState.mk (tgF1 st) (st.2 + 2) [] []).fn.instrIds := by
    intro c hc
    exact hmem1 c (hcs c hc)
  obtain ⟨hpe, hg2, hB2, hob2, hmon⟩ := processCaller_fold_master st.2 (st.2 + 1)
    (tgEntry st) (GState.mk (tgF1 st) (st.2 + 2) [] []) callers hg1 hB1 hob1 hcs1
  refine ⟨hpe, hg2, hB2, hob2, ?_, hpe.1⟩
  refine hmon st.2 ?_
  show st.2 ∈ (tgF1 st).blockIds
  rw [hbl1]
  exact List.mem_append.mpr (Or.inr (List.mem_singleton.mpr rfl))

theorem argOperand_bound (F : Fn) (c i n : Nat) (hob : OpBound F n) :
    regLtB (argOperand F c i) n = true := by
  unfold argOperand
  cases hf : F.findInstr c with
  | none => rfl
  | some j =>
      obtain ⟨jid, jop⟩ := j
      cases jop with
      | call ce args =>
          show regLtB (args.getD i (Val.intConst 0)) n = true
          have hjmem : (⟨jid, .call ce args⟩ : Instr) ∈ F.allInstrs :=
            List.mem_of_find?_eq_some hf
          cases hv : args[i]? with
          | none =>
              have hd : args.getD i (Val.intConst 0) = Val.intConst 0 := by
                simp [List.getD, hv]
              rw [hd]
              rfl
          | some v =>
              have hvm : v ∈ args := List.getElem?_mem hv
              have hop : v ∈ (Op.call ce args).operands := by
                unfold Op.operands
                exact List.mem_append.mpr (Or.inr hvm)
              have := hob _ hjmem v hop
              simpa [List.getD, hv] using this
      | _ => rfl

end MergeCalls

/-! ## The argument-PHI builder -/

namespace MergeCalls

theorem argPhis_fold (callers : List Nat) (cbId : Nat) (c2p : List (Nat × Nat))
    (idxs : List Nat) (s : Fn × Nat) (vs : List Val)
    (hg : GoodIds s) (hob : OpBound s.1 s.2) (hcb : cbId ∈ s.1.blockIds) :
    PlumbExt s (idxs.foldl
      (fun acc argCtr =>
        let F := acc.1.1
        let n := acc.1.2
        let pairs := callers.map fun c => (argOperand F c argCtr, mapLookup c2p c)
        ((F.appendInstr cbId ⟨n, .phi pairs⟩, n + 1), acc.2 ++ [Val.reg n]))
      (s, vs)).1 ∧
    GoodIds (idxs.foldl
      (fun acc argCtr =>
        let F := acc.1.1
        let n := acc.1.2
        let pairs := callers.map fun c => (argOperand F c argCtr, mapLookup c2p c)
        ((F.appendInstr cbId ⟨n, .phi pairs⟩, n + 1), acc.2 ++ [Val.reg n]))
      (s, vs)).1 ∧
    OpBound (idxs.foldl
      (fun acc argCtr =>
        let F := acc.1.1
        let n := acc.1.2
        let pairs := callers.map fun c => (argOperand F c argCtr, mapLookup c2p c)
        ((F.appendInstr cbId ⟨n, .phi pairs⟩, n + 1), acc.2 ++ [Val.reg n]))
      (s, vs)).1.1
      (idxs.foldl
      (fun acc argCtr =>
        let F := acc.1.1
        let n := acc.1.2
        let pairs := callers.map fun c => (argOperand F c argCtr, mapLookup c2p c)
        ((F.appendInstr cbId ⟨n, .phi pairs⟩, n + 1), acc.2 ++ [Val.reg n]))
      (s, vs)).1.2 ∧
    (idxs.foldl
      (fun acc argCtr =>
        let F := acc.1.1
        let n := acc.1.2
        let pairs := callers.map fun c => (argOperand F c argCtr, mapLookup c2p c)
        ((F.appendInstr cbId ⟨n, .phi pairs⟩, n + 1), acc.2 ++ [Val.reg n]))
      (s, vs)).1.1.blockIds = s.1.blockIds ∧
    (idxs.foldl
      (fun acc argCtr =>
        let F := acc.1.1
        let n := acc.1.2
        let pairs := callers.map fun c => (argOperand F c argCtr, mapLookup c2p c)
        ((F.appendInstr cbId ⟨n, .phi pairs⟩, n + 1), acc.2 ++ [Val.reg n]))
      (s, vs)).1.2 = s.2 + idxs.length ∧
    (idxs.foldl
      (fun acc argCtr =>
        let F := acc.1.1
        let n := acc.1.2
        let pairs := callers.map fun c => (argOperand F c argCtr, mapLookup c2p c)
        ((F.appendInstr cbId ⟨n, .phi pairs⟩, n + 1), acc.2 ++ [Val.reg n]))
      (s, vs)).2 = vs ++ (List.range idxs.length).map (fun i => Val.reg (s.2 + i)) := by
  induction idxs generalizing s vs with
  | nil =>
      exact ⟨plumbExt_refl s, hg, hob, rfl, by simp, by simp⟩
  | cons i rest ih =>
      simp only [List.foldl_cons]
      have hms : featMS (s.1.appendInstr cbId
          ⟨s.2, .phi (callers.map fun c =>
            (argOperand s.1 c i, mapLookup c2p c))⟩) =
          featof ⟨s.2, .phi (callers.map fun c =>
            (argOperand s.1 c i, mapLookup c2p c))⟩ ::ₘ featMS s.1 :=
        featMS_mapBlock s.1 cbId _ _ hg.2.1 hcb
          (fun l => List.perm_append_singleton _ l)
      have hpe1 : PlumbExt s (s.1.appendInstr cbId
          ⟨s.2, .phi (callers.map fun c =>
            (argOperand s.1 c i, mapLookup c2p c))⟩, s.2 + 1) :=
        plumbExt_cons hms (le_refl _) (by show s.2 < s.2 + 1; omega)
          (by omega) ⟨rfl, rfl⟩
      have hg1 : GoodIds (s.1.appendInstr cbId
          ⟨s.2, .phi (callers.map fun c =>
            (argOperand s.1 c i, mapLookup c2p c))⟩, s.2 + 1) :=
        goodIds_of_cons hms hg (blockIds_mapBlock _ _ _) (le_refl _)
          (by show s.2 < s.2 + 1; omega) (by omega)
      have hob1 : OpBound (s.1.appendInstr cbId
          ⟨s.2, .phi (callers.map fun c =>
            (argOperand s.1 c i, mapLookup c2p c))⟩) (s.2 + 1) := by
        refine opBound_mapBlock _ cbId _
          ⟨s.2, .phi (callers.map fun c =>
            (argOperand s.1 c i, mapLookup c2p c))⟩ _
          (opBound_mono hob (by omega)) ?_ ?_
        · intro v hv
          simp only [Op.operands, List.map_map] at hv
          obtain ⟨c, hc, hvc⟩ := List.mem_map.mp hv
          rw [← hvc]
          show regLtB (argOperand s.1 c i) (s.2 + 1) = true
          exact regLtB_mono (argOperand_bound s.1 c i s.2 hob) (by omega)
        · intro l z hz
          rcases List.mem_append.mp hz with h1 | h1
          · exact Or.inl h1
          · exact Or.inr (List.mem_singleton.mp h1)
      have hcb1 : cbId ∈ (s.1.appendInstr cbId
          ⟨s.2, .phi (callers.map fun c =>
            (argOperand s.1 c i, mapLookup c2p c))⟩).blockIds := by
        show cbId ∈ (s.1.mapBlock cbId _).blockIds
        rw [blockIds_mapBlock]
        exact hcb
      obtain ⟨pe2, g2, ob2, bl2, len2, vals2⟩ := ih
        (s.1.appendInstr cbId
          ⟨s.2, .phi (callers.map fun c =>
            (argOperand s.1 c i, mapLookup c2p c))⟩, s.2 + 1)
        (vs ++ [Val.reg s.2]) hg1 hob1 hcb1
      refine ⟨plumbExt_trans hpe1 pe2, g2, ob2, ?_, ?_, ?_⟩
      · rw [bl2]
        show (s.1.mapBlock cbId _).blockIds = s.1.blockIds
        exact blockIds_mapBlock _ _ _
      · rw [len2]
        simp only [List.length_cons]
        omega
      · rw [vals2]
        simp only [List.length_cons]
        rw [List.range_succ_eq_map, List.map_cons, List.map_map]
        have hmap : (List.map (fun i => Val.reg (s.2 + 1 + i)) (List.range rest.length)) =
            List.map ((fun i => Val.reg (s.2 + i)) ∘ Nat.succ) (List.range rest.length) := by
          refine List.map_congr_left fun j _ => ?_
          show Val.reg (s.2 + 1 + j) = Val.reg (s.2 + (j + 1))
          congr 1
          omega
        rw [← hmap]
        simp

end MergeCalls

namespace MergeCalls

theorem buildArgPhis_master (env : Env) (target : Nat) (callers : List Nat)
    (cbId : Nat) (c2p : List (Nat × Nat)) (s : Fn × Nat)
    (hg : GoodIds s) (hob : OpBound s.1 s.2) (hcb : cbId ∈ s.1.blockIds) :
    PlumbExt s (buildArgPhis env target callers cbId c2p s).1 ∧
      GoodIds (buildArgPhis env target callers cbId c2p s).1 ∧
      OpBound (buildArgPhis env target callers cbId c2p s).1.1
        (buildArgPhis env target callers cbId c2p s).1.2 ∧
      (buildArgPhis env target callers cbId c2p s).1.1.blockIds = s.1.blockIds ∧
      (buildArgPhis env target callers cbId c2p s).1.2 = s.2 + env.arity target ∧
      (buildArgPhis env target callers cbId c2p s).2 =
        (List.range (env.arity target)).map (fun i => Val.reg (s.2 + i)) := by
  unfold buildArgPhis
  by_cases ha : env.arity target > 0
  · rw [if_pos ha]
    have h := argPhis_fold callers cbId c2p (List.range (env.arity target)) s []
      hg hob hcb
    simpa [List.length_range] using h
  · rw [if_neg ha]
    have ha0 : env.arity target = 0 := by omega
    rw [ha0]
    exact ⟨plumbExt_refl s, hg, hob, rfl, by simp, by simp⟩

end MergeCalls

/-! ## The replace-and-erase loop over the original call sites -/

namespace MergeCalls

theorem eraseFold_master (target callId : Nat) (callers : List Nat) (F : Fn)
    (n : Nat) (hg : GoodIds (F, n))
    (hcall : ∀ c ∈ callers,
      ((c, some (CKind.direct target), false) : Feat) ∈ featMS F)
    (hnd : callers.Nodup) :
    GoodIds ((callers.foldl
      (fun f c => Fn.eraseInstr
        (Fn.rauw f (Val.reg c) (Val.reg callId)) c) F), n) ∧
    (callers.foldl
      (fun f c => Fn.eraseInstr
        (Fn.rauw f (Val.reg c) (Val.reg callId)) c) F).blockIds = F.blockIds ∧
    featMS F =
      ((callers.map (fun c =>
        ((c, some (CKind.direct target), false) : Feat)) : List Feat) :
          Multiset Feat) +
        featMS (callers.foldl
          (fun f c => Fn.eraseInstr
            (Fn.rauw f (Val.reg c) (Val.reg callId)) c) F) := by
  induction callers generalizing F with
  | nil =>
      refine ⟨hg, rfl, ?_⟩
    --  ↑[] + M = M
      simp
  | cons c rest ih =>
      simp only [List.foldl_cons]
      have hmsr : featMS (F.rauw (Val.reg c) (Val.reg callId)) = featMS F :=
        featMS_rauw F c callId
      have hcf : ((c, some (CKind.direct target), false) : Feat) ∈
          featMS (F.rauw (Val.reg c) (Val.reg callId)) := by
        rw [hmsr]
        exact hcall c (List.mem_cons_self c rest)
      obtain ⟨j, hj, hjf⟩ := exists_instr_of_feat _ _ hcf
      have hgr : GoodIds (F.rauw (Val.reg c) (Val.reg callId), n) :=
        goodIds_of_eq (s := (F, n)) hmsr hg (blockIds_rauw F _ _) (le_refl _)
      have hjid : j.id = c := by
        have := congrArg Prod.fst hjf
        simpa [featof] using this
      have hfind : (F.rauw (Val.reg c) (Val.reg callId)).findInstr c = some j := by
        have h0 := findInstr_of_mem _ j hj hgr.1
        rw [hjid] at h0
        exact h0
      have hdropms : featMS (F.rauw (Val.reg c) (Val.reg callId)) =
          featof j ::ₘ featMS ((F.rauw (Val.reg c) (Val.reg callId)).eraseInstr c) :=
        featMS_of_find _ c j hfind hgr.1
      have hge : GoodIds ((F.rauw (Val.reg c) (Val.reg callId)).eraseInstr c, n) :=
        goodIds_of_drop (s := (F.rauw (Val.reg c) (Val.reg callId), n)) hdropms hgr
          (blockIds_eraseInstr _ c) (le_refl _)
      have hrest : ∀ c' ∈ rest,
          ((c', some (CKind.direct target), false) : Feat) ∈
            featMS ((F.rauw (Val.reg c) (Val.reg callId)).eraseInstr c) := by
        intro c' hc'
        have h1 : ((c', some (CKind.direct target), false) : Feat) ∈
            featMS (F.rauw (Val.reg c) (Val.reg callId)) := by
          rw [hmsr]
          exact hcall c' (List.mem_cons_of_mem c hc')
        rw [hdropms, Multiset.mem_cons] at h1
        rcases h1 with he | hm
        · exfalso
          have hne : c' ≠ c := by
            intro heq
            rw [heq] at hc'
            exact (List.nodup_cons.mp hnd).1 hc'
          apply hne
          have := congrArg Prod.fst he
          rw [hjf] at this  -- hmm
          exact this
        · exact hm
      obtain ⟨hg2, hbl2, hms2⟩ := ih ((F.rauw (Val.reg c) (Val.reg callId)).eraseInstr c)
        hge hrest (List.nodup_cons.mp hnd).2
      refine ⟨hg2, ?_, ?_⟩
      · rw [hbl2, blockIds_eraseInstr, blockIds_rauw]
      · rw [← hmsr, hdropms, hjf, hms2]
        rw [List.map_cons, ← Multiset.cons_coe, ← Multiset.singleton_add,
          ← Multiset.singleton_add]
        abel

end MergeCalls


/-! ## Membership of freshly inserted instructions -/

namespace MergeCalls

theorem mem_insertBeforeIn_self (l : List Instr) (t : Nat) (x : Instr)
    (ht : t ∈ l.map Instr.id) : x ∈ insertBeforeIn l t x := by
  induction l with
  | nil => simp at ht
  | cons y ys ih =>
      show x ∈ (if y.id = t then x :: y :: ys else y :: insertBeforeIn ys t x)
      by_cases h : y.id = t
      · rw [if_pos h]
        exact List.mem_cons_self _ _
      · rw [if_neg h]
        have ht2 : t ∈ ys.map Instr.id := by
          rcases List.mem_map.mp ht with ⟨j, hj, hjt⟩
          rcases List.mem_cons.mp hj with rfl | hm
          · exact absurd hjt h
          · rw [← hjt]
            exact List.mem_map_of_mem Instr.id hm
        exact List.mem_cons_of_mem y (ih ht2)

theorem mem_insertBefore_self (F : Fn) (t : Nat) (x : Instr)
    (ht : t ∈ F.instrIds) : x ∈ (F.insertBefore t x).allInstrs := by
  obtain ⟨j, hj, hjt⟩ := List.mem_map.mp ht
  obtain ⟨B, hB, hjB⟩ := List.mem_flatMap.mp hj
  unfold Fn.insertBefore Fn.allInstrs
  rw [List.flatMap_map]
  refine List.mem_flatMap.mpr ⟨B, hB, ?_⟩
  show x ∈ insertBeforeIn B.instrs t x
  refine mem_insertBeforeIn_self B.instrs t x ?_
  rw [← hjt]
  exact List.mem_map_of_mem Instr.id hjB

theorem mem_allInstrs_mapBlock (F : Fn) (b : Nat) (f : List Instr → List Instr)
    (hf : ∀ l, ∀ y ∈ l, y ∈ f l) (u : Instr) (hu : u ∈ F.allInstrs) :
    u ∈ (F.mapBlock b f).allInstrs := by
  obtain ⟨B, hB, huB⟩ := List.mem_flatMap.mp hu
  unfold Fn.mapBlock Fn.allInstrs
  rw [List.flatMap_map]
  refine List.mem_flatMap.mpr ⟨B, hB, ?_⟩
  by_cases h : B.id = b
  · rw [if_pos h]
    exact hf B.instrs u huB
  · rw [if_neg h]
    exact huB

end MergeCalls

/-! ## End-to-end facts about one merged group -/

namespace MergeCalls

theorem mem_instrIds_of_feat (F : Fn) (f : Feat) (hf : f ∈ featMS F) :
    f.1 ∈ F.instrIds := by
  have h1 : f.1 ∈ (F.instrIds : Multiset Nat) := by
    rw [instrIds_coe_eq]
    exact Multiset.mem_map.mpr ⟨f, hf, rfl⟩
  exact Multiset.mem_coe.mp h1

theorem plumbExt_mem_feat {s s' : Fn × Nat} (h : PlumbExt s s') (f : Feat)
    (hf : f ∈ featMS s.1) (hlt : f.1 < s.2) : f ∈ featMS s'.1 := by
  have hcount : 0 < Multiset.count f (featMS s.1) := Multiset.count_pos.mpr hf
  have hlow := h.count_low f hlt
  exact Multiset.count_pos.mp (by omega)

theorem mapInsert_ne_nil (l : List (Nat × Nat)) (k v : Nat) :
    mapInsert l k v ≠ [] := by
  cases l with
  | nil => exact List.cons_ne_nil _ _
  | cons p ps =>
      show (if k < p.1 then (k, v) :: p :: ps
        else if k = p.1 then (k, v) :: ps else p :: mapInsert ps k v) ≠ []
      split
      · exact List.cons_ne_nil _ _
      · split
        · exact List.cons_ne_nil _ _
        · exact List.cons_ne_nil _ _

theorem c2rFold_ne_nil (cbId aipId entryId : Nat) (cs : List Nat) (g0 : GState)
    (h : g0.c2r ≠ []) :
    (cs.foldl (processCaller cbId aipId entryId) g0).c2r ≠ [] := by
  induction cs generalizing g0 with
  | nil => exact h
  | cons c rest ih =>
      simp only [List.foldl_cons]
      refine ih _ ?_
      show mapInsert g0.c2r ((g0.fn.blockOf c).getD 0) g0.next ≠ []
      exact mapInsert_ne_nil _ _ _

theorem tgG_c2r_ne_nil (st : Fn × Nat) (callers : List Nat)
    (h : callers ≠ []) : (tgG st callers).c2r ≠ [] := by
  obtain ⟨c, rest, rfl⟩ := List.exists_cons_of_ne_nil h
  unfold tgG
  simp only [List.foldl_cons]
  refine c2rFold_ne_nil _ _ _ rest _ ?_
  show mapInsert [] _ _ ≠ []
  exact mapInsert_ne_nil _ _ _

theorem tg_chain (env : Env) (target : Nat) (st : Fn × Nat) (callers : List Nat)
    (hg : GoodIds st) (hB : GoodB st) (hob : OpBound st.1 st.2)
    (hcall : ∀ c ∈ callers,
      ((c, some (CKind.direct target), false) : Feat) ∈ featMS st.1)
    (hnd : callers.Nodup) :
    featMS (tgF1 st) =
      featof ⟨st.2 + 1, .bitcast (Val.intConst 0) "mergecalls alloca point"⟩ ::ₘ
        featMS st.1 ∧
    PlumbExt (tgF1 st, st.2 + 2) ((tgG st callers).fn, (tgG st callers).next) ∧
    PlumbExt ((tgG st callers).fn, (tgG st callers).next)
      (tgAB env target st callers).1 ∧
    featMS (tgFc env target st callers) =
      featof ⟨tgCallId env target st callers, .call (.direct target)
        (tgAB env target st callers).2⟩ ::ₘ
        featMS (tgAB env target st callers).1.1 ∧
    featMS (tgFc env target st callers) =
      ((callers.map (fun c =>
        ((c, some (CKind.direct target), false) : Feat)) : List Feat) :
          Multiset Feat) + featMS (tgFd env target st callers) ∧
    featMS (tgFe env target st callers) =
      featof ⟨tgCallId env target st callers + 1, .phi (tgWfPairs st callers)⟩ ::ₘ
        featMS (tgFd env target st callers) ∧
    featMS (tgFf env target st callers) =
      featof ⟨tgCallId env target st callers + 2,
        .switch (Val.reg (tgCallId env target st callers + 1))
          (tgDflt st callers) (tgCaseList st callers)⟩ ::ₘ
        featMS (tgFe env target st callers) ∧
    posAt (tgFf env target st callers) st.2
      ⟨tgCallId env target st callers + 2,
        .switch (Val.reg (tgCallId env target st callers + 1))
          (tgDflt st callers) (tgCaseList st callers)⟩ ∧
    GoodIds (tgFf env target st callers, tgCallId env target st callers + 3) ∧
    tgCallId env target st callers =
      (tgG st callers).next + env.arity target ∧
    st.2 + 2 ≤ (tgG st callers).next ∧
    (tgAB env target st callers).2 =
      (List.range (env.arity target)).map
        (fun i => Val.reg ((tgG st callers).next + i)) ∧
    (tgFf env target st callers).findInstr
        (tgCallId env target st callers + 1) =
      some ⟨tgCallId env target st callers + 1,
        .phi (tgWfPairs st callers)⟩ := by
  have hpres : ∀ c ∈ callers, c ∈ st.1.instrIds := by
    intro c hc
    exact mem_instrIds_of_feat st.1 _ (hcall c hc)
  have hclt : ∀ c ∈ callers, c < st.2 := by
    intro c hc
    exact hg.2.2 c (hpres c hc)
  obtain ⟨hms1, hg1, hB1, hob1, hbl1, hmem1⟩ := tgF1_facts st hg hB hob
  obtain ⟨hpe2, hg2, hB2, hob2, hcb2, hgrow2⟩ := tgG_master st callers hg hB hob
    hpres
  obtain ⟨hpe3, hg3, hob3, hbl3, hlen3, hvals3⟩ := buildArgPhis_master env target
    callers st.2 (tgG st callers).c2p
    ((tgG st callers).fn, (tgG st callers).next) hg2 hob2 hcb2
  have hg3' : GoodIds (tgAB env target st callers).1 := hg3
  have hlenC : tgCallId env target st callers =
      (tgG st callers).next + env.arity target := hlen3
  have hcb3 : st.2 ∈ (tgAB env target st callers).1.1.blockIds := by
    have hb : (tgAB env target st callers).1.1.blockIds =
        (tgG st callers).fn.blockIds := hbl3
    rw [hb]
    exact hcb2
  -- The merged call.
  have hmsC : featMS (tgFc env target st callers) =
      featof ⟨tgCallId env target st callers, .call (.direct target)
        (tgAB env target st callers).2⟩ ::ₘ
        featMS (tgAB env target st callers).1.1 :=
    featMS_mapBlock (tgAB env target st callers).1.1 st.2 _ _ hg3'.2.1 hcb3
      (fun l => List.perm_append_singleton _ l)
  have hgC : GoodIds (tgFc env target st callers,
      tgCallId env target st callers + 1) :=
    goodIds_of_cons (s := (tgAB env target st callers).1) hmsC hg3'
      (blockIds_mapBlock _ _ _) (le_refl _)
      (by show tgCallId env target st callers <
            tgCallId env target st callers + 1
          omega)
      (by show tgCallId env target st callers ≤
            tgCallId env target st callers + 1
          omega)
  -- Every caller's call feature survives to the merged-call stage.
  have hcallC : ∀ c ∈ callers,
      ((c, some (CKind.direct target), false) : Feat) ∈
        featMS (tgFc env target st callers) := by
    intro c hc
    have h1 : ((c, some (CKind.direct target), false) : Feat) ∈
        featMS (tgF1 st) := by
      rw [hms1]
      exact Multiset.mem_cons_of_mem (hcall c hc)
    have h2 : ((c, some (CKind.direct target), false) : Feat) ∈
        featMS (tgG st callers).fn :=
      plumbExt_mem_feat hpe2 _ h1 (by have := hclt c hc; show c < st.2 + 2; omega)
    have h3 : ((c, some (CKind.direct target), false) : Feat) ∈
        featMS (tgAB env target st callers).1.1 :=
      plumbExt_mem_feat hpe3 _ h2
        (by show c < (tgG st callers).next
            have := hclt c hc
            omega)
    rw [hmsC]
    exact Multiset.mem_cons_of_mem h3
  obtain ⟨hgD, hblD, hmsD⟩ := eraseFold_master target
    (tgCallId env target st callers) callers (tgFc env target st callers)
    (tgCallId env target st callers + 1) hgC hcallC hnd
  -- The merged call's identifier survives the erasures.
  have hcallIdD : tgCallId env target st callers ∈
      (tgFd env target st callers).instrIds := by
    have h1 : ((tgCallId env target st callers, some (CKind.direct target),
        false) : Feat) ∈ featMS (tgFc env target st callers) := by
      rw [hmsC]
      exact Multiset.mem_cons_self _ _
    rw [hmsD] at h1
    rw [Multiset.mem_add] at h1
    rcases h1 with hm | hm
    · exfalso
      obtain ⟨c, hc, hcf⟩ := List.mem_map.mp (Multiset.mem_coe.mp hm)
      have : c = tgCallId env target st callers := by
        have := congrArg Prod.fst hcf
        simpa using this
      have hlt := hclt c hc
      rw [hlenC] at this
      omega
    · exact mem_instrIds_of_feat _ _ hm
  -- The discriminator PHI.
  have hmsE : featMS (tgFe env target st callers) =
      featof ⟨tgCallId env target st callers + 1, .phi (tgWfPairs st callers)⟩ ::ₘ
        featMS (tgFd env target st callers) :=
    featMS_insertBefore (tgFd env target st callers)
      (tgCallId env target st callers) _ hgD.1 hcallIdD
  have hgE : GoodIds (tgFe env target st callers,
      tgCallId env target st callers + 2) :=
    goodIds_of_cons (s := (tgFd env target st callers,
      tgCallId env target st callers + 1)) hmsE hgD
      (blockIds_insertBefore _ _ _) (le_refl _)
      (by show tgCallId env target st callers + 1 <
            tgCallId env target st callers + 2
          omega)
      (by omega)
  have hcbE : st.2 ∈ (tgFe env target st callers).blockIds := by
    have hbe : (tgFe env target st callers).blockIds =
        (tgFd env target st callers).blockIds := blockIds_insertBefore _ _ _
    have hblD2 : (tgFd env target st callers).blockIds =
        (tgFc env target st callers).blockIds := hblD
    rw [hbe, hblD2]
    show st.2 ∈ (tgFc env target st callers).blockIds
    have hbc : (tgFc env target st callers).blockIds =
        (tgAB env target st callers).1.1.blockIds := blockIds_mapBlock _ _ _
    rw [hbc]
    exact hcb3
  -- The dispatch switch.
  have hmsF : featMS (tgFf env target st callers) =
      featof ⟨tgCallId env target st callers + 2,
        .switch (Val.reg (tgCallId env target st callers + 1))
          (tgDflt st callers) (tgCaseList st callers)⟩ ::ₘ
        featMS (tgFe env target st callers) :=
    featMS_mapBlock (tgFe env target st callers) st.2 _ _ hgE.2.1 hcbE
      (fun l => List.perm_append_singleton _ l)
  have hgF : GoodIds (tgFf env target st callers,
      tgCallId env target st callers + 3) :=
    goodIds_of_cons (s := (tgFe env target st callers,
      tgCallId env target st callers + 2)) hmsF hgE
      (blockIds_mapBlock _ _ _) (le_refl _)
      (by show tgCallId env target st callers + 2 <
            tgCallId env target st callers + 3
          omega)
      (by omega)
  have hposF : posAt (tgFf env target st callers) st.2
      ⟨tgCallId env target st callers + 2,
        .switch (Val.reg (tgCallId env target st callers + 1))
          (tgDflt st callers) (tgCaseList st callers)⟩ := by
    unfold posAt
    have hio : (tgFf env target st callers).instrsOf st.2 =
        (tgFe env target st callers).instrsOf st.2 ++
          [⟨tgCallId env target st callers + 2,
            .switch (Val.reg (tgCallId env target st callers + 1))
              (tgDflt st callers) (tgCaseList st callers)⟩] :=
      instrsOf_mapBlock_self _ st.2 _ hgE.2.1 hcbE
    rw [hio]
    exact List.getLast?_concat _
  have hwfmem : (⟨tgCallId env target st callers + 1,
      .phi (tgWfPairs st callers)⟩ : Instr) ∈
      (tgFe env target st callers).allInstrs :=
    mem_insertBefore_self _ _ _ hcallIdD
  have hwfmemF : (⟨tgCallId env target st callers + 1,
      .phi (tgWfPairs st callers)⟩ : Instr) ∈
      (tgFf env target st callers).allInstrs := by
    refine mem_allInstrs_mapBlock _ st.2 _ ?_ _ hwfmem
    intro l y hy
    exact List.mem_append.mpr (Or.inl hy)
  have hfindwf : (tgFf env target st callers).findInstr
      (tgCallId env target st callers + 1) =
      some ⟨tgCallId env target st callers + 1, .phi (tgWfPairs st callers)⟩ :=
    findInstr_of_mem _ _ hwfmemF hgF.1
  exact ⟨hms1, hpe2, hpe3, hmsC, hmsD, hmsE, hmsF, hposF, hgF, hlenC, hgrow2,
    hvals3, hfindwf⟩

end MergeCalls

/-! ## Claim C9: the switch default and the tag-0 case -/

namespace MergeCalls

def exC9env : Env := ⟨fun _ => false, fun _ => 0⟩

def exC9F : Fn := ⟨[
  ⟨0, [⟨1, .call (.direct 7) []⟩, ⟨2, .br 10⟩]⟩,
  ⟨10, [⟨3, .call (.direct 7) []⟩, ⟨4, .ret none⟩]⟩]⟩

/-- C9: for every merged group (an identifier-sane stage whose group members
are present as calls to the target), the dispatch switch appended to the
shared block is created with a default destination equal to the continuation
block of the first entry of the predecessor-to-continuation map, and the
explicit tag-0 case of its case list targets exactly that same block. -/
theorem C9_default_case (env : Env) (st : Fn × Nat) (target : Nat)
    (callers : List Nat)
    (hg : GoodIds st) (hB : GoodB st) (hob : OpBound st.1 st.2)
    (hcall : ∀ c ∈ callers,
      ((c, some (CKind.direct target), false) : Feat) ∈ featMS st.1)
    (hnd : callers.Nodup) (hne : callers ≠ []) :
    ∃ p0 r0 rest,
      (tgG st callers).c2r = (p0, r0) :: rest ∧
      posAt (transformGroup env st target callers).1 st.2
        ⟨tgCallId env target st callers + 2,
          .switch (Val.reg (tgCallId env target st callers + 1)) r0
            (tgCaseList st callers)⟩ ∧
      (tgCaseList st callers).head? = some (sint32 0, r0) := by
  obtain ⟨e0, rest, hc2r⟩ :=
    List.exists_cons_of_ne_nil (tgG_c2r_ne_nil st callers hne)
  obtain ⟨p0, r0⟩ := e0
  obtain ⟨-, -, -, -, -, -, -, hpos, -, -, -, -⟩ :=
    tg_chain env target st callers hg hB hob hcall hnd
  have hdflt : tgDflt st callers = r0 := by
    unfold tgDflt
    rw [hc2r]
    rfl
  refine ⟨p0, r0, rest, hc2r, ?_, ?_⟩
  · rw [transformGroup_eq]
    rw [← hdflt]
    exact hpos
  · unfold tgCaseList
    rw [hc2r]
    rfl

/-- Closed witness for C9 at a concrete two-site group. -/
theorem C9_default_case_witness :
    (GoodIds (exC9F, 11) ∧ GoodB (exC9F, 11) ∧ OpBound exC9F 11 ∧
      (∀ c ∈ ([1, 3] : List Nat),
        ((c, some (CKind.direct 7), false) : Feat) ∈ featMS exC9F) ∧
      ([1, 3] : List Nat).Nodup ∧ ([1, 3] : List Nat) ≠ []) ∧
    (∃ p0 r0 rest,
      (tgG (exC9F, 11) [1, 3]).c2r = (p0, r0) :: rest ∧
      posAt (transformGroup exC9env (exC9F, 11) 7 [1, 3]).1 11
        ⟨tgCallId exC9env 7 (exC9F, 11) [1, 3] + 2,
          .switch (Val.reg (tgCallId exC9env 7 (exC9F, 11) [1, 3] + 1)) r0
            (tgCaseList (exC9F, 11) [1, 3])⟩ ∧
      (tgCaseList (exC9F, 11) [1, 3]).head? = some (sint32 0, r0)) :=
  ⟨⟨by unfold GoodIds; decide, by unfold GoodB; decide,
      by unfold OpBound; decide, by decide, by decide, by decide⟩,
    C9_default_case exC9env (exC9F, 11) 7 [1, 3] (by unfold GoodIds; decide)
      (by unfold GoodB; decide) (by unfold OpBound; decide) (by decide)
      (by decide) (by decide)⟩

end MergeCalls

/-! ## Claim C4 (amended): ascending-key tag assignment -/

namespace MergeCalls

theorem mapInsert_keys_mem (l : List (Nat × Nat)) (k v : Nat) :
    ∀ a ∈ (mapInsert l k v).map Prod.fst, a = k ∨ a ∈ l.map Prod.fst := by
  induction l with
  | nil =>
      intro a ha
      simp [mapInsert] at ha
      exact Or.inl ha
  | cons p ps ih =>
      intro a ha
      by_cases h1 : k < p.1
      · have heq : mapInsert (p :: ps) k v = (k, v) :: p :: ps := by
          simp [mapInsert, h1]
        rw [heq] at ha
        simp only [List.map_cons, List.mem_cons] at ha
        rcases ha with rfl | ha
        · exact Or.inl rfl
        · exact Or.inr (by simpa using ha)
      · by_cases h2 : k = p.1
        · have heq : mapInsert (p :: ps) k v = (k, v) :: ps := by
            simp [mapInsert, h1, h2]
          rw [heq] at ha
          simp only [List.map_cons, List.mem_cons] at ha
          rcases ha with rfl | ha
          · exact Or.inl rfl
          · exact Or.inr (by simp [ha])
        · have heq : mapInsert (p :: ps) k v = p :: mapInsert ps k v := by
            simp [mapInsert, h1, h2]
          rw [heq] at ha
          simp only [List.map_cons, List.mem_cons] at ha
          rcases ha with rfl | ha
          · exact Or.inr (by simp)
          · rcases ih a ha with h3 | h3
            · exact Or.inl h3
            · exact Or.inr (by simp [h3])

theorem mapInsert_keys_sorted (l : List (Nat × Nat)) (k v : Nat)
    (h : (l.map Prod.fst).Pairwise (· < ·)) :
    ((mapInsert l k v).map Prod.fst).Pairwise (· < ·) := by
  induction l with
  | nil => simp [mapInsert]
  | cons p ps ih =>
      rw [List.map_cons] at h
      by_cases h1 : k < p.1
      · have heq : mapInsert (p :: ps) k v = (k, v) :: p :: ps := by
          simp [mapInsert, h1]
        rw [heq, List.map_cons]
        refine List.Pairwise.cons ?_ h
        intro b hb
        rcases List.mem_cons.mp hb with rfl | hm
        · exact h1
        · have := (List.pairwise_cons.mp h).1 b hm
          omega
      · by_cases h2 : k = p.1
        · have heq : mapInsert (p :: ps) k v = (k, v) :: ps := by
            simp [mapInsert, h1, h2]
          rw [heq, List.map_cons]
          refine List.Pairwise.cons ?_ (List.pairwise_cons.mp h).2
          intro b hb
          have := (List.pairwise_cons.mp h).1 b hb
          omega
        · have heq : mapInsert (p :: ps) k v = p :: mapInsert ps k v := by
            simp [mapInsert, h1, h2]
          rw [heq, List.map_cons]
          refine List.Pairwise.cons ?_ (ih (List.pairwise_cons.mp h).2)
          intro b hb
          rcases mapInsert_keys_mem ps k v b hb with rfl | hm
          · omega
          · exact (List.pairwise_cons.mp h).1 b hm

theorem c2rFold_sorted (cbId aipId entryId : Nat) (cs : List Nat) (g0 : GState)
    (h : (g0.c2r.map Prod.fst).Pairwise (· < ·)) :
    (((cs.foldl (processCaller cbId aipId entryId) g0).c2r).map
      Prod.fst).Pairwise (· < ·) := by
  induction cs generalizing g0 with
  | nil => exact h
  | cons c rest ih =>
      simp only [List.foldl_cons]
      refine ih _ ?_
      show ((mapInsert g0.c2r ((g0.fn.blockOf c).getD 0) g0.next).map
        Prod.fst).Pairwise (· < ·)
      exact mapInsert_keys_sorted _ _ _ h

theorem tgG_c2r_sorted (st : Fn × Nat) (callers : List Nat) :
    (((tgG st callers).c2r).map Prod.fst).Pairwise (· < ·) := by
  unfold tgG
  refine c2rFold_sorted _ _ _ callers _ ?_
  simp

end MergeCalls

namespace MergeCalls

/-- C4 (amended): for every merged group, the k discriminator tags 0..k-1 are
assigned by iterating the predecessor-to-continuation `std::map` in ascending
key (block identity) order: the discriminator PHI placed in the shared block
enumerates the recorded predecessor/continuation map — whose keys are kept
strictly ascending — pairing tag i with the i-th smallest recorded predecessor
block.  This order need not match first-seen call-site order. -/
theorem C4_tag_order_amended (env : Env) (st : Fn × Nat) (target : Nat)
    (callers : List Nat)
    (hg : GoodIds st) (hB : GoodB st) (hob : OpBound st.1 st.2)
    (hcall : ∀ c ∈ callers,
      ((c, some (CKind.direct target), false) : Feat) ∈ featMS st.1)
    (hnd : callers.Nodup) :
    (transformGroup env st target callers).1.findInstr
        (tgCallId env target st callers + 1) =
      some ⟨tgCallId env target st callers + 1, .phi (tgWfPairs st callers)⟩ ∧
    (((tgG st callers).c2r).map Prod.fst).Pairwise (· < ·) ∧
    tgWfPairs st callers =
      ((tgG st callers).c2r).enum.map
        (fun e => (Val.intConst (sint32 e.1), e.2.1)) := by
  obtain ⟨-, -, -, -, -, -, -, -, -, -, -, -, hfind⟩ :=
    tg_chain env target st callers hg hB hob hcall hnd
  refine ⟨?_, tgG_c2r_sorted st callers, rfl⟩
  rw [transformGroup_eq]
  exact hfind

/-- Closed witness for the amended C4 at a concrete two-site group. -/
theorem C4_tag_order_amended_witness :
    (GoodIds (exC4F, 8) ∧ GoodB (exC4F, 8) ∧ OpBound exC4F 8 ∧
      (∀ c ∈ ([1, 4] : List Nat),
        ((c, some (CKind.direct 0), false) : Feat) ∈ featMS exC4F) ∧
      ([1, 4] : List Nat).Nodup) ∧
    ((transformGroup exC4env (exC4F, 8) 0 [1, 4]).1.findInstr
        (tgCallId exC4env 0 (exC4F, 8) [1, 4] + 1) =
      some ⟨tgCallId exC4env 0 (exC4F, 8) [1, 4] + 1,
        .phi (tgWfPairs (exC4F, 8) [1, 4])⟩ ∧
    (((tgG (exC4F, 8) [1, 4]).c2r).map Prod.fst).Pairwise (· < ·) ∧
    tgWfPairs (exC4F, 8) [1, 4] =
      ((tgG (exC4F, 8) [1, 4]).c2r).enum.map
        (fun e => (Val.intConst (sint32 e.1), e.2.1))) :=
  ⟨⟨by unfold GoodIds; decide, by unfold GoodB; decide,
      by unfold OpBound; decide, by decide, by decide⟩,
    C4_tag_order_amended exC4env (exC4F, 8) 0 [1, 4] (by unfold GoodIds; decide)
      (by unfold GoodB; decide) (by unfold OpBound; decide) (by decide)
      (by decide)⟩

end MergeCalls

/-! ## Static facts about the collector -/

namespace MergeCalls

theorem scanCalls_eq (env : Env) (F : Fn) :
    scanCalls env F = F.allInstrs.filterMap (fun i =>
      match i.op with
      | .call (.direct f) _ => if env.intrinsic f then none else some (f, i.id)
      | _ => none) := by
  unfold scanCalls Fn.allInstrs
  exact (List.filterMap_bind F.blocks BB.instrs _).symm

theorem filterMap_if (l : List Instr) (p : Instr → Bool) :
    l.filterMap (fun i => if p i then some i.id else none) =
      (l.filter p).map Instr.id := by
  induction l with
  | nil => rfl
  | cons y ys ih =>
      by_cases h : p y
      · simp [List.filterMap_cons, List.filter_cons, h, ih]
      · simp [List.filterMap_cons, List.filter_cons, h, ih]

theorem callersFor_eq (env : Env) (F : Fn) (t : Nat)
    (ht : env.intrinsic t = false) :
    callersFor env F t = (F.allInstrs.filter (fun i => i.isCallTo t)).map
      Instr.id := by
  unfold callersFor
  rw [scanCalls_eq, List.filterMap_filterMap]
  have hpt : ∀ i : Instr, ((match i.op with
      | .call (.direct f) _ => if env.intrinsic f then none else some (f, i.id)
      | _ => none : Option (Nat × Nat)).bind
        (fun p => if p.1 = t then some p.2 else none)) =
      if i.isCallTo t then some i.id else none := by
    intro i
    obtain ⟨iid, iop⟩ := i
    cases iop with
    | call ce args =>
        cases ce with
        | direct f =>
            show (if env.intrinsic f then (none : Option (Nat × Nat))
              else some (f, iid)).bind
                (fun p => if p.1 = t then some p.2 else none) = _
            by_cases hint : env.intrinsic f
            · rw [if_pos hint]
              by_cases hft : f = t
              · rw [hft] at hint
                rw [ht] at hint
                cases hint
              · have : (⟨iid, .call (.direct f) args⟩ : Instr).isCallTo t
                    = false := by
                  simp [Instr.isCallTo, Op.ckind, Callee.kind, CKind.direct.injEq,
                    hft]
                rw [this]
                rfl
            · rw [if_neg hint]
              by_cases hft : f = t
              · subst hft
                have : (⟨iid, .call (.direct f) args⟩ : Instr).isCallTo f
                    = true := by
                  simp [Instr.isCallTo, Op.ckind, Callee.kind]
                rw [this]
                show (if f = f then some iid else none) = some iid
                rw [if_pos rfl]
              · have : (⟨iid, .call (.direct f) args⟩ : Instr).isCallTo t
                    = false := by
                  simp [Instr.isCallTo, Op.ckind, Callee.kind, CKind.direct.injEq,
                    hft]
                rw [this]
                show (if f = t then some iid else none) = none
                rw [if_neg hft]
        | asm =>
            have : (⟨iid, .call .asm args⟩ : Instr).isCallTo t = false := by
              simp [Instr.isCallTo, Op.ckind, Callee.kind]
            rw [this]
            rfl
        | indirect v =>
            have : (⟨iid, .call (.indirect v) args⟩ : Instr).isCallTo t
                = false := by
              simp [Instr.isCallTo, Op.ckind, Callee.kind]
            rw [this]
            rfl
    | phi ps => rfl
    | br d => rfl
    | switch a b cl => rfl
    | bitcast a b => rfl
    | alloca => rfl
    | store a b => rfl
    | load a => rfl
    | ret a => rfl
    | other os => rfl
  calc F.allInstrs.filterMap _
      = F.allInstrs.filterMap (fun i => if i.isCallTo t then some i.id
          else none) := List.filterMap_congr (fun i _ => hpt i)
    _ = (F.allInstrs.filter (fun i => i.isCallTo t)).map Instr.id :=
        filterMap_if _ _

theorem callersFor_length (env : Env) (F : Fn) (t : Nat)
    (ht : env.intrinsic t = false) :
    (callersFor env F t).length = callsTo F t := by
  rw [callersFor_eq env F t ht, List.length_map]
  rfl

end MergeCalls

namespace MergeCalls

theorem scanCalls_inv (env : Env) (F : Fn) (f c : Nat)
    (h : (f, c) ∈ scanCalls env F) :
    ∃ args, (⟨c, .call (.direct f) args⟩ : Instr) ∈ F.allInstrs ∧
      env.intrinsic f = false := by
  rw [scanCalls_eq] at h
  obtain ⟨i, hi, hfi⟩ := List.mem_filterMap.mp h
  obtain ⟨iid, iop⟩ := i
  cases iop with
  | call ce args =>
      cases ce with
      | direct g =>
          by_cases hint : env.intrinsic g
          · exfalso
            have : (if env.intrinsic g then (none : Option (Nat × Nat))
                else some (g, iid)) = some (f, c) := hfi
            rw [if_pos hint] at this
            cases this
          · have heq : (if env.intrinsic g then (none : Option (Nat × Nat))
                else some (g, iid)) = some (f, c) := hfi
            rw [if_neg hint] at heq
            have h1 : g = f := congrArg Prod.fst (Option.some.inj heq)
            have h2 : iid = c := congrArg Prod.snd (Option.some.inj heq)
            subst h1
            subst h2
            refine ⟨args, hi, ?_⟩
            cases hv : env.intrinsic g
            · rfl
            · exact absurd hv hint
      | asm => cases hfi
      | indirect v => cases hfi
  | phi ps => cases hfi
  | br d => cases hfi
  | switch a b cl => cases hfi
  | bitcast a b => cases hfi
  | alloca => cases hfi
  | store a b => cases hfi
  | load a => cases hfi
  | ret a => cases hfi
  | other os => cases hfi

theorem callersFor_scan (env : Env) (F : Fn) (t c : Nat)
    (hc : c ∈ callersFor env F t) : (t, c) ∈ scanCalls env F := by
  unfold callersFor at hc
  obtain ⟨p, hp, hfp⟩ := List.mem_filterMap.mp hc
  by_cases h1 : p.1 = t
  · rw [if_pos h1] at hfp
    have h2 : p.2 = c := Option.some.inj hfp
    have : p = (t, c) := by
      obtain ⟨a, b⟩ := p
      simp only at h1 h2
      rw [h1, h2]
    rw [← this]
    exact hp
  · rw [if_neg h1] at hfp
    cases hfp

theorem callersFor_feat (env : Env) (F : Fn) (t c : Nat)
    (hc : c ∈ callersFor env F t) :
    ((c, some (CKind.direct t), false) : Feat) ∈ featMS F ∧
      env.intrinsic t = false ∧ c ∈ F.instrIds := by
  obtain ⟨args, hmem, hint⟩ := scanCalls_inv env F t c (callersFor_scan env F t c hc)
  refine ⟨?_, hint, List.mem_map_of_mem Instr.id hmem⟩
  have : featof ⟨c, .call (.direct t) args⟩ =
      ((c, some (CKind.direct t), false) : Feat) := rfl
  rw [← this]
  exact featof_mem F _ hmem

theorem filterMap_id_sublist (l : List Instr) (f : Instr → Option Nat)
    (hf : ∀ i c, f i = some c → c = i.id) :
    (l.filterMap f).Sublist (l.map Instr.id) := by
  induction l with
  | nil => exact List.Sublist.refl _
  | cons y ys ih =>
      rw [List.filterMap_cons, List.map_cons]
      cases hfy : f y with
      | none => exact List.Sublist.cons _ ih
      | some c =>
          rw [hf y c hfy]
          exact List.Sublist.cons₂ _ ih

theorem callersFor_sublist (env : Env) (F : Fn) (t : Nat) :
    (callersFor env F t).Sublist F.instrIds := by
  unfold callersFor
  rw [scanCalls_eq, List.filterMap_filterMap]
  refine filterMap_id_sublist _ _ ?_
  intro i c hf
  obtain ⟨iid, iop⟩ := i
  cases iop with
  | call ce args =>
      cases ce with
      | direct g =>
          by_cases hint : env.intrinsic g
          · exfalso
            have : ((if env.intrinsic g then (none : Option (Nat × Nat))
                else some (g, iid)).bind
                  (fun p => if p.1 = t then some p.2 else none)) = some c := hf
            rw [if_pos hint] at this
            cases this
          · have h1 : ((if env.intrinsic g then (none : Option (Nat × Nat))
                else some (g, iid)).bind
                  (fun p => if p.1 = t then some p.2 else none)) = some c := hf
            rw [if_neg hint] at h1
            by_cases hgt : g = t
            · have h2 : (if g = t then some iid else none) = some c := h1
              rw [if_pos hgt] at h2
              exact (Option.some.inj h2).symm
            · exfalso
              have h2 : (if g = t then some iid else none) = some c := h1
              rw [if_neg hgt] at h2
              cases h2
      | asm => cases hf
      | indirect v => cases hf
  | phi ps => cases hf
  | br d => cases hf
  | switch a b cl => cases hf
  | bitcast a b => cases hf
  | alloca => cases hf
  | store a b => cases hf
  | load a => cases hf
  | ret a => cases hf
  | other os => cases hf

theorem callersFor_nodup (env : Env) (F : Fn) (t : Nat)
    (hnd : F.instrIds.Nodup) : (callersFor env F t).Nodup :=
  (callersFor_sublist env F t).nodup hnd

theorem callersFor_inj (env : Env) (F : Fn) (t₁ t₂ c : Nat)
    (hnd : F.instrIds.Nodup) (h1 : c ∈ callersFor env F t₁)
    (h2 : c ∈ callersFor env F t₂) : t₁ = t₂ := by
  obtain ⟨args₁, hm₁, -⟩ := scanCalls_inv env F t₁ c (callersFor_scan env F t₁ c h1)
  obtain ⟨args₂, hm₂, -⟩ := scanCalls_inv env F t₂ c (callersFor_scan env F t₂ c h2)
  have heq : (⟨c, .call (.direct t₁) args₁⟩ : Instr) =
      ⟨c, .call (.direct t₂) args₂⟩ :=
    List.inj_on_of_nodup_map hnd hm₁ hm₂ rfl
  have := congrArg Instr.op heq
  simp only [Op.call.injEq, Callee.direct.injEq] at this
  exact this.1

end MergeCalls

/-! ## The sorted target list -/

namespace MergeCalls

theorem mem_insertSortedNat (x a : Nat) (l : List Nat) :
    a ∈ insertSortedNat x l ↔ a = x ∨ a ∈ l := by
  induction l with
  | nil => simp [insertSortedNat]
  | cons y ys ih =>
      show a ∈ (if x < y then x :: y :: ys
        else if x = y then y :: ys else y :: insertSortedNat x ys) ↔ _
      by_cases h1 : x < y
      · rw [if_pos h1]
        simp only [List.mem_cons]
      · rw [if_neg h1]
        by_cases h2 : x = y
        · rw [if_pos h2]
          subst h2
          simp only [List.mem_cons]
          tauto
        · rw [if_neg h2]
          simp only [List.mem_cons, ih]
          tauto

theorem sorted_insertSortedNat (x : Nat) (l : List Nat)
    (h : l.Pairwise (· < ·)) :
    (insertSortedNat x l).Pairwise (· < ·) := by
  induction l with
  | nil => simp [insertSortedNat]
  | cons y ys ih =>
      show ((if x < y then x :: y :: ys
        else if x = y then y :: ys else y :: insertSortedNat x ys)).Pairwise _
      by_cases h1 : x < y
      · rw [if_pos h1]
        refine List.Pairwise.cons ?_ h
        intro b hb
        rcases List.mem_cons.mp hb with rfl | hm
        · exact h1
        · have := (List.pairwise_cons.mp h).1 b hm
          omega
      · rw [if_neg h1]
        by_cases h2 : x = y
        · rw [if_pos h2]
          exact h
        · rw [if_neg h2]
          refine List.Pairwise.cons ?_ (ih (List.pairwise_cons.mp h).2)
          intro b hb
          rcases (mem_insertSortedNat x b ys).mp hb with rfl | hm
          · omega
          · exact (List.pairwise_cons.mp h).1 b hm

theorem mem_foldl_insertSorted (l : List (Nat × Nat)) (acc : List Nat) (a : Nat) :
    a ∈ l.foldl (fun acc p => insertSortedNat p.1 acc) acc ↔
      a ∈ acc ∨ ∃ p ∈ l, p.1 = a := by
  induction l generalizing acc with
  | nil => simp
  | cons q qs ih =>
      simp only [List.foldl_cons]
      rw [ih]
      rw [mem_insertSortedNat]
      constructor
      · intro h
        rcases h with (h | h) | h
        · exact Or.inr ⟨q, List.mem_cons_self q qs, h.symm⟩
        · exact Or.inl h
        · obtain ⟨p, hp, hpa⟩ := h
          exact Or.inr ⟨p, List.mem_cons_of_mem q hp, hpa⟩
      · intro h
        rcases h with h | ⟨p, hp, hpa⟩
        · exact Or.inl (Or.inr h)
        · rcases List.mem_cons.mp hp with rfl | hm
          · exact Or.inl (Or.inl hpa.symm)
          · exact Or.inr ⟨p, hm, hpa⟩

theorem sorted_foldl_insertSorted (l : List (Nat × Nat)) (acc : List Nat)
    (h : acc.Pairwise (· < ·)) :
    (l.foldl (fun acc p => insertSortedNat p.1 acc) acc).Pairwise (· < ·) := by
  induction l generalizing acc with
  | nil => exact h
  | cons q qs ih =>
      simp only [List.foldl_cons]
      exact ih _ (sorted_insertSortedNat q.1 acc h)

theorem mem_sortedTargets (env : Env) (F : Fn) (t : Nat) :
    t ∈ sortedTargets env F ↔ ∃ c, (t, c) ∈ scanCalls env F := by
  unfold sortedTargets
  rw [mem_foldl_insertSorted]
  constructor
  · intro h
    rcases h with h | ⟨p, hp, hpa⟩
    · simp at h
    · obtain ⟨a, b⟩ := p
      simp only at hpa
      subst hpa
      exact ⟨b, hp⟩
  · intro ⟨c, hc⟩
    exact Or.inr ⟨(t, c), hc, rfl⟩

theorem sortedTargets_nodup (env : Env) (F : Fn) :
    (sortedTargets env F).Nodup := by
  have h := sorted_foldl_insertSorted (scanCalls env F) [] (by simp)
  have h2 : (sortedTargets env F).Pairwise (· ≠ ·) := by
    refine List.Pairwise.imp ?_ h
    intro a b hab
    omega
  exact List.Pairwise.imp (fun hab => hab) h2

theorem sortedTargets_intrinsic (env : Env) (F : Fn) (t : Nat)
    (h : t ∈ sortedTargets env F) : env.intrinsic t = false := by
  obtain ⟨c, hc⟩ := (mem_sortedTargets env F t).mp h
  obtain ⟨args, -, hint⟩ := scanCalls_inv env F t c hc
  exact hint

theorem mem_sortedTargets_of_caller (env : Env) (F : Fn) (t c : Nat)
    (hc : c ∈ callersFor env F t) : t ∈ sortedTargets env F :=
  (mem_sortedTargets env F t).mpr ⟨c, callersFor_scan env F t c hc⟩

end MergeCalls

/-! ## Call counts through the group transform -/

namespace MergeCalls

theorem callsTo_countP (F : Fn) (t : Nat) :
    callsTo F t =
      Multiset.countP (fun f => f.2.1 = some (CKind.direct t)) (featMS F) := by
  rw [featMS_eq_coe, Multiset.coe_countP, callsTo_eq_featList]

theorem callsTo_of_cons {F F' : Fn} {x : Instr}
    (hms : featMS F' = featof x ::ₘ featMS F) (t : Nat) :
    callsTo F' t = callsTo F t +
      (if x.op.ckind = some (CKind.direct t) then 1 else 0) := by
  rw [callsTo_countP, callsTo_countP, hms, Multiset.countP_cons]
  by_cases hx : x.op.ckind = some (CKind.direct t)
  · rw [if_pos hx, if_pos (show (featof x).2.1 = some (CKind.direct t) from hx)]
  · rw [if_neg hx, if_neg (show ¬ (featof x).2.1 = some (CKind.direct t) from hx)]

theorem countP_callerFeats (callers : List Nat) (target t' : Nat) :
    Multiset.countP (fun f => f.2.1 = some (CKind.direct t'))
      ((callers.map (fun c =>
        ((c, some (CKind.direct target), false) : Feat)) : List Feat) :
          Multiset Feat) =
      if t' = target then callers.length else 0 := by
  rw [Multiset.coe_countP]
  by_cases h : t' = target
  · rw [if_pos h]
    subst h
    rw [List.countP_eq_length.mpr ?_]
    · rw [List.length_map]
    · intro f hf
      obtain ⟨c, hc, rfl⟩ := List.mem_map.mp hf
      simp
  · rw [if_neg h]
    rw [List.countP_eq_zero.mpr ?_]
    intro f hf
    obtain ⟨c, hc, rfl⟩ := List.mem_map.mp hf
    simp only [decide_eq_true_eq, Option.some.injEq, CKind.direct.injEq]
    intro he
    exact h he.symm

theorem count_callerFeats_zero (callers : List Nat) (target : Nat) (f : Feat)
    (hf : f.1 ∉ callers) :
    Multiset.count f ((callers.map (fun c =>
      ((c, some (CKind.direct target), false) : Feat)) : List Feat) :
        Multiset Feat) = 0 := by
  rw [Multiset.count_eq_zero]
  intro hmem
  obtain ⟨c, hc, hcf⟩ := List.mem_map.mp (Multiset.mem_coe.mp hmem)
  apply hf
  rw [← hcf]
  simpa using hc

theorem eraseFold_opBound (callId : Nat) (callers : List Nat) (F : Fn) (n : Nat)
    (h : OpBound F n) (hc : callId < n) :
    OpBound (callers.foldl
      (fun f c => Fn.eraseInstr
        (Fn.rauw f (Val.reg c) (Val.reg callId)) c) F) n := by
  induction callers generalizing F with
  | nil => exact h
  | cons c rest ih =>
      simp only [List.foldl_cons]
      refine ih _ ?_
      refine opBound_eraseInstr _ c n ?_
      refine opBound_rauw F _ _ n h ?_
      show decide (callId < n) = true
      simpa using hc

end MergeCalls

namespace MergeCalls

theorem callsTo_of_split {A B : Fn} {target : Nat} {callers : List Nat}
    (hms : featMS A = ((callers.map (fun c =>
      ((c, some (CKind.direct target), false) : Feat)) : List Feat) :
        Multiset Feat) + featMS B) (t' : Nat) :
    callsTo A t' = (if t' = target then callers.length else 0) +
      callsTo B t' := by
  rw [callsTo_countP, callsTo_countP, hms, Multiset.countP_add,
    countP_callerFeats]

theorem eraseFold_blockIds (callId : Nat) (callers : List Nat) (F : Fn) :
    (callers.foldl
      (fun f c => Fn.eraseInstr
        (Fn.rauw f (Val.reg c) (Val.reg callId)) c) F).blockIds = F.blockIds := by
  induction callers generalizing F with
  | nil => rfl
  | cons c rest ih =>
      simp only [List.foldl_cons]
      rw [ih, blockIds_eraseInstr, blockIds_rauw]

/-- The number of alloca-insertion-point marker instructions of a
function. -/
def aipCount (F : Fn) : Nat :=
  Multiset.countP (fun f : Feat => f.2.2 = true) (featMS F)

/-- Plumbing extension never creates or erases a marker. -/
theorem PlumbExt.aip_eq {s s' : Fn × Nat} (h : PlumbExt s s') :
    aipCount s'.1 = aipCount s.1 := by
  obtain ⟨-, dn, up, he, hd, hu⟩ := h
  have hz : ∀ m : Multiset Feat,
      (∀ f ∈ m, plumb f ∧ s.2 ≤ f.1 ∧ f.1 < s'.2) →
      Multiset.countP (fun f : Feat => f.2.2 = true) m = 0 := by
    intro m hm
    rw [Multiset.countP_eq_zero]
    intro f hf hc
    obtain ⟨⟨-, h2⟩, -, -⟩ := hm f hf
    rw [h2] at hc
    exact Bool.noConfusion hc
  have hmain := congrArg (Multiset.countP (fun f : Feat => f.2.2 = true)) he
  rw [Multiset.countP_add, Multiset.countP_add, hz dn hd, hz up hu] at hmain
  unfold aipCount
  omega

theorem aip_of_cons {F F' : Fn} {x : Instr}
    (hms : featMS F' = featof x ::ₘ featMS F) :
    aipCount F' = aipCount F + (if x.op.isAIPb = true then 1 else 0) := by
  unfold aipCount
  rw [hms, Multiset.countP_cons]
  by_cases hx : x.op.isAIPb = true
  · rw [if_pos hx, if_pos (show (featof x).2.2 = true from hx)]
  · rw [if_neg hx, if_neg (show ¬ (featof x).2.2 = true from hx)]

theorem aip_of_cons_true {F F' : Fn} {x : Instr}
    (hms : featMS F' = featof x ::ₘ featMS F) (hx : x.op.isAIPb = true) :
    aipCount F' = aipCount F + 1 := by
  rw [aip_of_cons hms, if_pos hx]

theorem aip_of_cons_false {F F' : Fn} {x : Instr}
    (hms : featMS F' = featof x ::ₘ featMS F) (hx : x.op.isAIPb = false) :
    aipCount F' = aipCount F := by
  rw [aip_of_cons hms, hx]
  simp

theorem aip_callerFeats (target : Nat) (callers : List Nat) :
    Multiset.countP (fun f : Feat => f.2.2 = true)
      ((callers.map (fun c =>
        ((c, some (CKind.direct target), false) : Feat)) : List Feat) :
          Multiset Feat) = 0 := by
  rw [Multiset.countP_eq_zero]
  intro f hf hc
  rw [Multiset.mem_coe, List.mem_map] at hf
  obtain ⟨c, -, hfc⟩ := hf
  rw [← hfc] at hc
  exact Bool.noConfusion hc

set_option maxHeartbeats 1000000 in
theorem transformGroup_master (env : Env) (st : Fn × Nat) (target : Nat)
    (callers : List Nat)
    (hg : GoodIds st) (hB : GoodB st) (hob : OpBound st.1 st.2)
    (hcall : ∀ c ∈ callers,
      ((c, some (CKind.direct target), false) : Feat) ∈ featMS st.1)
    (hnd : callers.Nodup) :
    GoodIds (transformGroup env st target callers) ∧
    GoodB (transformGroup env st target callers) ∧
    OpBound (transformGroup env st target callers).1
      (transformGroup env st target callers).2 ∧
    st.2 + 2 ≤ (transformGroup env st target callers).2 ∧
    callsTo (transformGroup env st target callers).1 target + callers.length =
      callsTo st.1 target + 1 ∧
    (∀ t', t' ≠ target →
      callsTo (transformGroup env st target callers).1 t' = callsTo st.1 t') ∧
    (∀ f : Feat, f.1 < st.2 → f.1 ∉ callers →
      Multiset.count f (featMS (transformGroup env st target callers).1) =
        Multiset.count f (featMS st.1)) ∧
    aipCount (transformGroup env st target callers).1 = aipCount st.1 + 1 := by
  obtain ⟨hms1, hpe2, hpe3, hmsC, hmsD, hmsE, hmsF, hposF, hgF, hlenC, hgrow2,
    hvals3, hfind⟩ := tg_chain env target st callers hg hB hob hcall hnd
  have hpres : ∀ c ∈ callers, c ∈ st.1.instrIds := by
    intro c hc
    exact mem_instrIds_of_feat st.1 _ (hcall c hc)
  obtain ⟨-, hg2, hB2, hob2, hcb2, -⟩ := tgG_master st callers hg hB hob hpres
  obtain ⟨-, hg3, hob3, hbl3, -, -⟩ := buildArgPhis_master env target
    callers st.2 (tgG st callers).c2p
    ((tgG st callers).fn, (tgG st callers).next) hg2 hob2 hcb2
  have hob3' : OpBound (tgAB env target st callers).1.1
      (tgCallId env target st callers) := hob3
  have hbl3' : (tgAB env target st callers).1.1.blockIds =
      (tgG st callers).fn.blockIds := hbl3
  -- Block identifiers of the final function.
  have hblF : (tgFf env target st callers).blockIds =
      (tgG st callers).fn.blockIds := by
    have e1 : (tgFf env target st callers).blockIds =
        (tgFe env target st callers).blockIds := blockIds_mapBlock _ _ _
    have e2 : (tgFe env target st callers).blockIds =
        (tgFd env target st callers).blockIds := blockIds_insertBefore _ _ _
    have e3 : (tgFd env target st callers).blockIds =
        (tgFc env target st callers).blockIds := eraseFold_blockIds _ _ _
    have e4 : (tgFc env target st callers).blockIds =
        (tgAB env target st callers).1.1.blockIds := blockIds_mapBlock _ _ _
    rw [e1, e2, e3, e4, hbl3']
  have hBF : GoodB (tgFf env target st callers,
      tgCallId env target st callers + 3) := by
    refine goodB_of_eq
      (s := ((tgG st callers).fn, (tgG st callers).next)) hblF hB2 ?_
    omega
  -- Operand bounds at every remaining stage.
  have hobC : OpBound (tgFc env target st callers)
      (tgCallId env target st callers + 1) := by
    refine opBound_mapBlock _ st.2 _
      ⟨tgCallId env target st callers, .call (.direct target)
        (tgAB env target st callers).2⟩ _
      (opBound_mono hob3' (by omega)) ?_ ?_
    · intro v hv
      have hv2 : v ∈ (tgAB env target st callers).2 := by
        simpa [Op.operands] using hv
      rw [hvals3] at hv2
      obtain ⟨i, hi, rfl⟩ := List.mem_map.mp hv2
      have : i < env.arity target := List.mem_range.mp hi
      show decide ((tgG st callers).next + i <
        tgCallId env target st callers + 1) = true
      simp only [decide_eq_true_eq]
      omega
    · intro l z hz
      rcases List.mem_append.mp hz with h1 | h1
      · exact Or.inl h1
      · exact Or.inr (List.mem_singleton.mp h1)
  have hobD : OpBound (tgFd env target st callers)
      (tgCallId env target st callers + 1) :=
    eraseFold_opBound _ callers _ _ hobC (by omega)
  have hobE : OpBound (tgFe env target st callers)
      (tgCallId env target st callers + 1) := by
    refine opBound_insertBefore _ _ _ _ hobD ?_
    intro v hv
    have hv2 : v ∈ (tgWfPairs st callers).map Prod.fst := by
      simpa [Op.operands] using hv
    unfold tgWfPairs at hv2
    rw [List.map_map] at hv2
    obtain ⟨e, he, rfl⟩ := List.mem_map.mp hv2
    rfl
  have hobF : OpBound (tgFf env target st callers)
      (tgCallId env target st callers + 3) := by
    refine opBound_mapBlock _ st.2 _
      ⟨tgCallId env target st callers + 2,
        .switch (Val.reg (tgCallId env target st callers + 1))
          (tgDflt st callers) (tgCaseList st callers)⟩ _
      (opBound_mono hobE (by omega)) ?_ ?_
    · intro v hv
      simp only [Op.operands, List.mem_singleton] at hv
      rw [hv]
      show decide (tgCallId env target st callers + 1 <
        tgCallId env target st callers + 3) = true
      simp only [decide_eq_true_eq]
      omega
    · intro l z hz
      rcases List.mem_append.mp hz with h1 | h1
      · exact Or.inl h1
      · exact Or.inr (List.mem_singleton.mp h1)
  -- Call counts.
  have hct : ∀ t', callsTo (tgFf env target st callers) t' +
      (if t' = target then callers.length else 0) =
      callsTo st.1 t' + (if t' = target then 1 else 0) := by
    intro t'
    have c0 := callsTo_of_cons hms1 t'
    simp only [Op.ckind, if_neg (show ¬ (none : Option CKind) =
      some (CKind.direct t') by intro h; cases h), Nat.add_zero] at c0
    have c1 : callsTo (tgG st callers).fn t' = callsTo (tgF1 st) t' :=
      hpe2.callsTo_eq t'
    have c2 : callsTo (tgAB env target st callers).1.1 t' =
        callsTo (tgG st callers).fn t' := hpe3.callsTo_eq t'
    have c3 := callsTo_of_cons hmsC t'
    have c4 := callsTo_of_split hmsD t'
    have c5 := callsTo_of_cons hmsE t'
    simp only [Op.ckind, if_neg (show ¬ (none : Option CKind) =
      some (CKind.direct t') by intro h; cases h), Nat.add_zero] at c5
    have c6 := callsTo_of_cons hmsF t'
    simp only [Op.ckind, if_neg (show ¬ (none : Option CKind) =
      some (CKind.direct t') by intro h; cases h), Nat.add_zero] at c6
    have hcnd : (Op.call (.direct target)
        (tgAB env target st callers).2).ckind = some (CKind.direct t') ↔
        t' = target := by
      simp only [Op.ckind, Callee.kind, Option.some.injEq, CKind.direct.injEq]
      constructor
      · intro h
        exact h.symm
      · intro h
        exact h.symm
    by_cases ht' : t' = target
    · rw [if_pos (hcnd.mpr ht')] at c3
      rw [if_pos ht'] at c4
      rw [if_pos ht', if_pos ht']
      omega
    · rw [if_neg (fun h => ht' (hcnd.mp h))] at c3
      rw [if_neg ht'] at c4
      rw [if_neg ht', if_neg ht']
      omega
  -- Feature counts of untouched old instructions.
  have hcount : ∀ f : Feat, f.1 < st.2 → f.1 ∉ callers →
      Multiset.count f (featMS (tgFf env target st callers)) =
        Multiset.count f (featMS st.1) := by
    intro f hflt hfnc
    have hne : ∀ m : Nat, st.2 ≤ m → ∀ κ : Option CKind, ∀ b : Bool,
        f ≠ ((m, κ, b) : Feat) := by
      intro m hm κ b he
      have := congrArg Prod.fst he
      simp only at this
      omega
    have hcid : st.2 ≤ tgCallId env target st callers := by omega
    have k6 : Multiset.count f (featMS (tgFf env target st callers)) =
        Multiset.count f (featMS (tgFe env target st callers)) := by
      rw [hmsF]
      exact Multiset.count_cons_of_ne
        (hne (tgCallId env target st callers + 2) (by omega) _ _) _
    have k5 : Multiset.count f (featMS (tgFe env target st callers)) =
        Multiset.count f (featMS (tgFd env target st callers)) := by
      rw [hmsE]
      exact Multiset.count_cons_of_ne
        (hne (tgCallId env target st callers + 1) (by omega) _ _) _
    have k4 : Multiset.count f (featMS (tgFc env target st callers)) =
        Multiset.count f (featMS (tgFd env target st callers)) := by
      rw [hmsD, Multiset.count_add, count_callerFeats_zero callers target f hfnc,
        Nat.zero_add]
    have k3 : Multiset.count f (featMS (tgFc env target st callers)) =
        Multiset.count f (featMS (tgAB env target st callers).1.1) := by
      rw [hmsC]
      exact Multiset.count_cons_of_ne
        (hne (tgCallId env target st callers) hcid _ _) _
    have k2 : Multiset.count f (featMS (tgAB env target st callers).1.1) =
        Multiset.count f (featMS (tgG st callers).fn) :=
      hpe3.count_low f (by show f.1 < (tgG st callers).next; omega)
    have k1 : Multiset.count f (featMS (tgG st callers).fn) =
        Multiset.count f (featMS (tgF1 st)) :=
      hpe2.count_low f (by show f.1 < st.2 + 2; omega)
    have k0 : Multiset.count f (featMS (tgF1 st)) =
        Multiset.count f (featMS st.1) := by
      rw [hms1]
      exact Multiset.count_cons_of_ne (hne (st.2 + 1) (by omega) _ _) _
    omega
  have haip : aipCount (tgFf env target st callers) = aipCount st.1 + 1 := by
    have a1 : aipCount (tgF1 st) = aipCount st.1 + 1 :=
      aip_of_cons_true hms1 rfl
    have a2 : aipCount (tgG st callers).fn = aipCount (tgF1 st) :=
      hpe2.aip_eq
    have a3 : aipCount (tgAB env target st callers).1.1 =
        aipCount (tgG st callers).fn := hpe3.aip_eq
    have a4 : aipCount (tgFc env target st callers) =
        aipCount (tgAB env target st callers).1.1 :=
      aip_of_cons_false hmsC rfl
    have a5 : aipCount (tgFc env target st callers) =
        aipCount (tgFd env target st callers) := by
      have h5 := congrArg
        (Multiset.countP (fun f : Feat => f.2.2 = true)) hmsD
      rw [Multiset.countP_add, aip_callerFeats] at h5
      unfold aipCount
      omega
    have a6 : aipCount (tgFe env target st callers) =
        aipCount (tgFd env target st callers) :=
      aip_of_cons_false hmsE rfl
    have a7 : aipCount (tgFf env target st callers) =
        aipCount (tgFe env target st callers) :=
      aip_of_cons_false hmsF rfl
    omega
  rw [transformGroup_eq]
  refine ⟨hgF, hBF, hobF, by omega, ?_, ?_, hcount, haip⟩
  · have := hct target
    rw [if_pos rfl, if_pos rfl] at this
    exact this
  · intro t' ht'
    have := hct t'
    rw [if_neg ht', if_neg ht'] at this
    show callsTo (tgFf env target st callers) t' = callsTo st.1 t'
    omega

/-! ## The target fold of runOnFunction -/

/-- The fold over the sorted targets that `runOnFunction` performs,
with the group list and caller lists taken from the original function. -/
def mergeFold (env : Env) (F : Fn) (ts : List Nat) (st : Fn × Nat) :
    Fn × Nat :=
  ts.foldl
    (fun st t =>
      let cs := callersFor env F t
      if cs.length > 1 then transformGroup env st t cs else st)
    st

theorem runOnFunction_eq (env : Env) (F : Fn) (n : Nat) :
    runOnFunction env F n =
      (mergeFold env F (sortedTargets env F) (F, n), false) := rfl

theorem mergeFold_cons (env : Env) (F : Fn) (t : Nat) (ts : List Nat)
    (st : Fn × Nat) :
    mergeFold env F (t :: ts) st =
      mergeFold env F ts
        (if (callersFor env F t).length > 1
         then transformGroup env st t (callersFor env F t) else st) := rfl

theorem mergeFold_no_op (env : Env) (F : Fn) (ts : List Nat) (st : Fn × Nat)
    (h : ∀ t ∈ ts, ¬ 1 < (callersFor env F t).length) :
    mergeFold env F ts st = st := by
  induction ts generalizing st with
  | nil => rfl
  | cons t ts ih =>
      rw [mergeFold_cons, if_neg (h t (List.mem_cons_self t ts))]
      exact ih st (fun u hu => h u (List.mem_cons_of_mem t hu))

/-- Master lemma for the fold over the targets: well-formedness is
preserved, the counter never decreases, a target with at least two call
sites ends with `old count + 1 - group size` calls, every other target
count is unchanged, and the feature of any old instruction that is in no
group survives unchanged. -/
theorem mergeFold_master (env : Env) (F : Fn) (n : Nat) (ts : List Nat)
    (st : Fn × Nat) (hcnd : F.instrIds.Nodup)
    (hndt : ts.Nodup) (hg : GoodIds st) (hB : GoodB st)
    (hob : OpBound st.1 st.2) (hn : n ≤ st.2)
    (hclow : ∀ t ∈ ts, ∀ c ∈ callersFor env F t, c < n)
    (hfeat : ∀ t ∈ ts, ∀ c ∈ callersFor env F t,
      ((c, some (CKind.direct t), false) : Feat) ∈ featMS st.1) :
    GoodIds (mergeFold env F ts st) ∧
    GoodB (mergeFold env F ts st) ∧
    OpBound (mergeFold env F ts st).1 (mergeFold env F ts st).2 ∧
    st.2 ≤ (mergeFold env F ts st).2 ∧
    (∀ t, t ∉ ts → callsTo (mergeFold env F ts st).1 t = callsTo st.1 t) ∧
    (∀ t ∈ ts, 1 < (callersFor env F t).length →
      callsTo (mergeFold env F ts st).1 t + (callersFor env F t).length =
        callsTo st.1 t + 1) ∧
    (∀ t ∈ ts, ¬ 1 < (callersFor env F t).length →
      callsTo (mergeFold env F ts st).1 t = callsTo st.1 t) ∧
    (∀ f : Feat, f.1 < n → (∀ t ∈ ts, f.1 ∉ callersFor env F t) →
      Multiset.count f (featMS (mergeFold env F ts st).1) =
        Multiset.count f (featMS st.1)) ∧
    aipCount (mergeFold env F ts st).1 = aipCount st.1 +
      ts.countP (fun t => decide (1 < (callersFor env F t).length)) := by
  induction ts generalizing st hg hB hob hn with
  | nil =>
      refine ⟨hg, hB, hob, le_refl _, fun t _ => rfl, ?_, ?_, fun f _ _ => rfl,
        by rw [List.countP_nil]; rfl⟩
      · intro t ht
        exact absurd ht (List.not_mem_nil t)
      · intro t ht
        exact absurd ht (List.not_mem_nil t)
  | cons t ts ih =>
      have hndh := (List.nodup_cons.mp hndt).1
      have hndtl := (List.nodup_cons.mp hndt).2
      by_cases hlen : 1 < (callersFor env F t).length
      · have hcall : ∀ c ∈ callersFor env F t,
            ((c, some (CKind.direct t), false) : Feat) ∈ featMS st.1 :=
          hfeat t (List.mem_cons_self t ts)
        obtain ⟨hg1, hB1, hob1, hgrow1, hctT, hctO, hcnt, haip1⟩ :=
          transformGroup_master env st t (callersFor env F t) hg hB hob hcall
            (callersFor_nodup env F t hcnd)
        have htail : ∀ t' ∈ ts, ∀ c ∈ callersFor env F t',
            ((c, some (CKind.direct t'), false) : Feat) ∈
              featMS (transformGroup env st t (callersFor env F t)).1 := by
          intro t' ht' c hc
          have hmem := hfeat t' (List.mem_cons_of_mem t ht') c hc
          have hlt : c < st.2 :=
            lt_of_lt_of_le (hclow t' (List.mem_cons_of_mem t ht') c hc) hn
          have hnc : c ∉ callersFor env F t := by
            intro hcc
            have hteq := callersFor_inj env F t t' c hcnd hcc hc
            exact hndh (hteq ▸ ht')
          have hcq := hcnt ((c, some (CKind.direct t'), false) : Feat) hlt hnc
          exact Multiset.count_pos.mp
            (by rw [hcq]; exact Multiset.count_pos.mpr hmem)
        obtain ⟨ihg, ihB, ihob, ihgrow, ihpres, ihmrg, ihskip, ihcnt, ihaip⟩ :=
          ih (transformGroup env st t (callersFor env F t)) hndtl hg1 hB1 hob1
            (by omega) (fun t' ht' => hclow t' (List.mem_cons_of_mem t ht'))
            htail
        rw [mergeFold_cons, if_pos hlen]
        refine ⟨ihg, ihB, ihob, by omega, ?_, ?_, ?_, ?_, ?_⟩
        · intro u hu
          have h1 := ihpres u (fun h => hu (List.mem_cons_of_mem t h))
          have h2 := hctO u (fun h => hu (h ▸ List.mem_cons_self t ts))
          rw [h1, h2]
        · intro u hu hku
          rcases List.mem_cons.mp hu with h | h
          · subst h
            rw [ihpres u hndh]
            exact hctT
          · have hne : u ≠ t := fun he => hndh (he ▸ h)
            rw [ihmrg u h hku, hctO u hne]
        · intro u hu hku
          rcases List.mem_cons.mp hu with h | h
          · subst h
            exact absurd hlen hku
          · have hne : u ≠ t := fun he => hndh (he ▸ h)
            rw [ihskip u h hku, hctO u hne]
        · intro f hf hfc
          rw [ihcnt f hf (fun t' ht' => hfc t' (List.mem_cons_of_mem t ht'))]
          exact hcnt f (by omega) (hfc t (List.mem_cons_self t ts))
        · have hc9 : List.countP
              (fun u => decide (1 < (callersFor env F u).length)) (t :: ts) =
              List.countP
                (fun u => decide (1 < (callersFor env F u).length)) ts + 1 := by
            rw [List.countP_cons]
            simp [hlen]
          rw [hc9]
          omega
      · rw [mergeFold_cons, if_neg hlen]
        obtain ⟨ihg, ihB, ihob, ihgrow, ihpres, ihmrg, ihskip, ihcnt, ihaip⟩ :=
          ih st hndtl hg hB hob hn
            (fun t' ht' => hclow t' (List.mem_cons_of_mem t ht'))
            (fun t' ht' => hfeat t' (List.mem_cons_of_mem t ht'))
        refine ⟨ihg, ihB, ihob, ihgrow, ?_, ?_, ?_, ?_, ?_⟩
        · intro u hu
          exact ihpres u (fun h => hu (List.mem_cons_of_mem t h))
        · intro u hu hku
          rcases List.mem_cons.mp hu with h | h
          · subst h
            exact absurd hku hlen
          · exact ihmrg u h hku
        · intro u hu hku
          rcases List.mem_cons.mp hu with h | h
          · subst h
            exact ihpres u hndh
          · exact ihskip u h hku
        · intro f hf hfc
          exact ihcnt f hf (fun t' ht' => hfc t' (List.mem_cons_of_mem t ht'))
        · have hc9 : List.countP
              (fun u => decide (1 < (callersFor env F u).length)) (t :: ts) =
              List.countP
                (fun u => decide (1 < (callersFor env F u).length)) ts := by
            rw [List.countP_cons]
            simp [hlen]
          rw [hc9]
          exact ihaip

theorem insertAIP_entry (B : BB) (rest : List BB) (x : Instr) :
    ((⟨B :: rest⟩ : Fn).insertAIP x).instrsOf B.id =
      insertAfterLeadingAllocas B.instrs x := by
  show ((((⟨⟨B.id, insertAfterLeadingAllocas B.instrs x⟩ :: rest⟩ :
      Fn)).blocks.find? (fun Bl => Bl.id = B.id)).map BB.instrs).getD [] = _
  rw [List.find?_cons_of_pos]
  · rfl
  · simp

theorem instrsOf_head (B : BB) (rest : List BB) :
    (⟨B :: rest⟩ : Fn).instrsOf B.id = B.instrs := by
  show ((((⟨B :: rest⟩ : Fn)).blocks.find?
    (fun Bl => Bl.id = B.id)).map BB.instrs).getD [] = _
  rw [List.find?_cons_of_pos]
  · rfl
  · simp

/-! ## Claim C10: one permanent marker per merged group -/

/-- C10: each merged group inserts the alloca-insertion-point marker — a
bitcast of the null i32 constant named "mergecalls alloca point" — into
the entry block right after its leading alloca instructions, and no
marker is ever erased: across the whole pass the number of marker
instructions grows by exactly the number of merged groups. -/
theorem C10_aip_markers (env : Env) (F : Fn) (n : Nat)
    (hg : GoodIds (F, n)) (hB : GoodB (F, n)) (hob : OpBound F n) :
    aipCount (runOnFunction env F n).1.1 =
      aipCount F + (sortedTargets env F).countP
        (fun t => decide (1 < (callersFor env F t).length)) ∧
    (∀ st : Fn × Nat, st.1.blocks ≠ [] →
      (tgF1 st).instrsOf (tgEntry st) =
        insertAfterLeadingAllocas (st.1.instrsOf (tgEntry st))
          ⟨st.2 + 1, .bitcast (Val.intConst 0) "mergecalls alloca point"⟩) := by
  constructor
  · have hcnd : F.instrIds.Nodup := hg.1
    have hlt : ∀ i ∈ F.instrIds, i < n := hg.2.2
    obtain ⟨-, -, -, -, -, -, -, -, haip⟩ :=
      mergeFold_master env F n (sortedTargets env F) (F, n) hcnd
        (sortedTargets_nodup env F) hg hB hob (le_refl n)
        (fun t' _ c hc => hlt c (callersFor_feat env F t' c hc).2.2)
        (fun t' _ c hc => (callersFor_feat env F t' c hc).1)
    exact haip
  · intro st hne
    obtain ⟨Fs, m⟩ := st
    obtain ⟨bs⟩ := Fs
    cases bs with
    | nil => exact absurd rfl hne
    | cons B rest =>
        have h0 : tgF0 ((⟨B :: rest⟩ : Fn), m) =
            ⟨B :: (rest ++ [⟨m, []⟩])⟩ := by
          show (⟨(B :: rest) ++ [⟨m, []⟩]⟩ : Fn) = _
          rw [List.cons_append]
        have hee : tgEntry ((⟨B :: rest⟩ : Fn), m) = B.id := by
          unfold tgEntry
          rw [h0]
          rfl
        have h1 : tgF1 ((⟨B :: rest⟩ : Fn), m) =
            (⟨B :: (rest ++ [⟨m, []⟩])⟩ : Fn).insertAIP
              ⟨m + 1, .bitcast (Val.intConst 0) "mergecalls alloca point"⟩ := by
          unfold tgF1
          rw [h0]
        rw [hee]
        show (tgF1 ((⟨B :: rest⟩ : Fn), m)).instrsOf B.id =
          insertAfterLeadingAllocas ((⟨B :: rest⟩ : Fn).instrsOf B.id)
            ⟨m + 1, .bitcast (Val.intConst 0) "mergecalls alloca point"⟩
        rw [h1, insertAIP_entry, instrsOf_head]

def exC10env : Env := ⟨fun _ => false, fun _ => 0⟩

def exC10F : Fn := ⟨[
  ⟨0, [⟨1, .call (.direct 7) []⟩, ⟨2, .br 3⟩]⟩,
  ⟨3, [⟨4, .call (.direct 7) []⟩, ⟨5, .ret none⟩]⟩]⟩

theorem C10_aip_markers_witness :
    aipCount exC10F = 0 ∧
    (sortedTargets exC10env exC10F).countP
      (fun t => decide (1 < (callersFor exC10env exC10F t).length)) = 1 ∧
    aipCount (runOnFunction exC10env exC10F 6).1.1 =
      aipCount exC10F + (sortedTargets exC10env exC10F).countP
        (fun t => decide (1 < (callersFor exC10env exC10F t).length)) :=
  ⟨by decide, by decide,
   (C10_aip_markers exC10env exC10F 6 (by unfold GoodIds; decide)
     (by unfold GoodB; decide) (by unfold OpBound; decide)).1⟩

/-- In a function with duplicate-free instruction identifiers, an
identifier determines the feature. -/
theorem feat_unique (F : Fn) (c : Nat) (x y : Option CKind × Bool)
    (hnd : F.instrIds.Nodup)
    (h1 : ((c, x) : Feat) ∈ featMS F) (h2 : ((c, y) : Feat) ∈ featMS F) :
    x = y := by
  rw [featMS_eq_coe, Multiset.mem_coe] at h1 h2
  obtain ⟨i, hi, hix⟩ := List.mem_map.mp h1
  obtain ⟨j, hj, hjy⟩ := List.mem_map.mp h2
  have hid : i.id = j.id := by
    have h3 : i.id = c := congrArg Prod.fst hix
    have h4 : j.id = c := congrArg Prod.fst hjy
    rw [h3, h4]
  have hij : i = j := List.inj_on_of_nodup_map hnd hi hj hid
  have : featof i = featof j := congrArg featof hij
  rw [hix, hjy] at this
  exact congrArg Prod.snd this

/-! ## Claim C1: a merged target ends with exactly one call -/

/-- C1: for a function with exactly k (k ≥ 2) calls to a non-intrinsic
direct target — all of which are then eligible — `runOnFunction` leaves
exactly one call to that target: the merged call in the shared block. -/
theorem C1_merge_count (env : Env) (F : Fn) (n t : Nat)
    (hg : GoodIds (F, n)) (hB : GoodB (F, n)) (hob : OpBound F n)
    (hint : env.intrinsic t = false) (hk : 2 ≤ callsTo F t) :
    callsTo (runOnFunction env F n).1.1 t = 1 := by
  have hcnd : F.instrIds.Nodup := hg.1
  have hlt : ∀ i ∈ F.instrIds, i < n := hg.2.2
  have hlen : 1 < (callersFor env F t).length := by
    rw [callersFor_length env F t hint]
    exact hk
  have hmem : t ∈ sortedTargets env F := by
    have hne : callersFor env F t ≠ [] := by
      intro h
      rw [h] at hlen
      exact absurd hlen (by decide)
    obtain ⟨c, hc⟩ := List.exists_mem_of_ne_nil _ hne
    exact mem_sortedTargets_of_caller env F t c hc
  obtain ⟨-, -, -, -, -, hmrg, -, -, -⟩ :=
    mergeFold_master env F n (sortedTargets env F) (F, n) hcnd
      (sortedTargets_nodup env F) hg hB hob (le_refl n)
      (fun t' _ c hc => hlt c (callersFor_feat env F t' c hc).2.2)
      (fun t' _ c hc => (callersFor_feat env F t' c hc).1)
  have hq := hmrg t hmem hlen
  have hcf : (callersFor env F t).length = callsTo F t :=
    callersFor_length env F t hint
  have hgoal : callsTo (mergeFold env F (sortedTargets env F) (F, n)).1 t = 1 := by
    have hq' : callsTo (mergeFold env F (sortedTargets env F) (F, n)).1 t +
        (callersFor env F t).length = callsTo F t + 1 := hq
    omega
  exact hgoal

def exC1env : Env := ⟨fun _ => false, fun _ => 0⟩

def exC1F : Fn := ⟨[
  ⟨0, [⟨1, .call (.direct 7) []⟩, ⟨2, .br 3⟩]⟩,
  ⟨3, [⟨4, .call (.direct 7) []⟩, ⟨5, .ret none⟩]⟩]⟩

theorem C1_merge_count_witness :
    2 ≤ callsTo exC1F 7 ∧
    callsTo (runOnFunction exC1env exC1F 6).1.1 7 = 1 :=
  ⟨by decide,
   C1_merge_count exC1env exC1F 6 7 (by unfold GoodIds; decide)
     (by unfold GoodB; decide) (by unfold OpBound; decide) rfl (by decide)⟩

/-! ## Claim C6: a second run is a no-op -/

/-- C6: running the transform again right after a run is a structural
no-op: every target then has at most one eligible call site, no group
passes the size-2 trigger, and the state is returned unchanged. -/
theorem C6_idempotent (env : Env) (F : Fn) (n : Nat)
    (hg : GoodIds (F, n)) (hB : GoodB (F, n)) (hob : OpBound F n) :
    runOnFunction env (runOnFunction env F n).1.1 (runOnFunction env F n).1.2 =
      ((runOnFunction env F n).1, false) := by
  have hcnd : F.instrIds.Nodup := hg.1
  have hlt : ∀ i ∈ F.instrIds, i < n := hg.2.2
  obtain ⟨-, -, -, -, hpres, hmrg, hskip, -, -⟩ :=
    mergeFold_master env F n (sortedTargets env F) (F, n) hcnd
      (sortedTargets_nodup env F) hg hB hob (le_refl n)
      (fun t' _ c hc => hlt c (callersFor_feat env F t' c hc).2.2)
      (fun t' _ c hc => (callersFor_feat env F t' c hc).1)
  have hsm : ∀ t ∈ sortedTargets env
        (mergeFold env F (sortedTargets env F) (F, n)).1,
      ¬ 1 < (callersFor env
        (mergeFold env F (sortedTargets env F) (F, n)).1 t).length := by
    intro t ht
    have hint : env.intrinsic t = false :=
      sortedTargets_intrinsic env _ t ht
    have hlen2 : (callersFor env
        (mergeFold env F (sortedTargets env F) (F, n)).1 t).length =
        callsTo (mergeFold env F (sortedTargets env F) (F, n)).1 t :=
      callersFor_length env _ t hint
    have h0 : (callersFor env F t).length = callsTo F t :=
      callersFor_length env F t hint
    by_cases hm : t ∈ sortedTargets env F
    · by_cases hbig : 1 < (callersFor env F t).length
      · have hq : callsTo (mergeFold env F (sortedTargets env F) (F, n)).1 t +
            (callersFor env F t).length = callsTo F t + 1 := hmrg t hm hbig
        omega
      · have hq : callsTo (mergeFold env F (sortedTargets env F) (F, n)).1 t =
            callsTo F t := hskip t hm hbig
        omega
    · have hq : callsTo (mergeFold env F (sortedTargets env F) (F, n)).1 t =
          callsTo F t := hpres t hm
      have hnil : callersFor env F t = [] := by
        cases hcf : callersFor env F t with
        | nil => rfl
        | cons c cs =>
            refine absurd (mem_sortedTargets_of_caller env F t c ?_) hm
            rw [hcf]
            exact List.mem_cons_self c cs
      rw [hnil] at h0
      simp only [List.length_nil] at h0
      omega
  have key : mergeFold env (mergeFold env F (sortedTargets env F) (F, n)).1
      (sortedTargets env (mergeFold env F (sortedTargets env F) (F, n)).1)
      ((mergeFold env F (sortedTargets env F) (F, n)).1,
       (mergeFold env F (sortedTargets env F) (F, n)).2) =
      ((mergeFold env F (sortedTargets env F) (F, n)).1,
       (mergeFold env F (sortedTargets env F) (F, n)).2) :=
    mergeFold_no_op env _ _ _ hsm
  show (mergeFold env (mergeFold env F (sortedTargets env F) (F, n)).1
      (sortedTargets env (mergeFold env F (sortedTargets env F) (F, n)).1)
      ((mergeFold env F (sortedTargets env F) (F, n)).1,
       (mergeFold env F (sortedTargets env F) (F, n)).2), false) =
    (mergeFold env F (sortedTargets env F) (F, n), false)
  rw [key, Prod.mk.eta]

def exC6env : Env := ⟨fun _ => false, fun _ => 0⟩

def exC6F : Fn := ⟨[
  ⟨0, [⟨1, .call (.direct 7) []⟩, ⟨2, .br 3⟩]⟩,
  ⟨3, [⟨4, .call (.direct 7) []⟩, ⟨5, .ret none⟩]⟩]⟩

theorem C6_idempotent_witness :
    runOnFunction exC6env (runOnFunction exC6env exC6F 6).1.1
        (runOnFunction exC6env exC6F 6).1.2 =
      ((runOnFunction exC6env exC6F 6).1, false) :=
  C6_idempotent exC6env exC6F 6 (by unfold GoodIds; decide)
    (by unfold GoodB; decide) (by unfold OpBound; decide)

/-! ## Claim C5 (amended): ineligible calls keep their callee kind -/

/-- C5 (amended): an ineligible call — inline assembly, indirect, or a
call whose callee is an intrinsic — is never placed in a group, and it
survives `runOnFunction` as a call with the same callee kind: its
feature (identifier, callee kind, non-marker) is still present in the
result, though its argument operands may have been rewritten. -/
theorem C5_ineligible_preserved (env : Env) (F : Fn) (n c : Nat) (κ : CKind)
    (hg : GoodIds (F, n)) (hB : GoodB (F, n)) (hob : OpBound F n)
    (hin : ((c, some κ, false) : Feat) ∈ featMS F)
    (hκ : κ = CKind.asm ∨ κ = CKind.indir ∨
      ∃ f, κ = CKind.direct f ∧ env.intrinsic f = true) :
    ((c, some κ, false) : Feat) ∈ featMS (runOnFunction env F n).1.1 := by
  have hcnd : F.instrIds.Nodup := hg.1
  have hlt : ∀ i ∈ F.instrIds, i < n := hg.2.2
  have hcn : c < n := hlt c (mem_instrIds_of_feat F _ hin)
  have hnotc : ∀ t ∈ sortedTargets env F, c ∉ callersFor env F t := by
    intro t _ hcc
    obtain ⟨hft, hit, -⟩ := callersFor_feat env F t c hcc
    have huq : (some κ, false) = (some (CKind.direct t), false) :=
      feat_unique F c _ _ hcnd hin hft
    have hκt : κ = CKind.direct t := by
      have := congrArg Prod.fst huq
      simp only [Option.some.injEq] at this
      exact this
    rcases hκ with h | h | ⟨f, hf, hif⟩
    · rw [hκt] at h
      cases h
    · rw [hκt] at h
      cases h
    · rw [hκt] at hf
      have hft' : t = f := by
        have h2 := hf
        simp only [CKind.direct.injEq] at h2
        exact h2
      rw [hft'] at hit
      rw [hit] at hif
      cases hif
  obtain ⟨-, -, -, -, -, -, -, hcnt, -⟩ :=
    mergeFold_master env F n (sortedTargets env F) (F, n) hcnd
      (sortedTargets_nodup env F) hg hB hob (le_refl n)
      (fun t' _ c' hc' => hlt c' (callersFor_feat env F t' c' hc').2.2)
      (fun t' _ c' hc' => (callersFor_feat env F t' c' hc').1)
  have hq := hcnt ((c, some κ, false) : Feat) hcn hnotc
  show ((c, some κ, false) : Feat) ∈
    featMS (mergeFold env F (sortedTargets env F) (F, n)).1
  exact Multiset.count_pos.mp (by rw [hq]; exact Multiset.count_pos.mpr hin)

theorem C5_ineligible_preserved_witness :
    exC5env.intrinsic 9 = true ∧
    ((30, some (CKind.direct 9), false) : Feat) ∈
      featMS (runOnFunction exC5env exC5F 31).1.1 :=
  ⟨rfl,
   C5_ineligible_preserved exC5env exC5F 31 30 (CKind.direct 9)
     (by unfold GoodIds; decide) (by unfold GoodB; decide)
     (by unfold OpBound; decide) (by decide) (Or.inr (Or.inr ⟨9, rfl, rfl⟩))⟩

/-! ## Tracking the shared call block's contents -/

/-- The incoming pairs of a phi payload (empty for any other payload). -/
def Op.phiPairs : Op → List (Val × Nat)
  | .phi ps => ps
  | _ => []

/-- The block `cb` is found with exactly the given instruction list. -/
def cbAt (F : Fn) (cb : Nat) (l : List Instr) : Prop :=
  F.blocks.find? (fun B => B.id = cb) = some ⟨cb, l⟩

/-- No phi incoming pair of the function references block `cb`. -/
def phiOk (F : Fn) (cb : Nat) : Prop :=
  ∀ i ∈ F.allInstrs, ∀ p ∈ i.op.phiPairs, p.2 ≠ cb

theorem find?_map_blocks (g : BB → BB) (bs : List BB) (cb : Nat)
    (hid : ∀ B, (g B).id = B.id) :
    (bs.map g).find? (fun B => B.id = cb) =
      (bs.find? (fun B => B.id = cb)).map g := by
  induction bs with
  | nil => rfl
  | cons B rest ih =>
      by_cases hB : B.id = cb
      · rw [List.map_cons, List.find?_cons_of_pos _ (by simp [hid, hB]),
          List.find?_cons_of_pos _ (by simp [hB])]
        rfl
      · rw [List.map_cons, List.find?_cons_of_neg _ (by simp [hid, hB]),
          List.find?_cons_of_neg _ (by simp [hB]), ih]

theorem cbAt_blockmap (F : Fn) (cb : Nat) (l l' : List Instr) (g : BB → BB)
    (hid : ∀ B, (g B).id = B.id) (hcb : g ⟨cb, l⟩ = ⟨cb, l'⟩)
    (h : cbAt F cb l) : cbAt (⟨F.blocks.map g⟩ : Fn) cb l' := by
  show (F.blocks.map g).find? _ = _
  rw [find?_map_blocks g F.blocks cb hid, h]
  show some (g ⟨cb, l⟩) = _
  rw [hcb]

theorem phiOk_blockmap (F : Fn) (cb : Nat) (g : BB → BB)
    (hinstr : ∀ B ∈ F.blocks, ∀ u ∈ (g B).instrs,
      ∀ p ∈ u.op.phiPairs, p.2 ≠ cb) :
    phiOk (⟨F.blocks.map g⟩ : Fn) cb := by
  intro u hu p hp
  obtain ⟨B, hB, hiB⟩ := mem_allInstrs_blockwise F.blocks g u hu
  exact hinstr B hB u hiB p hp

theorem phiPairs_subst (a b : Val) (o : Op) :
    (o.subst a b).phiPairs =
      o.phiPairs.map fun p => (substVal a b p.1, p.2) := by
  cases o <;> rfl

/-- A uniform per-block list rewrite that only keeps old instructions or
inserts the single instruction `x` preserves both invariants. -/
theorem cb_uniform (F : Fn) (cb : Nat) (h : List Instr → List Instr)
    (x : Instr) (hmem : ∀ lb y, y ∈ h lb → y ∈ lb ∨ y = x)
    (hx : ∀ p ∈ x.op.phiPairs, p.2 ≠ cb)
    (l : List Instr) (hcb : cbAt F cb l) (hph : phiOk F cb) :
    cbAt (⟨F.blocks.map fun B => ⟨B.id, h B.instrs⟩⟩ : Fn) cb (h l) ∧
    phiOk (⟨F.blocks.map fun B => ⟨B.id, h B.instrs⟩⟩ : Fn) cb := by
  constructor
  · exact cbAt_blockmap F cb l (h l) _ (fun B => rfl) rfl hcb
  · refine phiOk_blockmap F cb _ ?_
    intro B hB u hu p hp
    rcases hmem B.instrs u hu with h1 | h1
    · exact hph u (mem_of_mem_allInstrs F.blocks B hB u h1) p hp
    · rw [h1] at hp
      exact hx p hp

/-- A uniform per-instruction rewrite that does not create references to
`cb` preserves both invariants. -/
theorem cb_instrmap (F : Fn) (cb : Nat) (m : Instr → Instr)
    (hm : ∀ i, (∀ p ∈ i.op.phiPairs, p.2 ≠ cb) →
      ∀ p ∈ (m i).op.phiPairs, p.2 ≠ cb)
    (l : List Instr) (hcb : cbAt F cb l) (hph : phiOk F cb) :
    cbAt (⟨F.blocks.map fun B => ⟨B.id, B.instrs.map m⟩⟩ : Fn) cb (l.map m) ∧
    phiOk (⟨F.blocks.map fun B => ⟨B.id, B.instrs.map m⟩⟩ : Fn) cb := by
  constructor
  · exact cbAt_blockmap F cb l (l.map m) _ (fun B => rfl) rfl hcb
  · refine phiOk_blockmap F cb _ ?_
    intro B hB u hu p hp
    obtain ⟨i, hi, rfl⟩ := List.mem_map.mp hu
    exact hm i
      (fun q hq => hph i (mem_of_mem_allInstrs F.blocks B hB i hi) q hq) p hp

theorem cb_mapBlock (F : Fn) (cb b : Nat) (f : List Instr → List Instr)
    (x : Instr) (hb : b ≠ cb) (hx : ∀ p ∈ x.op.phiPairs, p.2 ≠ cb)
    (hf : ∀ lb y, y ∈ f lb → y ∈ lb ∨ y = x)
    (l : List Instr) (hcb : cbAt F cb l) (hph : phiOk F cb) :
    cbAt (F.mapBlock b f) cb l ∧ phiOk (F.mapBlock b f) cb := by
  constructor
  · refine cbAt_blockmap F cb l l _ ?_ ?_ hcb
    · intro B
      by_cases h : B.id = b <;> simp [h]
    · show (if cb = b then _ else _) = _
      rw [if_neg (fun h => hb h.symm)]
  · refine phiOk_blockmap F cb _ ?_
    intro B hB u hu p hp
    by_cases h : B.id = b
    · rw [if_pos h] at hu
      rcases hf B.instrs u hu with h1 | h1
      · exact hph u (mem_of_mem_allInstrs F.blocks B hB u h1) p hp
      · rw [h1] at hp
        exact hx p hp
    · rw [if_neg h] at hu
      exact hph u (mem_of_mem_allInstrs F.blocks B hB u hu) p hp

theorem cb_mapBlock_self (F : Fn) (cb : Nat) (f : List Instr → List Instr)
    (x : Instr) (hx : ∀ p ∈ x.op.phiPairs, p.2 ≠ cb)
    (hf : ∀ lb y, y ∈ f lb → y ∈ lb ∨ y = x)
    (l : List Instr) (hcb : cbAt F cb l) (hph : phiOk F cb) :
    cbAt (F.mapBlock cb f) cb (f l) ∧ phiOk (F.mapBlock cb f) cb := by
  constructor
  · refine cbAt_blockmap F cb l (f l) _ ?_ ?_ hcb
    · intro B
      by_cases h : B.id = cb <;> simp [h]
    · show (if cb = cb then (⟨cb, f l⟩ : BB) else ⟨cb, l⟩) = _
      rw [if_pos rfl]
  · refine phiOk_blockmap F cb _ ?_
    intro B hB u hu p hp
    by_cases h : B.id = cb
    · rw [if_pos h] at hu
      rcases hf B.instrs u hu with h1 | h1
      · exact hph u (mem_of_mem_allInstrs F.blocks B hB u h1) p hp
      · rw [h1] at hp
        exact hx p hp
    · rw [if_neg h] at hu
      exact hph u (mem_of_mem_allInstrs F.blocks B hB u hu) p hp

theorem phiPairs_retargetInstr (i : Instr) (o n : Nat) :
    (match i.op with
      | .phi pairs =>
          (⟨i.id, .phi (pairs.map fun p : Val × Nat =>
            if p.2 = o then (p.1, n) else p)⟩ : Instr)
      | _ => i).op.phiPairs =
      i.op.phiPairs.map
        (fun p : Val × Nat => if p.2 = o then (p.1, n) else p) := by
  obtain ⟨j, op⟩ := i
  cases op <;> rfl

theorem cb_retargetPhis (F : Fn) (cb : Nat) (inB : List Nat) (oldB newB : Nat)
    (hnew : newB ≠ cb) (hcb : cbAt F cb []) (hph : phiOk F cb) :
    cbAt (retargetPhis F inB oldB newB) cb [] ∧
    phiOk (retargetPhis F inB oldB newB) cb := by
  constructor
  · refine cbAt_blockmap F cb [] [] _ ?_ ?_ hcb
    · intro B
      by_cases h : B.id ∈ inB <;> simp [h]
    · by_cases h : cb ∈ inB <;> simp [h]
  · refine phiOk_blockmap F cb _ ?_
    intro B hB u hu p hp
    by_cases h : inB.contains B.id = true
    · rw [if_pos h] at hu
      obtain ⟨i, hi, rfl⟩ := List.mem_map.mp hu
      have hiph := fun q hq =>
        hph i (mem_of_mem_allInstrs F.blocks B hB i hi) q hq
      rw [phiPairs_retargetInstr i oldB newB] at hp
      obtain ⟨q, hq, rfl⟩ := List.mem_map.mp hp
      by_cases hqo : q.2 = oldB
      · rw [if_pos hqo]
        exact hnew
      · rw [if_neg hqo]
        exact hiph q hq
    · rw [if_neg h] at hu
      exact hph u (mem_of_mem_allInstrs F.blocks B hB u hu) p hp

theorem find?_replace (bs : List BB) (b : Nat) (nbs : List BB) (cb : Nat)
    (hb : b ≠ cb) (hnbs : ∀ B ∈ nbs, B.id ≠ cb) :
    (bs.flatMap fun B => if B.id = b then nbs else [B]).find?
        (fun B => B.id = cb) = bs.find? (fun B => B.id = cb) := by
  induction bs with
  | nil => rfl
  | cons B rest ih =>
      rw [List.flatMap_cons]
      by_cases hB : B.id = b
      · rw [if_pos hB, List.find?_append, ih]
        have hnone : nbs.find? (fun B => B.id = cb) = none :=
          List.find?_eq_none.mpr (fun x hx => by simpa using hnbs x hx)
        rw [hnone, List.find?_cons_of_neg _ (by simp [hB, hb])]
        rfl
      · rw [if_neg hB, List.singleton_append]
        by_cases hq : B.id = cb
        · rw [List.find?_cons_of_pos _ (by simp [hq]),
            List.find?_cons_of_pos _ (by simp [hq])]
        · rw [List.find?_cons_of_neg _ (by simp [hq]),
            List.find?_cons_of_neg _ (by simp [hq]), ih]

theorem cb_replaceBlock (F : Fn) (cb b : Nat) (nbs : List BB)
    (hb : b ≠ cb) (hnbs : ∀ B ∈ nbs, B.id ≠ cb)
    (hnp : ∀ B ∈ nbs, ∀ u ∈ B.instrs, ∀ p ∈ u.op.phiPairs, p.2 ≠ cb)
    (l : List Instr) (hcb : cbAt F cb l) (hph : phiOk F cb) :
    cbAt (F.replaceBlock b nbs) cb l ∧ phiOk (F.replaceBlock b nbs) cb := by
  constructor
  · show (F.blocks.flatMap _).find? _ = _
    rw [find?_replace F.blocks b nbs cb hb hnbs]
    exact hcb
  · intro u hu p hp
    obtain ⟨B', hB', huB'⟩ := List.mem_flatMap.mp hu
    obtain ⟨B, hB, hB'm⟩ := List.mem_flatMap.mp hB'
    by_cases hBb : B.id = b
    · rw [if_pos hBb] at hB'm
      exact hnp B' hB'm u huB' p hp
    · rw [if_neg hBb] at hB'm
      rw [List.mem_singleton.mp hB'm] at huB'
      exact hph u (mem_of_mem_allInstrs F.blocks B hB u huB') p hp

theorem cb_splitBlock (F : Fn) (cb b c newId brId : Nat)
    (hb : b ≠ cb) (hnew : newId ≠ cb)
    (hcb : cbAt F cb []) (hph : phiOk F cb) :
    cbAt (F.splitBlock b c newId brId) cb [] ∧
    phiOk (F.splitBlock b c newId brId) cb := by
  have hrep := cb_replaceBlock F cb b
    [⟨b, (F.instrsOf b).take ((F.instrsOf b).findIdx (fun x => x.id = c) + 1) ++
      [⟨brId, .br newId⟩]⟩,
     ⟨newId, (F.instrsOf b).drop
       ((F.instrsOf b).findIdx (fun x => x.id = c) + 1)⟩]
    hb ?_ ?_ [] hcb hph
  · exact cb_retargetPhis _ cb _ b newId hnew hrep.1 hrep.2
  · intro B hB
    simp only [List.mem_cons, List.not_mem_nil, or_false] at hB
    rcases hB with h | h <;> rw [h] <;> simpa using (by assumption : _ ≠ cb)
  · intro B hB u hu p hp
    simp only [List.mem_cons, List.not_mem_nil, or_false] at hB
    rcases hB with h | h
    · rw [h] at hu
      rcases List.mem_append.mp hu with h1 | h1
      · exact hph u (mem_instrsOf_allInstrs F b u (List.mem_of_mem_take h1)) p hp
      · rw [List.mem_singleton.mp h1] at hp
        simp [Op.phiPairs] at hp
    · rw [h] at hu
      exact hph u (mem_instrsOf_allInstrs F b u (List.mem_of_mem_drop hu)) p hp

theorem cb_moveToBlockStart (F : Fn) (c b cb : Nat) (hb : b ≠ cb)
    (hcb : cbAt F cb []) (hph : phiOk F cb) :
    cbAt (F.moveToBlockStart c b) cb [] ∧ phiOk (F.moveToBlockStart c b) cb := by
  unfold Fn.moveToBlockStart
  cases hf : F.findInstr c with
  | none => exact ⟨hcb, hph⟩
  | some i =>
      have hi : i ∈ F.allInstrs := List.mem_of_find?_eq_some hf
      have herase := cb_uniform F cb (fun lb => lb.filter (fun x => x.id ≠ c))
        i (fun lb y hy => Or.inl (List.mem_of_mem_filter hy))
        (fun p hp => hph i hi p hp) [] hcb hph
      exact cb_mapBlock (F.eraseInstr c) cb b _ i hb
        (fun p hp => hph i hi p hp)
        (fun lb y hy => mem_insertPastPhis lb i y hy) [] herase.1 herase.2

theorem cb_demotePhiPair_fold (d slot cb : Nat) (pairs : List (Val × Nat))
    (s : Fn × Nat) (acc : List (Val × Nat))
    (hcb : cbAt s.1 cb []) (hph : phiOk s.1 cb)
    (hpairs : ∀ q ∈ pairs, q.2 ≠ cb) (hacc : ∀ q ∈ acc, q.2 ≠ cb) :
    cbAt (pairs.foldl (demotePhiPair d slot) (s, acc)).1.1 cb [] ∧
    phiOk (pairs.foldl (demotePhiPair d slot) (s, acc)).1.1 cb ∧
    (∀ q ∈ (pairs.foldl (demotePhiPair d slot) (s, acc)).2, q.2 ≠ cb) := by
  induction pairs generalizing s acc with
  | nil => exact ⟨hcb, hph, hacc⟩
  | cons p ps ih =>
      simp only [List.foldl_cons]
      by_cases hp : p.1 = Val.reg d
      · have heq : demotePhiPair d slot (s, acc) p =
            ((s.1.insertBeforeTerm p.2 ⟨s.2, .load (Val.reg slot)⟩, s.2 + 1),
              acc ++ [(Val.reg s.2, p.2)]) := by
          simp [demotePhiPair, hp]
        rw [heq]
        have hpcb : p.2 ≠ cb := hpairs p (List.mem_cons_self p ps)
        obtain ⟨c1, c2⟩ := cb_mapBlock s.1 cb p.2
          (fun lb => insertBeforeLast lb ⟨s.2, .load (Val.reg slot)⟩)
          ⟨s.2, .load (Val.reg slot)⟩ hpcb (by simp [Op.phiPairs])
          (fun lb y hy => mem_insertBeforeLast lb _ y hy) [] hcb hph
        refine ih _ _ c1 c2 (fun q hq => hpairs q (List.mem_cons_of_mem p hq)) ?_
        intro q hq
        rcases List.mem_append.mp hq with h1 | h1
        · exact hacc q h1
        · rw [List.mem_singleton.mp h1]
          exact hpcb
      · have heq : demotePhiPair d slot (s, acc) p = (s, acc ++ [p]) := by
          simp [demotePhiPair, hp]
        rw [heq]
        refine ih s _ hcb hph
          (fun q hq => hpairs q (List.mem_cons_of_mem p hq)) ?_
        intro q hq
        rcases List.mem_append.mp hq with h1 | h1
        · exact hacc q h1
        · rw [List.mem_singleton.mp h1]
          exact hpairs p (List.mem_cons_self p ps)

theorem cb_demoteUser (d slot cb : Nat) (s : Fn × Nat) (u : Instr)
    (hcb : cbAt s.1 cb []) (hph : phiOk s.1 cb)
    (hu : ∀ p ∈ u.op.phiPairs, p.2 ≠ cb) :
    cbAt (demoteUser d slot s u).1 cb [] ∧
    phiOk (demoteUser d slot s u).1 cb := by
  obtain ⟨uid, uop⟩ := u
  by_cases hup : uop.isPhi = true
  · obtain ⟨pairs, rfl⟩ : ∃ ps, uop = Op.phi ps := by
      cases uop <;> simp [Op.isPhi] at hup ⊢
    have heq : demoteUser d slot s ⟨uid, Op.phi pairs⟩ =
        (Fn.setOp (pairs.foldl (demotePhiPair d slot) (s, [])).1.1 uid
          (.phi (pairs.foldl (demotePhiPair d slot) (s, [])).2),
         (pairs.foldl (demotePhiPair d slot) (s, [])).1.2) := rfl
    rw [heq]
    have hpairs0 : ∀ q ∈ pairs, q.2 ≠ cb := by
      intro q hq
      exact hu q (by simpa [Op.phiPairs] using hq)
    obtain ⟨c1, c2, c3⟩ :=
      cb_demotePhiPair_fold d slot cb pairs s [] hcb hph hpairs0 (by simp)
    have hsetOp := cb_instrmap (pairs.foldl (demotePhiPair d slot) (s, [])).1.1
      cb (fun i => if i.id = uid then
        ⟨i.id, .phi (pairs.foldl (demotePhiPair d slot) (s, [])).2⟩ else i)
      ?_ [] c1 c2
    · exact ⟨hsetOp.1, hsetOp.2⟩
    · intro i hiph p hp
      simp only [] at hp
      by_cases hid : i.id = uid
      · rw [if_pos hid] at hp
        refine c3 p ?_
        simpa [Op.phiPairs] using hp
      · rw [if_neg hid] at hp
        exact hiph p hp
  · rw [demoteUser_nonphi_eq d slot s uid uop (by simpa using hup)]
    have hins := cb_uniform s.1 cb
      (fun lb => insertBeforeIn lb uid ⟨s.2, .load (Val.reg slot)⟩)
      ⟨s.2, .load (Val.reg slot)⟩
      (fun lb y hy => mem_insertBeforeIn lb uid _ y hy)
      (by simp [Op.phiPairs]) [] hcb hph
    have hsub := cb_instrmap (s.1.insertBefore uid ⟨s.2, .load (Val.reg slot)⟩)
      cb (fun i => if i.id = uid then
        substInstr (Val.reg d) (Val.reg s.2) i else i)
      ?_ [] hins.1 hins.2
    · exact ⟨hsub.1, hsub.2⟩
    · intro i hiph p hp
      simp only [] at hp
      by_cases hid : i.id = uid
      · rw [if_pos hid] at hp
        show p.2 ≠ cb
        have hps : (substInstr (Val.reg d) (Val.reg s.2) i).op.phiPairs =
            i.op.phiPairs.map fun q =>
              (substVal (Val.reg d) (Val.reg s.2) q.1, q.2) :=
          phiPairs_subst (Val.reg d) (Val.reg s.2) i.op
        rw [hps] at hp
        obtain ⟨q, hq, rfl⟩ := List.mem_map.mp hp
        exact hiph q hq
      · rw [if_neg hid] at hp
        exact hiph p hp

theorem cb_demoteUser_fold (d slot cb : Nat) (users : List Instr)
    (s : Fn × Nat) (hcb : cbAt s.1 cb []) (hph : phiOk s.1 cb)
    (hus : ∀ u ∈ users, ∀ p ∈ u.op.phiPairs, p.2 ≠ cb) :
    cbAt (users.foldl (demoteUser d slot) s).1 cb [] ∧
    phiOk (users.foldl (demoteUser d slot) s).1 cb := by
  induction users generalizing s with
  | nil => exact ⟨hcb, hph⟩
  | cons u rest ih =>
      simp only [List.foldl_cons]
      obtain ⟨c1, c2⟩ := cb_demoteUser d slot cb s u hcb hph
        (hus u (List.mem_cons_self u rest))
      exact ih _ c1 c2 (fun u' hu' => hus u' (List.mem_cons_of_mem u hu'))

theorem cb_demoteReg (aip cb : Nat) (s : Fn × Nat) (d : Nat)
    (hcb : cbAt s.1 cb []) (hph : phiOk s.1 cb) :
    cbAt (demoteReg aip s d).1 cb [] ∧ phiOk (demoteReg aip s d).1 cb := by
  have hfinal : demoteReg aip s d =
      (((usersOf (s.1.insertBefore aip ⟨s.2, .alloca⟩) d).foldl (demoteUser d s.2)
        (s.1.insertBefore aip ⟨s.2, .alloca⟩, s.2 + 1)).1.insertAfterInstr d
        ⟨((usersOf (s.1.insertBefore aip ⟨s.2, .alloca⟩) d).foldl (demoteUser d s.2)
          (s.1.insertBefore aip ⟨s.2, .alloca⟩, s.2 + 1)).2,
          .store (Val.reg d) (Val.reg s.2)⟩,
       ((usersOf (s.1.insertBefore aip ⟨s.2, .alloca⟩) d).foldl (demoteUser d s.2)
          (s.1.insertBefore aip ⟨s.2, .alloca⟩, s.2 + 1)).2 + 1) := rfl
  rw [hfinal]
  have hA := cb_uniform s.1 cb
    (fun lb => insertBeforeIn lb aip ⟨s.2, .alloca⟩) ⟨s.2, .alloca⟩
    (fun lb y hy => mem_insertBeforeIn lb aip _ y hy)
    (by simp [Op.phiPairs]) [] hcb hph
  have hus : ∀ u ∈ usersOf (s.1.insertBefore aip ⟨s.2, .alloca⟩) d,
      ∀ p ∈ u.op.phiPairs, p.2 ≠ cb := by
    intro u hu p hp
    exact hA.2 u (List.mem_of_mem_filter hu) p hp
  obtain ⟨c1, c2⟩ := cb_demoteUser_fold d s.2
    cb (usersOf (s.1.insertBefore aip ⟨s.2, .alloca⟩) d)
    (s.1.insertBefore aip ⟨s.2, .alloca⟩, s.2 + 1) hA.1 hA.2 hus
  have hS := cb_uniform _ cb
    (fun lb => insertAfterIn lb d
      ⟨((usersOf (s.1.insertBefore aip ⟨s.2, .alloca⟩) d).foldl (demoteUser d s.2)
        (s.1.insertBefore aip ⟨s.2, .alloca⟩, s.2 + 1)).2,
        .store (Val.reg d) (Val.reg s.2)⟩)
    ⟨((usersOf (s.1.insertBefore aip ⟨s.2, .alloca⟩) d).foldl (demoteUser d s.2)
      (s.1.insertBefore aip ⟨s.2, .alloca⟩, s.2 + 1)).2,
      .store (Val.reg d) (Val.reg s.2)⟩
    (fun lb y hy => mem_insertAfterIn lb d _ y hy)
    (by simp [Op.phiPairs]) [] c1 c2
  exact ⟨hS.1, hS.2⟩

theorem cb_demoteReg_fold (aip cb : Nat) (ds : List Nat) (s : Fn × Nat)
    (hcb : cbAt s.1 cb []) (hph : phiOk s.1 cb) :
    cbAt (ds.foldl (demoteReg aip) s).1 cb [] ∧
    phiOk (ds.foldl (demoteReg aip) s).1 cb := by
  induction ds generalizing s with
  | nil => exact ⟨hcb, hph⟩
  | cons x rest ih =>
      simp only [List.foldl_cons]
      obtain ⟨c1, c2⟩ := cb_demoteReg aip cb s x hcb hph
      exact ih _ c1 c2

theorem pcP_ne_cb (st : GState) (c cb : Nat) (hf : cbAt st.fn cb [])
    (hnd : st.fn.blockIds.Nodup) (h0 : 0 < cb) : pcP st c ≠ cb := by
  unfold pcP Fn.blockOf
  cases hb : st.fn.blocks.find? (fun B => B.instrs.any fun x => x.id = c) with
  | none =>
      show (0 : Nat) ≠ cb
      omega
  | some B =>
      show B.id ≠ cb
      intro he
      have hBm : B ∈ st.fn.blocks := List.mem_of_find?_eq_some hb
      have hcbm : (⟨cb, []⟩ : BB) ∈ st.fn.blocks := List.mem_of_find?_eq_some hf
      have hBe : B = ⟨cb, []⟩ :=
        List.inj_on_of_nodup_map hnd hBm hcbm (by simpa using he)
      have hany := List.find?_some hb
      rw [hBe] at hany
      simp at hany

theorem processCaller_cb (cbId aipId entryId : Nat) (st : GState) (c : Nat)
    (hnd : st.fn.blockIds.Nodup)
    (hcb : cbAt st.fn cbId []) (hph : phiOk st.fn cbId)
    (hlt : cbId < st.next) (h0 : 0 < cbId) :
    cbAt (processCaller cbId aipId entryId st c).fn cbId [] ∧
    phiOk (processCaller cbId aipId entryId st c).fn cbId := by
  have hpne : pcP st c ≠ cbId := pcP_ne_cb st c cbId hcb hnd h0
  obtain ⟨c1, c2⟩ := cb_splitBlock st.fn cbId (pcP st c) c st.next (st.next + 1)
    hpne (by omega) hcb hph
  have hc12 : cbAt (pcF1 st c) cbId [] ∧ phiOk (pcF1 st c) cbId := ⟨c1, c2⟩
  obtain ⟨c3, c4⟩ := cb_demoteReg_fold aipId cbId (pcTD entryId st c)
    (pcF1 st c, st.next + 2) hc12.1 hc12.2
  have hc34 : cbAt (pcS1 aipId entryId st c).1 cbId [] ∧
      phiOk (pcS1 aipId entryId st c).1 cbId := ⟨c3, c4⟩
  obtain ⟨c5, c6⟩ := cb_moveToBlockStart (pcS1 aipId entryId st c).1 c st.next
    cbId (by omega) hc34.1 hc34.2
  have hc56 : cbAt (pcF2 aipId entryId st c) cbId [] ∧
      phiOk (pcF2 aipId entryId st c) cbId := ⟨c5, c6⟩
  have hc78 : cbAt (pcS2 aipId entryId st c).1 cbId [] ∧
      phiOk (pcS2 aipId entryId st c).1 cbId := by
    unfold pcS2
    by_cases hue : (usersOf (pcF2 aipId entryId st c) c).isEmpty = true
    · rw [if_pos hue]
      exact hc56
    · rw [if_neg hue]
      exact cb_demoteReg aipId cbId
        (pcF2 aipId entryId st c, (pcS1 aipId entryId st c).2) c hc56.1 hc56.2
  obtain ⟨c9, c10⟩ := cb_mapBlock (pcS2 aipId entryId st c).1 cbId (pcP st c)
    (fun lb => lb ++ [⟨(pcS2 aipId entryId st c).2, .br cbId⟩])
    ⟨(pcS2 aipId entryId st c).2, .br cbId⟩ hpne (by simp [Op.phiPairs])
    (fun lb y hy => by
      rcases List.mem_append.mp hy with h1 | h1
      · exact Or.inl h1
      · exact Or.inr (List.mem_singleton.mp h1))
    [] hc78.1 hc78.2
  obtain ⟨c11, c12⟩ := cb_mapBlock
    ((pcS2 aipId entryId st c).1.appendInstr (pcP st c)
      ⟨(pcS2 aipId entryId st c).2, .br cbId⟩)
    cbId (pcP st c) dropSecondLast
    ⟨(pcS2 aipId entryId st c).2, .br cbId⟩ hpne (by simp [Op.phiPairs])
    (fun lb y hy => Or.inl (mem_dropSecondLast lb y hy)) [] c9 c10
  rw [processCaller_eq]
  exact ⟨c11, c12⟩

theorem mem_mapInsert (l : List (Nat × Nat)) (k v : Nat) (q : Nat × Nat)
    (hq : q ∈ mapInsert l k v) : q ∈ l ∨ q = (k, v) := by
  induction l with
  | nil =>
      rcases List.mem_singleton.mp hq with h
      exact Or.inr h
  | cons p ps ih =>
      unfold mapInsert at hq
      by_cases h1 : k < p.1
      · rw [if_pos h1] at hq
        rcases List.mem_cons.mp hq with h | h
        · exact Or.inr h
        · exact Or.inl h
      · rw [if_neg h1] at hq
        by_cases h2 : k = p.1
        · rw [if_pos h2] at hq
          rcases List.mem_cons.mp hq with h | h
          · exact Or.inr h
          · exact Or.inl (List.mem_cons_of_mem p h)
        · rw [if_neg h2] at hq
          rcases List.mem_cons.mp hq with h | h
          · exact Or.inl (List.mem_cons.mpr (Or.inl h))
          · rcases ih h with h3 | h3
            · exact Or.inl (List.mem_cons_of_mem p h3)
            · exact Or.inr h3

theorem mapLookup_ne (l : List (Nat × Nat)) (c cb : Nat)
    (hl : ∀ q ∈ l, q.2 ≠ cb) (h0 : 0 < cb) : mapLookup l c ≠ cb := by
  induction l with
  | nil =>
      show (0 : Nat) ≠ cb
      omega
  | cons p ps ih =>
      show (if p.1 = c then p.2 else mapLookup ps c) ≠ cb
      by_cases h : p.1 = c
      · rw [if_pos h]
        exact hl p (List.mem_cons_self p ps)
      · rw [if_neg h]
        exact ih (fun q hq => hl q (List.mem_cons_of_mem p hq))

theorem processCaller_maps (cbId aipId entryId : Nat) (st : GState) (c : Nat)
    (hnd : st.fn.blockIds.Nodup) (hcb : cbAt st.fn cbId []) (h0 : 0 < cbId)
    (hc2p : ∀ q ∈ st.c2p, q.2 ≠ cbId) (hc2r : ∀ q ∈ st.c2r, q.1 ≠ cbId) :
    (∀ q ∈ (processCaller cbId aipId entryId st c).c2p, q.2 ≠ cbId) ∧
    (∀ q ∈ (processCaller cbId aipId entryId st c).c2r, q.1 ≠ cbId) := by
  have hpne : pcP st c ≠ cbId := pcP_ne_cb st c cbId hcb hnd h0
  rw [processCaller_eq]
  constructor
  · intro q hq
    rcases mem_mapInsert st.c2p c (pcP st c) q hq with h | h
    · exact hc2p q h
    · rw [h]
      exact hpne
  · intro q hq
    rcases mem_mapInsert st.c2r (pcP st c) st.next q hq with h | h
    · exact hc2r q h
    · rw [h]
      exact hpne

theorem processCaller_fold_cb (cbId aipId entryId : Nat) (g0 : GState)
    (cs : List Nat)
    (hg : GoodIds (g0.fn, g0.next)) (hB : GoodB (g0.fn, g0.next))
    (hob : OpBound g0.fn g0.next)
    (hcs : ∀ c ∈ cs, c ∈ g0.fn.instrIds)
    (hcb : cbAt g0.fn cbId []) (hph : phiOk g0.fn cbId)
    (hlt : cbId < g0.next) (h0 : 0 < cbId)
    (hc2p : ∀ q ∈ g0.c2p, q.2 ≠ cbId) (hc2r : ∀ q ∈ g0.c2r, q.1 ≠ cbId) :
    cbAt (cs.foldl (processCaller cbId aipId entryId) g0).fn cbId [] ∧
    phiOk (cs.foldl (processCaller cbId aipId entryId) g0).fn cbId ∧
    (∀ q ∈ (cs.foldl (processCaller cbId aipId entryId) g0).c2p,
      q.2 ≠ cbId) ∧
    (∀ q ∈ (cs.foldl (processCaller cbId aipId entryId) g0).c2r,
      q.1 ≠ cbId) := by
  induction cs generalizing g0 with
  | nil => exact ⟨hcb, hph, hc2p, hc2r⟩
  | cons c rest ih =>
      simp only [List.foldl_cons]
      obtain ⟨hpe1, hg1, hB1, hob1, hbm1⟩ := processCaller_master cbId aipId
        entryId g0 c hg hB hob (hcs c (List.mem_cons_self c rest))
      obtain ⟨d1, d2⟩ := processCaller_cb cbId aipId entryId g0 c hg.2.1
        hcb hph hlt h0
      obtain ⟨m1, m2⟩ := processCaller_maps cbId aipId entryId g0 c hg.2.1
        hcb h0 hc2p hc2r
      have hrest : ∀ c' ∈ rest,
          c' ∈ (processCaller cbId aipId entryId g0 c).fn.instrIds := by
        intro c' hc'
        exact plumbExt_mem_instrIds hpe1 c'
          (hcs c' (List.mem_cons_of_mem c hc'))
          (hg.2.2 c' (hcs c' (List.mem_cons_of_mem c hc')))
      have hlt1 : cbId < (processCaller cbId aipId entryId g0 c).next := by
        have := hpe1.1
        omega
      exact ih _ hg1 hB1 hob1 hrest d1 d2 hlt1 m1 m2

theorem tgF0_cb (st : Fn × Nat) (hB : GoodB st)
    (hphi : ∀ i ∈ st.1.allInstrs, ∀ p ∈ i.op.phiPairs, p.2 < st.2) :
    cbAt (tgF0 st) st.2 [] ∧ phiOk (tgF0 st) st.2 := by
  constructor
  · show (st.1.blocks ++ [(⟨st.2, []⟩ : BB)]).find? (fun B => B.id = st.2) =
      some (⟨st.2, []⟩ : BB)
    rw [List.find?_append]
    have h1 : st.1.blocks.find? (fun B => B.id = st.2) = none := by
      rw [List.find?_eq_none]
      intro B hBm
      have hb : B.id < st.2 := hB B.id (List.mem_map_of_mem BB.id hBm)
      simp only [decide_eq_true_eq]
      omega
    rw [h1, List.find?_cons_of_pos _ (by simp)]
    rfl
  · intro i hi p hp
    rw [allInstrs_tgF0] at hi
    have := hphi i hi p hp
    omega

theorem cb_insertAIP (F : Fn) (cb : Nat) (x : Instr)
    (hx : ∀ p ∈ x.op.phiPairs, p.2 ≠ cb)
    (hhead : ∀ B, F.blocks.head? = some B → B.id ≠ cb)
    (hcb : cbAt F cb []) (hph : phiOk F cb) :
    cbAt (F.insertAIP x) cb [] ∧ phiOk (F.insertAIP x) cb := by
  obtain ⟨bs⟩ := F
  cases bs with
  | nil => exact ⟨hcb, hph⟩
  | cons B rest =>
      have hBne : B.id ≠ cb := hhead B rfl
      constructor
      · show ((⟨B.id, insertAfterLeadingAllocas B.instrs x⟩ : BB) ::
          rest).find? (fun Bl => Bl.id = cb) = some (⟨cb, []⟩ : BB)
        rw [List.find?_cons_of_neg _ (by simpa using hBne)]
        have hc : (B :: rest).find? (fun Bl => Bl.id = cb) =
            some (⟨cb, []⟩ : BB) := hcb
        rw [List.find?_cons_of_neg _ (by simpa using hBne)] at hc
        exact hc
      · intro u hu p hp
        rw [show (Fn.mk (B :: rest)).insertAIP x =
          ⟨(⟨B.id, insertAfterLeadingAllocas B.instrs x⟩ : BB) :: rest⟩ from rfl,
          allInstrs_cons] at hu
        rcases List.mem_append.mp hu with h1 | h1
        · rcases mem_insertAfterLeadingAllocas B.instrs x u h1 with h2 | h2
          · exact hph u (mem_of_mem_allInstrs (B :: rest) B
              (List.mem_cons_self B rest) u h2) p hp
          · rw [h2] at hp
            exact hx p hp
        · refine hph u ?_ p hp
          rw [allInstrs_cons]
          exact List.mem_append.mpr (Or.inr h1)

theorem tgF1_cb (st : Fn × Nat) (hB : GoodB st) (hne : st.1.blocks ≠ [])
    (hphi : ∀ i ∈ st.1.allInstrs, ∀ p ∈ i.op.phiPairs, p.2 < st.2) :
    cbAt (tgF1 st) st.2 [] ∧ phiOk (tgF1 st) st.2 := by
  obtain ⟨h0f, h0p⟩ := tgF0_cb st hB hphi
  refine cb_insertAIP (tgF0 st) st.2 _ (by simp [Op.phiPairs]) ?_ h0f h0p
  intro B hhd
  cases hbs : st.1.blocks with
  | nil => exact absurd hbs hne
  | cons B0 r =>
      have : (tgF0 st).blocks = B0 :: (r ++ [⟨st.2, []⟩]) := by
        show st.1.blocks ++ [⟨st.2, []⟩] = _
        rw [hbs, List.cons_append]
      rw [this] at hhd
      have hB0 : B = B0 := by
        have := Option.some.inj hhd
        rw [← this]
      have hlt : B0.id < st.2 := by
        refine hB B0.id (List.mem_map_of_mem BB.id ?_)
        rw [hbs]
        exact List.mem_cons_self B0 r
      rw [hB0]
      omega

theorem find?_flatMap_blocks (bs : List BB) (g : BB → BB) (q : Instr → Bool)
    (h : ∀ B ∈ bs, (g B).instrs.find? q = B.instrs.find? q) :
    ((bs.map g).flatMap BB.instrs).find? q =
      (bs.flatMap BB.instrs).find? q := by
  induction bs with
  | nil => rfl
  | cons B rest ih =>
      rw [List.map_cons, List.flatMap_cons, List.flatMap_cons,
        List.find?_append, List.find?_append, h B (List.mem_cons_self B rest),
        ih (fun B2 hB2 => h B2 (List.mem_cons_of_mem B hB2))]

theorem findInstr_appendInstr_ne (F : Fn) (b : Nat) (x : Instr) (c : Nat)
    (hx : x.id ≠ c) : (F.appendInstr b x).findInstr c = F.findInstr c := by
  show ((F.blocks.map _).flatMap BB.instrs).find? _ = _
  rw [find?_flatMap_blocks]
  · rfl
  · intro B hB
    by_cases hid : B.id = b
    · rw [if_pos hid]
      show (B.instrs ++ [x]).find? _ = _
      rw [List.find?_append]
      have hnone : ([x].find? (fun i => i.id = c)) = none := by
        rw [List.find?_eq_none]
        intro y hy
        rw [List.mem_singleton.mp hy]
        simpa using hx
      rw [hnone]
      cases B.instrs.find? (fun i => i.id = c) <;> rfl
    · rw [if_neg hid]

theorem argOperand_appendInstr_ne (F : Fn) (b : Nat) (x : Instr) (c i : Nat)
    (hx : x.id ≠ c) :
    argOperand (F.appendInstr b x) c i = argOperand F c i := by
  unfold argOperand
  rw [findInstr_appendInstr_ne F b x c hx]

theorem argPhis_step (callers : List Nat) (cbId : Nat) (c2p : List (Nat × Nat))
    (acc : (Fn × Nat) × List Val) (j : Nat) :
    (fun acc argCtr =>
        let F := acc.1.1
        let n := acc.1.2
        let pairs := callers.map fun c => (argOperand F c argCtr, mapLookup c2p c)
        ((F.appendInstr cbId ⟨n, .phi pairs⟩, n + 1), acc.2 ++ [Val.reg n]))
      acc j =
      ((acc.1.1.appendInstr cbId ⟨acc.1.2, .phi (callers.map fun c =>
        (argOperand acc.1.1 c j, mapLookup c2p c))⟩, acc.1.2 + 1),
       acc.2 ++ [Val.reg acc.1.2]) := rfl

theorem argPhis_cb (callers : List Nat) (cbId : Nat) (c2p : List (Nat × Nat))
    (k : Nat) (s : Fn × Nat) (vs : List Val)
    (hcall : ∀ c ∈ callers, c < s.2)
    (hcb : cbAt s.1 cbId []) (hph : phiOk s.1 cbId)
    (hpref : ∀ c, mapLookup c2p c ≠ cbId) :
    ((List.range k).foldl
      (fun acc argCtr =>
        let F := acc.1.1
        let n := acc.1.2
        let pairs := callers.map fun c => (argOperand F c argCtr, mapLookup c2p c)
        ((F.appendInstr cbId ⟨n, .phi pairs⟩, n + 1), acc.2 ++ [Val.reg n]))
      (s, vs)).1.2 = s.2 + k ∧
    cbAt ((List.range k).foldl
      (fun acc argCtr =>
        let F := acc.1.1
        let n := acc.1.2
        let pairs := callers.map fun c => (argOperand F c argCtr, mapLookup c2p c)
        ((F.appendInstr cbId ⟨n, .phi pairs⟩, n + 1), acc.2 ++ [Val.reg n]))
      (s, vs)).1.1 cbId ((List.range k).map fun j =>
        (⟨s.2 + j, .phi (callers.map fun c =>
          (argOperand s.1 c j, mapLookup c2p c))⟩ : Instr)) ∧
    phiOk ((List.range k).foldl
      (fun acc argCtr =>
        let F := acc.1.1
        let n := acc.1.2
        let pairs := callers.map fun c => (argOperand F c argCtr, mapLookup c2p c)
        ((F.appendInstr cbId ⟨n, .phi pairs⟩, n + 1), acc.2 ++ [Val.reg n]))
      (s, vs)).1.1 cbId ∧
    (∀ c, c < s.2 → ∀ j, argOperand ((List.range k).foldl
      (fun acc argCtr =>
        let F := acc.1.1
        let n := acc.1.2
        let pairs := callers.map fun c => (argOperand F c argCtr, mapLookup c2p c)
        ((F.appendInstr cbId ⟨n, .phi pairs⟩, n + 1), acc.2 ++ [Val.reg n]))
      (s, vs)).1.1 c j = argOperand s.1 c j) := by
  induction k with
  | zero => exact ⟨rfl, hcb, hph, fun c hc j => rfl⟩
  | succ k ih =>
      obtain ⟨ih1, ih2, ih3, ih4⟩ := ih
      rw [List.range_succ, List.foldl_append, List.foldl_cons, List.foldl_nil]
      set A := (List.range k).foldl
        (fun acc argCtr =>
          let F := acc.1.1
          let n := acc.1.2
          let pairs := callers.map fun c =>
            (argOperand F c argCtr, mapLookup c2p c)
          ((F.appendInstr cbId ⟨n, .phi pairs⟩, n + 1), acc.2 ++ [Val.reg n]))
        (s, vs) with hA
      have hpa : (callers.map fun c =>
          (argOperand A.1.1 c k, mapLookup c2p c)) =
          callers.map fun c => (argOperand s.1 c k, mapLookup c2p c) :=
        List.map_congr_left (fun c hc => by rw [ih4 c (hcall c hc) k])
      have hxpairs : ∀ p ∈ (⟨A.1.2, .phi (callers.map fun c =>
          (argOperand A.1.1 c k, mapLookup c2p c))⟩ : Instr).op.phiPairs,
          p.2 ≠ cbId := by
        intro p hp
        simp only [Op.phiPairs] at hp
        obtain ⟨c, hc, rfl⟩ := List.mem_map.mp hp
        exact hpref c
      have hstep := cb_mapBlock_self A.1.1 cbId
        (fun lb => lb ++ [⟨A.1.2, .phi (callers.map fun c =>
          (argOperand A.1.1 c k, mapLookup c2p c))⟩])
        ⟨A.1.2, .phi (callers.map fun c =>
          (argOperand A.1.1 c k, mapLookup c2p c))⟩ hxpairs
        (fun lb y hy => by
          rcases List.mem_append.mp hy with h1 | h1
          · exact Or.inl h1
          · exact Or.inr (List.mem_singleton.mp h1))
        _ ih2 ih3
      refine ⟨?_, ?_, ?_, ?_⟩
      · show A.1.2 + 1 = s.2 + (k + 1)
        omega
      · have hinstr : (⟨A.1.2, .phi (callers.map fun c =>
            (argOperand A.1.1 c k, mapLookup c2p c))⟩ : Instr) =
            ⟨s.2 + k, .phi (callers.map fun c =>
              (argOperand s.1 c k, mapLookup c2p c))⟩ := by
          rw [ih1, hpa]
        rw [List.map_append]
        show cbAt (A.1.1.appendInstr cbId ⟨A.1.2, .phi (callers.map fun c =>
          (argOperand A.1.1 c k, mapLookup c2p c))⟩) cbId
          (((List.range k).map fun j =>
            (⟨s.2 + j, .phi (callers.map fun c =>
              (argOperand s.1 c j, mapLookup c2p c))⟩ : Instr)) ++
           [(⟨s.2 + k, .phi (callers.map fun c =>
              (argOperand s.1 c k, mapLookup c2p c))⟩ : Instr)])
        rw [← hinstr]
        exact hstep.1
      · exact hstep.2
      · intro c hc j
        show argOperand (A.1.1.appendInstr cbId ⟨A.1.2, .phi (callers.map
          fun c => (argOperand A.1.1 c k, mapLookup c2p c))⟩) c j =
          argOperand s.1 c j
        rw [argOperand_appendInstr_ne _ _ _ _ _ (by
          show A.1.2 ≠ c
          omega)]
        exact ih4 c hc j

theorem buildArgPhis_cb (env : Env) (target : Nat) (callers : List Nat)
    (cbId : Nat) (c2p : List (Nat × Nat)) (s : Fn × Nat)
    (hcall : ∀ c ∈ callers, c < s.2)
    (hcb : cbAt s.1 cbId []) (hph : phiOk s.1 cbId)
    (hpref : ∀ c, mapLookup c2p c ≠ cbId) :
    cbAt (buildArgPhis env target callers cbId c2p s).1.1 cbId
      ((List.range (env.arity target)).map fun j =>
        (⟨s.2 + j, .phi (callers.map fun c =>
          (argOperand s.1 c j, mapLookup c2p c))⟩ : Instr)) ∧
    phiOk (buildArgPhis env target callers cbId c2p s).1.1 cbId := by
  unfold buildArgPhis
  by_cases ha : env.arity target > 0
  · rw [if_pos ha]
    obtain ⟨-, h2, h3, -⟩ := argPhis_cb callers cbId c2p (env.arity target)
      s [] hcall hcb hph hpref
    exact ⟨h2, h3⟩
  · rw [if_neg ha]
    have ha0 : env.arity target = 0 := by omega
    rw [ha0]
    exact ⟨hcb, hph⟩

/-- The accumulated value substitution of the replace-and-erase loop. -/
def eraseSubstVal (callId : Nat) (callers : List Nat) (v : Val) : Val :=
  callers.foldl (fun w c => substVal (Val.reg c) (Val.reg callId) w) v

/-- The accumulated instruction rewrite of the replace-and-erase loop. -/
def eraseSubst (callId : Nat) (callers : List Nat) (i : Instr) : Instr :=
  callers.foldl (fun j c => substInstr (Val.reg c) (Val.reg callId) j) i

theorem eraseSubst_id (callId : Nat) (callers : List Nat) (i : Instr) :
    (eraseSubst callId callers i).id = i.id := by
  induction callers generalizing i with
  | nil => rfl
  | cons c rest ih =>
      show (eraseSubst callId rest
        (substInstr (Val.reg c) (Val.reg callId) i)).id = i.id
      rw [ih]
      rfl

theorem eraseSubst_phi (callId : Nat) (callers : List Nat) (j : Nat)
    (pairs : List (Val × Nat)) :
    eraseSubst callId callers ⟨j, .phi pairs⟩ =
      ⟨j, .phi (pairs.map fun p =>
        (eraseSubstVal callId callers p.1, p.2))⟩ := by
  induction callers generalizing pairs with
  | nil =>
      show (⟨j, .phi pairs⟩ : Instr) = _
      have : pairs.map (fun p : Val × Nat => (eraseSubstVal callId [] p.1, p.2)) =
          pairs := by
        have h1 : pairs.map (fun p : Val × Nat =>
            (eraseSubstVal callId [] p.1, p.2)) = pairs.map id :=
          List.map_congr_left (fun p _ => rfl)
        rw [h1, List.map_id]
      rw [this]
  | cons c rest ih =>
      show eraseSubst callId rest
        (substInstr (Val.reg c) (Val.reg callId) ⟨j, .phi pairs⟩) = _
      rw [show substInstr (Val.reg c) (Val.reg callId) ⟨j, .phi pairs⟩ =
        ⟨j, .phi (pairs.map fun p =>
          (substVal (Val.reg c) (Val.reg callId) p.1, p.2))⟩ from rfl]
      rw [ih]
      have : (pairs.map fun p : Val × Nat =>
          (substVal (Val.reg c) (Val.reg callId) p.1, p.2)).map
            (fun p : Val × Nat => (eraseSubstVal callId rest p.1, p.2)) =
          pairs.map fun p : Val × Nat =>
            (eraseSubstVal callId (c :: rest) p.1, p.2) := by
        rw [List.map_map]
        exact List.map_congr_left (fun p _ => rfl)
      rw [this]

theorem eraseSubst_call (callId target : Nat) (callers : List Nat)
    (args : List Val)
    (hargs : ∀ c ∈ callers, ∀ v ∈ args, v ≠ Val.reg c) :
    eraseSubst callId callers ⟨callId, .call (.direct target) args⟩ =
      ⟨callId, .call (.direct target) args⟩ := by
  induction callers with
  | nil => rfl
  | cons c rest ih =>
      show eraseSubst callId rest
        (substInstr (Val.reg c) (Val.reg callId)
          ⟨callId, .call (.direct target) args⟩) = _
      have hsub : substInstr (Val.reg c) (Val.reg callId)
          ⟨callId, .call (.direct target) args⟩ =
          ⟨callId, .call (.direct target) args⟩ := by
        show (⟨callId, .call (Callee.subst (Val.reg c) (Val.reg callId)
          (.direct target)) (args.map (substVal (Val.reg c)
            (Val.reg callId)))⟩ : Instr) = _
        have h1 : Callee.subst (Val.reg c) (Val.reg callId)
            (.direct target) = .direct target := rfl
        have h2 : args.map (substVal (Val.reg c) (Val.reg callId)) = args := by
          have h3 : args.map (substVal (Val.reg c) (Val.reg callId)) =
              args.map id := by
            refine List.map_congr_left (fun v hv => ?_)
            show substVal (Val.reg c) (Val.reg callId) v = v
            unfold substVal
            rw [if_neg (hargs c (List.mem_cons_self c rest) v hv)]
          rw [h3, List.map_id]
        rw [h1, h2]
      rw [hsub]
      exact ih (fun c' hc' v hv => hargs c' (List.mem_cons_of_mem c hc') v hv)

theorem cb_eraseStep (F : Fn) (cb c callId : Nat) (l : List Instr)
    (hcb : cbAt F cb l) (hph : phiOk F cb)
    (hidne : ∀ y ∈ l, y.id ≠ c) :
    cbAt (Fn.eraseInstr (Fn.rauw F (Val.reg c) (Val.reg callId)) c) cb
      (l.map (substInstr (Val.reg c) (Val.reg callId))) ∧
    phiOk (Fn.eraseInstr (Fn.rauw F (Val.reg c) (Val.reg callId)) c) cb := by
  have hm : ∀ i : Instr, (∀ p ∈ i.op.phiPairs, p.2 ≠ cb) →
      ∀ p ∈ (substInstr (Val.reg c) (Val.reg callId) i).op.phiPairs,
        p.2 ≠ cb := by
    intro i hiph p hp
    have hps : (substInstr (Val.reg c) (Val.reg callId) i).op.phiPairs =
        i.op.phiPairs.map fun q =>
          (substVal (Val.reg c) (Val.reg callId) q.1, q.2) :=
      phiPairs_subst _ _ i.op
    rw [hps] at hp
    obtain ⟨q, hq, rfl⟩ := List.mem_map.mp hp
    exact hiph q hq
  obtain ⟨r1, r2⟩ := cb_instrmap F cb (substInstr (Val.reg c) (Val.reg callId))
    hm l hcb hph
  obtain ⟨e1, e2⟩ := cb_uniform (Fn.rauw F (Val.reg c) (Val.reg callId)) cb
    (fun lb => lb.filter (fun x => x.id ≠ c)) ⟨0, .alloca⟩
    (fun lb y hy => Or.inl (List.mem_of_mem_filter hy))
    (by simp [Op.phiPairs])
    (l.map (substInstr (Val.reg c) (Val.reg callId))) r1 r2
  refine ⟨?_, e2⟩
  have hfil : (l.map (substInstr (Val.reg c) (Val.reg callId))).filter
      (fun x => x.id ≠ c) =
      l.map (substInstr (Val.reg c) (Val.reg callId)) := by
    rw [List.filter_eq_self]
    intro y hy
    obtain ⟨z, hz, rfl⟩ := List.mem_map.mp hy
    simp only [decide_eq_true_eq]
    show ¬ z.id = c
    exact hidne z hz
  rw [← hfil]
  exact e1

theorem cb_eraseFold (cb callId : Nat) (callers : List Nat) (F : Fn)
    (l : List Instr) (hcb : cbAt F cb l) (hph : phiOk F cb)
    (hidne : ∀ y ∈ l, ∀ c ∈ callers, y.id ≠ c) :
    cbAt (callers.foldl (fun f c => Fn.eraseInstr
        (Fn.rauw f (Val.reg c) (Val.reg callId)) c) F) cb
      (l.map (eraseSubst callId callers)) ∧
    phiOk (callers.foldl (fun f c => Fn.eraseInstr
        (Fn.rauw f (Val.reg c) (Val.reg callId)) c) F) cb := by
  induction callers generalizing F l with
  | nil =>
      constructor
      · have hmap : l.map (eraseSubst callId []) = l := by
          have h1 : l.map (eraseSubst callId []) = l.map id :=
            List.map_congr_left (fun y _ => rfl)
          rw [h1, List.map_id]
        rw [List.foldl_nil, hmap]
        exact hcb
      · exact hph
  | cons c rest ih =>
      simp only [List.foldl_cons]
      obtain ⟨r1, r2⟩ := cb_eraseStep F cb c callId l hcb hph
        (fun y hy => hidne y hy c (List.mem_cons_self c rest))
      have hid2 : ∀ y ∈ l.map (substInstr (Val.reg c) (Val.reg callId)),
          ∀ c2 ∈ rest, y.id ≠ c2 := by
        intro y hy c2 hc2
        obtain ⟨z, hz, rfl⟩ := List.mem_map.mp hy
        show z.id ≠ c2
        exact hidne z hz c2 (List.mem_cons_of_mem c hc2)
      obtain ⟨q1, q2⟩ := ih _ _ r1 r2 hid2
      refine ⟨?_, q2⟩
      have hcomp : (l.map (substInstr (Val.reg c) (Val.reg callId))).map
          (eraseSubst callId rest) = l.map (eraseSubst callId (c :: rest)) := by
        rw [List.map_map]
        exact List.map_congr_left (fun y _ => rfl)
      rw [← hcomp]
      exact q1

theorem insertBeforeIn_at_last (l1 : List Instr) (y x : Instr) (t : Nat)
    (hl1 : ∀ z ∈ l1, z.id ≠ t) (hy : y.id = t) :
    insertBeforeIn (l1 ++ [y]) t x = l1 ++ [x, y] := by
  induction l1 with
  | nil =>
      show (if y.id = t then x :: y :: [] else y :: insertBeforeIn [] t x) = _
      rw [if_pos hy]
      rfl
  | cons z zs ih =>
      show (if z.id = t then x :: z :: (zs ++ [y])
        else z :: insertBeforeIn (zs ++ [y]) t x) = _
      rw [if_neg (hl1 z (List.mem_cons_self z zs)),
        ih (fun w hw => hl1 w (List.mem_cons_of_mem z hw))]
      rfl

set_option maxHeartbeats 1000000 in
theorem tg_cb_content (env : Env) (target : Nat) (st : Fn × Nat)
    (callers : List Nat)
    (hg : GoodIds st) (hB : GoodB st) (hob : OpBound st.1 st.2)
    (hcall : ∀ c ∈ callers,
      ((c, some (CKind.direct target), false) : Feat) ∈ featMS st.1)
    (hnd : callers.Nodup)
    (hne : st.1.blocks ≠ [])
    (hphi : ∀ i ∈ st.1.allInstrs, ∀ p ∈ i.op.phiPairs, p.2 < st.2) :
    cbAt (tgFf env target st callers) st.2
      (((List.range (env.arity target)).map fun j =>
        (⟨(tgG st callers).next + j, .phi (callers.map fun c =>
          (eraseSubstVal (tgCallId env target st callers) callers
            (argOperand (tgG st callers).fn c j),
           mapLookup (tgG st callers).c2p c))⟩ : Instr)) ++
       [⟨tgCallId env target st callers + 1, .phi (tgWfPairs st callers)⟩,
        ⟨tgCallId env target st callers, .call (.direct target)
          ((List.range (env.arity target)).map fun j =>
            Val.reg ((tgG st callers).next + j))⟩,
        ⟨tgCallId env target st callers + 2,
          .switch (Val.reg (tgCallId env target st callers + 1))
            (tgDflt st callers) (tgCaseList st callers)⟩]) := by
  have h0 : 0 < st.2 := by
    cases hbs : st.1.blocks with
    | nil => exact absurd hbs hne
    | cons B0 r =>
        have hB0 : B0.id < st.2 := hB B0.id (List.mem_map_of_mem BB.id
          (by rw [hbs]; exact List.mem_cons_self B0 r))
        omega
  have hpres : ∀ c ∈ callers, c ∈ st.1.instrIds := by
    intro c hc
    exact mem_instrIds_of_feat st.1 _ (hcall c hc)
  have hclt : ∀ c ∈ callers, c < st.2 := by
    intro c hc
    exact hg.2.2 c (hpres c hc)
  obtain ⟨-, hg1, hB1, hob1, -, hmem1⟩ := tgF1_facts st hg hB hob
  obtain ⟨f1cb, f1ph⟩ := tgF1_cb st hB hne hphi
  have hfold := processCaller_fold_cb st.2 (st.2 + 1) (tgEntry st)
    { fn := tgF1 st, next := st.2 + 2, c2r := [], c2p := [] } callers
    hg1 hB1 hob1 (fun c hc => hmem1 c (hpres c hc)) f1cb f1ph
    (by show st.2 < st.2 + 2; omega) h0
    (by intro q hq; cases hq) (by intro q hq; cases hq)
  have gcb : cbAt (tgG st callers).fn st.2 [] := hfold.1
  have gph : phiOk (tgG st callers).fn st.2 := hfold.2.1
  have gc2p : ∀ q ∈ (tgG st callers).c2p, q.2 ≠ st.2 := hfold.2.2.1
  have gc2r : ∀ q ∈ (tgG st callers).c2r, q.1 ≠ st.2 := hfold.2.2.2
  obtain ⟨-, hg2, -, hob2, hcb2, hgrow2⟩ := tgG_master st callers hg hB hob hpres
  obtain ⟨-, -, -, -, hlen3, hvals3⟩ := buildArgPhis_master env target
    callers st.2 (tgG st callers).c2p
    ((tgG st callers).fn, (tgG st callers).next) hg2 hob2 hcb2
  have hlenC : tgCallId env target st callers =
      (tgG st callers).next + env.arity target := hlen3
  have hvals : (tgAB env target st callers).2 =
      (List.range (env.arity target)).map
        (fun i => Val.reg ((tgG st callers).next + i)) := hvals3
  have hcall2 : ∀ c ∈ callers, c < (tgG st callers).next := by
    intro c hc
    have := hclt c hc
    omega
  have hpref : ∀ c, mapLookup (tgG st callers).c2p c ≠ st.2 :=
    fun c => mapLookup_ne _ c st.2 gc2p h0
  obtain ⟨abcb, abph⟩ := buildArgPhis_cb env target callers st.2
    (tgG st callers).c2p ((tgG st callers).fn, (tgG st callers).next)
    hcall2 gcb gph hpref
  have abcb' : cbAt (tgAB env target st callers).1.1 st.2
      ((List.range (env.arity target)).map fun j =>
        (⟨(tgG st callers).next + j, .phi (callers.map fun c =>
          (argOperand (tgG st callers).fn c j,
           mapLookup (tgG st callers).c2p c))⟩ : Instr)) := abcb
  have abph' : phiOk (tgAB env target st callers).1.1 st.2 := abph
  -- Append the merged call.
  obtain ⟨fccb, fcph⟩ := cb_mapBlock_self (tgAB env target st callers).1.1 st.2
    (fun lb => lb ++ [⟨tgCallId env target st callers,
      .call (.direct target) (tgAB env target st callers).2⟩])
    ⟨tgCallId env target st callers,
      .call (.direct target) (tgAB env target st callers).2⟩
    (by simp [Op.phiPairs])
    (fun lb y hy => by
      rcases List.mem_append.mp hy with h1 | h1
      · exact Or.inl h1
      · exact Or.inr (List.mem_singleton.mp h1))
    _ abcb' abph'
  have fccb' : cbAt (tgFc env target st callers) st.2
      (((List.range (env.arity target)).map fun j =>
        (⟨(tgG st callers).next + j, .phi (callers.map fun c =>
          (argOperand (tgG st callers).fn c j,
           mapLookup (tgG st callers).c2p c))⟩ : Instr)) ++
       [⟨tgCallId env target st callers,
         .call (.direct target) (tgAB env target st callers).2⟩]) := fccb
  have fcph' : phiOk (tgFc env target st callers) st.2 := fcph
  -- Replace and erase the original call sites.
  have hidne : ∀ y ∈ (((List.range (env.arity target)).map fun j =>
      (⟨(tgG st callers).next + j, .phi (callers.map fun c =>
        (argOperand (tgG st callers).fn c j,
         mapLookup (tgG st callers).c2p c))⟩ : Instr)) ++
      [⟨tgCallId env target st callers,
        .call (.direct target) (tgAB env target st callers).2⟩]),
      ∀ c ∈ callers, y.id ≠ c := by
    intro y hy c hc
    have hcg := hcall2 c hc
    rcases List.mem_append.mp hy with h1 | h1
    · obtain ⟨j, hj, rfl⟩ := List.mem_map.mp h1
      show (tgG st callers).next + j ≠ c
      omega
    · rw [List.mem_singleton.mp h1]
      show tgCallId env target st callers ≠ c
      omega
  obtain ⟨fdcb, fdph⟩ := cb_eraseFold st.2 (tgCallId env target st callers)
    callers (tgFc env target st callers) _ fccb' fcph' hidne
  have fdcb' : cbAt (tgFd env target st callers) st.2
      ((((List.range (env.arity target)).map fun j =>
        (⟨(tgG st callers).next + j, .phi (callers.map fun c =>
          (argOperand (tgG st callers).fn c j,
           mapLookup (tgG st callers).c2p c))⟩ : Instr)) ++
        [(⟨tgCallId env target st callers,
          .call (.direct target) (tgAB env target st callers).2⟩ : Instr)]).map
        (eraseSubst (tgCallId env target st callers) callers)) := fdcb
  have fdph' : phiOk (tgFd env target st callers) st.2 := fdph
  -- Compute the rewritten contents.
  have hescall : eraseSubst (tgCallId env target st callers) callers
      ⟨tgCallId env target st callers,
        .call (.direct target) (tgAB env target st callers).2⟩ =
      ⟨tgCallId env target st callers,
        .call (.direct target) (tgAB env target st callers).2⟩ := by
    refine eraseSubst_call _ target callers _ ?_
    intro c hc v hv
    rw [hvals] at hv
    obtain ⟨j, hj, rfl⟩ := List.mem_map.mp hv
    intro he
    have hj2 : (tgG st callers).next + j = c := by
      have := Val.reg.inj he
      omega
    have := hcall2 c hc
    omega
  rw [List.map_append] at fdcb'
  have hmapsing : ([⟨tgCallId env target st callers,
      .call (.direct target) (tgAB env target st callers).2⟩] :
        List Instr).map (eraseSubst (tgCallId env target st callers) callers) =
      [⟨tgCallId env target st callers,
        .call (.direct target) (tgAB env target st callers).2⟩] := by
    rw [List.map_singleton, hescall]
  rw [hmapsing] at fdcb'
  -- Insert the discriminator phi right before the call.
  have hwfx : ∀ p ∈ (⟨tgCallId env target st callers + 1,
      .phi (tgWfPairs st callers)⟩ : Instr).op.phiPairs, p.2 ≠ st.2 := by
    intro p hp
    simp only [Op.phiPairs] at hp
    unfold tgWfPairs at hp
    obtain ⟨e, he, rfl⟩ := List.mem_map.mp hp
    show e.2.1 ≠ st.2
    have he2 : e.2 ∈ (tgG st callers).c2r := by
      have := List.mem_map_of_mem Prod.snd he
      rw [List.enum_map_snd] at this
      exact this
    exact gc2r e.2 he2
  obtain ⟨fecb, feph⟩ := cb_uniform (tgFd env target st callers) st.2
    (fun lb => insertBeforeIn lb (tgCallId env target st callers)
      ⟨tgCallId env target st callers + 1, .phi (tgWfPairs st callers)⟩)
    ⟨tgCallId env target st callers + 1, .phi (tgWfPairs st callers)⟩
    (fun lb y hy => mem_insertBeforeIn lb _ _ y hy)
    hwfx _ fdcb' fdph'
  have hins : insertBeforeIn
      ((((List.range (env.arity target)).map fun j =>
        (⟨(tgG st callers).next + j, .phi (callers.map fun c =>
          (argOperand (tgG st callers).fn c j,
           mapLookup (tgG st callers).c2p c))⟩ : Instr)).map
        (eraseSubst (tgCallId env target st callers) callers)) ++
       [⟨tgCallId env target st callers,
         .call (.direct target) (tgAB env target st callers).2⟩])
      (tgCallId env target st callers)
      ⟨tgCallId env target st callers + 1, .phi (tgWfPairs st callers)⟩ =
      (((List.range (env.arity target)).map fun j =>
        (⟨(tgG st callers).next + j, .phi (callers.map fun c =>
          (argOperand (tgG st callers).fn c j,
           mapLookup (tgG st callers).c2p c))⟩ : Instr)).map
        (eraseSubst (tgCallId env target st callers) callers)) ++
      [⟨tgCallId env target st callers + 1, .phi (tgWfPairs st callers)⟩,
       ⟨tgCallId env target st callers,
         .call (.direct target) (tgAB env target st callers).2⟩] := by
    refine insertBeforeIn_at_last _ _ _ _ ?_ rfl
    intro z hz
    obtain ⟨w, hw, rfl⟩ := List.mem_map.mp hz
    obtain ⟨j, hj, rfl⟩ := List.mem_map.mp hw
    rw [eraseSubst_id]
    show (tgG st callers).next + j ≠ tgCallId env target st callers
    have hjlt : j < env.arity target := List.mem_range.mp hj
    omega
  rw [hins] at fecb
  have fecb' : cbAt (tgFe env target st callers) st.2
      ((((List.range (env.arity target)).map fun j =>
        (⟨(tgG st callers).next + j, .phi (callers.map fun c =>
          (argOperand (tgG st callers).fn c j,
           mapLookup (tgG st callers).c2p c))⟩ : Instr)).map
        (eraseSubst (tgCallId env target st callers) callers)) ++
      [⟨tgCallId env target st callers + 1, .phi (tgWfPairs st callers)⟩,
       ⟨tgCallId env target st callers,
         .call (.direct target) (tgAB env target st callers).2⟩]) := fecb
  have feph' : phiOk (tgFe env target st callers) st.2 := feph
  -- Append the dispatch switch.
  obtain ⟨ffcb, -⟩ := cb_mapBlock_self (tgFe env target st callers) st.2
    (fun lb => lb ++ [⟨tgCallId env target st callers + 2,
      .switch (Val.reg (tgCallId env target st callers + 1))
        (tgDflt st callers) (tgCaseList st callers)⟩])
    ⟨tgCallId env target st callers + 2,
      .switch (Val.reg (tgCallId env target st callers + 1))
        (tgDflt st callers) (tgCaseList st callers)⟩
    (by simp [Op.phiPairs])
    (fun lb y hy => by
      rcases List.mem_append.mp hy with h1 | h1
      · exact Or.inl h1
      · exact Or.inr (List.mem_singleton.mp h1))
    _ fecb' feph'
  have ffcb' : cbAt (tgFf env target st callers) st.2
      (((((List.range (env.arity target)).map fun j =>
        (⟨(tgG st callers).next + j, .phi (callers.map fun c =>
          (argOperand (tgG st callers).fn c j,
           mapLookup (tgG st callers).c2p c))⟩ : Instr)).map
        (eraseSubst (tgCallId env target st callers) callers)) ++
      [⟨tgCallId env target st callers + 1, .phi (tgWfPairs st callers)⟩,
       ⟨tgCallId env target st callers,
         .call (.direct target) (tgAB env target st callers).2⟩]) ++
      [⟨tgCallId env target st callers + 2,
        .switch (Val.reg (tgCallId env target st callers + 1))
          (tgDflt st callers) (tgCaseList st callers)⟩]) := ffcb
  -- Rewrite the contents into the stated closed form.
  have hphis : (((List.range (env.arity target)).map fun j =>
      (⟨(tgG st callers).next + j, .phi (callers.map fun c =>
        (argOperand (tgG st callers).fn c j,
         mapLookup (tgG st callers).c2p c))⟩ : Instr)).map
      (eraseSubst (tgCallId env target st callers) callers)) =
      (List.range (env.arity target)).map fun j =>
        (⟨(tgG st callers).next + j, .phi (callers.map fun c =>
          (eraseSubstVal (tgCallId env target st callers) callers
            (argOperand (tgG st callers).fn c j),
           mapLookup (tgG st callers).c2p c))⟩ : Instr) := by
    rw [List.map_map]
    refine List.map_congr_left (fun j _ => ?_)
    show eraseSubst (tgCallId env target st callers) callers
      ⟨(tgG st callers).next + j, .phi (callers.map fun c =>
        (argOperand (tgG st callers).fn c j,
         mapLookup (tgG st callers).c2p c))⟩ = _
    rw [eraseSubst_phi]
    rw [List.map_map]
    rfl
  rw [hphis, hvals] at ffcb'
  have hassoc := ffcb'
  rw [List.append_assoc] at hassoc
  have hfin : (([(⟨tgCallId env target st callers + 1,
      .phi (tgWfPairs st callers)⟩ : Instr),
      ⟨tgCallId env target st callers, .call (.direct target)
        ((List.range (env.arity target)).map
          (fun i => Val.reg ((tgG st callers).next + i)))⟩] : List Instr) ++
      ([(⟨tgCallId env target st callers + 2,
        .switch (Val.reg (tgCallId env target st callers + 1))
          (tgDflt st callers) (tgCaseList st callers)⟩ : Instr)] :
            List Instr)) =
      ([(⟨tgCallId env target st callers + 1,
        .phi (tgWfPairs st callers)⟩ : Instr),
       ⟨tgCallId env target st callers, .call (.direct target)
         ((List.range (env.arity target)).map fun j =>
           Val.reg ((tgG st callers).next + j))⟩,
       ⟨tgCallId env target st callers + 2,
         .switch (Val.reg (tgCallId env target st callers + 1))
           (tgDflt st callers) (tgCaseList st callers)⟩] : List Instr) := rfl
  rw [hfin] at hassoc
  exact hassoc

/-- C2 (amended): for a merged group whose callee declares n formal
parameters, the shared block holds exactly n argument PHI nodes, one per
parameter position in declared order, each with exactly one incoming
pair per call site in call-site order; the incoming value from call site
c's predecessor is call site c's i-th actual argument operand as it
stands when the PHIs are built, further rewritten to the merged call's
result where it referenced a merged call (the demotion step may already
have replaced it by a stack-slot reload); then come the discriminator
PHI, the single merged call — whose arguments are exactly the n argument
PHIs in parameter order — and the dispatch switch.  If n = 0 the shared
block holds no argument PHIs and the call has no arguments. -/
theorem C2_shared_block_amended (env : Env) (st : Fn × Nat) (target : Nat)
    (callers : List Nat)
    (hg : GoodIds st) (hB : GoodB st) (hob : OpBound st.1 st.2)
    (hcall : ∀ c ∈ callers,
      ((c, some (CKind.direct target), false) : Feat) ∈ featMS st.1)
    (hnd : callers.Nodup)
    (hne : st.1.blocks ≠ [])
    (hphi : ∀ i ∈ st.1.allInstrs, ∀ p ∈ i.op.phiPairs, p.2 < st.2) :
    (transformGroup env st target callers).1.blocks.find?
        (fun B => B.id = st.2) =
      some ⟨st.2,
        (((List.range (env.arity target)).map fun j =>
          (⟨(tgG st callers).next + j, .phi (callers.map fun c =>
            (eraseSubstVal (tgCallId env target st callers) callers
              (argOperand (tgG st callers).fn c j),
             mapLookup (tgG st callers).c2p c))⟩ : Instr)) ++
         [⟨tgCallId env target st callers + 1, .phi (tgWfPairs st callers)⟩,
          ⟨tgCallId env target st callers, .call (.direct target)
            ((List.range (env.arity target)).map fun j =>
              Val.reg ((tgG st callers).next + j))⟩,
          ⟨tgCallId env target st callers + 2,
            .switch (Val.reg (tgCallId env target st callers + 1))
              (tgDflt st callers) (tgCaseList st callers)⟩])⟩ ∧
    ((List.range (env.arity target)).map fun j =>
      (⟨(tgG st callers).next + j, .phi (callers.map fun c =>
        (eraseSubstVal (tgCallId env target st callers) callers
          (argOperand (tgG st callers).fn c j),
         mapLookup (tgG st callers).c2p c))⟩ : Instr)).length =
      env.arity target ∧
    ∀ ph ∈ (List.range (env.arity target)).map fun j =>
      (⟨(tgG st callers).next + j, .phi (callers.map fun c =>
        (eraseSubstVal (tgCallId env target st callers) callers
          (argOperand (tgG st callers).fn c j),
         mapLookup (tgG st callers).c2p c))⟩ : Instr),
      ph.op.phiPairs.length = callers.length := by
  refine ⟨?_, ?_, ?_⟩
  · have h := tg_cb_content env target st callers hg hB hob hcall hnd hne hphi
    rw [transformGroup_eq]
    exact h
  · rw [List.length_map, List.length_range]
  · intro ph hph2
    obtain ⟨j, hj, rfl⟩ := List.mem_map.mp hph2
    show (callers.map fun c =>
      (eraseSubstVal (tgCallId env target st callers) callers
        (argOperand (tgG st callers).fn c j),
       mapLookup (tgG st callers).c2p c)).length = callers.length
    rw [List.length_map]

theorem C2_shared_block_amended_witness :
    callersFor exC2env exC2F 7 = [2, 5] ∧
    ((transformGroup exC2env (exC2F, 11) 7 [2, 5]).1.blocks.find?
        (fun B => B.id = 11) =
      some ⟨11,
        (((List.range (exC2env.arity 7)).map fun j =>
          (⟨(tgG (exC2F, 11) [2, 5]).next + j, .phi ([2, 5].map fun c =>
            (eraseSubstVal (tgCallId exC2env 7 (exC2F, 11) [2, 5]) [2, 5]
              (argOperand (tgG (exC2F, 11) [2, 5]).fn c j),
             mapLookup (tgG (exC2F, 11) [2, 5]).c2p c))⟩ : Instr)) ++
         [⟨tgCallId exC2env 7 (exC2F, 11) [2, 5] + 1,
            .phi (tgWfPairs (exC2F, 11) [2, 5])⟩,
          ⟨tgCallId exC2env 7 (exC2F, 11) [2, 5], .call (.direct 7)
            ((List.range (exC2env.arity 7)).map fun j =>
              Val.reg ((tgG (exC2F, 11) [2, 5]).next + j))⟩,
          ⟨tgCallId exC2env 7 (exC2F, 11) [2, 5] + 2,
            .switch (Val.reg (tgCallId exC2env 7 (exC2F, 11) [2, 5] + 1))
              (tgDflt (exC2F, 11) [2, 5]) (tgCaseList (exC2F, 11) [2, 5])⟩])⟩ ∧
    ((List.range (exC2env.arity 7)).map fun j =>
      (⟨(tgG (exC2F, 11) [2, 5]).next + j, .phi ([2, 5].map fun c =>
        (eraseSubstVal (tgCallId exC2env 7 (exC2F, 11) [2, 5]) [2, 5]
          (argOperand (tgG (exC2F, 11) [2, 5]).fn c j),
         mapLookup (tgG (exC2F, 11) [2, 5]).c2p c))⟩ : Instr)).length =
      exC2env.arity 7 ∧
    ∀ ph ∈ (List.range (exC2env.arity 7)).map fun j =>
      (⟨(tgG (exC2F, 11) [2, 5]).next + j, .phi ([2, 5].map fun c =>
        (eraseSubstVal (tgCallId exC2env 7 (exC2F, 11) [2, 5]) [2, 5]
          (argOperand (tgG (exC2F, 11) [2, 5]).fn c j),
         mapLookup (tgG (exC2F, 11) [2, 5]).c2p c))⟩ : Instr),
      ph.op.phiPairs.length = ([2, 5] : List Nat).length) :=
  ⟨by decide,
   C2_shared_block_amended exC2env (exC2F, 11) 7 [2, 5]
     (by unfold GoodIds; decide) (by unfold GoodB; decide)
     (by unfold OpBound; decide) (by decide) (by decide) (by decide)
     (by unfold Op.phiPairs; decide)⟩

/-! ## Instruction-identifier order within blocks -/

/-- The identifiers of the instructions of block `b`, in block order. -/
def idsOf (F : Fn) (b : Nat) : List Nat :=
  (F.instrsOf b).map Instr.id

theorem idsOf_eq_find (F : Fn) (b : Nat) :
    idsOf F b = ((F.blocks.find? (fun B => B.id = b)).map
      (fun B => B.instrs.map Instr.id)).getD [] := by
  unfold idsOf Fn.instrsOf
  cases F.blocks.find? (fun B => B.id = b) with
  | none => rfl
  | some B => rfl

theorem idsOf_map_general (F : Fn) (g : BB → BB) (b : Nat)
    (hid : ∀ B, (g B).id = B.id) :
    idsOf (⟨F.blocks.map g⟩ : Fn) b =
      ((F.blocks.find? (fun B => B.id = b)).map
        (fun B => (g B).instrs.map Instr.id)).getD [] := by
  unfold idsOf Fn.instrsOf
  show (((((F.blocks.map g).find? (fun B => B.id = b)).map
    BB.instrs)).getD []).map Instr.id = _
  rw [find?_map_blocks g F.blocks b hid]
  cases F.blocks.find? (fun B => B.id = b) with
  | none => rfl
  | some B => rfl

theorem idsOf_sub_uniform (F : Fn) (h : List Instr → List Instr) (b : Nat)
    (hsub : ∀ l : List Instr, l.Sublist (h l)) :
    (idsOf F b).Sublist (idsOf
      (⟨F.blocks.map fun B => ⟨B.id, h B.instrs⟩⟩ : Fn) b) := by
  rw [idsOf_map_general F (fun B => ⟨B.id, h B.instrs⟩) b (fun B => rfl),
    idsOf_eq_find]
  cases F.blocks.find? (fun B => B.id = b) with
  | none => exact List.Sublist.refl _
  | some B => exact List.Sublist.map Instr.id (hsub B.instrs)

theorem idsOf_eq_instrmap (F : Fn) (m : Instr → Instr) (b : Nat)
    (hm : ∀ i, (m i).id = i.id) :
    idsOf (⟨F.blocks.map fun B => ⟨B.id, B.instrs.map m⟩⟩ : Fn) b =
      idsOf F b := by
  rw [idsOf_map_general F (fun B => ⟨B.id, B.instrs.map m⟩) b (fun B => rfl),
    idsOf_eq_find]
  cases F.blocks.find? (fun B => B.id = b) with
  | none => rfl
  | some B =>
      show (B.instrs.map m).map Instr.id = B.instrs.map Instr.id
      rw [List.map_map]
      exact List.map_congr_left (fun i _ => hm i)

theorem idsOf_map_idpres (F : Fn) (g : BB → BB) (b : Nat)
    (hid : ∀ B, (g B).id = B.id)
    (hids : ∀ B, (g B).instrs.map Instr.id = B.instrs.map Instr.id) :
    idsOf (⟨F.blocks.map g⟩ : Fn) b = idsOf F b := by
  rw [idsOf_map_general _ _ b hid, idsOf_eq_find]
  cases F.blocks.find? (fun B => B.id = b) with
  | none => rfl
  | some B => simpa using hids B

theorem map_id_filter (l : List Instr) (c : Nat) :
    (l.filter (fun x => x.id ≠ c)).map Instr.id =
      (l.map Instr.id).filter (fun x => x ≠ c) := by
  induction l with
  | nil => rfl
  | cons i t ih =>
      rw [List.filter_cons, List.map_cons, List.filter_cons]
      by_cases h : i.id = c
      · rw [if_neg (by simp [h]), if_neg (by simp [h])]
        exact ih
      · rw [if_pos (by simp [h]), if_pos (by simp [h]), List.map_cons, ih]

theorem idsOf_eraseInstr (F : Fn) (c b : Nat) :
    idsOf (F.eraseInstr c) b = (idsOf F b).filter (fun x => x ≠ c) := by
  show idsOf (⟨F.blocks.map fun B =>
    ⟨B.id, B.instrs.filter (fun x => x.id ≠ c)⟩⟩ : Fn) b = _
  rw [idsOf_map_general F
    (fun B => ⟨B.id, B.instrs.filter (fun x => x.id ≠ c)⟩) b (fun B => rfl),
    idsOf_eq_find]
  cases F.blocks.find? (fun B => B.id = b) with
  | none => rfl
  | some B => exact map_id_filter B.instrs c

theorem sublist_insertBeforeIn (l : List Instr) (t : Nat) (x : Instr) :
    l.Sublist (insertBeforeIn l t x) := by
  induction l with
  | nil => exact List.Sublist.refl _
  | cons y ys ih =>
      show (y :: ys).Sublist
        (if y.id = t then x :: y :: ys else y :: insertBeforeIn ys t x)
      by_cases h : y.id = t
      · rw [if_pos h]
        exact List.Sublist.cons x (List.Sublist.refl _)
      · rw [if_neg h]
        exact List.Sublist.cons₂ y ih

theorem sublist_insertPastPhis (l : List Instr) (x : Instr) :
    l.Sublist (insertPastPhis l x) := by
  induction l with
  | nil => exact List.nil_sublist _
  | cons y ys ih =>
      show (y :: ys).Sublist
        (if y.op.isPhi then y :: insertPastPhis ys x else x :: y :: ys)
      by_cases h : y.op.isPhi
      · rw [if_pos h]
        exact List.Sublist.cons₂ y ih
      · rw [if_neg h]
        exact List.Sublist.cons x (List.Sublist.refl _)

theorem sublist_insertAfterIn (l : List Instr) (t : Nat) (x : Instr) :
    l.Sublist (insertAfterIn l t x) := by
  induction l with
  | nil => exact List.Sublist.refl _
  | cons y ys ih =>
      show (y :: ys).Sublist
        (if y.id = t then y :: insertPastPhis ys x
          else y :: insertAfterIn ys t x)
      by_cases h : y.id = t
      · rw [if_pos h]
        exact List.Sublist.cons₂ y (sublist_insertPastPhis ys x)
      · rw [if_neg h]
        exact List.Sublist.cons₂ y ih

theorem sublist_insertBeforeLast (l : List Instr) (x : Instr) :
    l.Sublist (insertBeforeLast l x) := by
  induction l with
  | nil => exact List.nil_sublist _
  | cons y ys ih =>
      cases ys with
      | nil => exact List.Sublist.cons x (List.Sublist.refl _)
      | cons z zs =>
          show (y :: z :: zs).Sublist (y :: insertBeforeLast (z :: zs) x)
          exact List.Sublist.cons₂ y ih

theorem sublist_insertAfterLeadingAllocas (l : List Instr) (x : Instr) :
    l.Sublist (insertAfterLeadingAllocas l x) := by
  induction l with
  | nil => exact List.nil_sublist _
  | cons y ys ih =>
      show (y :: ys).Sublist (if y.op.isAlloca
        then y :: insertAfterLeadingAllocas ys x else x :: y :: ys)
      by_cases h : y.op.isAlloca
      · rw [if_pos h]
        exact List.Sublist.cons₂ y ih
      · rw [if_neg h]
        exact List.Sublist.cons x (List.Sublist.refl _)

theorem idsOf_mapBlock_sub (F : Fn) (q : Nat) (f : List Instr → List Instr)
    (b : Nat) (hf : ∀ l : List Instr, l.Sublist (f l)) :
    (idsOf F b).Sublist (idsOf (F.mapBlock q f) b) := by
  have hmg := idsOf_map_general F
    (fun B => if B.id = q then ⟨B.id, f B.instrs⟩ else B) b
    (fun B => by by_cases h : B.id = q <;> simp [h])
  rw [show idsOf (F.mapBlock q f) b = idsOf (⟨F.blocks.map fun B =>
    if B.id = q then ⟨B.id, f B.instrs⟩ else B⟩ : Fn) b from rfl, hmg,
    idsOf_eq_find]
  cases F.blocks.find? (fun B => B.id = b) with
  | none => exact List.Sublist.refl _
  | some B =>
      show (B.instrs.map Instr.id).Sublist
        ((if B.id = q then (⟨B.id, f B.instrs⟩ : BB) else B).instrs.map
          Instr.id)
      by_cases h : B.id = q
      · rw [if_pos h]
        exact List.Sublist.map Instr.id (hf B.instrs)
      · rw [if_neg h]

theorem idsOf_insertBefore_sub (F : Fn) (t : Nat) (x : Instr) (b : Nat) :
    (idsOf F b).Sublist (idsOf (F.insertBefore t x) b) :=
  idsOf_sub_uniform F (fun l => insertBeforeIn l t x) b
    (fun l => sublist_insertBeforeIn l t x)

theorem idsOf_insertAfterInstr_sub (F : Fn) (t : Nat) (x : Instr) (b : Nat) :
    (idsOf F b).Sublist (idsOf (F.insertAfterInstr t x) b) :=
  idsOf_sub_uniform F (fun l => insertAfterIn l t x) b
    (fun l => sublist_insertAfterIn l t x)

theorem idsOf_rauw (F : Fn) (a v : Val) (b : Nat) :
    idsOf (F.rauw a v) b = idsOf F b :=
  idsOf_eq_instrmap F (substInstr a v) b (fun i => rfl)

theorem idsOf_substInInstr (F : Fn) (t : Nat) (a v : Val) (b : Nat) :
    idsOf (F.substInInstr t a v) b = idsOf F b :=
  idsOf_eq_instrmap F
    (fun i => if i.id = t then substInstr a v i else i) b
    (fun i => by by_cases h : i.id = t <;> simp [h, substInstr])

theorem idsOf_setOp (F : Fn) (t : Nat) (o : Op) (b : Nat) :
    idsOf (F.setOp t o) b = idsOf F b :=
  idsOf_eq_instrmap F
    (fun i => if i.id = t then ⟨i.id, o⟩ else i) b
    (fun i => by by_cases h : i.id = t <;> simp [h])

theorem idsOf_retargetPhis (F : Fn) (ib : List Nat) (o n : Nat) (b : Nat) :
    idsOf (retargetPhis F ib o n) b = idsOf F b := by
  refine idsOf_map_idpres F _ b ?_ ?_
  · intro B
    by_cases h : B.id ∈ ib <;> simp [h]
  · intro B
    by_cases h : ib.contains B.id = true
    · rw [if_pos h]
      show (B.instrs.map _).map Instr.id = _
      rw [List.map_map]
      refine List.map_congr_left (fun i _ => ?_)
      show (match i.op with
        | Op.phi pairs => (⟨i.id, Op.phi (pairs.map fun p : Val × Nat =>
            if p.2 = o then (p.1, n) else p)⟩ : Instr)
        | _ => i).id = i.id
      obtain ⟨j, op⟩ := i
      cases op <;> rfl
    · rw [if_neg h]

theorem idsOf_insertAIP_sub (F : Fn) (x : Instr) (b : Nat) :
    (idsOf F b).Sublist (idsOf (F.insertAIP x) b) := by
  obtain ⟨bs⟩ := F
  cases bs with
  | nil => exact List.Sublist.refl _
  | cons B rest =>
      show (idsOf (⟨B :: rest⟩ : Fn) b).Sublist
        (idsOf (⟨(⟨B.id, insertAfterLeadingAllocas B.instrs x⟩ : BB) ::
          rest⟩ : Fn) b)
      unfold idsOf
      rw [instrsOf_cons, instrsOf_cons]
      by_cases h : B.id = b
      · rw [if_pos h, if_pos h]
        exact List.Sublist.map Instr.id
          (sublist_insertAfterLeadingAllocas B.instrs x)
      · rw [if_neg h, if_neg h]

theorem idsOf_mapBlock_ne (F : Fn) (q : Nat) (f : List Instr → List Instr)
    (b : Nat) (hne : b ≠ q) : idsOf (F.mapBlock q f) b = idsOf F b := by
  unfold idsOf
  rw [instrsOf_mapBlock_ne F q b f hne]

/-! ## Order lemmas on identifier lists -/

theorem pairwise_pair_sublist (l : List Nat) :
    l.Pairwise (fun a b => [a, b].Sublist l) := by
  induction l with
  | nil => exact List.Pairwise.nil
  | cons a t ih =>
      refine List.Pairwise.cons ?_ (ih.imp ?_)
      · intro b hb
        refine List.Sublist.cons₂ a ?_
        simpa using hb
      · intro x y hxy
        exact hxy.cons a

theorem pair_sublist_drop (L : List Nat) (c d : Nat) (hnd : L.Nodup)
    (hsub : [c, d].Sublist L) :
    d ∈ L.drop (L.findIdx (fun x => x = c) + 1) := by
  induction L with
  | nil => cases hsub
  | cons a t ih =>
      rw [List.nodup_cons] at hnd
      by_cases h : a = c
      · subst h
        have hd : d ∈ t := by
          cases hsub with
          | cons _ h2 =>
              exact absurd (h2.subset (List.mem_cons_self a [d])) hnd.1
          | cons₂ _ h2 => simpa using h2.subset (List.mem_cons_self d [])
        rw [List.findIdx_cons]
        simpa using hd
      · have hsub2 : [c, d].Sublist t := by
          cases hsub with
          | cons _ h2 => exact h2
          | cons₂ _ h2 => exact absurd rfl h
        rw [List.findIdx_cons]
        have hcond : (decide (a = c)) = false := by simp [h]
        simp only [hcond, cond_false]
        simpa using ih hnd.2 hsub2

theorem pair_sublist_of_head_skip (u v : List Nat) (c d : Nat)
    (hsub : [c, d].Sublist (u ++ v)) (hc : c ∉ u) :
    [c, d].Sublist v := by
  induction u with
  | nil => exact hsub
  | cons a t ih =>
      have hsub2 : [c, d].Sublist (t ++ v) := by
        cases hsub with
        | cons _ h2 => exact h2
        | cons₂ _ h2 => exact absurd (List.mem_cons_self c t) hc
      exact ih hsub2 (fun hm => hc (List.mem_cons_of_mem a hm))

theorem pair_sublist_drop_of_mem (L : List Nat) (k c d : Nat)
    (hnd : L.Nodup) (hsub : [c, d].Sublist L) (hc : c ∈ L.drop k) :
    [c, d].Sublist (L.drop k) := by
  have hdec : L.take k ++ L.drop k = L := List.take_append_drop k L
  have hnotin : c ∉ L.take k := by
    intro hmem
    have hnd2 : (L.take k ++ L.drop k).Nodup := by
      rw [hdec]
      exact hnd
    rw [List.nodup_append] at hnd2
    exact hnd2.2.2 hmem hc
  refine pair_sublist_of_head_skip (L.take k) (L.drop k) c d ?_ hnotin
  rw [hdec]
  exact hsub

theorem findIdx_map_id (l : List Instr) (c : Nat) :
    (l.map Instr.id).findIdx (fun x => x = c) =
      l.findIdx (fun x => x.id = c) := by
  induction l with
  | nil => rfl
  | cons i t ih =>
      rw [List.map_cons, List.findIdx_cons, List.findIdx_cons]
      by_cases h : i.id = c
      · simp [h]
      · simp [h, ih]

theorem pair_sublist_append_right (v w : List Nat) (c d : Nat)
    (hsub : [c, d].Sublist (v ++ w)) (hd : d ∉ w) :
    [c, d].Sublist v := by
  induction v with
  | nil =>
      exact absurd (hsub.subset (by simp)) hd
  | cons a t ih =>
      cases hsub with
      | cons _ h2 => exact (ih h2).cons a
      | cons₂ _ h2 =>
          refine List.Sublist.cons₂ c ?_
          rw [List.singleton_sublist]
          have hdm : d ∈ t ++ w := by
            simpa using h2.subset (List.mem_cons_self d [])
          rcases List.mem_append.mp hdm with h | h
          · exact h
          · exact absurd h hd

/-! ## Sorted association-map lookup/insert interaction -/

theorem mapInsert_length_fresh (l : List (Nat × Nat)) (k v : Nat)
    (h : k ∉ l.map Prod.fst) : (mapInsert l k v).length = l.length + 1 := by
  induction l with
  | nil => rfl
  | cons p ps ih =>
      rw [List.map_cons, List.mem_cons] at h
      push_neg at h
      show (if k < p.1 then (k, v) :: p :: ps
        else if k = p.1 then (k, v) :: ps
        else p :: mapInsert ps k v).length = (p :: ps).length + 1
      by_cases h1 : k < p.1
      · rw [if_pos h1]
        rfl
      · rw [if_neg h1, if_neg h.1]
        show (mapInsert ps k v).length + 1 = ps.length + 1 + 1
        rw [ih h.2]

theorem mapInsert_mem_self (l : List (Nat × Nat)) (k v : Nat) :
    (k, v) ∈ mapInsert l k v := by
  induction l with
  | nil => exact List.mem_singleton.mpr rfl
  | cons p ps ih =>
      show (k, v) ∈ (if k < p.1 then (k, v) :: p :: ps
        else if k = p.1 then (k, v) :: ps
        else p :: mapInsert ps k v)
      by_cases h1 : k < p.1
      · rw [if_pos h1]
        exact List.mem_cons_self _ _
      · rw [if_neg h1]
        by_cases h2 : k = p.1
        · rw [if_pos h2]
          exact List.mem_cons_self _ _
        · rw [if_neg h2]
          exact List.mem_cons_of_mem p ih

theorem mapLookup_insert_self (l : List (Nat × Nat)) (k v : Nat) :
    mapLookup (mapInsert l k v) k = v := by
  induction l with
  | nil =>
      show (if k = k then v else mapLookup [] k) = v
      rw [if_pos rfl]
  | cons p ps ih =>
      show mapLookup (if k < p.1 then (k, v) :: p :: ps
        else if k = p.1 then (k, v) :: ps
        else p :: mapInsert ps k v) k = v
      by_cases h1 : k < p.1
      · rw [if_pos h1]
        show (if k = k then v else _) = v
        rw [if_pos rfl]
      · rw [if_neg h1]
        by_cases h2 : k = p.1
        · rw [if_pos h2]
          show (if k = k then v else _) = v
          rw [if_pos rfl]
        · rw [if_neg h2]
          show (if p.1 = k then p.2 else mapLookup (mapInsert ps k v) k) = v
          rw [if_neg (fun h => h2 h.symm)]
          exact ih

theorem mapLookup_insert_ne (l : List (Nat × Nat)) (k v k' : Nat)
    (h : k' ≠ k) : mapLookup (mapInsert l k v) k' = mapLookup l k' := by
  induction l with
  | nil =>
      show (if k = k' then v else mapLookup [] k') = mapLookup [] k'
      rw [if_neg (fun he => h he.symm)]
  | cons p ps ih =>
      show mapLookup (if k < p.1 then (k, v) :: p :: ps
        else if k = p.1 then (k, v) :: ps
        else p :: mapInsert ps k v) k' = mapLookup (p :: ps) k'
      by_cases h1 : k < p.1
      · rw [if_pos h1]
        show (if k = k' then v else mapLookup (p :: ps) k') = _
        rw [if_neg (fun he => h he.symm)]
      · rw [if_neg h1]
        by_cases h2 : k = p.1
        · rw [if_pos h2]
          show (if k = k' then v else mapLookup ps k') =
            (if p.1 = k' then p.2 else mapLookup ps k')
          rw [if_neg (fun he => h he.symm),
            if_neg (fun he => h (by rw [h2, he]))]
        · rw [if_neg h2]
          show (if p.1 = k' then p.2 else mapLookup (mapInsert ps k v) k') =
            (if p.1 = k' then p.2 else mapLookup ps k')
          by_cases h3 : p.1 = k'
          · rw [if_pos h3, if_pos h3]
          · rw [if_neg h3, if_neg h3]
            exact ih

theorem mem_mapInsert_fresh (l : List (Nat × Nat)) (k v : Nat)
    (q : Nat × Nat) (hq : q ∈ l) (h : k ∉ l.map Prod.fst) :
    q ∈ mapInsert l k v := by
  induction l with
  | nil => cases hq
  | cons p ps ih =>
      rw [List.map_cons, List.mem_cons] at h
      push_neg at h
      show q ∈ (if k < p.1 then (k, v) :: p :: ps
        else if k = p.1 then (k, v) :: ps
        else p :: mapInsert ps k v)
      by_cases h1 : k < p.1
      · rw [if_pos h1]
        exact List.mem_cons_of_mem _ hq
      · rw [if_neg h1, if_neg h.1]
        rcases List.mem_cons.mp hq with rfl | hmem
        · exact List.mem_cons_self _ _
        · exact List.mem_cons_of_mem p (ih hmem h.2)

/-- `APInt(32, ·, true)` is injective on `[0, 2^32)`. -/
theorem sint32_inj (a b : Nat) (ha : a < 2 ^ 32) (hb : b < 2 ^ 32)
    (h : sint32 a = sint32 b) : a = b := by
  unfold sint32 at h
  rw [Nat.mod_eq_of_lt ha, Nat.mod_eq_of_lt hb] at h
  by_cases h1 : a < 2 ^ 31
  · by_cases h2 : b < 2 ^ 31
    · rw [if_pos h1, if_pos h2] at h
      exact_mod_cast h
    · rw [if_pos h1, if_neg h2] at h
      omega
  · by_cases h2 : b < 2 ^ 31
    · rw [if_neg h1, if_pos h2] at h
      omega
    · rw [if_neg h1, if_neg h2] at h
      omega

/-! ## Locating instructions in blocks -/

theorem instrs_sublist_flatMap (bs : List BB) (B : BB) (hB : B ∈ bs) :
    B.instrs.Sublist (bs.flatMap BB.instrs) := by
  induction bs with
  | nil => cases hB
  | cons A t ih =>
      rcases List.mem_cons.mp hB with rfl | hmem
      · exact List.sublist_append_left _ _
      · exact (ih hmem).trans (List.sublist_append_right _ _)

theorem idsOf_sublist_instrIds (F : Fn) (b : Nat) :
    (idsOf F b).Sublist F.instrIds := by
  rw [idsOf_eq_find]
  cases hf : F.blocks.find? (fun B => B.id = b) with
  | none => exact List.nil_sublist _
  | some B =>
      exact List.Sublist.map Instr.id
        (instrs_sublist_flatMap F.blocks B (List.mem_of_find?_eq_some hf))

theorem idsOf_nodup (F : Fn) (h : F.instrIds.Nodup) (b : Nat) :
    (idsOf F b).Nodup :=
  (idsOf_sublist_instrIds F b).nodup h

theorem mem_instrIds_of_idsOf (F : Fn) (b c : Nat) (h : c ∈ idsOf F b) :
    c ∈ F.instrIds :=
  (idsOf_sublist_instrIds F b).subset h

theorem mem_blockIds_of_idsOf (F : Fn) (b c : Nat) (h : c ∈ idsOf F b) :
    b ∈ F.blockIds := by
  rw [idsOf_eq_find] at h
  cases hf : F.blocks.find? (fun B => B.id = b) with
  | none =>
      rw [hf] at h
      cases h
  | some B =>
      have hid : B.id = b := by
        have := List.find?_some hf
        simpa using this
      rw [← hid]
      exact List.mem_map_of_mem BB.id (List.mem_of_find?_eq_some hf)

theorem find?_block_self (bs : List BB) (B : BB) (hB : B ∈ bs)
    (hnd : (bs.map BB.id).Nodup) :
    bs.find? (fun x => x.id = B.id) = some B := by
  induction bs with
  | nil => cases hB
  | cons A t ih =>
      rw [List.map_cons, List.nodup_cons] at hnd
      rcases List.mem_cons.mp hB with rfl | hmem
      · exact List.find?_cons_of_pos _ (by simp)
      · have hne : A.id ≠ B.id := by
          intro he
          exact hnd.1 (he ▸ List.mem_map_of_mem BB.id hmem)
        rw [List.find?_cons_of_neg _ (by simp [hne])]
        exact ih hmem hnd.2

theorem exists_idsOf_of_mem_instrIds (F : Fn) (c : Nat)
    (hnd : F.blockIds.Nodup) (hc : c ∈ F.instrIds) :
    ∃ b, c ∈ idsOf F b := by
  obtain ⟨i, hi, hid⟩ := List.mem_map.mp hc
  obtain ⟨B, hB, hiB⟩ := List.mem_flatMap.mp hi
  refine ⟨B.id, ?_⟩
  rw [idsOf_eq_find, find?_block_self F.blocks B hB hnd]
  exact hid ▸ List.mem_map_of_mem Instr.id hiB

theorem flatMap_ids_disjoint (bs : List BB)
    (hnd : ((bs.flatMap BB.instrs).map Instr.id).Nodup) (B B' : BB)
    (hB : B ∈ bs) (hB' : B' ∈ bs) (hne : B ≠ B') (x : Nat)
    (hx : x ∈ B.instrs.map Instr.id) (hx' : x ∈ B'.instrs.map Instr.id) :
    False := by
  induction bs with
  | nil => cases hB
  | cons A t ih =>
      rw [List.flatMap_cons, List.map_append, List.nodup_append] at hnd
      have hsubt : ∀ C : BB, C ∈ t → ∀ y ∈ C.instrs.map Instr.id,
          y ∈ (t.flatMap BB.instrs).map Instr.id := by
        intro C hC y hy
        exact (List.Sublist.map Instr.id
          (instrs_sublist_flatMap t C hC)).subset hy
      rcases List.mem_cons.mp hB with rfl | hmB
      · rcases List.mem_cons.mp hB' with rfl | hmB'
        · exact hne rfl
        · exact hnd.2.2 hx (hsubt B' hmB' x hx')
      · rcases List.mem_cons.mp hB' with rfl | hmB'
        · exact hnd.2.2 hx' (hsubt B hmB x hx)
        · exact ih hnd.2.1 hmB hmB'

theorem located_unique (F : Fn) (hnd : F.instrIds.Nodup) (b b' c : Nat)
    (h : c ∈ idsOf F b) (h' : c ∈ idsOf F b') : b = b' := by
  by_contra hbb
  rw [idsOf_eq_find] at h h'
  cases hf : F.blocks.find? (fun B => B.id = b) with
  | none =>
      rw [hf] at h
      cases h
  | some B =>
      cases hf' : F.blocks.find? (fun B => B.id = b') with
      | none =>
          rw [hf'] at h'
          cases h'
      | some B' =>
          rw [hf] at h
          rw [hf'] at h'
          have hid : B.id = b := by simpa using List.find?_some hf
          have hid' : B'.id = b' := by simpa using List.find?_some hf'
          have hBne : B ≠ B' := by
            intro he
            exact hbb (by rw [← hid, ← hid', he])
          exact flatMap_ids_disjoint F.blocks hnd B B'
            (List.mem_of_find?_eq_some hf) (List.mem_of_find?_eq_some hf')
            hBne c h h'

theorem blockOf_of_idsOf (F : Fn) (b c : Nat) (hnd : F.instrIds.Nodup)
    (h : c ∈ idsOf F b) : F.blockOf c = some b := by
  rw [idsOf_eq_find] at h
  cases hf : F.blocks.find? (fun B => B.id = b) with
  | none =>
      rw [hf] at h
      cases h
  | some B =>
      rw [hf] at h
      have hid : B.id = b := by simpa using List.find?_some hf
      have hBc : B.instrs.any (fun x => x.id = c) = true := by
        rw [List.any_eq_true]
        obtain ⟨i, hi, hic⟩ := List.mem_map.mp h
        exact ⟨i, hi, by simp [hic]⟩
      have hsome : (F.blocks.find?
          (fun B => B.instrs.any (fun x => x.id = c))).isSome := by
        rw [List.find?_isSome]
        exact ⟨B, List.mem_of_find?_eq_some hf, hBc⟩
      obtain ⟨B', hB'⟩ := Option.isSome_iff_exists.mp hsome
      have hB'c : c ∈ B'.instrs.map Instr.id := by
        have := List.find?_some hB'
        rw [List.any_eq_true] at this
        obtain ⟨i, hi, hic⟩ := this
        exact List.mem_map.mpr ⟨i, hi, by simpa using hic⟩
      have hBB' : B = B' := by
        by_contra hne
        exact flatMap_ids_disjoint F.blocks hnd B B'
          (List.mem_of_find?_eq_some hf) (List.mem_of_find?_eq_some hB')
          hne c h hB'c
      unfold Fn.blockOf
      rw [hB', ← hBB']
      show some B.id = some b
      rw [hid]

theorem pair_global_to_local (F : Fn) (hnd : F.instrIds.Nodup)
    (c c' b : Nat) (hsub : [c, c'].Sublist F.instrIds)
    (hc : c ∈ idsOf F b) (hc' : c' ∈ idsOf F b) :
    [c, c'].Sublist (idsOf F b) := by
  have hfind := hc
  rw [idsOf_eq_find] at hfind
  cases hf : F.blocks.find? (fun B => B.id = b) with
  | none =>
      rw [idsOf_eq_find, hf] at hc
      cases hc
  | some B =>
      have hids : idsOf F b = B.instrs.map Instr.id := by
        rw [idsOf_eq_find, hf]
        rfl
      obtain ⟨s, t2, hdec⟩ :=
        List.append_of_mem (List.mem_of_find?_eq_some hf)
      have hinstr : F.instrIds = (s.flatMap BB.instrs).map Instr.id ++
          (B.instrs.map Instr.id ++ (t2.flatMap BB.instrs).map Instr.id) := by
        show (F.blocks.flatMap BB.instrs).map Instr.id = _
        rw [hdec, List.flatMap_append, List.flatMap_cons, List.map_append,
          List.map_append]
      rw [hids] at hc hc'
      rw [hinstr] at hsub
      have hndd : ((s.flatMap BB.instrs).map Instr.id ++
          (B.instrs.map Instr.id ++
            (t2.flatMap BB.instrs).map Instr.id)).Nodup := by
        rw [← hinstr]
        exact hnd
      rw [List.nodup_append] at hndd
      have hcnot : c ∉ (s.flatMap BB.instrs).map Instr.id := by
        intro hmem
        exact hndd.2.2 hmem (List.mem_append.mpr (Or.inl hc))
      have hsub2 := pair_sublist_of_head_skip _ _ c c' hsub hcnot
      have hnd2 := hndd.2.1
      rw [List.nodup_append] at hnd2
      have hc'not : c' ∉ (t2.flatMap BB.instrs).map Instr.id := by
        intro hmem
        exact hnd2.2.2 hc' hmem
      rw [hids]
      exact pair_sublist_append_right _ _ c c' hsub2 hc'not

/-! ## Identifier lists through the call-site rewrite stages -/

theorem idsOf_replaceBlock_other (F : Fn) (b : Nat) (nbs : List BB)
    (b' : Nat) (hb : b ≠ b') (hnbs : ∀ nb ∈ nbs, nb.id ≠ b') :
    idsOf (F.replaceBlock b nbs) b' = idsOf F b' := by
  rw [idsOf_eq_find, idsOf_eq_find]
  show ((((F.blocks.flatMap fun B => if B.id = b then nbs else [B]).find?
    (fun B => B.id = b')).map (fun B => B.instrs.map Instr.id))).getD [] = _
  rw [find?_replace F.blocks b nbs b' hb hnbs]

theorem idsOf_splitBlock_other (F : Fn) (p c retId brId b' : Nat)
    (hb : b' ≠ p) (hr : b' ≠ retId) :
    idsOf (F.splitBlock p c retId brId) b' = idsOf F b' := by
  unfold Fn.splitBlock
  rw [idsOf_retargetPhis, idsOf_replaceBlock_other]
  · exact fun h => hb h.symm
  · intro nb hnb
    rcases List.mem_cons.mp hnb with rfl | hnb2
    · exact fun h => hb h.symm
    · rcases List.mem_singleton.mp hnb2 with rfl
      exact fun h => hr h.symm

theorem find?_replace_new (bs : List BB) (p retId : Nat) (B1 B2 : BB)
    (hB1 : B1.id ≠ retId) (hB2 : B2.id = retId)
    (hex : ∃ B ∈ bs, B.id = p) (hret : ∀ B ∈ bs, B.id ≠ retId) :
    (bs.flatMap fun B => if B.id = p then [B1, B2] else [B]).find?
      (fun x => x.id = retId) = some B2 := by
  induction bs with
  | nil =>
      obtain ⟨B, hB, -⟩ := hex
      cases hB
  | cons B rest ih =>
      rw [List.flatMap_cons]
      by_cases hBp : B.id = p
      · rw [if_pos hBp, List.find?_append,
          List.find?_cons_of_neg _ (by simp [hB1]),
          List.find?_cons_of_pos _ (by simp [hB2])]
        rfl
      · rw [if_neg hBp, List.singleton_append,
          List.find?_cons_of_neg _
            (by simp [hret B (List.mem_cons_self B rest)])]
        refine ih ?_ (fun B' hB' => hret B' (List.mem_cons_of_mem B hB'))
        obtain ⟨B', hB', hid⟩ := hex
        rcases List.mem_cons.mp hB' with rfl | h2
        · exact absurd hid hBp
        · exact ⟨B', h2, hid⟩

theorem idsOf_splitBlock_new (F : Fn) (p c retId brId : Nat)
    (hex : p ∈ F.blockIds) (hret : retId ∉ F.blockIds) (hrp : retId ≠ p) :
    idsOf (F.splitBlock p c retId brId) retId =
      (idsOf F p).drop ((idsOf F p).findIdx (fun x => x = c) + 1) := by
  unfold Fn.splitBlock
  rw [idsOf_retargetPhis, idsOf_eq_find]
  show ((((F.blocks.flatMap fun B => if B.id = p then
      [(⟨p, (F.instrsOf p).take ((F.instrsOf p).findIdx
          (fun x => x.id = c) + 1) ++ [⟨brId, .br retId⟩]⟩ : BB),
        (⟨retId, (F.instrsOf p).drop ((F.instrsOf p).findIdx
          (fun x => x.id = c) + 1)⟩ : BB)] else [B]).find?
      (fun B => B.id = retId)).map (fun B => B.instrs.map Instr.id))).getD []
    = _
  have hx1 : ∃ B ∈ F.blocks, B.id = p := by
    obtain ⟨B, hB, hid⟩ := List.mem_map.mp hex
    exact ⟨B, hB, hid⟩
  have hx2 : ∀ B ∈ F.blocks, B.id ≠ retId := by
    intro B hB hid
    exact hret (hid ▸ List.mem_map_of_mem BB.id hB)
  rw [find?_replace_new F.blocks p retId _ _ (fun h => hrp h.symm) rfl
    hx1 hx2]
  show ((F.instrsOf p).drop
    ((F.instrsOf p).findIdx (fun x => x.id = c) + 1)).map Instr.id = _
  rw [List.map_drop]
  have hidx : (idsOf F p).findIdx (fun x => x = c) =
      (F.instrsOf p).findIdx (fun x => x.id = c) := by
    show ((F.instrsOf p).map Instr.id).findIdx (fun x => x = c) = _
    exact findIdx_map_id _ c
  rw [hidx]
  rfl

theorem idsOf_insertBeforeTerm_sub (F : Fn) (p : Nat) (x : Instr) (b : Nat) :
    (idsOf F b).Sublist (idsOf (F.insertBeforeTerm p x) b) :=
  idsOf_mapBlock_sub F p (fun l => insertBeforeLast l x) b
    (fun l => sublist_insertBeforeLast l x)

theorem idsOf_appendInstr_sub (F : Fn) (p : Nat) (x : Instr) (b : Nat) :
    (idsOf F b).Sublist (idsOf (F.appendInstr p x) b) :=
  idsOf_mapBlock_sub F p (fun l => l ++ [x]) b
    (fun l => List.sublist_append_left l [x])

theorem idsOf_demotePhiPair_sub (d slot : Nat)
    (acc : (Fn × Nat) × List (Val × Nat)) (q : Val × Nat) (b : Nat) :
    (idsOf acc.1.1 b).Sublist (idsOf (demotePhiPair d slot acc q).1.1 b) := by
  unfold demotePhiPair
  by_cases h : q.1 = Val.reg d
  · rw [if_pos h]
    exact idsOf_insertBeforeTerm_sub acc.1.1 q.2 _ b
  · rw [if_neg h]

theorem idsOf_demotePhiPair_fold_sub (d slot : Nat)
    (pairs : List (Val × Nat)) (acc : (Fn × Nat) × List (Val × Nat))
    (b : Nat) :
    (idsOf acc.1.1 b).Sublist
      (idsOf ((pairs.foldl (demotePhiPair d slot) acc).1.1) b) := by
  induction pairs generalizing acc with
  | nil => exact List.Sublist.refl _
  | cons q rest ih =>
      simp only [List.foldl_cons]
      exact (idsOf_demotePhiPair_sub d slot acc q b).trans
        (ih (demotePhiPair d slot acc q))

theorem idsOf_demoteUser_sub (d slot : Nat) (s : Fn × Nat) (u : Instr)
    (b : Nat) :
    (idsOf s.1 b).Sublist (idsOf (demoteUser d slot s u).1 b) := by
  obtain ⟨uid, uop⟩ := u
  by_cases hup : uop.isPhi = true
  · obtain ⟨pairs, rfl⟩ : ∃ ps, uop = Op.phi ps := by
      cases uop <;> simp [Op.isPhi] at hup ⊢
    have heq : demoteUser d slot s ⟨uid, Op.phi pairs⟩ =
        (Fn.setOp (pairs.foldl (demotePhiPair d slot) (s, [])).1.1 uid
          (.phi (pairs.foldl (demotePhiPair d slot) (s, [])).2),
         (pairs.foldl (demotePhiPair d slot) (s, [])).1.2) := rfl
    rw [heq]
    show (idsOf s.1 b).Sublist (idsOf (Fn.setOp _ uid _) b)
    rw [idsOf_setOp]
    exact idsOf_demotePhiPair_fold_sub d slot pairs (s, []) b
  · rw [demoteUser_nonphi_eq d slot s uid uop (by simpa using hup)]
    show (idsOf s.1 b).Sublist (idsOf (Fn.substInInstr _ uid _ _) b)
    rw [idsOf_substInInstr]
    exact idsOf_insertBefore_sub s.1 uid _ b

theorem idsOf_demoteUser_fold_sub (d slot : Nat) (users : List Instr)
    (s : Fn × Nat) (b : Nat) :
    (idsOf s.1 b).Sublist
      (idsOf ((users.foldl (demoteUser d slot) s).1) b) := by
  induction users generalizing s with
  | nil => exact List.Sublist.refl _
  | cons u rest ih =>
      simp only [List.foldl_cons]
      exact (idsOf_demoteUser_sub d slot s u b).trans
        (ih (demoteUser d slot s u))

theorem idsOf_demoteReg_sub (aip : Nat) (s : Fn × Nat) (d : Nat) (b : Nat) :
    (idsOf s.1 b).Sublist (idsOf (demoteReg aip s d).1 b) := by
  show (idsOf s.1 b).Sublist (idsOf
    (((usersOf (s.1.insertBefore aip ⟨s.2, .alloca⟩) d).foldl
        (demoteUser d s.2) (s.1.insertBefore aip ⟨s.2, .alloca⟩, s.2 + 1)
      ).1.insertAfterInstr d
        ⟨((usersOf (s.1.insertBefore aip ⟨s.2, .alloca⟩) d).foldl
            (demoteUser d s.2)
            (s.1.insertBefore aip ⟨s.2, .alloca⟩, s.2 + 1)).2,
          .store (Val.reg d) (Val.reg s.2)⟩) b)
  refine ((idsOf_insertBefore_sub s.1 aip ⟨s.2, .alloca⟩ b).trans ?_).trans
    (idsOf_insertAfterInstr_sub _ d _ b)
  exact idsOf_demoteUser_fold_sub d s.2
    (usersOf (s.1.insertBefore aip ⟨s.2, .alloca⟩) d)
    (s.1.insertBefore aip ⟨s.2, .alloca⟩, s.2 + 1) b

theorem idsOf_demoteReg_fold_sub (aip : Nat) (ds : List Nat) (s : Fn × Nat)
    (b : Nat) :
    (idsOf s.1 b).Sublist (idsOf ((ds.foldl (demoteReg aip) s).1) b) := by
  induction ds generalizing s with
  | nil => exact List.Sublist.refl _
  | cons d rest ih =>
      simp only [List.foldl_cons]
      exact (idsOf_demoteReg_sub aip s d b).trans (ih (demoteReg aip s d))

theorem idsOf_moveToBlockStart_pres (F : Fn) (c q b : Nat) (L : List Nat)
    (hL : ∀ x ∈ L, x ≠ c) (h : L.Sublist (idsOf F b)) :
    L.Sublist (idsOf (F.moveToBlockStart c q) b) := by
  unfold Fn.moveToBlockStart
  cases hf : F.findInstr c with
  | none => exact h
  | some i =>
      show L.Sublist (idsOf ((F.eraseInstr c).mapBlock q
        (fun l => insertPastPhis l i)) b)
      refine List.Sublist.trans ?_ (idsOf_mapBlock_sub (F.eraseInstr c) q
        (fun l => insertPastPhis l i) b (fun l => sublist_insertPastPhis l i))
      rw [idsOf_eraseInstr]
      have hLf : L.filter (fun x => x ≠ c) = L :=
        List.filter_eq_self.mpr (fun a ha => by simp [hL a ha])
      rw [← hLf]
      exact List.Sublist.filter _ h

theorem pc_ids_pres (cbId aipId entryId : Nat) (st : GState) (c : Nat)
    (b : Nat) (hbp : b ≠ pcP st c) (L : List Nat)
    (hL : ∀ x ∈ L, x ≠ c) (h : L.Sublist (idsOf (pcF1 st c) b)) :
    L.Sublist (idsOf (processCaller cbId aipId entryId st c).fn b) := by
  have h1 : L.Sublist (idsOf (pcS1 aipId entryId st c).1 b) :=
    h.trans (idsOf_demoteReg_fold_sub aipId (pcTD entryId st c)
      (pcF1 st c, st.next + 2) b)
  have h2 : L.Sublist (idsOf (pcF2 aipId entryId st c) b) :=
    idsOf_moveToBlockStart_pres (pcS1 aipId entryId st c).1 c st.next b L
      hL h1
  have h3 : L.Sublist (idsOf (pcS2 aipId entryId st c).1 b) := by
    unfold pcS2
    by_cases hu : (usersOf (pcF2 aipId entryId st c) c).isEmpty = true
    · rw [if_pos hu]
      exact h2
    · rw [if_neg hu]
      exact h2.trans (idsOf_demoteReg_sub aipId
        (pcF2 aipId entryId st c, (pcS1 aipId entryId st c).2) c b)
  rw [processCaller_eq]
  show L.Sublist (idsOf (((pcS2 aipId entryId st c).1.appendInstr (pcP st c)
    ⟨(pcS2 aipId entryId st c).2, .br cbId⟩).mapBlock (pcP st c)
    dropSecondLast) b)
  rw [idsOf_mapBlock_ne _ _ _ b hbp]
  exact h3.trans (idsOf_appendInstr_sub (pcS2 aipId entryId st c).1
    (pcP st c) ⟨(pcS2 aipId entryId st c).2, .br cbId⟩ b)

theorem idsOf_eq_nil_of_not_mem (F : Fn) (b : Nat) (h : b ∉ F.blockIds) :
    idsOf F b = [] := by
  rw [idsOf_eq_find]
  have hnone : F.blocks.find? (fun B => B.id = b) = none := by
    rw [List.find?_eq_none]
    intro B hB
    simp only [decide_eq_true_eq]
    intro he
    exact h (he ▸ List.mem_map_of_mem BB.id hB)
  rw [hnone]
  rfl

/-- One call-site rewrite, seen through block identifier lists: the
(post-split) predecessor is the block currently holding the call; every
other block only accumulates insertions (minus the moved call), and the
identifiers that followed the call move to the fresh continuation block. -/
theorem processCaller_step_loc (cbId aipId entryId : Nat) (g0 : GState)
    (c : Nat) (bc : Nat)
    (hg : GoodIds (g0.fn, g0.next)) (hB : GoodB (g0.fn, g0.next))
    (hcloc : c ∈ idsOf g0.fn bc) :
    pcP g0 c = bc ∧
    (∀ (b' : Nat) (L : List Nat), b' ≠ bc → (∀ x ∈ L, x ≠ c) →
      L.Sublist (idsOf g0.fn b') →
      L.Sublist (idsOf (processCaller cbId aipId entryId g0 c).fn b')) ∧
    (∀ L : List Nat, (∀ x ∈ L, x ≠ c) →
      L.Sublist ((idsOf g0.fn bc).drop
        ((idsOf g0.fn bc).findIdx (fun x => x = c) + 1)) →
      L.Sublist (idsOf (processCaller cbId aipId entryId g0 c).fn g0.next)) := by
  have hp : pcP g0 c = bc := by
    unfold pcP
    rw [blockOf_of_idsOf g0.fn bc c hg.1 hcloc]
    rfl
  have hbcB : bc ∈ g0.fn.blockIds := mem_blockIds_of_idsOf g0.fn bc c hcloc
  have hbclt : bc < g0.next := hB bc hbcB
  have hretB : g0.next ∉ g0.fn.blockIds := by
    intro hmem
    have := hB g0.next hmem
    omega
  refine ⟨hp, ?_, ?_⟩
  · intro b' L hne hL hsub
    by_cases hbr : b' = g0.next
    · have hnil : idsOf g0.fn b' = [] :=
        idsOf_eq_nil_of_not_mem g0.fn b' (by rw [hbr]; exact hretB)
      rw [hnil] at hsub
      rw [List.sublist_nil.mp hsub]
      exact List.nil_sublist _
    · refine pc_ids_pres cbId aipId entryId g0 c b' (hp ▸ hne) L hL ?_
      show L.Sublist (idsOf (g0.fn.splitBlock (pcP g0 c) c g0.next
        (g0.next + 1)) b')
      rw [hp, idsOf_splitBlock_other g0.fn bc c g0.next (g0.next + 1) b'
        hne hbr]
      exact hsub
  · intro L hL hsub
    refine pc_ids_pres cbId aipId entryId g0 c g0.next
      (by rw [hp]; omega) L hL ?_
    show L.Sublist (idsOf (g0.fn.splitBlock (pcP g0 c) c g0.next
      (g0.next + 1)) g0.next)
    rw [hp, idsOf_splitBlock_new g0.fn bc c g0.next (g0.next + 1) hbcB hretB
      (by omega)]
    exact hsub

/-- The remaining call sites, listed in an order compatible with their
layout order inside each block. -/
def Arranged (F : Fn) (rem : List Nat) : Prop :=
  rem.Pairwise (fun c c' => ∀ b, c ∈ idsOf F b → c' ∈ idsOf F b →
    [c, c'].Sublist (idsOf F b))

/-- Every remaining call site lives in a block that is not yet a key of
the predecessor-to-continuation map. -/
def Placed (g : GState) (rem : List Nat) : Prop :=
  ∀ c ∈ rem, ∃ b, c ∈ idsOf g.fn b ∧ b ∉ g.c2r.map Prod.fst

/-- The per-call-site fold: each processed call site adds exactly one
entry to the predecessor-to-continuation map, keyed by a block no other
call site will use again, and its recorded predecessor/continuation pair
persists to the end of the fold. -/
theorem processCaller_fold_tags (cbId aipId entryId : Nat) (cs : List Nat)
    (g0 : GState)
    (hg : GoodIds (g0.fn, g0.next)) (hB : GoodB (g0.fn, g0.next))
    (hob : OpBound g0.fn g0.next)
    (hnd : cs.Nodup) (hpl : Placed g0 cs) (har : Arranged g0.fn cs)
    (hkb : ∀ a ∈ g0.c2r.map Prod.fst, a < g0.next) :
    (cs.foldl (processCaller cbId aipId entryId) g0).c2r.length =
      g0.c2r.length + cs.length ∧
    (∀ q ∈ g0.c2r,
      q ∈ (cs.foldl (processCaller cbId aipId entryId) g0).c2r) ∧
    (∀ k ∈ g0.c2r.map Prod.fst,
      mapLookup (cs.foldl (processCaller cbId aipId entryId) g0).c2r k =
        mapLookup g0.c2r k) ∧
    (∀ c', c' ∉ cs →
      mapLookup (cs.foldl (processCaller cbId aipId entryId) g0).c2p c' =
        mapLookup g0.c2p c') ∧
    (∀ c ∈ cs,
      (mapLookup (cs.foldl (processCaller cbId aipId entryId) g0).c2p c,
        mapLookup (cs.foldl (processCaller cbId aipId entryId) g0).c2r
          (mapLookup
            (cs.foldl (processCaller cbId aipId entryId) g0).c2p c)) ∈
        (cs.foldl (processCaller cbId aipId entryId) g0).c2r) := by
  induction cs generalizing g0 hg hB hob hkb with
  | nil =>
      refine ⟨by simp, fun q hq => hq, fun k _ => rfl, fun c' _ => rfl,
        fun c hc => absurd hc (List.not_mem_nil c)⟩
  | cons c rest ih =>
      obtain ⟨bc, hcloc, hbck⟩ := hpl c (List.mem_cons_self c rest)
      have hcmem : c ∈ g0.fn.instrIds := mem_instrIds_of_idsOf g0.fn bc c hcloc
      obtain ⟨hpe1, hg1, hB1, hob1, hbm1⟩ :=
        processCaller_master cbId aipId entryId g0 c hg hB hob hcmem
      obtain ⟨hp, hstepA, hstepB⟩ :=
        processCaller_step_loc cbId aipId entryId g0 c bc hg hB hcloc
      have hbclt : bc < g0.next := hB bc (mem_blockIds_of_idsOf g0.fn bc c hcloc)
      have hndr : rest.Nodup := (List.nodup_cons.mp hnd).2
      have hcnr : c ∉ rest := (List.nodup_cons.mp hnd).1
      have hcne : ∀ x ∈ rest, x ≠ c := fun x hx he => hcnr (he ▸ hx)
      have hc2r1 : (processCaller cbId aipId entryId g0 c).c2r =
          mapInsert g0.c2r bc g0.next := by
        rw [processCaller_eq, hp]
      have hc2p1 : (processCaller cbId aipId entryId g0 c).c2p =
          mapInsert g0.c2p c bc := by
        rw [processCaller_eq, hp]
      have hnew1 : g0.next ≤ (processCaller cbId aipId entryId g0 c).next :=
        hpe1.1
      have hkeys1 : ∀ a ∈ (processCaller cbId aipId entryId g0 c).c2r.map
          Prod.fst, a < (processCaller cbId aipId entryId g0 c).next := by
        intro a ha
        rw [hc2r1] at ha
        rcases mapInsert_keys_mem g0.c2r bc g0.next a ha with rfl | hmem
        · omega
        · have := hkb a hmem
          omega
      have hretf : g0.next ∉ (processCaller cbId aipId entryId g0 c).c2r.map
          Prod.fst := by
        intro hmem
        rw [hc2r1] at hmem
        rcases mapInsert_keys_mem g0.c2r bc g0.next _ hmem with h1 | h1
        · omega
        · have := hkb _ h1
          omega
      have hrelhd := (List.pairwise_cons.mp har).1
      have hndids : (idsOf g0.fn bc).Nodup := idsOf_nodup g0.fn hg.1 bc
      have hpl1 : Placed (processCaller cbId aipId entryId g0 c) rest := by
        intro c' hc'
        obtain ⟨b', hloc', hk'⟩ := hpl c' (List.mem_cons_of_mem c hc')
        by_cases hbb : b' = bc
        · subst hbb
          have hpair : [c, c'].Sublist (idsOf g0.fn b') :=
            hrelhd c' hc' b' hcloc hloc'
          have hdrop : c' ∈ (idsOf g0.fn b').drop
              ((idsOf g0.fn b').findIdx (fun x => x = c) + 1) :=
            pair_sublist_drop (idsOf g0.fn b') c c' hndids hpair
          refine ⟨g0.next, ?_, hretf⟩
          rw [← List.singleton_sublist]
          exact hstepB [c'] (by simpa using hcne c' hc')
            (List.singleton_sublist.mpr hdrop)
        · refine ⟨b', ?_, ?_⟩
          · rw [← List.singleton_sublist]
            exact hstepA b' [c'] hbb (by simpa using hcne c' hc')
              (List.singleton_sublist.mpr hloc')
          · intro hmem
            rw [hc2r1] at hmem
            rcases mapInsert_keys_mem g0.c2r bc g0.next _ hmem with h1 | h1
            · exact hbb h1
            · exact hk' h1
      have har1 : Arranged (processCaller cbId aipId entryId g0 c).fn rest := by
        refine List.Pairwise.imp_of_mem ?_ (List.pairwise_cons.mp har).2
        intro c1 c2 hm1 hm2 hrel b hb1 hb2
        obtain ⟨b1, hloc1, -⟩ := hpl c1 (List.mem_cons_of_mem c hm1)
        obtain ⟨b2, hloc2, -⟩ := hpl c2 (List.mem_cons_of_mem c hm2)
        have hc1ne : c1 ≠ c := hcne c1 hm1
        have hc2ne : c2 ≠ c := hcne c2 hm2
        by_cases h1c : b1 = bc
        · by_cases h2c : b2 = bc
          · rw [h1c] at hloc1
            rw [h2c] at hloc2
            have hpair12 : [c1, c2].Sublist (idsOf g0.fn bc) :=
              hrel bc hloc1 hloc2
            have hpairc1 : [c, c1].Sublist (idsOf g0.fn bc) :=
              hrelhd c1 hm1 bc hcloc hloc1
            have hd1 : c1 ∈ (idsOf g0.fn bc).drop
                ((idsOf g0.fn bc).findIdx (fun x => x = c) + 1) :=
              pair_sublist_drop (idsOf g0.fn bc) c c1 hndids hpairc1
            have hsub12 : [c1, c2].Sublist ((idsOf g0.fn bc).drop
                ((idsOf g0.fn bc).findIdx (fun x => x = c) + 1)) :=
              pair_sublist_drop_of_mem (idsOf g0.fn bc) _ c1 c2 hndids
                hpair12 hd1
            have hres : [c1, c2].Sublist
                (idsOf (processCaller cbId aipId entryId g0 c).fn g0.next) :=
              hstepB [c1, c2] (by
                intro x hx
                rcases List.mem_cons.mp hx with rfl | hx2
                · exact hc1ne
                · rcases List.mem_singleton.mp hx2 with rfl
                  exact hc2ne) hsub12
            have hb1new : c1 ∈
                (idsOf (processCaller cbId aipId entryId g0 c).fn g0.next) :=
              hres.subset (List.mem_cons_self c1 [c2])
            have : b = g0.next :=
              located_unique (processCaller cbId aipId entryId g0 c).fn
                hg1.1 b g0.next c1 hb1 hb1new
            rw [this]
            exact hres
          · rw [h1c] at hloc1
            have hb2lt : b2 < g0.next :=
              hB b2 (mem_blockIds_of_idsOf g0.fn b2 c2 hloc2)
            have hd1 : c1 ∈ (idsOf g0.fn bc).drop
                ((idsOf g0.fn bc).findIdx (fun x => x = c) + 1) :=
              pair_sublist_drop (idsOf g0.fn bc) c c1 hndids
                (hrelhd c1 hm1 bc hcloc hloc1)
            have hb1new : c1 ∈
                (idsOf (processCaller cbId aipId entryId g0 c).fn g0.next) := by
              rw [← List.singleton_sublist]
              exact hstepB [c1] (by simpa using hc1ne)
                (List.singleton_sublist.mpr hd1)
            have hb2new : c2 ∈
                (idsOf (processCaller cbId aipId entryId g0 c).fn b2) := by
              rw [← List.singleton_sublist]
              exact hstepA b2 [c2] h2c (by simpa using hc2ne)
                (List.singleton_sublist.mpr hloc2)
            have he1 : b = g0.next :=
              located_unique (processCaller cbId aipId entryId g0 c).fn
                hg1.1 b g0.next c1 hb1 hb1new
            have he2 : b = b2 :=
              located_unique (processCaller cbId aipId entryId g0 c).fn
                hg1.1 b b2 c2 hb2 hb2new
            omega
        · by_cases h2c : b2 = bc
          · rw [h2c] at hloc2
            have hb1lt : b1 < g0.next :=
              hB b1 (mem_blockIds_of_idsOf g0.fn b1 c1 hloc1)
            have hd2 : c2 ∈ (idsOf g0.fn bc).drop
                ((idsOf g0.fn bc).findIdx (fun x => x = c) + 1) :=
              pair_sublist_drop (idsOf g0.fn bc) c c2 hndids
                (hrelhd c2 hm2 bc hcloc hloc2)
            have hb2new : c2 ∈
                (idsOf (processCaller cbId aipId entryId g0 c).fn g0.next) := by
              rw [← List.singleton_sublist]
              exact hstepB [c2] (by simpa using hc2ne)
                (List.singleton_sublist.mpr hd2)
            have hb1new : c1 ∈
                (idsOf (processCaller cbId aipId entryId g0 c).fn b1) := by
              rw [← List.singleton_sublist]
              exact hstepA b1 [c1] h1c (by simpa using hc1ne)
                (List.singleton_sublist.mpr hloc1)
            have he1 : b = b1 :=
              located_unique (processCaller cbId aipId entryId g0 c).fn
                hg1.1 b b1 c1 hb1 hb1new
            have he2 : b = g0.next :=
              located_unique (processCaller cbId aipId entryId g0 c).fn
                hg1.1 b g0.next c2 hb2 hb2new
            omega
          · have hb1new : c1 ∈
                (idsOf (processCaller cbId aipId entryId g0 c).fn b1) := by
              rw [← List.singleton_sublist]
              exact hstepA b1 [c1] h1c (by simpa using hc1ne)
                (List.singleton_sublist.mpr hloc1)
            have hb2new : c2 ∈
                (idsOf (processCaller cbId aipId entryId g0 c).fn b2) := by
              rw [← List.singleton_sublist]
              exact hstepA b2 [c2] h2c (by simpa using hc2ne)
                (List.singleton_sublist.mpr hloc2)
            have he1 : b = b1 :=
              located_unique (processCaller cbId aipId entryId g0 c).fn
                hg1.1 b b1 c1 hb1 hb1new
            have he2 : b = b2 :=
              located_unique (processCaller cbId aipId entryId g0 c).fn
                hg1.1 b b2 c2 hb2 hb2new
            have hb12 : b1 = b2 := by omega
            have hpair12 : [c1, c2].Sublist (idsOf g0.fn b1) := by
              refine hrel b1 hloc1 ?_
              rw [hb12]
              exact hloc2
            rw [he1]
            exact hstepA b1 [c1, c2] h1c (by
              intro x hx
              rcases List.mem_cons.mp hx with rfl | hx2
              · exact hc1ne
              · rcases List.mem_singleton.mp hx2 with rfl
                exact hc2ne) hpair12
      obtain ⟨i1, i2, i3, i4, i5⟩ := ih (processCaller cbId aipId entryId g0 c)
        hg1 hB1 hob1 hndr hpl1 har1 hkeys1
      simp only [List.foldl_cons]
      refine ⟨?_, ?_, ?_, ?_, ?_⟩
      · rw [i1, hc2r1, mapInsert_length_fresh g0.c2r bc g0.next hbck]
        simp [Nat.add_assoc, Nat.add_comm 1 rest.length]
      · intro q hq
        refine i2 q ?_
        rw [hc2r1]
        exact mem_mapInsert_fresh g0.c2r bc g0.next q hq hbck
      · intro k hk
        have hkne : k ≠ bc := by
          intro he
          exact hbck (he ▸ hk)
        have hk1 : k ∈ (processCaller cbId aipId entryId g0 c).c2r.map
            Prod.fst := by
          obtain ⟨q, hq, hq1⟩ := List.mem_map.mp hk
          rw [hc2r1]
          exact hq1 ▸ List.mem_map_of_mem Prod.fst
            (mem_mapInsert_fresh g0.c2r bc g0.next q hq hbck)
        rw [i3 k hk1, hc2r1, mapLookup_insert_ne g0.c2r bc g0.next k hkne]
      · intro c' hc'
        have hc'r : c' ∉ rest := fun hx => hc' (List.mem_cons_of_mem c hx)
        have hc'c : c' ≠ c := fun he => hc' (he ▸ List.mem_cons_self c rest)
        rw [i4 c' hc'r, hc2p1, mapLookup_insert_ne g0.c2p c bc c' hc'c]
      · intro c' hc'
        rcases List.mem_cons.mp hc' with rfl | hc'r
        · have hlp : mapLookup (rest.foldl (processCaller cbId aipId entryId)
              (processCaller cbId aipId entryId g0 c')).c2p c' = bc := by
            rw [i4 c' hcnr, hc2p1, mapLookup_insert_self g0.c2p c' bc]
          have hbck1 : bc ∈ (processCaller cbId aipId entryId g0 c').c2r.map
              Prod.fst := by
            rw [hc2r1]
            exact List.mem_map_of_mem Prod.fst
              (mapInsert_mem_self g0.c2r bc g0.next)
          have hlr : mapLookup (rest.foldl (processCaller cbId aipId entryId)
              (processCaller cbId aipId entryId g0 c')).c2r bc = g0.next := by
            rw [i3 bc hbck1, hc2r1, mapLookup_insert_self g0.c2r bc g0.next]
          rw [hlp, hlr]
          refine i2 (bc, g0.next) ?_
          rw [hc2r1]
          exact mapInsert_mem_self g0.c2r bc g0.next
        · exact i5 c' hc'r

/-! ## The invariants at the start of the group transform -/

theorem insertAfterLeadingAllocas_decomp (l : List Instr) (x : Instr) :
    ∃ l1 l2, l = l1 ++ l2 ∧
      insertAfterLeadingAllocas l x = l1 ++ x :: l2 := by
  induction l with
  | nil => exact ⟨[], [], rfl, rfl⟩
  | cons y ys ih =>
      by_cases h : y.op.isAlloca
      · obtain ⟨l1, l2, h1, h2⟩ := ih
        refine ⟨y :: l1, l2, by rw [List.cons_append, ← h1], ?_⟩
        show (if y.op.isAlloca then y :: insertAfterLeadingAllocas ys x
          else x :: y :: ys) = _
        rw [if_pos h, h2]
        rfl
      · refine ⟨[], y :: ys, rfl, ?_⟩
        show (if y.op.isAlloca then y :: insertAfterLeadingAllocas ys x
          else x :: y :: ys) = _
        rw [if_neg h]
        rfl

theorem idsOf_tgF1_cases (st : Fn × Nat) (b : Nat) :
    idsOf (tgF1 st) b = idsOf st.1 b ∨
    ∃ l1 l2, idsOf st.1 b = l1 ++ l2 ∧
      idsOf (tgF1 st) b = l1 ++ (st.2 + 1) :: l2 := by
  cases hbs : st.1.blocks with
  | nil =>
      have hold : idsOf st.1 b = [] := by
        rw [idsOf_eq_find, hbs]
        rfl
      have htg : tgF1 st = ⟨[⟨st.2, insertAfterLeadingAllocas []
          ⟨st.2 + 1, .bitcast (Val.intConst 0)
            "mergecalls alloca point"⟩⟩]⟩ := by
        unfold tgF1 tgF0 Fn.insertAIP
        rw [hbs]
        rfl
      by_cases hb : st.2 = b
      · refine Or.inr ⟨[], [], by rw [hold]; rfl, ?_⟩
        rw [htg, idsOf_eq_find]
        rw [List.find?_cons_of_pos _ (by simp [hb])]
        rfl
      · refine Or.inl ?_
        rw [htg, idsOf_eq_find, hold]
        rw [List.find?_cons_of_neg _ (by simp [hb])]
        rfl
  | cons B rest =>
      have htg : tgF1 st = ⟨⟨B.id, insertAfterLeadingAllocas B.instrs
          ⟨st.2 + 1, .bitcast (Val.intConst 0)
            "mergecalls alloca point"⟩⟩ :: (rest ++ [⟨st.2, []⟩])⟩ := by
        unfold tgF1 tgF0 Fn.insertAIP
        rw [hbs]
        rfl
      by_cases hbB : B.id = b
      · obtain ⟨L1, L2, hL, hI⟩ := insertAfterLeadingAllocas_decomp B.instrs
          ⟨st.2 + 1, .bitcast (Val.intConst 0) "mergecalls alloca point"⟩
        refine Or.inr ⟨L1.map Instr.id, L2.map Instr.id, ?_, ?_⟩
        · rw [idsOf_eq_find, hbs,
            List.find?_cons_of_pos _ (by simp [hbB])]
          show B.instrs.map Instr.id = _
          rw [hL, List.map_append]
        · rw [htg, idsOf_eq_find,
            List.find?_cons_of_pos _ (by simp [hbB])]
          show (insertAfterLeadingAllocas B.instrs
            ⟨st.2 + 1, .bitcast (Val.intConst 0)
              "mergecalls alloca point"⟩).map Instr.id = _
          rw [hI, List.map_append, List.map_cons]
      · have hold : idsOf st.1 b = ((rest.find? (fun B => B.id = b)).map
            (fun B => B.instrs.map Instr.id)).getD [] := by
          rw [idsOf_eq_find, hbs,
            List.find?_cons_of_neg _ (by simp [hbB])]
        have hnew : idsOf (tgF1 st) b =
            (((rest.find? (fun B => B.id = b)).or
              (([(⟨st.2, []⟩ : BB)]).find? (fun B => B.id = b))).map
              (fun B => B.instrs.map Instr.id)).getD [] := by
          rw [htg, idsOf_eq_find,
            List.find?_cons_of_neg _ (by simp [hbB]), List.find?_append]
        refine Or.inl ?_
        rw [hold, hnew]
        cases hr : rest.find? (fun B => B.id = b) with
        | some C => rfl
        | none =>
            by_cases hsb : st.2 = b
            · rw [List.find?_cons_of_pos _ (by simp [hsb])]
              rfl
            · rw [List.find?_cons_of_neg _ (by simp [hsb])]
              rfl

theorem mem_of_mem_insert_ne (l1 l2 : List Nat) (a m : Nat)
    (h : a ∈ l1 ++ m :: l2) (hne : a ≠ m) : a ∈ l1 ++ l2 := by
  rcases List.mem_append.mp h with h1 | h1
  · exact List.mem_append.mpr (Or.inl h1)
  · rcases List.mem_cons.mp h1 with rfl | h2
    · exact absurd rfl hne
    · exact List.mem_append.mpr (Or.inr h2)

theorem arranged_tgF1 (st : Fn × Nat) (cs : List Nat)
    (hclt : ∀ c ∈ cs, c < st.2) (har : Arranged st.1 cs) :
    Arranged (tgF1 st) cs := by
  refine List.Pairwise.imp_of_mem ?_ har
  intro c1 c2 hm1 hm2 hrel b hb1 hb2
  rcases idsOf_tgF1_cases st b with hca | ⟨l1, l2, hold, hnew⟩
  · rw [hca] at hb1 hb2 ⊢
    exact hrel b hb1 hb2
  · rw [hnew] at hb1 hb2 ⊢
    have h1 : c1 ∈ l1 ++ l2 := mem_of_mem_insert_ne l1 l2 c1 (st.2 + 1) hb1
      (by have := hclt c1 hm1; omega)
    have h2 : c2 ∈ l1 ++ l2 := mem_of_mem_insert_ne l1 l2 c2 (st.2 + 1) hb2
      (by have := hclt c2 hm2; omega)
    rw [← hold] at h1 h2
    have hp := hrel b h1 h2
    rw [hold] at hp
    exact hp.trans (List.Sublist.append (List.Sublist.refl l1)
      (List.Sublist.cons (st.2 + 1) (List.Sublist.refl l2)))

theorem placed_tgF1 (st : Fn × Nat) (cs : List Nat)
    (hnd : st.1.blockIds.Nodup) (hcs : ∀ c ∈ cs, c ∈ st.1.instrIds) :
    Placed { fn := tgF1 st, next := st.2 + 2, c2r := [], c2p := [] } cs := by
  intro c hc
  obtain ⟨b, hb⟩ := exists_idsOf_of_mem_instrIds st.1 c hnd (hcs c hc)
  refine ⟨b, ?_, by simp⟩
  show c ∈ idsOf (tgF1 st) b
  rcases idsOf_tgF1_cases st b with hca | ⟨l1, l2, hold, hnew⟩
  · rw [hca]
    exact hb
  · rw [hnew]
    rw [hold] at hb
    rcases List.mem_append.mp hb with h1 | h1
    · exact List.mem_append.mpr (Or.inl h1)
    · exact List.mem_append.mpr (Or.inr (List.mem_cons_of_mem _ h1))

theorem callersFor_arranged (env : Env) (F : Fn) (t : Nat)
    (hnd : F.instrIds.Nodup) : Arranged F (callersFor env F t) := by
  have h1 : (callersFor env F t).Pairwise
      (fun a b => [a, b].Sublist F.instrIds) :=
    List.Pairwise.sublist (callersFor_sublist env F t)
      (pairwise_pair_sublist F.instrIds)
  refine List.Pairwise.imp_of_mem ?_ h1
  intro c1 c2 hm1 hm2 hrel b hb1 hb2
  exact pair_global_to_local F hnd c1 c2 b hrel hb1 hb2

/-- The per-group fold applied to the group of eligible call sites of the
current function: one map entry per call site, and each call site's
recorded predecessor/continuation pair is an entry of the final map. -/
theorem tgG_tags (env : Env) (st : Fn × Nat) (target : Nat)
    (hg : GoodIds st) (hB : GoodB st) (hob : OpBound st.1 st.2) :
    ((tgG st (callersFor env st.1 target)).c2r).length =
      (callersFor env st.1 target).length ∧
    (∀ c ∈ callersFor env st.1 target,
      (mapLookup (tgG st (callersFor env st.1 target)).c2p c,
        mapLookup (tgG st (callersFor env st.1 target)).c2r
          (mapLookup (tgG st (callersFor env st.1 target)).c2p c)) ∈
        (tgG st (callersFor env st.1 target)).c2r) := by
  obtain ⟨-, hg1, hB1, hob1, -, -⟩ := tgF1_facts st hg hB hob
  have hndc : (callersFor env st.1 target).Nodup :=
    callersFor_nodup env st.1 target hg.1
  have hmemc : ∀ c ∈ callersFor env st.1 target, c ∈ st.1.instrIds :=
    fun c hc => (callersFor_sublist env st.1 target).subset hc
  have hclt : ∀ c ∈ callersFor env st.1 target, c < st.2 :=
    fun c hc => hg.2.2 c (hmemc c hc)
  have har : Arranged (tgF1 st) (callersFor env st.1 target) :=
    arranged_tgF1 st (callersFor env st.1 target) hclt
      (callersFor_arranged env st.1 target hg.1)
  have hpl : Placed (GState.mk (tgF1 st) (st.2 + 2) [] [])
      (callersFor env st.1 target) :=
    placed_tgF1 st (callersFor env st.1 target) hg.2.1 hmemc
  obtain ⟨i1, -, -, -, i5⟩ := processCaller_fold_tags st.2 (st.2 + 1)
    (tgEntry st) (callersFor env st.1 target)
    (GState.mk (tgF1 st) (st.2 + 2) [] [])
    hg1 hB1 hob1 hndc hpl har (by simp)
  exact ⟨by simpa using i1, i5⟩

/-- C3: for a merged group — the eligible call sites of the target in the
current function, in first-seen order — the dispatch switch appended to the
shared block has exactly one case per call site, its tags are pairwise
distinct, and the discriminator PHI's incoming blocks are pairwise distinct
(in fact strictly ascending).  The switch is the last instruction of the
shared block and the discriminator PHI carries the enumerated incoming
pairs; for every call site there is an index `i` such that the recorded
(post-split) predecessor/continuation entry of that call site sits at
position `i` of the map, the PHI's incoming pair from that predecessor
block carries the constant tag `sint32 i`, and the switch case with the
same tag `sint32 i` targets exactly that call site's continuation block. -/
theorem C3_switch_cases (env : Env) (st : Fn × Nat) (target : Nat)
    (hg : GoodIds st) (hB : GoodB st) (hob : OpBound st.1 st.2)
    (hlen : (callersFor env st.1 target).length ≤ 2 ^ 32) :
    (tgCaseList st (callersFor env st.1 target)).length =
      (callersFor env st.1 target).length ∧
    ((tgCaseList st (callersFor env st.1 target)).map Prod.fst).Nodup ∧
    ((tgWfPairs st (callersFor env st.1 target)).map Prod.snd).Pairwise
      (· < ·) ∧
    posAt (transformGroup env st target (callersFor env st.1 target)).1 st.2
      ⟨tgCallId env target st (callersFor env st.1 target) + 2,
        .switch
          (Val.reg (tgCallId env target st (callersFor env st.1 target) + 1))
          (tgDflt st (callersFor env st.1 target))
          (tgCaseList st (callersFor env st.1 target))⟩ ∧
    (transformGroup env st target (callersFor env st.1 target)).1.findInstr
        (tgCallId env target st (callersFor env st.1 target) + 1) =
      some ⟨tgCallId env target st (callersFor env st.1 target) + 1,
        .phi (tgWfPairs st (callersFor env st.1 target))⟩ ∧
    ∀ c ∈ callersFor env st.1 target, ∃ i,
      i < ((tgG st (callersFor env st.1 target)).c2r).length ∧
      ((tgG st (callersFor env st.1 target)).c2r)[i]? =
        some (mapLookup (tgG st (callersFor env st.1 target)).c2p c,
          mapLookup (tgG st (callersFor env st.1 target)).c2r
            (mapLookup (tgG st (callersFor env st.1 target)).c2p c)) ∧
      (tgWfPairs st (callersFor env st.1 target))[i]? =
        some (Val.intConst (sint32 i),
          mapLookup (tgG st (callersFor env st.1 target)).c2p c) ∧
      (tgCaseList st (callersFor env st.1 target))[i]? =
        some (sint32 i,
          mapLookup (tgG st (callersFor env st.1 target)).c2r
            (mapLookup (tgG st (callersFor env st.1 target)).c2p c)) := by
  obtain ⟨hlenE, hmemE⟩ := tgG_tags env st target hg hB hob
  have h32 : (2 : Nat) ^ 32 = 4294967296 := by norm_num
  have hcall : ∀ c ∈ callersFor env st.1 target,
      ((c, some (CKind.direct target), false) : Feat) ∈ featMS st.1 :=
    fun c hc => (callersFor_feat env st.1 target c hc).1
  have hndc : (callersFor env st.1 target).Nodup :=
    callersFor_nodup env st.1 target hg.1
  obtain ⟨-, -, -, -, -, -, -, hpos, -, -, -, -, hfind⟩ :=
    tg_chain env target st (callersFor env st.1 target) hg hB hob hcall hndc
  have hclen : (tgCaseList st (callersFor env st.1 target)).length =
      (callersFor env st.1 target).length := by
    unfold tgCaseList
    rw [List.length_map, List.enum_length]
    exact hlenE
  have hmapeq : (tgCaseList st (callersFor env st.1 target)).map Prod.fst =
      (List.range ((tgG st (callersFor env st.1 target)).c2r).length).map
        sint32 := by
    unfold tgCaseList
    rw [List.map_map,
      ← List.enum_map_fst ((tgG st (callersFor env st.1 target)).c2r),
      List.map_map]
    rfl
  have hnodup : ((tgCaseList st (callersFor env st.1 target)).map
      Prod.fst).Nodup := by
    rw [hmapeq]
    refine List.Nodup.map_on ?_ (List.nodup_range _)
    intro x hx y hy hxy
    rw [List.mem_range, hlenE] at hx hy
    exact sint32_inj x y (by omega) (by omega) hxy
  have hsnd : (tgWfPairs st (callersFor env st.1 target)).map Prod.snd =
      ((tgG st (callersFor env st.1 target)).c2r).map Prod.fst := by
    unfold tgWfPairs
    rw [List.map_map]
    conv_rhs =>
      rw [← List.enum_map_snd ((tgG st (callersFor env st.1 target)).c2r)]
    rw [List.map_map]
    rfl
  have hsorted : ((tgWfPairs st (callersFor env st.1 target)).map
      Prod.snd).Pairwise (· < ·) := by
    rw [hsnd]
    exact tgG_c2r_sorted st (callersFor env st.1 target)
  refine ⟨hclen, hnodup, hsorted, ?_, ?_, ?_⟩
  · rw [transformGroup_eq]
    exact hpos
  · rw [transformGroup_eq]
    exact hfind
  · intro c hc
    obtain ⟨i, hi, hEq⟩ := List.mem_iff_getElem.mp (hmemE c hc)
    refine ⟨i, hi, ?_, ?_, ?_⟩
    · rw [List.getElem?_eq_getElem hi, hEq]
    · show (((tgG st (callersFor env st.1 target)).c2r).enum.map
        (fun e => (Val.intConst (sint32 e.1), e.2.1)))[i]? = _
      rw [List.getElem?_map, List.getElem?_enum,
        List.getElem?_eq_getElem hi, hEq]
      rfl
    · show (((tgG st (callersFor env st.1 target)).c2r).enum.map
        (fun e => (sint32 e.1, e.2.2)))[i]? = _
      rw [List.getElem?_map, List.getElem?_enum,
        List.getElem?_eq_getElem hi, hEq]
      rfl

theorem C3_switch_cases_witness :
    callersFor exC2env exC2F 7 = [2, 5] ∧
    ((tgCaseList (exC2F, 11) (callersFor exC2env exC2F 7)).length =
      (callersFor exC2env exC2F 7).length ∧
    ((tgCaseList (exC2F, 11) (callersFor exC2env exC2F 7)).map
      Prod.fst).Nodup ∧
    ((tgWfPairs (exC2F, 11) (callersFor exC2env exC2F 7)).map
      Prod.snd).Pairwise (· < ·) ∧
    posAt (transformGroup exC2env (exC2F, 11) 7
        (callersFor exC2env exC2F 7)).1 11
      ⟨tgCallId exC2env 7 (exC2F, 11) (callersFor exC2env exC2F 7) + 2,
        .switch
          (Val.reg
            (tgCallId exC2env 7 (exC2F, 11) (callersFor exC2env exC2F 7) + 1))
          (tgDflt (exC2F, 11) (callersFor exC2env exC2F 7))
          (tgCaseList (exC2F, 11) (callersFor exC2env exC2F 7))⟩ ∧
    (transformGroup exC2env (exC2F, 11) 7
        (callersFor exC2env exC2F 7)).1.findInstr
        (tgCallId exC2env 7 (exC2F, 11) (callersFor exC2env exC2F 7) + 1) =
      some ⟨tgCallId exC2env 7 (exC2F, 11) (callersFor exC2env exC2F 7) + 1,
        .phi (tgWfPairs (exC2F, 11) (callersFor exC2env exC2F 7))⟩ ∧
    ∀ c ∈ callersFor exC2env exC2F 7, ∃ i,
      i < ((tgG (exC2F, 11) (callersFor exC2env exC2F 7)).c2r).length ∧
      ((tgG (exC2F, 11) (callersFor exC2env exC2F 7)).c2r)[i]? =
        some (mapLookup (tgG (exC2F, 11)
            (callersFor exC2env exC2F 7)).c2p c,
          mapLookup (tgG (exC2F, 11) (callersFor exC2env exC2F 7)).c2r
            (mapLookup (tgG (exC2F, 11)
              (callersFor exC2env exC2F 7)).c2p c)) ∧
      (tgWfPairs (exC2F, 11) (callersFor exC2env exC2F 7))[i]? =
        some (Val.intConst (sint32 i),
          mapLookup (tgG (exC2F, 11) (callersFor exC2env exC2F 7)).c2p c) ∧
      (tgCaseList (exC2F, 11) (callersFor exC2env exC2F 7))[i]? =
        some (sint32 i,
          mapLookup (tgG (exC2F, 11) (callersFor exC2env exC2F 7)).c2r
            (mapLookup (tgG (exC2F, 11)
              (callersFor exC2env exC2F 7)).c2p c))) :=
  ⟨by decide,
   C3_switch_cases exC2env (exC2F, 11) 7
     (by unfold GoodIds; decide) (by unfold GoodB; decide)
     (by unfold OpBound; decide) (by decide)⟩

end MergeCalls
